import Mathlib

/-!
# BusTub storage core: extendible hash index, LRU-K replacer, buffer pool, page guards,
and the primer structures (copy-on-write trie, OR-set)

A shallow embedding of

* `src/storage/page/extendible_htable_bucket_page.cpp`
* `src/storage/page/extendible_htable_directory_page.cpp`
* `src/storage/page/extendible_htable_header_page.cpp`
* `src/container/disk/hash/disk_extendible_hash_table.cpp`
* `src/buffer/lru_k_replacer.cpp`, `src/include/buffer/lru_k_replacer.h`
* `src/buffer/buffer_pool_manager.cpp`, `src/storage/page/page_guard.cpp`
* `src/primer/trie.cpp`
* `src/primer/orset.cpp`, `src/include/primer/orset.h`

Conventions of the embedding.

* The index is the instantiation `<int, int, IntComparator>`: keys and values are
  integers and `cmp(a, b) == 0` is equality.
* C++ arrays inside a page are total functions from the index to the cell, so a
  page that is handed out zeroed is the constant-zero function.
* For the index, the buffer pool is a store of pages keyed by page id.  `NewPage`
  hands out the next page id together with zeroed memory, a fetch returns the
  page as it was last written, and the pool never runs out of frames.  The
  functions of the buffer pool manager themselves are embedded further down.
* A write guard holds the writer latch of its page.  Fetching a second write
  guard on a page whose writer latch the same call already holds never comes
  back; this is the outcome `blocks`.
* Loops are structural recursions on a fuel argument; running out of fuel is the
  outcome `spins`.
* The nodes of the trie live in a heap of addresses, a `std::shared_ptr` being an
  address or null; the loops over a key are structural recursions on the key.
* The `std::unordered_set` members of the OR-set are lists without duplicates in
  iteration order; where an insertion puts a new element is a parameter.
-/

namespace bustub

/-- Page ids are 32-bit signed integers. -/
abbrev page_id_t := Int

/-- The id that marks an unset slot. -/
def INVALID_PAGE_ID : page_id_t := -1

abbrev KeyType := Int
abbrev ValueType := Int

/-- The exceptions raised by the directory page. -/
inductive Exn where
  | bucket_idx_is_outside_the_bucket_range
  | global_depth_equals_to_max_depth
  | global_depth_equals_to_zero
  deriving DecidableEq, Repr

/-- How a call of the index ends. -/
inductive Outcome (α : Type) where
  | returns : α → Outcome α
  | throws : Exn → Outcome α
  | blocks : Outcome α
  | spins : Outcome α

namespace Outcome

def isReturns {α : Type} : Outcome α → Bool
  | returns _ => true
  | _ => false

def isThrows {α : Type} : Outcome α → Bool
  | throws _ => true
  | _ => false

def isBlocks {α : Type} : Outcome α → Bool
  | blocks => true
  | _ => false

def isSpins {α : Type} : Outcome α → Bool
  | spins => true
  | _ => false

def toOption {α : Type} : Outcome α → Option α
  | returns a => some a
  | _ => none

end Outcome

/-! ## Bucket page -/

/-- Layout of `ExtendibleHTableBucketPage`. -/
structure ExtendibleHTableBucketPage where
  size_ : Nat
  max_size_ : Nat
  array_ : Nat → KeyType × ValueType

namespace ExtendibleHTableBucketPage

/-- A bucket page in zeroed memory. -/
def zeroed : ExtendibleHTableBucketPage :=
  { size_ := 0, max_size_ := 0, array_ := fun _ => (0, 0) }

/-- `Init` stores `max_size` and nothing else. -/
def Init (b : ExtendibleHTableBucketPage) (max_size : Nat) : ExtendibleHTableBucketPage :=
  { b with max_size_ := max_size }

/-- The scan `for (i = ...; i < size_; i++)` of `Lookup`, started at index `i`
with `n` cells left. -/
def LookupFrom (b : ExtendibleHTableBucketPage) (key : KeyType) : Nat → Nat → Option ValueType
  | _, 0 => none
  | i, n + 1 =>
    if (b.array_ i).1 = key then some (b.array_ i).2 else LookupFrom b key (i + 1) n

/-- `Lookup`: `some value` stands for `true` with `value` written. -/
def Lookup (b : ExtendibleHTableBucketPage) (key : KeyType) : Option ValueType :=
  LookupFrom b key 0 b.size_

def Size (b : ExtendibleHTableBucketPage) : Nat := b.size_

def IsFull (b : ExtendibleHTableBucketPage) : Bool := b.size_ == b.max_size_

def IsEmpty (b : ExtendibleHTableBucketPage) : Bool := b.size_ == 0

def KeyAt (b : ExtendibleHTableBucketPage) (bucket_idx : Nat) : KeyType := (b.array_ bucket_idx).1

def ValueAt (b : ExtendibleHTableBucketPage) (bucket_idx : Nat) : ValueType :=
  (b.array_ bucket_idx).2

/-- `Insert` of the bucket page. -/
def Insert (b : ExtendibleHTableBucketPage) (key : KeyType) (value : ValueType) :
    Bool × ExtendibleHTableBucketPage :=
  if b.IsFull then (false, b)
  else
    match b.Lookup key with
    | some _ => (false, b)
    | none =>
      (true, { b with
        array_ := fun j => if j = b.size_ then (key, value) else b.array_ j,
        size_ := b.size_ + 1 })

/-- `RemoveAt`: `array_[bucket_idx] = array_[--size_]`. -/
def RemoveAt (b : ExtendibleHTableBucketPage) (bucket_idx : Nat) : ExtendibleHTableBucketPage :=
  { b with
    size_ := b.size_ - 1,
    array_ := fun j => if j = bucket_idx then b.array_ (b.size_ - 1) else b.array_ j }

/-- Index of the first cell whose key equals `key`, scanning from `i` over `n` cells. -/
def FindFrom (b : ExtendibleHTableBucketPage) (key : KeyType) : Nat → Nat → Option Nat
  | _, 0 => none
  | i, n + 1 => if (b.array_ i).1 = key then some i else FindFrom b key (i + 1) n

/-- `Remove` of the bucket page.  The range-for of the source walks the whole
array; it runs only after `Lookup` succeeded, so its first hit is the first hit
among the first `size_` cells. -/
def Remove (b : ExtendibleHTableBucketPage) (key : KeyType) : Bool × ExtendibleHTableBucketPage :=
  match b.Lookup key with
  | none => (false, b)
  | some _ =>
    match b.FindFrom key 0 b.size_ with
    | some i => (true, b.RemoveAt i)
    | none => (false, b)

end ExtendibleHTableBucketPage

/-! ## Directory page -/

/-- Layout of `ExtendibleHTableDirectoryPage`.  Local depths are 8-bit. -/
structure ExtendibleHTableDirectoryPage where
  max_depth_ : Nat
  global_depth_ : Nat
  local_depths_ : Nat → Nat
  bucket_page_ids_ : Nat → page_id_t

namespace ExtendibleHTableDirectoryPage

/-- A directory page in zeroed memory. -/
def zeroed : ExtendibleHTableDirectoryPage :=
  { max_depth_ := 0, global_depth_ := 0, local_depths_ := fun _ => 0,
    bucket_page_ids_ := fun _ => 0 }

def Init (_d : ExtendibleHTableDirectoryPage) (max_depth : Nat) : ExtendibleHTableDirectoryPage :=
  { max_depth_ := max_depth, global_depth_ := 0, local_depths_ := fun _ => 0,
    bucket_page_ids_ := fun _ => INVALID_PAGE_ID }

def GetGlobalDepthMask (d : ExtendibleHTableDirectoryPage) : Nat := (1 <<< d.global_depth_) - 1

def GetLocalDepthMask (d : ExtendibleHTableDirectoryPage) (bucket_idx : Nat) : Nat :=
  (1 <<< d.local_depths_ bucket_idx) - 1

def HashToBucketIndex (d : ExtendibleHTableDirectoryPage) (hash : Nat) : Nat :=
  hash &&& d.GetGlobalDepthMask

def GetBucketPageId (d : ExtendibleHTableDirectoryPage) (bucket_idx : Nat) : page_id_t :=
  d.bucket_page_ids_ bucket_idx

def SetBucketPageId (d : ExtendibleHTableDirectoryPage) (bucket_idx : Nat)
    (bucket_page_id : page_id_t) : ExtendibleHTableDirectoryPage :=
  { d with bucket_page_ids_ := fun j => if j = bucket_idx then bucket_page_id else d.bucket_page_ids_ j }

def Size (d : ExtendibleHTableDirectoryPage) : Nat := 1 <<< d.global_depth_

/-- `GetSplitImageIndex`: flips bit `global_depth_ - 1` of the index. -/
def GetSplitImageIndex (d : ExtendibleHTableDirectoryPage) (bucket_idx : Nat) : Except Exn Nat :=
  if bucket_idx ≥ d.Size then .error .bucket_idx_is_outside_the_bucket_range
  else if d.global_depth_ = 0 then .ok 0
  else .ok (bucket_idx ^^^ (1 <<< (d.global_depth_ - 1)))

def GetGlobalDepth (d : ExtendibleHTableDirectoryPage) : Nat := d.global_depth_

def GetLocalDepth (d : ExtendibleHTableDirectoryPage) (bucket_idx : Nat) : Nat :=
  d.local_depths_ bucket_idx

/-- `SetLocalDepth` takes a `uint8_t`. -/
def SetLocalDepth (d : ExtendibleHTableDirectoryPage) (bucket_idx : Nat) (local_depth : Nat) :
    ExtendibleHTableDirectoryPage :=
  { d with local_depths_ := fun j => if j = bucket_idx then local_depth % 256 else d.local_depths_ j }

def IncrLocalDepth (d : ExtendibleHTableDirectoryPage) (bucket_idx : Nat) :
    ExtendibleHTableDirectoryPage :=
  { d with local_depths_ := fun j =>
      if j = bucket_idx then (d.local_depths_ bucket_idx + 1) % 256 else d.local_depths_ j }

def DecrLocalDepth (d : ExtendibleHTableDirectoryPage) (bucket_idx : Nat) :
    ExtendibleHTableDirectoryPage :=
  { d with local_depths_ := fun j =>
      if j = bucket_idx then (d.local_depths_ bucket_idx + 255) % 256 else d.local_depths_ j }

/-- The copy loop of `IncrGlobalDepth` over `i = 0 .. n - 1`, run on the page
whose `global_depth_` is already incremented; it fills the two fresh arrays. -/
def IncrGlobalDepthLoop (d : ExtendibleHTableDirectoryPage) :
    Nat → Except Exn ((Nat → Nat) × (Nat → page_id_t))
  | 0 => .ok (fun _ => 0, fun _ => INVALID_PAGE_ID)
  | n + 1 =>
    match IncrGlobalDepthLoop d n with
    | .error e => .error e
    | .ok (new_local_depths, new_bucket_page_ids) =>
      match d.GetSplitImageIndex n with
      | .error e => .error e
      | .ok s =>
        .ok (fun j => if j = s then d.local_depths_ n
                      else if j = n then d.local_depths_ n else new_local_depths j,
             fun j => if j = s then d.bucket_page_ids_ n
                      else if j = n then d.bucket_page_ids_ n else new_bucket_page_ids j)

def IncrGlobalDepth (d : ExtendibleHTableDirectoryPage) : Except Exn ExtendibleHTableDirectoryPage :=
  if d.global_depth_ = d.max_depth_ then .error .global_depth_equals_to_max_depth
  else
    let initial_size := d.Size
    let d1 := { d with global_depth_ := d.global_depth_ + 1 }
    match IncrGlobalDepthLoop d1 initial_size with
    | .error e => .error e
    | .ok (new_local_depths, new_bucket_page_ids) =>
      .ok { d1 with local_depths_ := new_local_depths, bucket_page_ids_ := new_bucket_page_ids }

/-- `DecrGlobalDepth`: the cells `Size() .. initial_size - 1` are reset. -/
def DecrGlobalDepth (d : ExtendibleHTableDirectoryPage) : Except Exn ExtendibleHTableDirectoryPage :=
  if d.global_depth_ = 0 then .error .global_depth_equals_to_zero
  else
    let initial_size := d.Size
    let d1 := { d with global_depth_ := d.global_depth_ - 1 }
    .ok { d1 with
      local_depths_ := fun j => if d1.Size ≤ j ∧ j < initial_size then 0 else d.local_depths_ j,
      bucket_page_ids_ := fun j =>
        if d1.Size ≤ j ∧ j < initial_size then INVALID_PAGE_ID else d.bucket_page_ids_ j }

/-- `CanShrink`: no live cell has `local_depth == global_depth`. -/
def CanShrink (d : ExtendibleHTableDirectoryPage) : Bool :=
  (List.range d.Size).all (fun i => d.local_depths_ i != d.global_depth_)

end ExtendibleHTableDirectoryPage

/-! ## Header page -/

structure ExtendibleHTableHeaderPage where
  max_depth_ : Nat
  directory_page_ids_ : Nat → page_id_t

namespace ExtendibleHTableHeaderPage

def zeroed : ExtendibleHTableHeaderPage := { max_depth_ := 0, directory_page_ids_ := fun _ => 0 }

def Init (_h : ExtendibleHTableHeaderPage) (max_depth : Nat) : ExtendibleHTableHeaderPage :=
  { max_depth_ := max_depth, directory_page_ids_ := fun _ => INVALID_PAGE_ID }

/-- The loop `while (num_bits_shifts) { hash /= 2; num_bits_shifts--; }`. -/
def halve : Nat → Nat → Nat
  | 0, hash => hash
  | n + 1, hash => halve n (hash / 2)

/-- `HashToDirectoryIndex`; `num_bits_shifts` is the 32-bit value of `32 - max_depth_`. -/
def HashToDirectoryIndex (h : ExtendibleHTableHeaderPage) (hash : Nat) : Nat :=
  halve ((4294967296 + 32 - h.max_depth_) % 4294967296) hash

def IsInit (h : ExtendibleHTableHeaderPage) (directory_idx : Nat) : Bool :=
  h.directory_page_ids_ directory_idx != INVALID_PAGE_ID

def GetDirectoryPageId (h : ExtendibleHTableHeaderPage) (directory_idx : Nat) : page_id_t :=
  h.directory_page_ids_ directory_idx

def SetDirectoryPageId (h : ExtendibleHTableHeaderPage) (directory_idx : Nat)
    (directory_page_id : page_id_t) : ExtendibleHTableHeaderPage :=
  { h with directory_page_ids_ := fun j =>
      if j = directory_idx then directory_page_id else h.directory_page_ids_ j }

def MaxSize (h : ExtendibleHTableHeaderPage) : Nat := 1 <<< h.max_depth_

end ExtendibleHTableHeaderPage

/-! ## Disk extendible hash table -/

/-- The index object together with the pages it has created in the buffer pool. -/
structure DiskExtendibleHashTable where
  hash_fn_ : KeyType → Nat
  header_max_depth_ : Nat
  directory_max_depth_ : Nat
  bucket_max_size_ : Nat
  header_page_id_ : page_id_t
  next_page_id_ : page_id_t
  header_page : ExtendibleHTableHeaderPage
  directory_pages : page_id_t → ExtendibleHTableDirectoryPage
  bucket_pages : page_id_t → ExtendibleHTableBucketPage

namespace DiskExtendibleHashTable

/-- The constructor: the header page is the first page of the pool. -/
def create (hash_fn : KeyType → Nat) (header_max_depth directory_max_depth bucket_max_size : Nat) :
    DiskExtendibleHashTable :=
  { hash_fn_ := hash_fn,
    header_max_depth_ := header_max_depth,
    directory_max_depth_ := directory_max_depth,
    bucket_max_size_ := bucket_max_size,
    header_page_id_ := 0,
    next_page_id_ := 1,
    header_page := ExtendibleHTableHeaderPage.zeroed.Init header_max_depth,
    directory_pages := fun _ => ExtendibleHTableDirectoryPage.zeroed,
    bucket_pages := fun _ => ExtendibleHTableBucketPage.zeroed }

/-- The hash of a key as the page methods receive it (a `uint32_t`). -/
def Hash (t : DiskExtendibleHashTable) (key : KeyType) : Nat := t.hash_fn_ key % 4294967296

def setDirectory (t : DiskExtendibleHashTable) (pid : page_id_t)
    (d : ExtendibleHTableDirectoryPage) : DiskExtendibleHashTable :=
  { t with directory_pages := fun p => if p = pid then d else t.directory_pages p }

def setBucket (t : DiskExtendibleHashTable) (pid : page_id_t)
    (b : ExtendibleHTableBucketPage) : DiskExtendibleHashTable :=
  { t with bucket_pages := fun p => if p = pid then b else t.bucket_pages p }

/-- `GetValue`: the flag and the `result` vector after the call. -/
def GetValue (t : DiskExtendibleHashTable) (key : KeyType) (result : List ValueType) :
    Bool × List ValueType :=
  let hashed_key := t.Hash key
  let directory_index := t.header_page.HashToDirectoryIndex hashed_key
  if !t.header_page.IsInit directory_index then (false, result)
  else
    let directory_page := t.directory_pages (t.header_page.GetDirectoryPageId directory_index)
    let bucket_index := directory_page.HashToBucketIndex hashed_key
    if directory_page.GetBucketPageId bucket_index = INVALID_PAGE_ID then (false, result)
    else
      let bucket_page := t.bucket_pages (directory_page.GetBucketPageId bucket_index)
      match bucket_page.Lookup key with
      | some value => (true, result ++ [value])
      | none => (false, result)

/-- The redistribution loop of `Insert` (`while (i < bucket_page->Size())`); the
fuel is the number of cells still to be looked at.  It yields the old and the
new bucket page. -/
def Redistribute (t : DiskExtendibleHashTable) (directory_page : ExtendibleHTableDirectoryPage)
    (bucket_index : Nat) :
    Nat → Nat → ExtendibleHTableBucketPage → ExtendibleHTableBucketPage →
      ExtendibleHTableBucketPage × ExtendibleHTableBucketPage
  | 0, _, bucket_page, new_bucket_page => (bucket_page, new_bucket_page)
  | fuel + 1, i, bucket_page, new_bucket_page =>
    if i < bucket_page.Size then
      let entry_key := bucket_page.KeyAt i
      let hashed_entry_key := t.Hash entry_key
      if directory_page.HashToBucketIndex hashed_entry_key = bucket_index then
        Redistribute t directory_page bucket_index fuel (i + 1) bucket_page new_bucket_page
      else
        let new_bucket_page' :=
          (new_bucket_page.Insert (bucket_page.KeyAt i) (bucket_page.ValueAt i)).2
        Redistribute t directory_page bucket_index fuel i (bucket_page.RemoveAt i) new_bucket_page'
    else (bucket_page, new_bucket_page)

/-- The loop `while (bucket_page->IsFull())` of `Insert`.  `bucket_page_id` is
the page held by `bucket_page_guard`, which the loop never re-targets. -/
def SplitLoop (directory_page_id bucket_page_id : page_id_t) (hashed_key : Nat) :
    Nat → DiskExtendibleHashTable → Nat → Outcome DiskExtendibleHashTable
  | 0, _, _ => .spins
  | fuel + 1, t, bucket_index =>
    let bucket_page := t.bucket_pages bucket_page_id
    let directory_page := t.directory_pages directory_page_id
    if bucket_page.IsFull then
      match (if directory_page.GetLocalDepth bucket_index = directory_page.GetGlobalDepth
             then directory_page.IncrGlobalDepth else .ok directory_page) with
      | .error e => .throws e
      | .ok directory_page =>
        let bucket_index := directory_page.HashToBucketIndex hashed_key
        match directory_page.GetSplitImageIndex bucket_index with
        | .error e => .throws e
        | .ok new_bucket_index =>
          let new_bucket_page_id := t.next_page_id_
          let new_bucket_page := (t.bucket_pages new_bucket_page_id).Init t.bucket_max_size_
          let moved := Redistribute t directory_page bucket_index bucket_page.Size 0 bucket_page
            new_bucket_page
          let directory_page := directory_page.SetBucketPageId new_bucket_index new_bucket_page_id
          let directory_page := directory_page.IncrLocalDepth bucket_index
          let directory_page :=
            directory_page.SetLocalDepth new_bucket_index (directory_page.GetLocalDepth bucket_index)
          let t := { t with next_page_id_ := t.next_page_id_ + 1 }
          let t := t.setBucket new_bucket_page_id moved.2
          let t := t.setBucket bucket_page_id moved.1
          let t := t.setDirectory directory_page_id directory_page
          SplitLoop directory_page_id bucket_page_id hashed_key fuel t bucket_index
    else .returns t

/-- Fuel for `SplitLoop`: between two directory growths the 8-bit local depth of
the slot can be incremented at most 256 times. -/
def SplitFuel (t : DiskExtendibleHashTable) : Nat := 257 * (t.directory_max_depth_ + 1) + 1

/-- The first step of `Insert`: the directory page of slot `directory_index` of
the header is fetched, or created and initialised when the slot is not set.  It
yields the table and the id of the directory page. -/
def InsertDirectory (t : DiskExtendibleHashTable) (directory_index : Nat) :
    DiskExtendibleHashTable × page_id_t :=
  if !t.header_page.IsInit directory_index then
    let directory_page_id := t.next_page_id_
    ({ t with
        next_page_id_ := t.next_page_id_ + 1,
        header_page := t.header_page.SetDirectoryPageId directory_index directory_page_id,
        directory_pages := fun p =>
          if p = directory_page_id then
            (t.directory_pages directory_page_id).Init t.directory_max_depth_
          else t.directory_pages p },
     directory_page_id)
  else (t, t.header_page.GetDirectoryPageId directory_index)

/-- The second step of `Insert`: the bucket page of slot `bucket_index` of the
directory page is fetched, or created and initialised when the slot is
invalid.  It yields the table and the id of the bucket page. -/
def InsertBucket (t : DiskExtendibleHashTable) (directory_page_id : page_id_t)
    (bucket_index : Nat) : DiskExtendibleHashTable × page_id_t :=
  if (t.directory_pages directory_page_id).GetBucketPageId bucket_index = INVALID_PAGE_ID then
    let bucket_page_id := t.next_page_id_
    ({ t with
        next_page_id_ := t.next_page_id_ + 1,
        bucket_pages := fun p =>
          if p = bucket_page_id then (t.bucket_pages bucket_page_id).Init t.bucket_max_size_
          else t.bucket_pages p,
        directory_pages := fun p =>
          if p = directory_page_id then
            (t.directory_pages directory_page_id).SetBucketPageId bucket_index bucket_page_id
          else t.directory_pages p },
     bucket_page_id)
  else (t, (t.directory_pages directory_page_id).GetBucketPageId bucket_index)

/-- `Insert` of the index. -/
def Insert (t : DiskExtendibleHashTable) (key : KeyType) (value : ValueType) :
    Outcome (Bool × DiskExtendibleHashTable) :=
  let hashed_key := t.Hash key
  let directory_index := t.header_page.HashToDirectoryIndex hashed_key
  let directory := t.InsertDirectory directory_index
  let directory_page_id := directory.2
  let bucket_index := (directory.1.directory_pages directory_page_id).HashToBucketIndex hashed_key
  let bucket := directory.1.InsertBucket directory_page_id bucket_index
  let bucket_page_id := bucket.2
  match SplitLoop directory_page_id bucket_page_id hashed_key bucket.1.SplitFuel bucket.1
      bucket_index with
  | .returns t =>
    let r := (t.bucket_pages bucket_page_id).Insert key value
    .returns (r.1, t.setBucket bucket_page_id r.2)
  | .throws e => .throws e
  | .blocks => .blocks
  | .spins => .spins

/-- The loop `while (bucket_page->IsEmpty() && GetGlobalDepth() > 0)` of `Remove`.
`bucket_page_id` is the page whose writer latch `bucket_page_guard` holds when
the iteration starts. -/
def MergeLoop (directory_page_id : page_id_t) (hashed_key : Nat) :
    Nat → DiskExtendibleHashTable → page_id_t → Nat → Outcome DiskExtendibleHashTable
  | 0, _, _, _ => .spins
  | fuel + 1, t, bucket_page_id, bucket_index =>
    let bucket_page := t.bucket_pages bucket_page_id
    let directory_page := t.directory_pages directory_page_id
    if bucket_page.IsEmpty && decide (directory_page.GetGlobalDepth > 0) then
      match directory_page.GetSplitImageIndex bucket_index with
      | .error e => .throws e
      | .ok split_image_bucket_index =>
        let split_image_page_id := directory_page.GetBucketPageId split_image_bucket_index
        if split_image_page_id = bucket_page_id then .blocks
        else
          let split_image_bucket_page := t.bucket_pages split_image_page_id
          if !split_image_bucket_page.IsEmpty ||
              directory_page.GetLocalDepth bucket_index !=
                directory_page.GetLocalDepth split_image_bucket_index then
            .returns t
          else
            let directory_page := directory_page.SetBucketPageId split_image_bucket_index
              (directory_page.GetBucketPageId bucket_index)
            let directory_page := directory_page.DecrLocalDepth bucket_index
            let directory_page := directory_page.DecrLocalDepth split_image_bucket_index
            match (if directory_page.CanShrink then directory_page.DecrGlobalDepth
                   else .ok directory_page) with
            | .error e => .throws e
            | .ok directory_page =>
              let t := t.setDirectory directory_page_id directory_page
              let bucket_index := directory_page.HashToBucketIndex hashed_key
              MergeLoop directory_page_id hashed_key fuel t
                (directory_page.GetBucketPageId bucket_index) bucket_index
    else .returns t

/-- `Remove` of the index. -/
def Remove (t : DiskExtendibleHashTable) (key : KeyType) :
    Outcome (Bool × DiskExtendibleHashTable) :=
  let hashed_key := t.Hash key
  let directory_index := t.header_page.HashToDirectoryIndex hashed_key
  if !t.header_page.IsInit directory_index then .returns (false, t)
  else
    let directory_page_id := t.header_page.GetDirectoryPageId directory_index
    let directory_page := t.directory_pages directory_page_id
    let bucket_index := directory_page.HashToBucketIndex hashed_key
    if directory_page.GetBucketPageId bucket_index = INVALID_PAGE_ID then .returns (false, t)
    else
      let bucket_page_id := directory_page.GetBucketPageId bucket_index
      let r := (t.bucket_pages bucket_page_id).Remove key
      let t := t.setBucket bucket_page_id r.2
      match MergeLoop directory_page_id hashed_key (directory_page.GetGlobalDepth + 2) t
          bucket_page_id bucket_index with
      | .returns t => .returns (r.1, t)
      | .throws e => .throws e
      | .blocks => .blocks
      | .spins => .spins

/-- The states the index reaches from a freshly constructed table through calls
of `Insert` and `Remove` that return. -/
inductive Reachable (hash_fn : KeyType → Nat)
    (header_max_depth directory_max_depth bucket_max_size : Nat) :
    DiskExtendibleHashTable → Prop where
  | fresh : Reachable hash_fn header_max_depth directory_max_depth bucket_max_size
      (create hash_fn header_max_depth directory_max_depth bucket_max_size)
  | insert {t t' : DiskExtendibleHashTable} {key : KeyType} {value : ValueType} {r : Bool} :
      Reachable hash_fn header_max_depth directory_max_depth bucket_max_size t →
      t.Insert key value = .returns (r, t') →
      Reachable hash_fn header_max_depth directory_max_depth bucket_max_size t'
  | remove {t t' : DiskExtendibleHashTable} {key : KeyType} {r : Bool} :
      Reachable hash_fn header_max_depth directory_max_depth bucket_max_size t →
      t.Remove key = .returns (r, t') →
      Reachable hash_fn header_max_depth directory_max_depth bucket_max_size t'

/-- One call of the client. -/
inductive Op where
  | insert : KeyType → ValueType → Op
  | remove : KeyType → Op

/-- Runs the calls one after the other; `none` when one of them does not return. -/
def run : DiskExtendibleHashTable → List Op → Option DiskExtendibleHashTable
  | t, [] => some t
  | t, Op.insert key value :: ops =>
    match t.Insert key value with
    | .returns r => run r.2 ops
    | _ => none
  | t, Op.remove key :: ops =>
    match t.Remove key with
    | .returns r => run r.2 ops
    | _ => none

/-- The hash function of the scenarios: the key itself. -/
def identityHash : KeyType → Nat := fun key => key.toNat

/-- The table after the calls `ops` on a fresh table (the fresh table itself when
a call does not return). -/
def after (hash_fn : KeyType → Nat) (header_max_depth directory_max_depth bucket_max_size : Nat)
    (ops : List Op) : DiskExtendibleHashTable :=
  (run (create hash_fn header_max_depth directory_max_depth bucket_max_size) ops).getD
    (create hash_fn header_max_depth directory_max_depth bucket_max_size)

/-- The flag a call returned, if it returned. -/
def flag (o : Outcome (Bool × DiskExtendibleHashTable)) : Option Bool := o.toOption.map Prod.fst

/-- The table a call left behind (`t` when it did not return). -/
def next (o : Outcome (Bool × DiskExtendibleHashTable)) (t : DiskExtendibleHashTable) :
    DiskExtendibleHashTable :=
  match o with
  | .returns r => r.2
  | _ => t

/-- The call `op` on the table `t`. -/
def call (t : DiskExtendibleHashTable) : Op → Outcome (Bool × DiskExtendibleHashTable)
  | .insert key value => t.Insert key value
  | .remove key => t.Remove key

/-- The flags of the calls `ops` made one after the other; `none` for a call that
did not return. -/
def flags : DiskExtendibleHashTable → List Op → List (Option Bool)
  | _, [] => []
  | t, op :: ops => flag (t.call op) :: flags (next (t.call op) t) ops

/-- The directory page a key is routed to. -/
def directoryOf (t : DiskExtendibleHashTable) (key : KeyType) : ExtendibleHTableDirectoryPage :=
  t.directory_pages
    (t.header_page.GetDirectoryPageId (t.header_page.HashToDirectoryIndex (t.Hash key)))

/-- The directory slot a key is routed to. -/
def bucketIndexOf (t : DiskExtendibleHashTable) (key : KeyType) : Nat :=
  (t.directoryOf key).HashToBucketIndex (t.Hash key)

/-- The bucket page a key is routed to. -/
def bucketOf (t : DiskExtendibleHashTable) (key : KeyType) : ExtendibleHTableBucketPage :=
  t.bucket_pages ((t.directoryOf key).GetBucketPageId (t.bucketIndexOf key))

end DiskExtendibleHashTable

/-! ## LRU-K replacer -/

abbrev frame_id_t := Int

/-- Layout of `LRUKNode`; the front of `history_` is the least recent timestamp.
`size_t` counters are natural numbers. -/
structure LRUKNode where
  history_ : List Nat
  k_ : Nat
  fid_ : frame_id_t
  is_evictable_ : Bool
  deriving DecidableEq

namespace LRUKNode

/-- `history_.front()`; the source never calls it on an empty list when `k_ > 0`. -/
def front (n : LRUKNode) : Nat := n.history_.headD 0

/-- `getBackwardKDistance`: `std::numeric_limits<int>::max()` stands for +inf. -/
def getBackwardKDistance (n : LRUKNode) (current_timestamp : Nat) : Nat :=
  if n.history_.length = n.k_ then current_timestamp - n.front else 2147483647

def hasLargerBackwardKDistance (n rhs : LRUKNode) (current_timestamp : Nat) : Bool :=
  if n.getBackwardKDistance current_timestamp ≠ rhs.getBackwardKDistance current_timestamp then
    decide (n.getBackwardKDistance current_timestamp > rhs.getBackwardKDistance current_timestamp)
  else decide (n.front < rhs.front)

def getFrameID (n : LRUKNode) : frame_id_t := n.fid_

/-- `recordAccess`: push the timestamp, then pop the front while more than `k_`
timestamps are held. -/
def recordAccess (n : LRUKNode) (currrent_time : Nat) : LRUKNode :=
  { n with history_ :=
      (n.history_ ++ [currrent_time]).drop ((n.history_ ++ [currrent_time]).length - n.k_) }

def setEvictable (n : LRUKNode) (isEvictable : Bool) : LRUKNode :=
  { n with is_evictable_ := isEvictable }

def isEvictable (n : LRUKNode) : Bool := n.is_evictable_

end LRUKNode

/-- State of `LRUKReplacer`.  `node_store_` lists the nodes in the order in which
the unordered map iterates over them. -/
structure LRUKReplacer where
  node_store_ : List LRUKNode
  current_timestamp_ : Nat
  curr_size_ : Nat
  replacer_size_ : Nat
  k_ : Nat
  deriving DecidableEq

namespace LRUKReplacer

/-- The constructor. -/
def create (num_frames k : Nat) : LRUKReplacer :=
  { node_store_ := [], current_timestamp_ := 0, curr_size_ := 0, replacer_size_ := num_frames,
    k_ := k }

/-- `node_store_.count(frame_id)`. -/
def count (s : LRUKReplacer) (frame_id : frame_id_t) : Nat :=
  (s.node_store_.filter (fun n => n.fid_ == frame_id)).length

/-- `node_store_[frame_id]` for a frame that has a node. -/
def find (s : LRUKReplacer) (frame_id : frame_id_t) : Option LRUKNode :=
  s.node_store_.find? (fun n => n.fid_ == frame_id)

/-- `node_store_.erase(frame_id)`. -/
def erase (s : LRUKReplacer) (frame_id : frame_id_t) : List LRUKNode :=
  s.node_store_.filter (fun n => !(n.fid_ == frame_id))

/-- The scan of `Evict` over the nodes; `target` is the candidate so far. -/
def evictScan (current_timestamp : Nat) : Option LRUKNode → List LRUKNode → Option LRUKNode
  | target, [] => target
  | target, node :: rest =>
    if !node.isEvictable then evictScan current_timestamp target rest
    else
      match target with
      | none => evictScan current_timestamp (some node) rest
      | some t =>
        if node.hasLargerBackwardKDistance t current_timestamp then
          evictScan current_timestamp (some node) rest
        else evictScan current_timestamp (some t) rest

/-- `Evict`: `some frame_id` stands for `true` with `*frame_id` written. -/
def Evict (s : LRUKReplacer) : Option frame_id_t × LRUKReplacer :=
  if s.node_store_.isEmpty then (none, s)
  else
    match evictScan s.current_timestamp_ none s.node_store_ with
    | none => (none, s)
    | some target =>
      (some target.getFrameID,
       { s with node_store_ := s.erase target.getFrameID, curr_size_ := s.curr_size_ - 1 })

/-- `RecordAccess`. -/
def RecordAccess (s : LRUKReplacer) (frame_id : frame_id_t) : LRUKReplacer :=
  let store :=
    if s.count frame_id = 0 then
      s.node_store_ ++ [{ history_ := [], k_ := s.k_, fid_ := frame_id, is_evictable_ := false }]
    else s.node_store_
  { s with
    node_store_ := store.map (fun n =>
      if n.fid_ == frame_id then n.recordAccess s.current_timestamp_ else n),
    current_timestamp_ := s.current_timestamp_ + 1 }

/-- `SetEvictable`. -/
def SetEvictable (s : LRUKReplacer) (frame_id : frame_id_t) (set_evictable : Bool) : LRUKReplacer :=
  match s.find frame_id with
  | none => s
  | some target =>
    let curr_size :=
      if !target.isEvictable && set_evictable then s.curr_size_ + 1
      else if target.isEvictable && !set_evictable then s.curr_size_ - 1
      else s.curr_size_
    { s with
      curr_size_ := curr_size,
      node_store_ := s.node_store_.map (fun n =>
        if n.fid_ == frame_id then n.setEvictable set_evictable else n) }

/-- `Remove`; `none` stands for the exception `target frame is not evictable`. -/
def Remove (s : LRUKReplacer) (frame_id : frame_id_t) : Option LRUKReplacer :=
  match s.find frame_id with
  | none => some s
  | some target =>
    if !target.isEvictable then none
    else some { s with curr_size_ := s.curr_size_ - 1, node_store_ := s.erase target.getFrameID }

def Size (s : LRUKReplacer) : Nat := s.curr_size_

/-- The states the replacer reaches from its constructor.  The step `reorder`
stands for the unspecified iteration order of the unordered map. -/
inductive Reachable (num_frames k : Nat) : LRUKReplacer → Prop where
  | create : Reachable num_frames k (create num_frames k)
  | recordAccess {s : LRUKReplacer} (frame_id : frame_id_t) :
      Reachable num_frames k s → Reachable num_frames k (s.RecordAccess frame_id)
  | setEvictable {s : LRUKReplacer} (frame_id : frame_id_t) (set_evictable : Bool) :
      Reachable num_frames k s → Reachable num_frames k (s.SetEvictable frame_id set_evictable)
  | evict {s : LRUKReplacer} :
      Reachable num_frames k s → Reachable num_frames k s.Evict.2
  | remove {s s' : LRUKReplacer} (frame_id : frame_id_t) :
      Reachable num_frames k s → s.Remove frame_id = some s' → Reachable num_frames k s'
  | reorder {s : LRUKReplacer} (store : List LRUKNode) :
      Reachable num_frames k s → s.node_store_.Perm store →
      Reachable num_frames k { s with node_store_ := store }

end LRUKReplacer

/-! ## Scenarios and invariants used by the theorems -/

namespace DiskExtendibleHashTable

/-- The calls that lead to the state of `C5_remove_of_absent_key_changes_table`. -/
def scenarioC5 : List Op :=
  [.insert 0 100, .insert 1 101, .insert 2 102, .insert 4 104, .remove 0, .insert 3 103,
   .remove 4, .insert 7 107, .remove 3, .insert 5 105, .remove 5]

/-- The calls of the grow/shrink scenario up to and including `Remove(5)`. -/
def scenarioC7 : List Op :=
  [.insert 0 0, .insert 1 1, .insert 2 2, .insert 3 3, .insert 4 4, .insert 5 5, .insert 6 6,
   .insert 7 7, .remove 0, .remove 1, .remove 2, .remove 3, .remove 4, .remove 5]

end DiskExtendibleHashTable

namespace LRUKReplacer

/-- What every reachable replacer state satisfies (for any iteration order). -/
structure Inv (k : Nat) (s : LRUKReplacer) : Prop where
  k_eq : s.k_ = k
  nodup : (s.node_store_.map LRUKNode.fid_).Nodup
  node_k : ∀ n ∈ s.node_store_, n.k_ = k
  len_le : ∀ n ∈ s.node_store_, n.history_.length ≤ k
  hist_lt : ∀ n ∈ s.node_store_, ∀ x ∈ n.history_, x < s.current_timestamp_

/-- The replacer of the witness: `K = 2`, frames 1 and 2 accessed twice each. -/
def scenarioC9 : LRUKReplacer :=
  ((((((create 3 2).RecordAccess 1).RecordAccess 2).RecordAccess 1).RecordAccess 2).SetEvictable 1
    true).SetEvictable 2 true

/-- `RecordAccess(frame_id)` called `n` times in a row. -/
def recordMany (s : LRUKReplacer) (frame_id : frame_id_t) : Nat → LRUKReplacer
  | 0 => s
  | n + 1 => (recordMany s frame_id n).RecordAccess frame_id

/-- Frame 1 accessed twice and made evictable (`K = 2`). -/
def scenarioC10 : LRUKReplacer :=
  (((create 3 2).RecordAccess 1).RecordAccess 1).SetEvictable 1 true

end LRUKReplacer

namespace ExtendibleHTableDirectoryPage

/-- The directory page after a successful `IncrGlobalDepth`, in closed form. -/
def grown (d : ExtendibleHTableDirectoryPage) : ExtendibleHTableDirectoryPage :=
  { max_depth_ := d.max_depth_,
    global_depth_ := d.global_depth_ + 1,
    local_depths_ := fun j =>
      if j < 2 ^ (d.global_depth_ + 1) then d.local_depths_ (j % 2 ^ d.global_depth_) else 0,
    bucket_page_ids_ := fun j =>
      if j < 2 ^ (d.global_depth_ + 1) then d.bucket_page_ids_ (j % 2 ^ d.global_depth_)
      else INVALID_PAGE_ID }

/-- The directory page after one split of slot `bucket_index` into a new page. -/
def split (d : ExtendibleHTableDirectoryPage) (bucket_index new_bucket_index : Nat)
    (new_bucket_page_id : page_id_t) : ExtendibleHTableDirectoryPage :=
  ((d.SetBucketPageId new_bucket_index new_bucket_page_id).IncrLocalDepth bucket_index).SetLocalDepth
    new_bucket_index
    (((d.SetBucketPageId new_bucket_index new_bucket_page_id).IncrLocalDepth
      bucket_index).GetLocalDepth bucket_index)

/-- The directory page after one merge of slot `bucket_index` with its image. -/
def merged (d : ExtendibleHTableDirectoryPage) (bucket_index split_image_bucket_index : Nat) :
    ExtendibleHTableDirectoryPage :=
  ((d.SetBucketPageId split_image_bucket_index (d.GetBucketPageId bucket_index)).DecrLocalDepth
    bucket_index).DecrLocalDepth split_image_bucket_index

/-- On level `l` some residue class of live slots modulo `2 ^ l` has local depth
at least `l` throughout, and its sibling class has local depth at least `l - 1`. -/
def SpineAt (d : ExtendibleHTableDirectoryPage) (l : Nat) : Prop :=
  ∃ w < 2 ^ l,
    (∀ j < 2 ^ d.global_depth_, j % 2 ^ l = w → l ≤ d.local_depths_ j) ∧
    (∀ j < 2 ^ d.global_depth_, j % 2 ^ l = w ^^^ 2 ^ (l - 1) → l - 1 ≤ d.local_depths_ j)

/-- The shape of the local depths that `Insert` and `Remove` keep: they lie
between 1 and the global depth, and `SpineAt` holds on every level up to the
global depth. -/
structure WellFormed (d : ExtendibleHTableDirectoryPage) : Prop where
  max_le : d.max_depth_ ≤ 9
  gd_le : d.global_depth_ ≤ d.max_depth_
  ld_le : ∀ i < 2 ^ d.global_depth_, d.local_depths_ i ≤ d.global_depth_
  ld_pos : 0 < d.global_depth_ → ∀ i < 2 ^ d.global_depth_, 1 ≤ d.local_depths_ i
  spine : ∀ l, 1 ≤ l → l ≤ d.global_depth_ → d.SpineAt l

end ExtendibleHTableDirectoryPage

namespace DiskExtendibleHashTable

/-- What every reachable table satisfies. -/
structure Inv (t : DiskExtendibleHashTable) : Prop where
  next_pos : 1 ≤ t.next_page_id_
  dmd_le : t.directory_max_depth_ ≤ 9
  dirs : ∀ pid, (t.directory_pages pid).WellFormed

end DiskExtendibleHashTable

namespace DiskExtendibleHashTable

/-- The table after one iteration of the split loop of `Insert`, where
`directory_page` is the directory page after the optional growth. -/
def splitStep (t : DiskExtendibleHashTable) (directory_page_id bucket_page_id : page_id_t)
    (directory_page : ExtendibleHTableDirectoryPage) (bucket_index new_bucket_index : Nat) :
    DiskExtendibleHashTable :=
  ((({ t with next_page_id_ := t.next_page_id_ + 1 }.setBucket t.next_page_id_
    (Redistribute t directory_page bucket_index (t.bucket_pages bucket_page_id).Size 0
      (t.bucket_pages bucket_page_id)
      ((t.bucket_pages t.next_page_id_).Init t.bucket_max_size_)).2).setBucket bucket_page_id
    (Redistribute t directory_page bucket_index (t.bucket_pages bucket_page_id).Size 0
      (t.bucket_pages bucket_page_id)
      ((t.bucket_pages t.next_page_id_).Init t.bucket_max_size_)).1).setDirectory
    directory_page_id (directory_page.split bucket_index new_bucket_index t.next_page_id_))

end DiskExtendibleHashTable

namespace ExtendibleHTableDirectoryPage

/-- Index integrity of a directory that takes the low bits of the hash: the
slots that differ from slot `i` in one bit at or above its local depth hold the
same bucket page and the same local depth. -/
def Aligned (d : ExtendibleHTableDirectoryPage) : Prop :=
  ∀ i < 2 ^ d.global_depth_, ∀ j, d.local_depths_ i ≤ j → j < d.global_depth_ →
    d.bucket_page_ids_ (i ^^^ 2 ^ j) = d.bucket_page_ids_ i ∧
    d.local_depths_ (i ^^^ 2 ^ j) = d.local_depths_ i

/-- Once the directory has grown, no live slot is invalid. -/
def NoInvalid (d : ExtendibleHTableDirectoryPage) : Prop :=
  0 < d.global_depth_ → ∀ i < 2 ^ d.global_depth_, d.bucket_page_ids_ i ≠ INVALID_PAGE_ID

end ExtendibleHTableDirectoryPage

namespace DiskExtendibleHashTable

/-- `Insert(key)` starts with a split of a bucket whose local depth is more
than one below the global depth: the bucket of the key is full when the split
loop is entered and its local depth plus one is below the global depth. -/
def FansOut (t : DiskExtendibleHashTable) (key : KeyType) : Bool :=
  let hashed_key := t.Hash key
  let directory := t.InsertDirectory (t.header_page.HashToDirectoryIndex hashed_key)
  let bucket_index := (directory.1.directory_pages directory.2).HashToBucketIndex hashed_key
  let bucket := directory.1.InsertBucket directory.2 bucket_index
  (bucket.1.bucket_pages bucket.2).IsFull &&
    decide ((bucket.1.directory_pages directory.2).GetLocalDepth bucket_index + 1 <
      (bucket.1.directory_pages directory.2).GetGlobalDepth)

/-- The states reached from a fresh table through returning calls of `Insert`
and `Remove`, none of the inserts splitting a bucket whose local depth is more
than one below the global depth. -/
inductive ReachableWithoutFanOut (hash_fn : KeyType → Nat)
    (header_max_depth directory_max_depth bucket_max_size : Nat) :
    DiskExtendibleHashTable → Prop where
  | fresh : ReachableWithoutFanOut hash_fn header_max_depth directory_max_depth bucket_max_size
      (create hash_fn header_max_depth directory_max_depth bucket_max_size)
  | insert {t t' : DiskExtendibleHashTable} {key : KeyType} {value : ValueType} {r : Bool} :
      ReachableWithoutFanOut hash_fn header_max_depth directory_max_depth bucket_max_size t →
      t.FansOut key = false →
      t.Insert key value = .returns (r, t') →
      ReachableWithoutFanOut hash_fn header_max_depth directory_max_depth bucket_max_size t'
  | remove {t t' : DiskExtendibleHashTable} {key : KeyType} {r : Bool} :
      ReachableWithoutFanOut hash_fn header_max_depth directory_max_depth bucket_max_size t →
      t.Remove key = .returns (r, t') →
      ReachableWithoutFanOut hash_fn header_max_depth directory_max_depth bucket_max_size t'

/-- Whether one of the calls `ops`, made one after the other from `t`, is an
`Insert` that starts with such a split. -/
def fansOutIn : DiskExtendibleHashTable → List Op → Bool
  | _, [] => false
  | t, Op.insert key value :: ops =>
    t.FansOut key || fansOutIn (next (t.Insert key value) t) ops
  | t, Op.remove key :: ops => fansOutIn (next (t.Remove key) t) ops

/-- What every table reached without a fan-out split satisfies. -/
structure AlignedInv (t : DiskExtendibleHashTable) : Prop where
  inv : t.Inv
  aligned : ∀ pid, (t.directory_pages pid).Aligned
  valid : ∀ pid, (t.directory_pages pid).NoInvalid

end DiskExtendibleHashTable

namespace LRUKNode

/-- The order in which the scan of `Evict` ranks two nodes: `n` does not win
against `r` when its backward K-distance is smaller, or equal with an oldest
timestamp that is not smaller. -/
def losesTo (n r : LRUKNode) (current_timestamp : Nat) : Prop :=
  n.getBackwardKDistance current_timestamp < r.getBackwardKDistance current_timestamp ∨
  (n.getBackwardKDistance current_timestamp = r.getBackwardKDistance current_timestamp ∧
    r.front ≤ n.front)

end LRUKNode

namespace LRUKReplacer

/-- `Remove` with the members as the call leaves them.  The flag tells whether
the exception `target frame is not evictable` was thrown; the `throw` statement
comes before any member is written. -/
def RemoveTrace (s : LRUKReplacer) (frame_id : frame_id_t) : Bool × LRUKReplacer :=
  match s.find frame_id with
  | none => (false, s)
  | some target =>
    if !target.isEvictable then (true, s)
    else
      (false,
       { s with curr_size_ := s.curr_size_ - 1, node_store_ := s.erase target.getFrameID })

/-- One call of the client of the replacer. -/
inductive Call where
  | recordAccess : frame_id_t → Call
  | setEvictable : frame_id_t → Bool → Call
  | evict : Call
  | remove : frame_id_t → Call

/-- The replacer after one call (after a `Remove` that throws as well). -/
def call (s : LRUKReplacer) : Call → LRUKReplacer
  | .recordAccess frame_id => s.RecordAccess frame_id
  | .setEvictable frame_id set_evictable => s.SetEvictable frame_id set_evictable
  | .evict => s.Evict.2
  | .remove frame_id => (s.RemoveTrace frame_id).2

/-- The replacer after the calls `cs`, made one after the other. -/
def calls (s : LRUKReplacer) (cs : List Call) : LRUKReplacer := cs.foldl call s

/-- The number of tracked nodes whose evictable flag is true. -/
def evictableCount (s : LRUKReplacer) : Nat := s.node_store_.countP (fun n => n.isEvictable)

/-- Accounting and timestamp facts of every reachable replacer state. -/
structure Sound (k : Nat) (s : LRUKReplacer) : Prop where
  size_eq : s.curr_size_ = s.evictableCount
  hist_ne : 1 ≤ k → ∀ n ∈ s.node_store_, n.history_ ≠ []
  sorted : ∀ n ∈ s.node_store_, n.history_.Pairwise (fun x y => x < y)
  disjoint : ∀ n ∈ s.node_store_, ∀ m ∈ s.node_store_, ∀ x ∈ n.history_, x ∈ m.history_ →
    n.fid_ = m.fid_

/-- The nodes that up to `m` calls of `Evict` in a row delete, in the order of the
calls; the calls after one that returned false return false as well. -/
def evicted : Nat → LRUKReplacer → List LRUKNode
  | 0, _ => []
  | m + 1, s =>
    match s.Evict.1 with
    | none => []
    | some frame_id => (s.find frame_id).toList ++ evicted m s.Evict.2

/-- The replacer of the tie-break scenario: `K = 2`, frames 1, 2, 3 accessed once
each in this order and made evictable. -/
def scenarioC11 : LRUKReplacer :=
  ((((((create 3 2).RecordAccess 1).RecordAccess 2).RecordAccess 3).SetEvictable 1
    true).SetEvictable 2 true).SetEvictable 3 true

/-- The access log after an access of `frame_id` at time `ts`. -/
def logAccess (log : frame_id_t → List Nat) (frame_id : frame_id_t) (ts : Nat) :
    frame_id_t → List Nat :=
  fun f => if f = frame_id then log f ++ [ts] else log f

/-- The access log after the node of `frame_id` was deleted. -/
def logDelete (log : frame_id_t → List Nat) (frame_id : frame_id_t) : frame_id_t → List Nat :=
  fun f => if f = frame_id then [] else log f

/-- The reachable states together with the access log the specification speaks
of: `log f` lists the timestamps of the accesses of frame `f` since its node was
created, the oldest first; it is empty again once the node is deleted. -/
inductive Logged (num_frames k : Nat) : LRUKReplacer → (frame_id_t → List Nat) → Prop where
  | create : Logged num_frames k (create num_frames k) (fun _ => [])
  | recordAccess {s : LRUKReplacer} {log : frame_id_t → List Nat} (frame_id : frame_id_t) :
      Logged num_frames k s log →
      Logged num_frames k (s.RecordAccess frame_id) (logAccess log frame_id s.current_timestamp_)
  | setEvictable {s : LRUKReplacer} {log : frame_id_t → List Nat} (frame_id : frame_id_t)
      (set_evictable : Bool) :
      Logged num_frames k s log → Logged num_frames k (s.SetEvictable frame_id set_evictable) log
  | evict {s : LRUKReplacer} {log : frame_id_t → List Nat} :
      Logged num_frames k s log →
      Logged num_frames k s.Evict.2
        (match s.Evict.1 with
         | none => log
         | some frame_id => logDelete log frame_id)
  | remove {s s' : LRUKReplacer} {log : frame_id_t → List Nat} (frame_id : frame_id_t) :
      Logged num_frames k s log → s.Remove frame_id = some s' →
      Logged num_frames k s' (logDelete log frame_id)
  | reorder {s : LRUKReplacer} {log : frame_id_t → List Nat} (store : List LRUKNode) :
      Logged num_frames k s log → s.node_store_.Perm store →
      Logged num_frames k { s with node_store_ := store } log

/-- What ties the nodes to the access log. -/
structure LogInv (k : Nat) (s : LRUKReplacer) (log : frame_id_t → List Nat) : Prop where
  untracked : ∀ f, s.count f = 0 → log f = []
  accessed : ∀ n ∈ s.node_store_, log n.fid_ ≠ []
  recent : ∀ n ∈ s.node_store_,
    n.history_ = (log n.fid_).drop ((log n.fid_).length - k)
  increasing : ∀ f, (log f).Pairwise (fun x y => x < y)
  past : ∀ f, ∀ x ∈ log f, x < s.current_timestamp_

/-- The replacer of the `K = 2` scenario for the access log: frame 1 accessed at
the times 0, 1 and 3, frame 2 at the time 2. -/
def scenarioC18 : LRUKReplacer :=
  ((((create 3 2).RecordAccess 1).RecordAccess 1).RecordAccess 2).RecordAccess 1

/-- The access log of `scenarioC18`. -/
def logC18 : frame_id_t → List Nat :=
  logAccess (logAccess (logAccess (logAccess (fun _ => []) 1 0) 1 1) 2 2) 1 3

end LRUKReplacer

namespace ExtendibleHTableDirectoryPage

/-- `IncrGlobalDepth` with the page as the call leaves it, also when it throws:
the exception of the depth check comes before any member is written, one from
`GetSplitImageIndex` inside the copy loop after `global_depth_++`. -/
def IncrGlobalDepthTrace (d : ExtendibleHTableDirectoryPage) :
    Option Exn × ExtendibleHTableDirectoryPage :=
  if d.global_depth_ = d.max_depth_ then (some .global_depth_equals_to_max_depth, d)
  else
    let initial_size := d.Size
    let d1 := { d with global_depth_ := d.global_depth_ + 1 }
    match IncrGlobalDepthLoop d1 initial_size with
    | .error e => (some e, d1)
    | .ok (new_local_depths, new_bucket_page_ids) =>
      (none, { d1 with local_depths_ := new_local_depths, bucket_page_ids_ := new_bucket_page_ids })

/-- `DecrGlobalDepth` with the page as the call leaves it, also when it throws. -/
def DecrGlobalDepthTrace (d : ExtendibleHTableDirectoryPage) :
    Option Exn × ExtendibleHTableDirectoryPage :=
  if d.global_depth_ = 0 then (some .global_depth_equals_to_zero, d)
  else
    let initial_size := d.Size
    let d1 := { d with global_depth_ := d.global_depth_ - 1 }
    (none, { d1 with
      local_depths_ := fun j => if d1.Size ≤ j ∧ j < initial_size then 0 else d.local_depths_ j,
      bucket_page_ids_ := fun j =>
        if d1.Size ≤ j ∧ j < initial_size then INVALID_PAGE_ID else d.bucket_page_ids_ j })

/-- One call of a member function that writes the directory page. -/
inductive Call where
  | setBucketPageId : Nat → page_id_t → Call
  | setLocalDepth : Nat → Nat → Call
  | incrLocalDepth : Nat → Call
  | decrLocalDepth : Nat → Call
  | incrGlobalDepth : Call
  | decrGlobalDepth : Call

/-- The directory page after one call (after a call that throws as well). -/
def call (d : ExtendibleHTableDirectoryPage) : Call → ExtendibleHTableDirectoryPage
  | .setBucketPageId bucket_idx bucket_page_id => d.SetBucketPageId bucket_idx bucket_page_id
  | .setLocalDepth bucket_idx local_depth => d.SetLocalDepth bucket_idx local_depth
  | .incrLocalDepth bucket_idx => d.IncrLocalDepth bucket_idx
  | .decrLocalDepth bucket_idx => d.DecrLocalDepth bucket_idx
  | .incrGlobalDepth => d.IncrGlobalDepthTrace.2
  | .decrGlobalDepth => d.DecrGlobalDepthTrace.2

/-- The directory page after the calls `cs`, made one after the other. -/
def calls (d : ExtendibleHTableDirectoryPage) (cs : List Call) : ExtendibleHTableDirectoryPage :=
  cs.foldl call d

end ExtendibleHTableDirectoryPage

namespace ExtendibleHTableBucketPage

/-- The first `size_` entries have pairwise distinct keys. -/
def UniqueKeys (b : ExtendibleHTableBucketPage) : Prop :=
  ∀ i j, i < b.size_ → j < b.size_ → (b.array_ i).1 = (b.array_ j).1 → i = j

/-- The bucket pages reached from an empty bucket with `max_size_ = m` through
`Insert`, `Remove` and `RemoveAt` with an index below `size_`. -/
inductive Reachable (m : Nat) : ExtendibleHTableBucketPage → Prop where
  | empty (array : Nat → KeyType × ValueType) :
      Reachable m { size_ := 0, max_size_ := m, array_ := array }
  | insert {b : ExtendibleHTableBucketPage} (key : KeyType) (value : ValueType) :
      Reachable m b → Reachable m (b.Insert key value).2
  | remove {b : ExtendibleHTableBucketPage} (key : KeyType) :
      Reachable m b → Reachable m (b.Remove key).2
  | removeAt {b : ExtendibleHTableBucketPage} (bucket_idx : Nat) :
      Reachable m b → bucket_idx < b.size_ → Reachable m (b.RemoveAt bucket_idx)

/-- A bucket page with the entries `(1, 10)`, `(2, 20)`, `(3, 30)` and room for four. -/
def bucketC24 : ExtendibleHTableBucketPage :=
  ((((zeroed.Init 4).Insert 1 10).2.Insert 2 20).2.Insert 3 30).2

end ExtendibleHTableBucketPage

/-! ## Buffer pool manager and page guards

A shallow embedding of `src/buffer/buffer_pool_manager.cpp` and
`src/storage/page/page_guard.cpp`.

* A `Page *` is the index of the page object in `pages_`; `nullptr` is `none`.
* The page data, the disk requests and the per-page reader-writer latch are left
  out: the functions below are followed for what they do to page ids, pin
  counts, dirty bits, page table, free list and replacer.
* The private helpers `GetPageByPageID`, `GetFreeFrame`, `MustEvictPage` and
  `DeallocatePage` are declared in `buffer_pool_manager.h`, which is not among
  the sources.  The embedded functions take them as the parameter `Helpers`.
-/

/-- The members of `Page` that the buffer pool manager reads and writes.  The
class is declared in `page.h`, which is not among the sources; the members are
the ones the sources name, `pin_count_` an `int`. -/
structure Page where
  page_id_ : page_id_t
  is_dirty_ : Bool
  pin_count_ : Int
  deriving DecidableEq

/-- State of `BufferPoolManager`. -/
structure BufferPoolManager where
  pool_size_ : Nat
  pages_ : Nat → Page
  page_table_ : page_id_t → Option frame_id_t
  free_list_ : List frame_id_t
  replacer_ : LRUKReplacer
  next_page_id_ : page_id_t

/-- The exceptions thrown by the buffer pool manager. -/
inductive BpmExn where
  | free_list_is_not_empty_but_unable_to_find_free_page
  | failed_to_read_from_disk
  deriving DecidableEq

/-- The private helpers of the buffer pool manager that the sources call but do
not define.  `GetPageByPageID` yields the page object with the given id (or
`nullptr`), `GetFreeFrame` yields a frame id (or fails) and may change the pool,
`MustEvictPage` and `DeallocatePage` change the pool. -/
structure Helpers where
  GetPageByPageID : BufferPoolManager → page_id_t → Option Nat
  GetFreeFrame : BufferPoolManager → Option frame_id_t × BufferPoolManager
  MustEvictPage : BufferPoolManager → Nat → BufferPoolManager
  DeallocatePage : BufferPoolManager → page_id_t → BufferPoolManager

namespace BufferPoolManager

/-- Writes the page object at index `page`. -/
def setPage (bpm : BufferPoolManager) (page : Nat) (p : Page) : BufferPoolManager :=
  { bpm with pages_ := fun i => if i = page then p else bpm.pages_ i }

/-- `page_table_[page_id] = frame_id`. -/
def setPageTable (bpm : BufferPoolManager) (page_id : page_id_t) (frame_id : frame_id_t) :
    BufferPoolManager :=
  { bpm with page_table_ := fun p => if p = page_id then some frame_id else bpm.page_table_ p }

/-- `AllocatePage`: `return next_page_id_++`. -/
def AllocatePage (bpm : BufferPoolManager) : page_id_t × BufferPoolManager :=
  (bpm.next_page_id_, { bpm with next_page_id_ := bpm.next_page_id_ + 1 })

/-- `NewPage`: the page object (or `nullptr`) together with `*page_id`. -/
def NewPage (h : Helpers) (bpm : BufferPoolManager) :
    Except BpmExn (Option (Nat × page_id_t) × BufferPoolManager) :=
  match h.GetFreeFrame bpm with
  | (none, bpm) => .ok (none, bpm)
  | (some frame_id, bpm) =>
    match h.GetPageByPageID bpm INVALID_PAGE_ID with
    | none => .error .free_list_is_not_empty_but_unable_to_find_free_page
    | some free_page =>
      let new_page_id := bpm.AllocatePage.1
      let bpm := bpm.AllocatePage.2
      let bpm := bpm.setPageTable new_page_id frame_id
      let bpm := bpm.setPage free_page
        { page_id_ := new_page_id, is_dirty_ := false, pin_count_ := 1 }
      let bpm := { bpm with
        replacer_ := (bpm.replacer_.RecordAccess frame_id).SetEvictable frame_id false }
      .ok (some (free_page, new_page_id), bpm)

/-- `FetchPage`.  For a resident page `page_table_[page_id]` is read with
`operator[]`, which inserts frame 0 for a missing key. -/
def FetchPage (h : Helpers) (bpm : BufferPoolManager) (page_id : page_id_t) :
    Except BpmExn (Option Nat × BufferPoolManager) :=
  match h.GetPageByPageID bpm page_id with
  | some page =>
    let bpm := bpm.setPage page
      { bpm.pages_ page with pin_count_ := (bpm.pages_ page).pin_count_ + 1 }
    let frame_id := (bpm.page_table_ page_id).getD 0
    let bpm := bpm.setPageTable page_id frame_id
    let bpm := { bpm with replacer_ := bpm.replacer_.RecordAccess frame_id }
    .ok (some page, bpm)
  | none =>
    match h.GetFreeFrame bpm with
    | (none, bpm) => .ok (none, bpm)
    | (some frame_id, bpm) =>
      match h.GetPageByPageID bpm INVALID_PAGE_ID with
      | none => .error .free_list_is_not_empty_but_unable_to_find_free_page
      | some free_page =>
        let bpm := bpm.setPageTable page_id frame_id
        let bpm := bpm.setPage free_page
          { page_id_ := page_id, is_dirty_ := false, pin_count_ := 1 }
        let bpm := { bpm with
          replacer_ := (bpm.replacer_.RecordAccess frame_id).SetEvictable frame_id false }
        .ok (some free_page, bpm)

/-- `UnpinPage`. -/
def UnpinPage (h : Helpers) (bpm : BufferPoolManager) (page_id : page_id_t) (is_dirty : Bool) :
    Bool × BufferPoolManager :=
  match h.GetPageByPageID bpm page_id with
  | none => (false, bpm)
  | some page =>
    if (bpm.pages_ page).pin_count_ = 0 then (false, bpm)
    else
      let bpm := bpm.setPage page
        { bpm.pages_ page with
          pin_count_ := (bpm.pages_ page).pin_count_ - 1,
          is_dirty_ := (bpm.pages_ page).is_dirty_ || is_dirty }
      if (bpm.pages_ page).pin_count_ = 0 then (true, h.MustEvictPage bpm page)
      else (false, bpm)

/-- `FlushPage`. -/
def FlushPage (h : Helpers) (bpm : BufferPoolManager) (page_id : page_id_t) :
    Bool × BufferPoolManager :=
  match h.GetPageByPageID bpm page_id with
  | none => (false, bpm)
  | some page =>
    let bpm := bpm.setPage page { bpm.pages_ page with pin_count_ := 0 }
    (true, h.MustEvictPage bpm page)

/-- The loop of `FlushAllPages` from frame `i` on, `n` frames left. -/
def FlushAllPagesLoop (h : Helpers) : Nat → Nat → BufferPoolManager → BufferPoolManager
  | 0, _, bpm => bpm
  | n + 1, i, bpm =>
    if (bpm.pages_ i).page_id_ = INVALID_PAGE_ID then FlushAllPagesLoop h n (i + 1) bpm
    else
      let bpm := bpm.setPage i { bpm.pages_ i with pin_count_ := 0 }
      FlushAllPagesLoop h n (i + 1) (h.MustEvictPage bpm i)

/-- `FlushAllPages`. -/
def FlushAllPages (h : Helpers) (bpm : BufferPoolManager) : BufferPoolManager :=
  FlushAllPagesLoop h bpm.pool_size_ 0 bpm

/-- `DeletePage`. -/
def DeletePage (h : Helpers) (bpm : BufferPoolManager) (page_id : page_id_t) :
    Bool × BufferPoolManager :=
  match h.GetPageByPageID bpm page_id with
  | none => (true, bpm)
  | some page =>
    if (bpm.pages_ page).pin_count_ > 0 then (false, bpm)
    else (true, h.DeallocatePage (h.MustEvictPage bpm page) page_id)

end BufferPoolManager

/-- `BasicPageGuard`: `bpm_` tells whether the pointer to the pool is set. -/
structure BasicPageGuard where
  bpm_ : Bool
  page_ : Option Nat
  is_dirty_ : Bool
  deriving DecidableEq

/-- `ReadPageGuard`. -/
structure ReadPageGuard where
  guard_ : BasicPageGuard
  deriving DecidableEq

/-- `WritePageGuard`. -/
structure WritePageGuard where
  guard_ : BasicPageGuard
  deriving DecidableEq

/-- The pool together with the `UnpinPage(page_id, is_dirty)` calls that guards
have made so far, the oldest first. -/
structure GuardWorld where
  bpm : BufferPoolManager
  unpins : List (page_id_t × Bool)

namespace BasicPageGuard

/-- Modelled from the spec: the default member initialisers of `BasicPageGuard`,
declared in `page_guard.h`, which is not among the sources.  A guard that was not
handed a page holds no pin and has no dirty bit accumulated (spec 4.E, "Basic:
holds a pin only. On drop: `unpin_page(pid, dirty_bit_accumulated)`"). -/
def empty : BasicPageGuard := { bpm_ := false, page_ := none, is_dirty_ := false }

/-- Modelled from the spec: the constructor `BasicPageGuard(bpm, page)`, declared
in `page_guard.h`, which is not among the sources: the guard of one pinned page
(spec 4.E, "holds a pin only"), no dirty bit accumulated. -/
def create (page : Option Nat) : BasicPageGuard :=
  { bpm_ := true, page_ := page, is_dirty_ := false }

/-- The move constructor: the new guard and the source as the call leaves it.
The members it does not assign keep their default initialisers. -/
def moveConstruct (that : BasicPageGuard) : BasicPageGuard × BasicPageGuard :=
  ({ empty with bpm_ := that.bpm_, page_ := that.page_ }, that)

/-- `Drop`; `none` when `page_->GetPageId()` dereferences a null `page_`. -/
def Drop (h : Helpers) (w : GuardWorld) (g : BasicPageGuard) :
    Option (GuardWorld × BasicPageGuard) :=
  if !g.bpm_ then some (w, g)
  else
    match g.page_ with
    | none => none
    | some page =>
      let page_id := (w.bpm.pages_ page).page_id_
      let r := w.bpm.UnpinPage h page_id g.is_dirty_
      some ({ bpm := r.2, unpins := w.unpins ++ [(page_id, g.is_dirty_)] },
            { g with bpm_ := false, page_ := none })

/-- The move assignment `this = std::move(that)`: the world, `this` and `that`
as the call leaves them. -/
def moveAssign (h : Helpers) (w : GuardWorld) (this that : BasicPageGuard) :
    Option (GuardWorld × BasicPageGuard × BasicPageGuard) :=
  match Drop h w this with
  | none => none
  | some (w, this) =>
    some (w,
      { bpm_ := that.bpm_, page_ := that.page_, is_dirty_ := this.is_dirty_ || that.is_dirty_ },
      { that with bpm_ := false, page_ := none })

/-- `UpgradeRead`: the read guard and the basic guard as the call leaves it.  The
constructor of `ReadPageGuard` move-assigns a fresh `BasicPageGuard(bpm, page)`
to its default-initialised `guard_`. -/
def UpgradeRead (g : BasicPageGuard) : ReadPageGuard × BasicPageGuard :=
  ({ guard_ := { bpm_ := g.bpm_, page_ := g.page_, is_dirty_ := empty.is_dirty_ || false } },
   { g with bpm_ := false, page_ := none })

/-- `UpgradeWrite`: `bpm_->FetchPageWrite(page_->GetPageId())`.  It yields the
write guard, the pool and the basic guard as the call leaves it; `none` when a
null pointer is dereferenced (`bpm_`, `page_`, or the page `FetchPage` did not
return). -/
def UpgradeWrite (h : Helpers) (bpm : BufferPoolManager) (g : BasicPageGuard) :
    Option (Except BpmExn (WritePageGuard × BufferPoolManager × BasicPageGuard)) :=
  if !g.bpm_ then none
  else
    match g.page_ with
    | none => none
    | some page =>
      match bpm.FetchPage h (bpm.pages_ page).page_id_ with
      | .error e => some (.error e)
      | .ok (none, _) => none
      | .ok (some fetched, bpm) =>
        let guard : BasicPageGuard :=
          { bpm_ := true, page_ := some fetched, is_dirty_ := empty.is_dirty_ || false }
        some (.ok ({ guard_ := guard }, bpm, g))

end BasicPageGuard

/-! ### The helpers as the specification describes them -/

namespace BufferPoolManager

/-- The first frame below `n` frames from `i` on whose page has the id `page_id`. -/
def findPage (bpm : BufferPoolManager) (page_id : page_id_t) : Nat → Nat → Option Nat
  | 0, _ => none
  | n + 1, i =>
    if (bpm.pages_ i).page_id_ = page_id then some i else findPage bpm page_id n (i + 1)

/-- Modelled from the spec: `GetPageByPageID`, declared in
`buffer_pool_manager.h`, which is not among the sources.  "A frame holds at most
one page; `page_id == INVALID` iff the frame is free": the frame whose page id
is `page_id`, if there is one. -/
def specGetPageByPageID (bpm : BufferPoolManager) (page_id : page_id_t) : Option Nat :=
  bpm.findPage page_id bpm.pool_size_ 0

/-- Modelled from the spec: the forced eviction `MustEvictPage`, declared in
`buffer_pool_manager.h`, which is not among the sources.  "Erase it from the page
table and reset its metadata. The victim's replacer node is removed"; the frame
goes back to the free list. -/
def specMustEvictPage (bpm : BufferPoolManager) (page : Nat) : BufferPoolManager :=
  { bpm with
    page_table_ := fun p => if p = (bpm.pages_ page).page_id_ then none else bpm.page_table_ p,
    pages_ := fun i =>
      if i = page then { page_id_ := INVALID_PAGE_ID, is_dirty_ := false, pin_count_ := 0 }
      else bpm.pages_ i,
    free_list_ := bpm.free_list_ ++ [(page : Int)],
    replacer_ :=
      ((bpm.replacer_.SetEvictable page true).RemoveTrace page).2 }

/-- Modelled from the spec: `GetFreeFrame`, declared in `buffer_pool_manager.h`,
which is not among the sources.  "Find a frame (free list first, else evict via
replacer)"; "when no free frame exists, call `replacer.evict()`; if it returns
`None`, the whole operation fails. Otherwise ... erase it from the page table
and reset its metadata." -/
def specGetFreeFrame (bpm : BufferPoolManager) : Option frame_id_t × BufferPoolManager :=
  match bpm.free_list_ with
  | frame_id :: rest => (some frame_id, { bpm with free_list_ := rest })
  | [] =>
    match bpm.replacer_.Evict with
    | (none, _) => (none, bpm)
    | (some frame_id, replacer) =>
      (some frame_id,
       { bpm with
         replacer_ := replacer,
         page_table_ := fun p =>
           if p = (bpm.pages_ frame_id.toNat).page_id_ then none else bpm.page_table_ p,
         pages_ := fun i =>
           if i = frame_id.toNat then
             { page_id_ := INVALID_PAGE_ID, is_dirty_ := false, pin_count_ := 0 }
           else bpm.pages_ i })

/-- Modelled from the spec: `DeallocatePage`, declared in `buffer_pool_manager.h`,
which is not among the sources.  "`delete_page` frees the frame but not the id":
nothing is recycled. -/
def specDeallocatePage (bpm : BufferPoolManager) (_page_id : page_id_t) : BufferPoolManager := bpm

/-- The helpers as the specification describes them. -/
def specHelpers : Helpers :=
  { GetPageByPageID := specGetPageByPageID,
    GetFreeFrame := specGetFreeFrame,
    MustEvictPage := specMustEvictPage,
    DeallocatePage := specDeallocatePage }

/-- The constructor: every page object is default-initialised and every frame is
in the free list. -/
def create (pool_size replacer_k : Nat) : BufferPoolManager :=
  { pool_size_ := pool_size,
    pages_ := fun _ => { page_id_ := INVALID_PAGE_ID, is_dirty_ := false, pin_count_ := 0 },
    page_table_ := fun _ => none,
    free_list_ := (List.range pool_size).map (fun i => (i : Int)),
    replacer_ := LRUKReplacer.create pool_size replacer_k,
    next_page_id_ := 0 }

/-- The pool a call left behind (`bpm` when it threw). -/
def next {α : Type} (r : Except BpmExn (α × BufferPoolManager)) (bpm : BufferPoolManager) :
    BufferPoolManager :=
  match r with
  | .ok x => x.2
  | .error _ => bpm

/-- A pool of two frames after `NewPage`, which hands out page 0 with pin count 1. -/
def pinnedOnce : BufferPoolManager :=
  next ((create 2 2).NewPage specHelpers) (create 2 2)

/-- The pool `pinnedOnce` after `FetchPage(0)`: page 0 has pin count 2. -/
def pinnedTwice : BufferPoolManager :=
  next (pinnedOnce.FetchPage specHelpers 0) pinnedOnce

/-- The page object at index `page` with its pin count replaced. -/
def setPinCount (bpm : BufferPoolManager) (page : Nat) (pin_count : Int) : BufferPoolManager :=
  bpm.setPage page { bpm.pages_ page with pin_count_ := pin_count }

end BufferPoolManager

namespace BasicPageGuard

/-- The pool `pinnedTwice` before any guard has unpinned a page. -/
def worldTwice : GuardWorld := { bpm := BufferPoolManager.pinnedTwice, unpins := [] }

/-- A guard of the page object 0 whose dirty flag is set. -/
def dirtyGuard : BasicPageGuard := { create (some 0) with is_dirty_ := true }

end BasicPageGuard


/-! ## The calls of `DecrLocalDepth` that `Remove` makes -/

namespace DiskExtendibleHashTable

open ExtendibleHTableDirectoryPage

/-- The calls of `DecrLocalDepth` that the merge loop of `Remove` makes, in
order: each entry is the directory page at the moment of the call and the slot
passed to it. The function follows `MergeLoop` branch by branch. -/
def MergeLoopDecrCalls (directory_page_id : page_id_t) (hashed_key : Nat) :
    Nat → DiskExtendibleHashTable → page_id_t → Nat →
      List (ExtendibleHTableDirectoryPage × Nat)
  | 0, _, _, _ => []
  | fuel + 1, t, bucket_page_id, bucket_index =>
    let bucket_page := t.bucket_pages bucket_page_id
    let directory_page := t.directory_pages directory_page_id
    if bucket_page.IsEmpty && decide (directory_page.GetGlobalDepth > 0) then
      match directory_page.GetSplitImageIndex bucket_index with
      | .error _ => []
      | .ok split_image_bucket_index =>
        let split_image_page_id := directory_page.GetBucketPageId split_image_bucket_index
        if split_image_page_id = bucket_page_id then []
        else
          let split_image_bucket_page := t.bucket_pages split_image_page_id
          if !split_image_bucket_page.IsEmpty ||
              directory_page.GetLocalDepth bucket_index !=
                directory_page.GetLocalDepth split_image_bucket_index then
            []
          else
            let directory_page1 := directory_page.SetBucketPageId split_image_bucket_index
              (directory_page.GetBucketPageId bucket_index)
            let directory_page2 := directory_page1.DecrLocalDepth bucket_index
            let directory_page3 := directory_page2.DecrLocalDepth split_image_bucket_index
            (directory_page1, bucket_index) :: (directory_page2, split_image_bucket_index) ::
              match (if directory_page3.CanShrink then directory_page3.DecrGlobalDepth
                     else .ok directory_page3) with
              | .error _ => []
              | .ok directory_page =>
                let t := t.setDirectory directory_page_id directory_page
                let bucket_index := directory_page.HashToBucketIndex hashed_key
                MergeLoopDecrCalls directory_page_id hashed_key fuel t
                  (directory_page.GetBucketPageId bucket_index) bucket_index
    else []

/-- The calls of `DecrLocalDepth` made by `Remove(key)`; it follows `Remove` up
to the merge loop. -/
def RemoveDecrCalls (t : DiskExtendibleHashTable) (key : KeyType) :
    List (ExtendibleHTableDirectoryPage × Nat) :=
  let hashed_key := t.Hash key
  let directory_index := t.header_page.HashToDirectoryIndex hashed_key
  if !t.header_page.IsInit directory_index then []
  else
    let directory_page_id := t.header_page.GetDirectoryPageId directory_index
    let directory_page := t.directory_pages directory_page_id
    let bucket_index := directory_page.HashToBucketIndex hashed_key
    if directory_page.GetBucketPageId bucket_index = INVALID_PAGE_ID then []
    else
      let bucket_page_id := directory_page.GetBucketPageId bucket_index
      let r := (t.bucket_pages bucket_page_id).Remove key
      let t := t.setBucket bucket_page_id r.2
      MergeLoopDecrCalls directory_page_id hashed_key (directory_page.GetGlobalDepth + 2) t
        bucket_page_id bucket_index

end DiskExtendibleHashTable

namespace ExtendibleHTableBucketPage

/-- A bucket page in a reused frame: it still holds the entry `(5, 50)` of its
previous use. -/
def usedBucketPage : ExtendibleHTableBucketPage :=
  { size_ := 1, max_size_ := 1, array_ := fun i => if i = 0 then (5, 50) else (0, 0) }

end ExtendibleHTableBucketPage

/-! ## Copy-on-write trie (`src/primer/trie.cpp`)

Nodes live in a heap and are named by their addresses, so that the sharing of
nodes between a trie and the tries made from it is part of the model: `Put` and
`Remove` allocate nodes and write into nodes, and what they leave of the old
trie is a statement about the heap. A `std::shared_ptr` is an `Option` of an
address, `none` being the null pointer. Nodes are never freed. -/

/-- A stored value together with the type `T` it was stored under, which is what
`dynamic_cast<const TrieNodeWithValue<T> *>` tests. -/
structure TrieValue where
  type_ : Nat
  value_ : Int
  deriving DecidableEq, Repr

/-- Modelled from the spec: `primer/trie.h` is not among the sources; as
`trie.cpp` uses them, `TrieNode` has the member
`std::map<char, std::shared_ptr<const TrieNode>> children_` and the flag
`is_value_node_`, and `TrieNodeWithValue<T>` is a `TrieNode` with the flag set
and the member `value_`. The map is a list of its entries; `value_` is `some` on
a `TrieNodeWithValue`. -/
structure TrieNode where
  children_ : List (Char × Option Nat)
  value_ : Option TrieValue
  deriving DecidableEq, Repr

namespace TrieNode

/-- `TrieNode()`. -/
def empty : TrieNode := { children_ := [], value_ := none }

def is_value_node_ (n : TrieNode) : Bool := n.value_.isSome

/-- Modelled from the spec: `Clone` is declared in `primer/trie.h`; the virtual
`Clone` copies `children_`, and on a `TrieNodeWithValue` also `value_`. -/
def Clone (n : TrieNode) : TrieNode := n

/-- `children_.find(c)`: `none` when the map has no entry for `c`, `some none`
when the entry is a null pointer. -/
def find (n : TrieNode) (c : Char) : Option (Option Nat) := n.children_.lookup c

/-- `children_.erase(c)`. -/
def erase (n : TrieNode) (c : Char) : TrieNode :=
  { n with children_ := n.children_.filter (fun e => e.1 != c) }

/-- `children_[c] = p`. -/
def set (n : TrieNode) (c : Char) (p : Option Nat) : TrieNode :=
  { n with children_ := (c, p) :: n.children_.filter (fun e => e.1 != c) }

/-- Every pointer stored in the node is an address below `n`. -/
def PointsBelow (node : TrieNode) (n : Nat) : Prop :=
  ∀ (c : Char) (b : Nat), node.find c = some (some b) → b < n

end TrieNode

/-- The memory that holds the nodes: `nodes a` is the node at address `a`, and
the addresses below `next` are allocated. -/
structure TrieHeap where
  nodes : Nat → TrieNode
  next : Nat

namespace TrieHeap

def empty : TrieHeap := { nodes := fun _ => TrieNode.empty, next := 0 }

/-- `std::make_shared`: the node gets the next address. -/
def alloc (h : TrieHeap) (n : TrieNode) : TrieHeap × Nat :=
  ({ nodes := fun a => if a = h.next then n else h.nodes a, next := h.next + 1 }, h.next)

/-- `node->children_[c] = p`. -/
def setChild (h : TrieHeap) (node : Nat) (c : Char) (p : Option Nat) : TrieHeap :=
  { h with nodes := fun a => if a = node then (h.nodes node).set c p else h.nodes a }

/-- `node->children_.erase(c)`. -/
def eraseChild (h : TrieHeap) (node : Nat) (c : Char) : TrieHeap :=
  { h with nodes := fun a => if a = node then (h.nodes node).erase c else h.nodes a }

/-- Every pointer stored in an allocated node is an allocated address. -/
def Closed (h : TrieHeap) : Prop :=
  ∀ a < h.next, (h.nodes a).PointsBelow h.next

/-- No allocated node has a map entry that is a null pointer. -/
def NoNullEntries (h : TrieHeap) : Prop :=
  ∀ a < h.next, ∀ c : Char, (h.nodes a).find c ≠ some none

end TrieHeap

/-- How a call of `Get` ends: with a pointer to the value, with `nullptr`, or in
the dereference of a null `node`. -/
inductive GetResult where
  | value : Int → GetResult
  | nullptr : GetResult
  | null_dereference : GetResult
  deriving DecidableEq, Repr

structure Trie where
  root_ : Option Nat
  deriving DecidableEq, Repr

namespace Trie

/-- `Trie()`. -/
def empty : Trie := { root_ := none }

/-- The root of the trie is an allocated address. -/
def In (t : Trie) (h : TrieHeap) : Prop := ∀ r, t.root_ = some r → r < h.next

/-- The loop `for (auto c : key) node = node->children_.at(c)` of `Get` and the
cast after it, from the pointer `node`: `at` throws on a missing entry, which
the `catch` turns into `nullptr`; an entry that is a null pointer is followed,
and the next step dereferences it. -/
def GetLoop (h : TrieHeap) (T : Nat) : Option Nat → List Char → GetResult
  | node, [] =>
    match node with
    | none => .nullptr
    | some a =>
      match (h.nodes a).value_ with
      | none => .nullptr
      | some v => if v.type_ = T then .value v.value_ else .nullptr
  | node, c :: key =>
    match node with
    | none => .null_dereference
    | some a =>
      match (h.nodes a).find c with
      | none => .nullptr
      | some child => GetLoop h T child key

/-- `Get<T>(key)`. -/
def Get (t : Trie) (h : TrieHeap) (T : Nat) (key : List Char) : GetResult :=
  match t.root_ with
  | none => .nullptr
  | some r => GetLoop h T (some r) key

/-- The node that one iteration of the loop of `Put` makes for the child
`child` of the current node (`none` when `node->children_[c] == nullptr`);
`last` is `i == key.length() - 1`. -/
def PutNode (h : TrieHeap) (child : Option Nat) (last : Bool) (T : Nat) (value : Int) :
    TrieNode :=
  match child with
  | none =>
    if last then { children_ := [], value_ := some ⟨T, value⟩ }
    else TrieNode.empty
  | some ch =>
    if last then { children_ := (h.nodes ch).children_, value_ := some ⟨T, value⟩ }
    else (h.nodes ch).Clone

/-- The loop `for (i = 0; i < key.length(); i++)` of `Put` from the node `node`
with the rest of the key. `node->children_[c]` makes a null entry where the map
has none, and the assignment that follows in every branch overwrites it. -/
def PutLoop (T : Nat) (value : Int) : TrieHeap → Nat → List Char → TrieHeap
  | h, _, [] => h
  | h, node, c :: key =>
    let child := ((h.nodes node).find c).join
    let r := h.alloc (PutNode h child key.isEmpty T value)
    PutLoop T value (r.1.setChild node c (some r.2)) r.2 key

/-- `Put<T>(key, value)`: the heap after the call and the trie it returns. -/
def Put (t : Trie) (h : TrieHeap) (key : List Char) (T : Nat) (value : Int) : TrieHeap × Trie :=
  let r0 := h.alloc TrieNode.empty
  let r := match t.root_ with
    | some root => r0.1.alloc (r0.1.nodes root).Clone
    | none => r0
  if key.isEmpty then
    let r1 := r.1.alloc { children_ := (r.1.nodes r.2).children_, value_ := some ⟨T, value⟩ }
    (r1.1, { root_ := some r1.2 })
  else (PutLoop T value r.1 r.2 key, { root_ := some r.2 })

/-- The loop `for (size_t j = i; j >= 0; j--)` of `Remove`: `keys` are
`key[j], key[j-1], .., key[0]` and `v` is the vector with its back first. The
loop ends at `j == 0`; `v` holds `i + 1` nodes when it starts, so the last case
is never met. -/
def CleanupLoop (trie : Trie) : TrieHeap → Nat → List Char → List Nat → TrieHeap × Trie
  | h, node, cc :: keys, n :: v =>
    if (h.nodes node).children_.isEmpty && !(h.nodes node).is_value_node_ then
      let h := h.eraseChild n cc
      if keys.isEmpty then
        match trie.root_ with
        | some root =>
          if !(h.nodes root).is_value_node_ && (h.nodes root).children_.isEmpty then
            (h, { root_ := none })
          else (h, trie)
        | none => (h, trie)
      else CleanupLoop trie h n keys v
    else (h, trie)
  | h, _, _, _ => (h, trie)

/-- The loop `for (i = 0; i < key.size(); i++)` of `Remove` from the node
`node` with the rest of the key; `done` are the characters already passed, last
first, and `v` is the vector with its back first. `node->children_[c]` makes a
null entry where the map has none, and the `return` that follows leaves it. -/
def RemoveLoop (trie : Trie) :
    TrieHeap → List Nat → List Char → Nat → List Char → TrieHeap × Trie
  | h, _, _, _, [] => (h, trie)
  | h, v, done, node, c :: key =>
    match (h.nodes node).find c with
    | none => (h.setChild node c none, trie)
    | some none => (h, trie)
    | some (some child) =>
      if key.isEmpty then
        if (h.nodes child).children_.isEmpty then
          CleanupLoop trie (h.eraseChild node c) node (c :: done) v
        else
          let r := h.alloc { children_ := (h.nodes child).children_, value_ := none }
          RemoveLoop trie (r.1.setChild node c (some r.2)) (r.2 :: v) (c :: done) r.2 key
      else
        let r := h.alloc (h.nodes child).Clone
        RemoveLoop trie (r.1.setChild node c (some r.2)) (r.2 :: v) (c :: done) r.2 key

/-- `Remove(key)`: the heap after the call and the trie it returns. -/
def Remove (t : Trie) (h : TrieHeap) (key : List Char) : TrieHeap × Trie :=
  let r0 := h.alloc TrieNode.empty
  match t.root_ with
  | some root =>
    let r := r0.1.alloc (r0.1.nodes root).Clone
    if key.isEmpty then
      let r1 := r.1.alloc { children_ := (r.1.nodes root).children_, value_ := none }
      (r1.1, { root_ := some r1.2 })
    else RemoveLoop { root_ := some r.2 } r.1 [r.2] [] r.2 key
  | none => RemoveLoop { root_ := some r0.2 } r0.1 [r0.2] [] r0.2 key

/-- The node at the root of a trie, if it has one. -/
def rootNode (t : Trie) (h : TrieHeap) : Option TrieNode := t.root_.map h.nodes

/-- The trie `Trie().Put("", 1)` and its heap. -/
def onlyEmptyKey : TrieHeap × Trie := empty.Put TrieHeap.empty [] 0 1

/-- The trie `Trie().Remove("a")` and its heap. -/
def nullEntry : TrieHeap × Trie := empty.Remove TrieHeap.empty ['a']

/-- The trie `Trie().Put("ab", 1).Put("a", 2)` and its heap. -/
def twoKeys : TrieHeap × Trie :=
  (empty.Put TrieHeap.empty ['a', 'b'] 0 1).2.Put
    (empty.Put TrieHeap.empty ['a', 'b'] 0 1).1 ['a'] 0 2

end Trie

/-! ## OR-set (`src/primer/orset.cpp`, `src/include/primer/orset.h`)

An `std::unordered_set` is the list of its elements in iteration order, without
duplicates. Erasing an element and copying a set keep the order of the other
elements; only the place of a new element is open. `uid_t` is `int64_t`, on
which the code only tests equality. -/

abbrev uid_t := Int

/-- Where `std::unordered_set::insert` puts a new element in the iteration order.
The C++ standard leaves that to the library (it depends on the hash values and
on the number of buckets), so the embedding takes it as a parameter: `place a l`
is the iteration order after the insertion of `a` into a set that iterates as
`l`; it lists `a` and the elements of `l`. -/
structure InsertOrder (α : Type) where
  place : α → List α → List α
  perm : ∀ (a : α) (l : List α), (place a l).Perm (a :: l)

namespace InsertOrder

/-- The new element is iterated first. This is what libstdc++ does with an
element whose bucket is empty: the node is linked at the head of the list of all
nodes. -/
def front (α : Type) : InsertOrder α :=
  { place := fun a l => a :: l, perm := fun _ _ => List.Perm.refl _ }

end InsertOrder

namespace unordered_set

variable {α : Type} [DecidableEq α]

/-- `insert`: no effect when the element is present. -/
def insert (P : InsertOrder α) (a : α) (l : List α) : List α :=
  if a ∈ l then l else P.place a l

/-- `erase`: the other elements keep their order. -/
def erase (a : α) (l : List α) : List α :=
  l.filter (fun x => decide (x ≠ a))

end unordered_set

structure ORSet (T : Type) where
  elements : List (T × uid_t)
  tombstone : List (T × uid_t)

namespace ORSet

variable {T : Type} [DecidableEq T]

/-- `ORSet() = default`: both sets empty. -/
def empty : ORSet T := { elements := [], tombstone := [] }

/-- `Contains`: some pair of `elements` has `elem` as its first component. -/
def Contains (s : ORSet T) (elem : T) : Bool :=
  s.elements.any (fun p => decide (p.1 = elem))

/-- `Add`: the pair goes into `elements`; `tombstone` is not consulted. -/
def Add (P : InsertOrder (T × uid_t)) (s : ORSet T) (elem : T) (uid : uid_t) : ORSet T :=
  { s with elements := unordered_set.insert P (elem, uid) s.elements }

/-- `Remove`: the first loop inserts every pair of `elements` with first
component `elem` into `tombstone` and collects it in `to_delete`; the second
loop erases the pairs of `to_delete` from `elements`. -/
def Remove (P : InsertOrder (T × uid_t)) (s : ORSet T) (elem : T) : ORSet T :=
  let to_delete := s.elements.filter (fun p => decide (p.1 = elem))
  { elements := to_delete.foldl (fun acc p => unordered_set.erase p acc) s.elements,
    tombstone := to_delete.foldl (fun acc p => unordered_set.insert P p acc) s.tombstone }

/-- `Merge`, loop by loop: `s1` is a copy of `other.elements` from which the
pairs of `this->tombstone` are erased; the pairs of `other.tombstone` are erased
from `elements`; the pairs of `s1` are inserted into `elements`; the pairs of
`other.tombstone` are inserted into `tombstone`. When `other` is the object
itself the loops compute the same: `s1` is a copy made first, and the last loop
inserts pairs that are present, which changes nothing. -/
def Merge (P : InsertOrder (T × uid_t)) (s other : ORSet T) : ORSet T :=
  let s1 := s.tombstone.foldl (fun acc p => unordered_set.erase p acc) other.elements
  let elements := other.tombstone.foldl (fun acc p => unordered_set.erase p acc) s.elements
  let elements := s1.foldl (fun acc p => unordered_set.insert P p acc) elements
  { elements := elements,
    tombstone := other.tombstone.foldl (fun acc p => unordered_set.insert P p acc) s.tombstone }

/-- `Elements`: the first components of `elements` are inserted into the
`std::unordered_set<T> deduped` in the iteration order of `elements`, and the
result vector lists `deduped` in its iteration order. -/
def Elements (Q : InsertOrder T) (s : ORSet T) : List T :=
  s.elements.foldl (fun acc p => unordered_set.insert Q p.1 acc) []

/-- The vector that `ToString` formats: `Elements()` after `std::sort`. -/
def SortedElements [LinearOrder T] (Q : InsertOrder T) (s : ORSet T) : List T :=
  (s.Elements Q).insertionSort (fun a b => a ≤ b)

/-- The OR-sets built from the empty set by `Add`, `Remove` and `Merge`, where
the uid of an `Add` is unique: the pair `(elem, uid)` has not been added before
on any replica, so in particular it is not among the removed pairs of `s`. -/
inductive Built (P : InsertOrder (T × uid_t)) : ORSet T → Prop where
  | empty : Built P empty
  | add {s : ORSet T} (elem : T) (uid : uid_t) :
      Built P s → (elem, uid) ∉ s.tombstone → Built P (s.Add P elem uid)
  | remove {s : ORSet T} (elem : T) : Built P s → Built P (s.Remove P elem)
  | merge {s other : ORSet T} : Built P s → Built P other → Built P (s.Merge P other)

/-- What every built OR-set satisfies: the two lists have no duplicates, and no
pair is both live and removed. -/
structure Inv (s : ORSet T) : Prop where
  elements_nodup : s.elements.Nodup
  tombstone_nodup : s.tombstone.Nodup
  disjoint : ∀ p ∈ s.elements, p ∉ s.tombstone

/-- Replica `A` of the example: `Add(1, 10)`, `Remove(1)`, `Add(2, 11)`. -/
def exampleA : ORSet Int :=
  ((empty.Add (InsertOrder.front _) 1 10).Remove (InsertOrder.front _) 1).Add
    (InsertOrder.front _) 2 11

/-- Replica `B` of the example: `Add(1, 12)`, `Add(3, 13)`. -/
def exampleB : ORSet Int :=
  (empty.Add (InsertOrder.front _) 1 12).Add (InsertOrder.front _) 3 13

/-- The replica with the single call `Add(1, 10)`. -/
def onlyOne : ORSet Int := empty.Add (InsertOrder.front _) 1 10

/-- The replica with the single call `Add(2, 11)`. -/
def onlyTwo : ORSet Int := empty.Add (InsertOrder.front _) 2 11

end ORSet
/-! ## Basic facts about outcomes and runs -/

namespace DiskExtendibleHashTable

theorem eq_returns_of_flag {o : Outcome (Bool × DiskExtendibleHashTable)} {b : Bool}
    (t : DiskExtendibleHashTable) (h : flag o = some b) : o = .returns (b, next o t) := by
  cases o with
  | returns r =>
    obtain ⟨r1, r2⟩ := r
    simp [flag, Outcome.toOption] at h
    simp [next, h]
  | throws e => simp [flag, Outcome.toOption] at h
  | blocks => simp [flag, Outcome.toOption] at h
  | spins => simp [flag, Outcome.toOption] at h

theorem reachable_run {hash_fn : KeyType → Nat} {hmd dmd bms : Nat} (ops : List Op) :
    ∀ {t t' : DiskExtendibleHashTable}, Reachable hash_fn hmd dmd bms t → run t ops = some t' →
      Reachable hash_fn hmd dmd bms t' := by
  induction ops with
  | nil =>
    intro t t' ht h
    simp [run] at h
    exact h ▸ ht
  | cons op ops ih =>
    intro t t' ht h
    cases op with
    | insert key value =>
      simp only [run] at h
      cases hi : t.Insert key value with
      | returns r =>
        rw [hi] at h
        exact ih (@Reachable.insert _ _ _ _ t r.2 key value r.1 ht (by rw [hi])) h
      | throws e => rw [hi] at h; simp at h
      | blocks => rw [hi] at h; simp at h
      | spins => rw [hi] at h; simp at h
    | remove key =>
      simp only [run] at h
      cases hi : t.Remove key with
      | returns r =>
        rw [hi] at h
        exact ih (@Reachable.remove _ _ _ _ t r.2 key r.1 ht (by rw [hi])) h
      | throws e => rw [hi] at h; simp at h
      | blocks => rw [hi] at h; simp at h
      | spins => rw [hi] at h; simp at h

theorem reachable_after {hash_fn : KeyType → Nat} {hmd dmd bms : Nat} (ops : List Op)
    (h : (run (create hash_fn hmd dmd bms) ops).isSome = true) :
    Reachable hash_fn hmd dmd bms (after hash_fn hmd dmd bms ops) := by
  apply reachable_run ops Reachable.fresh
  unfold after
  cases hr : run (create hash_fn hmd dmd bms) ops with
  | none => rw [hr] at h; simp at h
  | some t => simp

theorem eq_blocks_of_isBlocks {α : Type} {o : Outcome α} (h : o.isBlocks = true) :
    o = .blocks := by
  cases o <;> simp [Outcome.isBlocks] at h ⊢

theorem eq_throws_of_toExn {α : Type} {o : Outcome α} {e : Exn}
    (h : (match o with | .throws e' => some e' | _ => none) = some e) : o = .throws e := by
  cases o <;> simp at h ⊢
  exact h

end DiskExtendibleHashTable

/-! ## The index: scenarios on which the code leaves the contract -/

namespace DiskExtendibleHashTable

set_option maxRecDepth 100000

/-- C2: with `bucket_max_size = 1` and `directory_max_depth = 3`, after the inserts
of 0, 1, 4 the key 1 is found; `Insert(3)` then splits the bucket of slot 3,
whose local depth 1 is two below the global depth 3, returns true, and key 1 is
no longer found. -/
theorem C2_insert_loses_other_key :
    ∃ t t' : DiskExtendibleHashTable,
      Reachable identityHash 0 3 1 t ∧
      (t.directoryOf 3).GetLocalDepth (t.bucketIndexOf 3) + 2 = (t.directoryOf 3).GetGlobalDepth ∧
      t.GetValue 1 [] = (true, [101]) ∧
      t.Insert 3 103 = .returns (true, t') ∧
      t'.GetValue 1 [] = (false, []) := by
  refine ⟨after identityHash 0 3 1 [.insert 0 100, .insert 1 101, .insert 4 104],
    next ((after identityHash 0 3 1 [.insert 0 100, .insert 1 101, .insert 4 104]).Insert 3 103)
      (create identityHash 0 3 1), reachable_after _ (by decide), by decide, by decide, ?_,
    by decide⟩
  exact eq_returns_of_flag _ (by decide)

/-- C3: with `bucket_max_size = 1` and `directory_max_depth = 1`, after the
inserts of 0 and 1 the key 0 is stored with value 100, its bucket is full and
the directory is at its maximum depth; `Insert(0, 200)` does not return false,
it throws out of `IncrGlobalDepth`. -/
theorem C3_duplicate_insert_throws :
    ∃ t : DiskExtendibleHashTable,
      Reachable identityHash 0 1 1 t ∧
      t.GetValue 0 [] = (true, [100]) ∧
      (t.bucketOf 0).IsFull = true ∧
      (t.directoryOf 0).GetGlobalDepth = t.directory_max_depth_ ∧
      t.Insert 0 200 = .throws .global_depth_equals_to_max_depth := by
  refine ⟨after identityHash 0 1 1 [.insert 0 100, .insert 1 101],
    reachable_after _ (by decide), by decide, by decide, by decide, ?_⟩
  exact eq_throws_of_toExn (by decide)

/-- C4: with `bucket_max_size = 1` and `directory_max_depth = 2`, after the
inserts of 0, 1, 2 the key 1 is stored, and `Remove(1)` never returns: the slot
that `GetSplitImageIndex` yields holds the page whose writer latch the call
already holds. -/
theorem C4_remove_of_stored_key_blocks :
    ∃ t : DiskExtendibleHashTable,
      Reachable identityHash 0 2 1 t ∧
      t.GetValue 1 [] = (true, [101]) ∧
      t.Remove 1 = .blocks := by
  refine ⟨after identityHash 0 2 1 [.insert 0 100, .insert 1 101, .insert 2 102],
    reachable_after _ (by decide), by decide, ?_⟩
  exact eq_blocks_of_isBlocks (by decide)

/-- C5: with `bucket_max_size = 1` and `directory_max_depth = 3` there is a
reachable table in which key 3 is not stored and `Remove(3)` returns false but
merges two buckets and shrinks the directory from global depth 3 to 2; in
another reachable table (`directory_max_depth = 2`) `Remove(1)` of the absent key
1 never returns. -/
theorem C5_remove_of_absent_key_changes_table :
    (∃ t t' : DiskExtendibleHashTable,
      Reachable identityHash 0 3 1 t ∧
      t.GetValue 3 [] = (false, []) ∧
      t.Remove 3 = .returns (false, t') ∧
      (t.directoryOf 3).GetGlobalDepth = 3 ∧
      (t'.directoryOf 3).GetGlobalDepth = 2) ∧
    (∃ t : DiskExtendibleHashTable,
      Reachable identityHash 0 2 1 t ∧
      t.GetValue 1 [] = (false, []) ∧
      t.Remove 1 = .blocks) := by
  refine ⟨⟨after identityHash 0 3 1 scenarioC5,
    next ((after identityHash 0 3 1 scenarioC5).Remove 3) (create identityHash 0 3 1),
    reachable_after _ (by decide), by decide, ?_, by decide, by decide⟩,
    ⟨after identityHash 0 2 1 [.insert 0 100, .insert 2 102],
      reachable_after _ (by decide), by decide, ?_⟩⟩
  · exact eq_returns_of_flag _ (by decide)
  · exact eq_blocks_of_isBlocks (by decide)

/-- C6, as stated, fails: with `bucket_max_size = 1` and `directory_max_depth = 1`,
after the inserts of 0 and 1 the new key 2 is routed to a full bucket whose local
depth equals the global depth, which equals the maximum depth, and `Insert(2)`
throws instead of returning false. -/
theorem C6_insert_at_limit_does_not_return_false :
    ∃ t : DiskExtendibleHashTable,
      Reachable identityHash 0 1 1 t ∧
      t.GetValue 2 [] = (false, []) ∧
      (t.bucketOf 2).IsFull = true ∧
      (t.directoryOf 2).GetLocalDepth (t.bucketIndexOf 2) = (t.directoryOf 2).GetGlobalDepth ∧
      (t.directoryOf 2).GetGlobalDepth = t.directory_max_depth_ ∧
      flag (t.Insert 2 102) ≠ some false := by
  exact ⟨after identityHash 0 1 1 [.insert 0 100, .insert 1 101],
    reachable_after _ (by decide), by decide, by decide, by decide, by decide, by decide⟩

/-- C6, amended: when a new key (one that `GetValue` does not find) is routed to
an existing bucket that is full, whose local depth equals the global depth, and
the global depth equals the maximum depth of the directory page, `Insert` throws
the exception of `IncrGlobalDepth` (it does not return false, and it does not
loop). -/
theorem C6_insert_at_limit_throws (t : DiskExtendibleHashTable) (key : KeyType)
    (value : ValueType)
    (_hnew : t.GetValue key [] = (false, []))
    (hinit : t.header_page.IsInit (t.header_page.HashToDirectoryIndex (t.Hash key)) = true)
    (hvalid : (t.directoryOf key).GetBucketPageId (t.bucketIndexOf key) ≠ INVALID_PAGE_ID)
    (hfull : (t.bucketOf key).IsFull = true)
    (hld : (t.directoryOf key).GetLocalDepth (t.bucketIndexOf key) =
      (t.directoryOf key).GetGlobalDepth)
    (hmax : (t.directoryOf key).GetGlobalDepth = (t.directoryOf key).max_depth_) :
    t.Insert key value = .throws .global_depth_equals_to_max_depth := by
  unfold bucketOf bucketIndexOf directoryOf at *
  unfold Insert InsertDirectory InsertBucket
  simp only [hinit, Bool.not_true, Bool.false_eq_true, if_false, hvalid]
  rw [show t.SplitFuel = 257 * (t.directory_max_depth_ + 1) + 1 from rfl, SplitLoop]
  simp only [hfull, if_true, hld, ExtendibleHTableDirectoryPage.IncrGlobalDepth]
  simp only [ExtendibleHTableDirectoryPage.GetGlobalDepth] at hmax
  simp [hmax]

theorem C6_insert_at_limit_throws_witness :
    (Reachable identityHash 0 1 1 (after identityHash 0 1 1 [.insert 0 100, .insert 1 101]) ∧
      (after identityHash 0 1 1 [.insert 0 100, .insert 1 101]).GetValue 2 [] = (false, [])) ∧
    (after identityHash 0 1 1 [.insert 0 100, .insert 1 101]).Insert 2 102 =
      .throws .global_depth_equals_to_max_depth :=
  ⟨⟨reachable_after _ (by decide), by decide⟩,
   C6_insert_at_limit_throws (after identityHash 0 1 1 [.insert 0 100, .insert 1 101]) 2 102
    (by decide) (by decide) (by decide) (by decide) (by decide) (by decide)⟩

/-- C7: in the scenario `bucket_max_size = 2`, `header_max_depth = 1`,
`directory_max_depth = 4`, hash = key, the inserts of 0..7 and the removes of
0..5 all return true, the directory then has global depth 2, and `Remove(6)`
never returns. -/
theorem C7_grow_then_shrink_blocks :
    flags (create identityHash 1 4 2) scenarioC7 = List.replicate 14 (some true) ∧
    ((after identityHash 1 4 2 scenarioC7).directoryOf 6).GetGlobalDepth = 2 ∧
    (after identityHash 1 4 2 scenarioC7).GetValue 6 [] = (true, [6]) ∧
    (after identityHash 1 4 2 scenarioC7).Remove 6 = .blocks := by
  refine ⟨by decide, by decide, by decide, ?_⟩
  exact eq_blocks_of_isBlocks (by decide)

/-- C8, as stated, fails: with `bucket_max_size = 1` and `directory_max_depth = 2`,
after the inserts of 0 and 2 the live entry 1 has local depth 1 below the global
depth 2, and entry `1 XOR (1 << 0)` holds another bucket page. -/
theorem C8_low_bit_integrity_fails :
    ∃ t : DiskExtendibleHashTable,
      Reachable identityHash 0 2 1 t ∧
      ∃ i j : Nat, i < 2 ^ (t.directoryOf 0).GetGlobalDepth ∧
        j < (t.directoryOf 0).GetGlobalDepth - (t.directoryOf 0).GetLocalDepth i ∧
        (t.directoryOf 0).GetBucketPageId (i ^^^ (1 <<< j)) ≠ (t.directoryOf 0).GetBucketPageId i := by
  exact ⟨after identityHash 0 2 1 [.insert 0 100, .insert 2 102],
    reachable_after _ (by decide), 1, 0, by decide, by decide, by decide⟩

end DiskExtendibleHashTable
/-! ## Arithmetic of directory slots -/

namespace ExtendibleHTableDirectoryPage

theorem Size_eq (d : ExtendibleHTableDirectoryPage) : d.Size = 2 ^ d.global_depth_ := by
  simp [Size, Nat.one_shiftLeft]

theorem HashToBucketIndex_eq (d : ExtendibleHTableDirectoryPage) (hash : Nat) :
    d.HashToBucketIndex hash = hash % 2 ^ d.global_depth_ := by
  simp [HashToBucketIndex, GetGlobalDepthMask, Nat.one_shiftLeft]

theorem HashToBucketIndex_lt (d : ExtendibleHTableDirectoryPage) (hash : Nat) :
    d.HashToBucketIndex hash < 2 ^ d.global_depth_ := by
  rw [HashToBucketIndex_eq]
  exact Nat.mod_lt _ (Nat.two_pow_pos _)

theorem xor_two_pow_lt {i g : Nat} (h : i < 2 ^ (g + 1)) : i ^^^ 2 ^ g < 2 ^ (g + 1) :=
  Nat.xor_lt_two_pow h (Nat.pow_lt_pow_right (by decide) (Nat.lt_succ_self g))

theorem xor_two_pow_ne (i g : Nat) : i ^^^ 2 ^ g ≠ i := by
  intro h
  have := congrArg (fun x => Nat.testBit x g) h
  simp [Nat.testBit_two_pow_self] at this

theorem xor_two_pow_xor (i g : Nat) : (i ^^^ 2 ^ g) ^^^ 2 ^ g = i := by
  rw [Nat.xor_assoc, Nat.xor_self, Nat.xor_zero]

theorem xor_two_pow_mod {i g l : Nat} (h : l ≤ g) : (i ^^^ 2 ^ g) % 2 ^ l = i % 2 ^ l := by
  apply Nat.eq_of_testBit_eq
  intro k
  simp only [Nat.testBit_mod_two_pow, Nat.testBit_xor]
  by_cases hk : k < l
  · have : g ≠ k := by omega
    simp [hk, Nat.testBit_two_pow_of_ne this]
  · simp [hk]

theorem xor_two_pow_of_lt {i g : Nat} (h : i < 2 ^ g) : i ^^^ 2 ^ g = i + 2 ^ g := by
  apply Nat.eq_of_testBit_eq
  intro k
  rw [Nat.testBit_xor, Nat.add_comm]
  rcases Nat.lt_trichotomy k g with hk | hk | hk
  · rw [Nat.testBit_two_pow_add_gt hk, Nat.testBit_two_pow_of_ne (by omega)]
    simp
  · subst hk
    rw [Nat.testBit_two_pow_add_eq, Nat.testBit_two_pow_self, Nat.testBit_lt_two_pow h]
    rfl
  · have h1 : i < 2 ^ k := lt_trans h (Nat.pow_lt_pow_right (by decide) hk)
    have h2 : 2 ^ g + i < 2 ^ k := by
      have : 2 ^ (g + 1) ≤ 2 ^ k := Nat.pow_le_pow_right (by decide) hk
      have : 2 ^ (g + 1) = 2 * 2 ^ g := by rw [Nat.pow_succ]; omega
      omega
    rw [Nat.testBit_lt_two_pow h1, Nat.testBit_lt_two_pow h2, Nat.testBit_two_pow_of_ne (by omega)]
    rfl

theorem mod_two_pow_succ_mod (h g : Nat) : (h % 2 ^ (g + 1)) % 2 ^ g = h % 2 ^ g :=
  Nat.mod_mod_of_dvd h (pow_dvd_pow 2 (Nat.le_succ g))

theorem mod_two_pow_of_lt_succ {j g : Nat} (h : j < 2 ^ (g + 1)) :
    (j < 2 ^ g ∧ j % 2 ^ g = j) ∨ (2 ^ g ≤ j ∧ j % 2 ^ g + 2 ^ g = j) := by
  have h2 : 2 ^ (g + 1) = 2 * 2 ^ g := by rw [Nat.pow_succ]; omega
  by_cases hj : j < 2 ^ g
  · exact Or.inl ⟨hj, Nat.mod_eq_of_lt hj⟩
  · right
    refine ⟨by omega, ?_⟩
    rw [Nat.mod_eq_sub_mod (by omega), Nat.mod_eq_of_lt (by omega)]
    omega

theorem xor_two_pow_lt_of_lt {i j g : Nat} (hi : i < 2 ^ g) (hj : j < g) : i ^^^ 2 ^ j < 2 ^ g :=
  Nat.xor_lt_two_pow hi (Nat.pow_lt_pow_right (by decide) hj)

theorem xor_two_pow_mod_of_lt {i j g : Nat} (hj : j < g) :
    (i ^^^ 2 ^ j) % 2 ^ g = (i % 2 ^ g) ^^^ 2 ^ j := by
  apply Nat.eq_of_testBit_eq
  intro k
  simp only [Nat.testBit_mod_two_pow, Nat.testBit_xor]
  by_cases hk : k < g
  · simp [hk]
  · have : j ≠ k := by omega
    simp [hk, Nat.testBit_two_pow_of_ne this]

theorem mod_two_pow_lt (j g : Nat) : j % 2 ^ g < 2 ^ g := Nat.mod_lt _ (Nat.two_pow_pos _)

end ExtendibleHTableDirectoryPage

namespace ExtendibleHTableDirectoryPage

theorem GetSplitImageIndex_eq {d : ExtendibleHTableDirectoryPage} {i g : Nat}
    (hg : d.global_depth_ = g + 1) (hi : i < 2 ^ (g + 1)) :
    d.GetSplitImageIndex i = .ok (i ^^^ 2 ^ g) := by
  unfold GetSplitImageIndex
  rw [Size_eq, hg, if_neg (by omega), if_neg (by omega)]
  simp [Nat.one_shiftLeft]

theorem IncrGlobalDepthLoop_eq (d : ExtendibleHTableDirectoryPage) (g : Nat)
    (hg : d.global_depth_ = g + 1) : ∀ n, n ≤ 2 ^ g →
    IncrGlobalDepthLoop d n =
      .ok (fun j => if j < 2 ^ (g + 1) ∧ j % 2 ^ g < n then d.local_depths_ (j % 2 ^ g) else 0,
           fun j => if j < 2 ^ (g + 1) ∧ j % 2 ^ g < n then d.bucket_page_ids_ (j % 2 ^ g)
                    else INVALID_PAGE_ID) := by
  have h2 : 2 ^ (g + 1) = 2 * 2 ^ g := by rw [Nat.pow_succ]; omega
  intro n
  induction n with
  | zero => intro _; simp [IncrGlobalDepthLoop]
  | succ n ih =>
    intro hn
    have hn' : n < 2 ^ g := by omega
    rw [IncrGlobalDepthLoop, ih (by omega), GetSplitImageIndex_eq hg (by omega),
      xor_two_pow_of_lt hn']
    have key : ∀ j, (j < 2 ^ (g + 1) ∧ j % 2 ^ g < n + 1) ↔
        (j = n + 2 ^ g ∨ j = n ∨ (j < 2 ^ (g + 1) ∧ j % 2 ^ g < n)) := by
      intro j
      constructor
      · rintro ⟨h1, h3⟩
        rcases mod_two_pow_of_lt_succ h1 with ⟨_, h4⟩ | ⟨_, h4⟩ <;> omega
      · rintro (h1 | h1 | ⟨h1, h3⟩)
        · subst h1
          refine ⟨by omega, ?_⟩
          rw [Nat.add_mod_right, Nat.mod_eq_of_lt hn']; omega
        · subst h1
          refine ⟨by omega, ?_⟩
          rw [Nat.mod_eq_of_lt hn']; omega
        · exact ⟨h1, by omega⟩
    have hmod1 : (n + 2 ^ g) % 2 ^ g = n := by rw [Nat.add_mod_right, Nat.mod_eq_of_lt hn']
    have hmod2 : n % 2 ^ g = n := Nat.mod_eq_of_lt hn'
    dsimp only
    congr 1
    refine Prod.ext ?_ ?_
    · funext j
      simp only
      by_cases h1 : j = n + 2 ^ g
      · rw [if_pos h1, if_pos ((key j).2 (Or.inl h1)), h1, hmod1]
      · rw [if_neg h1]
        by_cases h3 : j = n
        · rw [if_pos h3, if_pos ((key j).2 (Or.inr (Or.inl h3))), h3, hmod2]
        · rw [if_neg h3]
          by_cases h4 : j < 2 ^ (g + 1) ∧ j % 2 ^ g < n
          · rw [if_pos h4, if_pos ((key j).2 (Or.inr (Or.inr h4)))]
          · rw [if_neg h4, if_neg (fun h => by rcases (key j).1 h with h5 | h5 | h5 <;> tauto)]
    · funext j
      simp only
      by_cases h1 : j = n + 2 ^ g
      · rw [if_pos h1, if_pos ((key j).2 (Or.inl h1)), h1, hmod1]
      · rw [if_neg h1]
        by_cases h3 : j = n
        · rw [if_pos h3, if_pos ((key j).2 (Or.inr (Or.inl h3))), h3, hmod2]
        · rw [if_neg h3]
          by_cases h4 : j < 2 ^ (g + 1) ∧ j % 2 ^ g < n
          · rw [if_pos h4, if_pos ((key j).2 (Or.inr (Or.inr h4)))]
          · rw [if_neg h4, if_neg (fun h => by rcases (key j).1 h with h5 | h5 | h5 <;> tauto)]

theorem IncrGlobalDepth_eq {d : ExtendibleHTableDirectoryPage}
    (h : d.global_depth_ ≠ d.max_depth_) : d.IncrGlobalDepth = .ok d.grown := by
  unfold IncrGlobalDepth
  rw [if_neg h]
  simp only [Size_eq]
  rw [IncrGlobalDepthLoop_eq _ d.global_depth_ rfl _ (le_refl _)]
  simp only [grown]
  congr 2
  · funext j
    have := mod_two_pow_lt j d.global_depth_
    by_cases hj : j < 2 ^ (d.global_depth_ + 1)
    · rw [if_pos ⟨hj, this⟩, if_pos hj]
    · rw [if_neg (fun h => hj h.1), if_neg hj]
  · funext j
    have := mod_two_pow_lt j d.global_depth_
    by_cases hj : j < 2 ^ (d.global_depth_ + 1)
    · rw [if_pos ⟨hj, this⟩, if_pos hj]
    · rw [if_neg (fun h => hj h.1), if_neg hj]

theorem grown_bucket_page_ids (d : ExtendibleHTableDirectoryPage) {j : Nat}
    (hj : j < 2 ^ (d.global_depth_ + 1)) :
    d.grown.bucket_page_ids_ j = d.bucket_page_ids_ (j % 2 ^ d.global_depth_) := by
  simp only [grown]
  rw [if_pos hj]

theorem grown_local_depths (d : ExtendibleHTableDirectoryPage) {j : Nat}
    (hj : j < 2 ^ (d.global_depth_ + 1)) :
    d.grown.local_depths_ j = d.local_depths_ (j % 2 ^ d.global_depth_) := by
  simp only [grown]
  rw [if_pos hj]

theorem IncrGlobalDepth_throws {d : ExtendibleHTableDirectoryPage}
    (h : d.global_depth_ = d.max_depth_) :
    d.IncrGlobalDepth = .error .global_depth_equals_to_max_depth := by
  unfold IncrGlobalDepth
  rw [if_pos h]

end ExtendibleHTableDirectoryPage

namespace ExtendibleHTableDirectoryPage

theorem split_global_depth (d : ExtendibleHTableDirectoryPage) (bi new : Nat) (pid : page_id_t) :
    (d.split bi new pid).global_depth_ = d.global_depth_ := rfl

theorem split_max_depth (d : ExtendibleHTableDirectoryPage) (bi new : Nat) (pid : page_id_t) :
    (d.split bi new pid).max_depth_ = d.max_depth_ := rfl

theorem split_bucket_page_ids (d : ExtendibleHTableDirectoryPage) (bi new : Nat) (pid : page_id_t)
    (j : Nat) :
    (d.split bi new pid).bucket_page_ids_ j = if j = new then pid else d.bucket_page_ids_ j := rfl

theorem split_local_depths (d : ExtendibleHTableDirectoryPage) {bi new : Nat} (pid : page_id_t)
    (hm : d.local_depths_ bi + 1 < 256) (j : Nat) :
    (d.split bi new pid).local_depths_ j =
      if j = new ∨ j = bi then d.local_depths_ bi + 1 else d.local_depths_ j := by
  simp only [split, SetLocalDepth, IncrLocalDepth, SetBucketPageId, GetLocalDepth]
  by_cases h1 : j = new
  · simp [h1, Nat.mod_eq_of_lt hm]
  · by_cases h2 : j = bi
    · simp [h1, h2, Nat.mod_eq_of_lt hm]
    · simp [h1, h2]

/-- A level keeps its spine when every slot finds a slot of its residue class
whose old local depth is at most its new one. -/
theorem SpineAt_of_le {d d' : ExtendibleHTableDirectoryPage} {l : Nat}
    (hg : d'.global_depth_ = d.global_depth_)
    (h : ∀ j < 2 ^ d.global_depth_, ∃ j' < 2 ^ d.global_depth_,
      j' % 2 ^ l = j % 2 ^ l ∧ d.local_depths_ j' ≤ d'.local_depths_ j)
    (hs : d.SpineAt l) : d'.SpineAt l := by
  obtain ⟨w, hw, h1, h2⟩ := hs
  refine ⟨w, hw, ?_, ?_⟩
  · intro j hj hjw
    rw [hg] at hj
    obtain ⟨j', hj', hmod, hle⟩ := h j hj
    exact le_trans (h1 j' hj' (hmod.trans hjw)) hle
  · intro j hj hjw
    rw [hg] at hj
    obtain ⟨j', hj', hmod, hle⟩ := h j hj
    exact le_trans (h2 j' hj' (hmod.trans hjw)) hle

/-- One split of slot `bi` keeps the shape of the local depths. -/
theorem WellFormed_split {d : ExtendibleHTableDirectoryPage} {bi g : Nat} (pid : page_id_t)
    (hmax : d.max_depth_ ≤ 9) (hgd : d.global_depth_ ≤ d.max_depth_)
    (hg : d.global_depth_ = g + 1) (hbi : bi < 2 ^ (g + 1))
    (hm : d.local_depths_ bi < g + 1)
    (hle : ∀ i < 2 ^ (g + 1), d.local_depths_ i ≤ g + 1)
    (hpos : ∀ i < 2 ^ (g + 1), i ≠ bi → i ≠ bi ^^^ 2 ^ g → 1 ≤ d.local_depths_ i)
    (hlow : ∀ l, 1 ≤ l → l ≤ g → d.SpineAt l)
    (htop : d.local_depths_ bi = g ∨ d.SpineAt (g + 1)) :
    (d.split bi (bi ^^^ 2 ^ g) pid).WellFormed := by
  have hne : bi ^^^ 2 ^ g ≠ bi := xor_two_pow_ne bi g
  have hnew : bi ^^^ 2 ^ g < 2 ^ (g + 1) := xor_two_pow_lt hbi
  have hld := @split_local_depths d bi (bi ^^^ 2 ^ g) pid (by omega)
  refine ⟨hmax, hgd, ?_, ?_, ?_⟩
  · intro i hi
    rw [split_global_depth, hg] at hi ⊢
    rw [hld]
    by_cases h : i = bi ^^^ 2 ^ g ∨ i = bi
    · rw [if_pos h]; omega
    · rw [if_neg h]; exact hle i hi
  · intro _ i hi
    rw [split_global_depth, hg] at hi
    rw [hld]
    by_cases h : i = bi ^^^ 2 ^ g ∨ i = bi
    · rw [if_pos h]; omega
    · rw [if_neg h]
      exact hpos i hi (fun h' => h (Or.inr h')) (fun h' => h (Or.inl h'))
  · intro l hl1 hl2
    rw [split_global_depth, hg] at hl2
    by_cases hlg : l ≤ g
    · apply SpineAt_of_le (split_global_depth d bi _ pid) _ (hlow l hl1 hlg)
      intro j hj
      rw [hg] at hj ⊢
      rw [hld]
      by_cases h : j = bi ^^^ 2 ^ g ∨ j = bi
      · rw [if_pos h]
        refine ⟨bi, hbi, ?_, by omega⟩
        rcases h with h | h
        · rw [h, xor_two_pow_mod hlg]
        · rw [h]
      · rw [if_neg h]
        exact ⟨j, hj, rfl, le_refl _⟩
    · have hl : l = g + 1 := by omega
      subst hl
      rcases htop with htop | htop
      · refine ⟨bi, hbi, ?_, ?_⟩
        · intro j hj hjw
          rw [hld]
          rw [split_global_depth, hg] at hj
          rw [Nat.mod_eq_of_lt hj] at hjw
          rw [if_pos (Or.inr hjw)]
          omega
        · intro j hj hjw
          rw [hld]
          rw [split_global_depth, hg] at hj
          rw [Nat.mod_eq_of_lt hj] at hjw
          simp only [Nat.add_sub_cancel] at hjw ⊢
          rw [if_pos (Or.inl hjw)]
          omega
      · obtain ⟨w, hw, h1, h2⟩ := htop
        have hww : d.local_depths_ w = g + 1 := by
          have := h1 w (by rw [hg]; exact hw) (Nat.mod_eq_of_lt hw)
          have := hle w hw
          omega
        have hwbi : w ≠ bi := by intro h; rw [h] at hww; omega
        have hs : d.local_depths_ (w ^^^ 2 ^ g) ≥ g := by
          have hlt := xor_two_pow_lt hw
          have := h2 (w ^^^ 2 ^ g) (by rw [hg]; exact hlt) (by
            rw [Nat.mod_eq_of_lt hlt]; rfl)
          simpa using this
        refine ⟨w, hw, ?_, ?_⟩
        · intro j hj hjw
          rw [split_global_depth, hg] at hj
          rw [Nat.mod_eq_of_lt hj] at hjw
          subst hjw
          rw [hld]
          by_cases h : j = bi ^^^ 2 ^ g ∨ j = bi
          · rw [if_pos h]
            rcases h with h | h
            · have : j ^^^ 2 ^ g = bi := by rw [h, xor_two_pow_xor]
              rw [this] at hs
              omega
            · exact absurd h hwbi
          · rw [if_neg h]; omega
        · intro j hj hjw
          rw [split_global_depth, hg] at hj
          rw [Nat.mod_eq_of_lt hj] at hjw
          simp only [Nat.add_sub_cancel] at hjw ⊢
          subst hjw
          rw [hld]
          by_cases h : w ^^^ 2 ^ g = bi ^^^ 2 ^ g ∨ w ^^^ 2 ^ g = bi
          · rw [if_pos h]
            rcases h with h | h
            · have := congrArg (fun x => x ^^^ 2 ^ g) h
              simp only [xor_two_pow_xor] at this
              exact absurd this hwbi
            · rw [h] at hs; omega
          · rw [if_neg h]; exact hs

end ExtendibleHTableDirectoryPage

namespace ExtendibleHTableDirectoryPage

theorem WellFormed_split_nogrow {d : ExtendibleHTableDirectoryPage} (hd : d.WellFormed)
    {bi : Nat} (pid : page_id_t) (hbi : bi < 2 ^ d.global_depth_)
    (hne : d.local_depths_ bi ≠ d.global_depth_) :
    ∃ g, d.global_depth_ = g + 1 ∧ (d.split bi (bi ^^^ 2 ^ g) pid).WellFormed := by
  have hle := hd.ld_le bi hbi
  obtain ⟨g, hg⟩ : ∃ g, d.global_depth_ = g + 1 := ⟨d.global_depth_ - 1, by omega⟩
  refine ⟨g, hg, ?_⟩
  rw [hg] at hbi
  apply WellFormed_split pid hd.max_le hd.gd_le hg hbi (by omega)
  · intro i hi; have := hd.ld_le i (by rw [hg]; exact hi); omega
  · intro i hi _ _; exact hd.ld_pos (by omega) i (by rw [hg]; exact hi)
  · intro l h1 h2; exact hd.spine l h1 (by omega)
  · right; exact hd.spine (g + 1) (by omega) (by omega)

theorem WellFormed_grown_split {d : ExtendibleHTableDirectoryPage} (hd : d.WellFormed)
    (pid : page_id_t) (hlt : d.global_depth_ ≠ d.max_depth_) (h : Nat)
    (hld : d.local_depths_ (h % 2 ^ d.global_depth_) = d.global_depth_) :
    (d.grown.split (h % 2 ^ (d.global_depth_ + 1))
      ((h % 2 ^ (d.global_depth_ + 1)) ^^^ 2 ^ d.global_depth_) pid).WellFormed := by
  have hgd := hd.gd_le
  have hbi : h % 2 ^ (d.global_depth_ + 1) < 2 ^ (d.global_depth_ + 1) := mod_two_pow_lt _ _
  have hgl : ∀ j, j < 2 ^ (d.global_depth_ + 1) →
      d.grown.local_depths_ j = d.local_depths_ (j % 2 ^ d.global_depth_) := by
    intro j hj
    simp only [grown]
    rw [if_pos hj]
  apply @WellFormed_split d.grown (h % 2 ^ (d.global_depth_ + 1)) d.global_depth_ pid hd.max_le
    (by simp only [grown]; omega) rfl hbi
  · rw [hgl _ hbi, mod_two_pow_succ_mod, hld]; omega
  · intro i hi
    rw [hgl i hi]
    have := hd.ld_le _ (mod_two_pow_lt i d.global_depth_)
    omega
  · intro i hi h1 h2
    rw [hgl i hi]
    by_cases h0 : d.global_depth_ = 0
    · exfalso
      rw [h0] at hi h1 h2
      simp only [zero_add, pow_one, pow_zero] at hi h1 h2
      have h3 : h % 2 = 0 ∨ h % 2 = 1 := by omega
      have h4 : i = 0 ∨ i = 1 := by omega
      rcases h3 with h3 | h3 <;> rcases h4 with h4 | h4 <;> rw [h3] at h1 h2 <;> subst h4 <;>
        simp at h1 h2
    · exact hd.ld_pos (by omega) _ (mod_two_pow_lt i d.global_depth_)
  · intro l h1 h2
    obtain ⟨w, hw, a1, a2⟩ := hd.spine l h1 h2
    have hdvd : 2 ^ l ∣ 2 ^ d.global_depth_ := pow_dvd_pow 2 h2
    refine ⟨w, hw, ?_, ?_⟩
    · intro j hj hjw
      rw [hgl j hj]
      exact a1 _ (mod_two_pow_lt j _) (by rw [Nat.mod_mod_of_dvd _ hdvd]; exact hjw)
    · intro j hj hjw
      rw [hgl j hj]
      exact a2 _ (mod_two_pow_lt j _) (by rw [Nat.mod_mod_of_dvd _ hdvd]; exact hjw)
  · left
    rw [hgl _ hbi, mod_two_pow_succ_mod, hld]

theorem WellFormed_Init (d : ExtendibleHTableDirectoryPage) {max_depth : Nat}
    (h : max_depth ≤ 9) : (d.Init max_depth).WellFormed := by
  refine ⟨h, Nat.zero_le _, ?_, ?_, ?_⟩
  · intro i _; exact le_refl _
  · intro h0; exact absurd h0 (lt_irrefl 0)
  · intro l h1 h2
    have : (d.Init max_depth).global_depth_ = 0 := rfl
    omega

theorem WellFormed_zeroed : zeroed.WellFormed := by
  refine ⟨Nat.zero_le _, le_refl _, ?_, ?_, ?_⟩
  · intro i _; exact le_refl _
  · intro h0; exact absurd h0 (lt_irrefl 0)
  · intro l h1 h2
    have : zeroed.global_depth_ = 0 := rfl
    omega

theorem WellFormed_SetBucketPageId {d : ExtendibleHTableDirectoryPage} (hd : d.WellFormed)
    (i : Nat) (pid : page_id_t) : (d.SetBucketPageId i pid).WellFormed :=
  ⟨hd.max_le, hd.gd_le, hd.ld_le, hd.ld_pos, hd.spine⟩

end ExtendibleHTableDirectoryPage

namespace DiskExtendibleHashTable

open ExtendibleHTableDirectoryPage

theorem SplitLoop_notFull (dpid bpid : page_id_t) (hk fuel : Nat) (t : DiskExtendibleHashTable)
    (bi : Nat) (h : (t.bucket_pages bpid).IsFull = false) :
    SplitLoop dpid bpid hk (fuel + 1) t bi = .returns t := by
  rw [SplitLoop]
  simp only [h, Bool.false_eq_true, if_false]

theorem SplitLoop_full (dpid bpid : page_id_t) (hk fuel : Nat) (t : DiskExtendibleHashTable)
    (bi : Nat) {dir1 : ExtendibleHTableDirectoryPage} {new : Nat}
    (hfull : (t.bucket_pages bpid).IsFull = true)
    (hdir : (if (t.directory_pages dpid).GetLocalDepth bi = (t.directory_pages dpid).GetGlobalDepth
      then (t.directory_pages dpid).IncrGlobalDepth else .ok (t.directory_pages dpid)) = .ok dir1)
    (hnew : dir1.GetSplitImageIndex (dir1.HashToBucketIndex hk) = .ok new) :
    SplitLoop dpid bpid hk (fuel + 1) t bi =
      SplitLoop dpid bpid hk fuel (t.splitStep dpid bpid dir1 (dir1.HashToBucketIndex hk) new)
        (dir1.HashToBucketIndex hk) := by
  rw [SplitLoop]
  simp only [hfull, if_true, hdir, hnew]
  rfl

theorem splitStep_directory_pages (t : DiskExtendibleHashTable) (dpid bpid : page_id_t)
    (dir1 : ExtendibleHTableDirectoryPage) (bi new : Nat) (p : page_id_t) :
    (t.splitStep dpid bpid dir1 bi new).directory_pages p =
      if p = dpid then dir1.split bi new t.next_page_id_ else t.directory_pages p := rfl

theorem splitStep_inv {t : DiskExtendibleHashTable} (ht : t.Inv) (dpid bpid : page_id_t)
    {dir1 : ExtendibleHTableDirectoryPage} {bi new : Nat}
    (h : (dir1.split bi new t.next_page_id_).WellFormed) :
    (t.splitStep dpid bpid dir1 bi new).Inv := by
  refine ⟨?_, ht.dmd_le, ?_⟩
  · show (1 : Int) ≤ t.next_page_id_ + 1
    have h1 : (1 : Int) ≤ t.next_page_id_ := ht.next_pos
    omega
  · intro p
    rw [splitStep_directory_pages]
    by_cases hp : p = dpid
    · rw [if_pos hp]; exact h
    · rw [if_neg hp]; exact ht.dirs p

/-- The split loop of `Insert`: when it returns, the table is still well formed,
the slot of the key still holds the page the loop started with, that page is
not full, and the header page and the hash function are untouched. -/
theorem SplitLoop_returns (dpid bpid : page_id_t) (hk : Nat) :
    ∀ (fuel : Nat) (t : DiskExtendibleHashTable) (bi : Nat) (t' : DiskExtendibleHashTable),
      t.Inv → bi = (t.directory_pages dpid).HashToBucketIndex hk →
      (t.directory_pages dpid).bucket_page_ids_ bi = bpid →
      SplitLoop dpid bpid hk fuel t bi = .returns t' →
      t'.Inv ∧
      (t'.directory_pages dpid).bucket_page_ids_
        ((t'.directory_pages dpid).HashToBucketIndex hk) = bpid ∧
      t'.header_page = t.header_page ∧ t'.hash_fn_ = t.hash_fn_ ∧
      (t'.bucket_pages bpid).IsFull = false := by
  intro fuel
  induction fuel with
  | zero =>
    intro t bi t' _ _ _ h
    simp [SplitLoop] at h
  | succ fuel ih =>
    intro t bi t' hinv hbi hids hret
    by_cases hfull : (t.bucket_pages bpid).IsFull = true
    · have hwf := hinv.dirs dpid
      have hbilt : bi < 2 ^ (t.directory_pages dpid).global_depth_ := by
        rw [hbi]; exact HashToBucketIndex_lt _ _
      by_cases hld : (t.directory_pages dpid).GetLocalDepth bi =
          (t.directory_pages dpid).GetGlobalDepth
      · by_cases hmax : (t.directory_pages dpid).global_depth_ = (t.directory_pages dpid).max_depth_
        · rw [SplitLoop] at hret
          simp only [hfull, hld, if_true, IncrGlobalDepth_throws hmax] at hret
          cases hret
        · have hdir : (if (t.directory_pages dpid).GetLocalDepth bi =
              (t.directory_pages dpid).GetGlobalDepth
              then (t.directory_pages dpid).IncrGlobalDepth else .ok (t.directory_pages dpid)) =
              .ok (t.directory_pages dpid).grown := by
            rw [if_pos hld, IncrGlobalDepth_eq hmax]
          have hidx : (t.directory_pages dpid).grown.HashToBucketIndex hk =
              hk % 2 ^ ((t.directory_pages dpid).global_depth_ + 1) := HashToBucketIndex_eq _ _
          have hnew := @GetSplitImageIndex_eq (t.directory_pages dpid).grown
            ((t.directory_pages dpid).grown.HashToBucketIndex hk)
            (t.directory_pages dpid).global_depth_ rfl (by rw [hidx]; exact mod_two_pow_lt _ _)
          rw [SplitLoop_full dpid bpid hk fuel t bi hfull hdir hnew] at hret
          have hbi' : bi = hk % 2 ^ (t.directory_pages dpid).global_depth_ := by
            rw [hbi, HashToBucketIndex_eq]
          have hwf' := WellFormed_grown_split hwf t.next_page_id_ hmax hk (by
            rw [← hbi']; exact hld)
          rw [← hidx] at hwf'
          have hinv' := splitStep_inv hinv dpid bpid hwf'
          obtain ⟨h1, h2, h3, h4, h5⟩ := ih _ _ t' hinv' (by
              rw [splitStep_directory_pages, if_pos rfl]
              simp only [HashToBucketIndex_eq, split_global_depth]) (by
              rw [splitStep_directory_pages, if_pos rfl, split_bucket_page_ids,
                if_neg (Ne.symm (xor_two_pow_ne _ _))]
              rw [hidx, grown_bucket_page_ids _ (mod_two_pow_lt _ _), mod_two_pow_succ_mod,
                ← hbi']
              exact hids) hret
          exact ⟨h1, h2, h3, h4, h5⟩
      · have hdir : (if (t.directory_pages dpid).GetLocalDepth bi =
            (t.directory_pages dpid).GetGlobalDepth
            then (t.directory_pages dpid).IncrGlobalDepth else .ok (t.directory_pages dpid)) =
            .ok (t.directory_pages dpid) := by
          rw [if_neg hld]
        obtain ⟨g, hg, hwf'⟩ := WellFormed_split_nogrow hwf t.next_page_id_ hbilt hld
        have hnew := @GetSplitImageIndex_eq (t.directory_pages dpid)
          ((t.directory_pages dpid).HashToBucketIndex hk) g hg (by
            rw [← hg]; exact HashToBucketIndex_lt _ _)
        rw [SplitLoop_full dpid bpid hk fuel t bi hfull hdir hnew] at hret
        rw [← hbi] at hret
        have hinv' := splitStep_inv hinv dpid bpid hwf'
        obtain ⟨h1, h2, h3, h4, h5⟩ := ih _ _ t' hinv' (by
            rw [splitStep_directory_pages, if_pos rfl]
            simp only [HashToBucketIndex_eq, split_global_depth]
            rw [hbi, HashToBucketIndex_eq]) (by
            rw [splitStep_directory_pages, if_pos rfl, split_bucket_page_ids,
              if_neg (Ne.symm (xor_two_pow_ne _ _))]
            exact hids) hret
        exact ⟨h1, h2, h3, h4, h5⟩
    · have hfull' : (t.bucket_pages bpid).IsFull = false := by simpa using hfull
      rw [SplitLoop_notFull _ _ _ _ _ _ hfull'] at hret
      cases hret
      exact ⟨hinv, by rw [← hbi]; exact hids, rfl, rfl, hfull'⟩

end DiskExtendibleHashTable

namespace ExtendibleHTableBucketPage

theorem LookupFrom_none_extend (b b' : ExtendibleHTableBucketPage) (key : KeyType)
    (value : ValueType) : ∀ (n i : Nat), b.LookupFrom key i n = none →
    (∀ j, j < i + n → b'.array_ j = b.array_ j) → b'.array_ (i + n) = (key, value) →
    b'.LookupFrom key i (n + 1) = some value := by
  intro n
  induction n with
  | zero =>
    intro i _ _ h
    simp only [Nat.add_zero] at h
    simp [LookupFrom, h]
  | succ n ih =>
    intro i hnone hsame hnew
    rw [LookupFrom] at hnone
    by_cases hk : (b.array_ i).1 = key
    · rw [if_pos hk] at hnone; cases hnone
    · rw [if_neg hk] at hnone
      rw [LookupFrom, hsame i (by omega), if_neg hk]
      exact ih (i + 1) hnone (fun j hj => hsame j (by omega)) (by
        rw [← hnew]; congr 1; omega)

/-- After a bucket `Insert` that returned true, `Lookup` finds the value. -/
theorem Insert_true_Lookup (b : ExtendibleHTableBucketPage) (key : KeyType) (value : ValueType)
    (h : (b.Insert key value).1 = true) : (b.Insert key value).2.Lookup key = some value := by
  unfold Insert at h ⊢
  by_cases hf : b.IsFull = true
  · rw [if_pos hf] at h; cases h
  · rw [if_neg hf] at h ⊢
    cases hl : b.Lookup key with
    | some v => rw [hl] at h; cases h
    | none =>
      simp only
      unfold Lookup at hl ⊢
      apply LookupFrom_none_extend b _ key value b.size_ 0 hl
      · intro j hj
        show (if j = b.size_ then (key, value) else b.array_ j) = b.array_ j
        rw [if_neg (by omega)]
      · show (if 0 + b.size_ = b.size_ then (key, value) else b.array_ (0 + b.size_)) = (key, value)
        rw [if_pos (by omega)]

end ExtendibleHTableBucketPage

namespace DiskExtendibleHashTable

open ExtendibleHTableDirectoryPage

theorem next_ne_invalid {t : DiskExtendibleHashTable} (ht : t.Inv) :
    t.next_page_id_ ≠ INVALID_PAGE_ID := by
  intro h
  have h1 : (1 : Int) ≤ t.next_page_id_ := ht.next_pos
  rw [h] at h1
  exact absurd h1 (by decide)

theorem next_succ_pos {t : DiskExtendibleHashTable} (ht : t.Inv) :
    (1 : Int) ≤ t.next_page_id_ + 1 :=
  le_trans ht.next_pos (Int.le_add_one (le_refl _))

/-- What the first step of `Insert` establishes. -/
theorem InsertDirectory_spec {t : DiskExtendibleHashTable} (ht : t.Inv) (i : Nat) :
    (t.InsertDirectory i).1.Inv ∧
    (t.InsertDirectory i).1.header_page.IsInit i = true ∧
    (t.InsertDirectory i).1.header_page.GetDirectoryPageId i = (t.InsertDirectory i).2 ∧
    (t.InsertDirectory i).1.hash_fn_ = t.hash_fn_ ∧
    (∀ hash, (t.InsertDirectory i).1.header_page.HashToDirectoryIndex hash =
      t.header_page.HashToDirectoryIndex hash) := by
  unfold InsertDirectory
  by_cases h1 : t.header_page.IsInit i = true
  · rw [if_neg (by simp [h1])]
    exact ⟨ht, h1, rfl, rfl, fun _ => rfl⟩
  · rw [if_pos (by simpa using h1)]
    refine ⟨⟨next_succ_pos ht, ht.dmd_le, ?_⟩, ?_, ?_, rfl, fun _ => rfl⟩
    · intro p
      show (if p = t.next_page_id_ then
        (t.directory_pages t.next_page_id_).Init t.directory_max_depth_
        else t.directory_pages p).WellFormed
      by_cases hp : p = t.next_page_id_
      · rw [if_pos hp]; exact WellFormed_Init _ ht.dmd_le
      · rw [if_neg hp]; exact ht.dirs p
    · simp [ExtendibleHTableHeaderPage.IsInit, ExtendibleHTableHeaderPage.SetDirectoryPageId,
        next_ne_invalid ht]
    · simp [ExtendibleHTableHeaderPage.GetDirectoryPageId,
        ExtendibleHTableHeaderPage.SetDirectoryPageId]

/-- What the second step of `Insert` establishes. -/
theorem InsertBucket_spec {t : DiskExtendibleHashTable} (ht : t.Inv) (dpid : page_id_t)
    (bi : Nat) :
    (t.InsertBucket dpid bi).1.Inv ∧
    (t.InsertBucket dpid bi).1.header_page = t.header_page ∧
    (t.InsertBucket dpid bi).1.hash_fn_ = t.hash_fn_ ∧
    ((t.InsertBucket dpid bi).1.directory_pages dpid).bucket_page_ids_ bi =
      (t.InsertBucket dpid bi).2 ∧
    (t.InsertBucket dpid bi).2 ≠ INVALID_PAGE_ID ∧
    ((t.InsertBucket dpid bi).1.directory_pages dpid).global_depth_ =
      (t.directory_pages dpid).global_depth_ := by
  unfold InsertBucket
  by_cases h1 : (t.directory_pages dpid).GetBucketPageId bi = INVALID_PAGE_ID
  · rw [if_pos h1]
    refine ⟨⟨next_succ_pos ht, ht.dmd_le, ?_⟩, rfl, rfl, ?_, next_ne_invalid ht, ?_⟩
    · intro p
      show (if p = dpid then (t.directory_pages dpid).SetBucketPageId bi t.next_page_id_
        else t.directory_pages p).WellFormed
      by_cases hp : p = dpid
      · rw [if_pos hp]; exact WellFormed_SetBucketPageId (ht.dirs _) _ _
      · rw [if_neg hp]; exact ht.dirs p
    · simp [SetBucketPageId]
    · simp [SetBucketPageId]
  · rw [if_neg h1]
    exact ⟨ht, rfl, rfl, rfl, h1, rfl⟩

theorem setBucket_inv {t : DiskExtendibleHashTable} (ht : t.Inv) (pid : page_id_t)
    (b : ExtendibleHTableBucketPage) : (t.setBucket pid b).Inv :=
  ⟨ht.next_pos, ht.dmd_le, ht.dirs⟩

/-- `Insert` keeps the table well formed, and after an `Insert` that returned
true `GetValue` finds the value. -/
theorem Insert_spec {t t' : DiskExtendibleHashTable} (ht : t.Inv) {key : KeyType}
    {value : ValueType} {r : Bool} (h : t.Insert key value = .returns (r, t')) :
    t'.Inv ∧ (r = true → t'.GetValue key [] = (true, [value])) := by
  unfold Insert at h
  obtain ⟨d1, d2, d3, d4, d5⟩ := InsertDirectory_spec ht (t.header_page.HashToDirectoryIndex (t.Hash key))
  obtain ⟨b1, b2, b3, b4, b5, b6⟩ := InsertBucket_spec d1
    (t.InsertDirectory (t.header_page.HashToDirectoryIndex (t.Hash key))).2
    (((t.InsertDirectory (t.header_page.HashToDirectoryIndex (t.Hash key))).1.directory_pages
      (t.InsertDirectory (t.header_page.HashToDirectoryIndex (t.Hash key))).2).HashToBucketIndex
      (t.Hash key))
  simp only at h
  generalize hD : t.InsertDirectory (t.header_page.HashToDirectoryIndex (t.Hash key)) = D at *
  generalize hbi : (D.1.directory_pages D.2).HashToBucketIndex (t.Hash key) = bi at *
  generalize hB : D.1.InsertBucket D.2 bi = B at *
  cases hs : SplitLoop D.2 B.2 (t.Hash key) B.1.SplitFuel B.1 bi with
  | throws e => rw [hs] at h; cases h
  | blocks => rw [hs] at h; cases h
  | spins => rw [hs] at h; cases h
  | returns t1 =>
    rw [hs] at h
    simp only [Outcome.returns.injEq, Prod.mk.injEq] at h
    obtain ⟨hr, ht'⟩ := h
    obtain ⟨s1, s2, s3, s4, _⟩ := SplitLoop_returns D.2 B.2 (t.Hash key) _ B.1 bi t1 b1 (by
      rw [← hbi]
      simp only [HashToBucketIndex_eq, b6]) b4 hs
    subst ht'
    refine ⟨setBucket_inv s1 _ _, ?_⟩
    intro hrt
    rw [hrt] at hr
    have hlook := ExtendibleHTableBucketPage.Insert_true_Lookup _ key value hr
    have hhash : (t1.setBucket B.2 ((t1.bucket_pages B.2).Insert key value).2).Hash key =
        t.Hash key := by
      show t1.hash_fn_ key % 4294967296 = t.hash_fn_ key % 4294967296
      rw [s4, b3, d4]
    unfold GetValue
    rw [hhash]
    have hhead : (t1.setBucket B.2 ((t1.bucket_pages B.2).Insert key value).2).header_page =
        D.1.header_page := by
      show t1.header_page = D.1.header_page
      rw [s3, b2]
    rw [hhead]
    simp only [d5, d2, Bool.not_true, Bool.false_eq_true, if_false, d3]
    have hdir : (t1.setBucket B.2 ((t1.bucket_pages B.2).Insert key value).2).directory_pages D.2 =
        t1.directory_pages D.2 := rfl
    rw [hdir]
    simp only [GetBucketPageId, s2, b5, if_false]
    have hbk : (t1.setBucket B.2 ((t1.bucket_pages B.2).Insert key value).2).bucket_pages B.2 =
        ((t1.bucket_pages B.2).Insert key value).2 := by
      simp [setBucket]
    rw [hbk, hlook]
    rfl

end DiskExtendibleHashTable

namespace ExtendibleHTableDirectoryPage

theorem CanShrink_iff (d : ExtendibleHTableDirectoryPage) :
    d.CanShrink = true ↔ ∀ i < 2 ^ d.global_depth_, d.local_depths_ i ≠ d.global_depth_ := by
  simp [CanShrink, Size_eq, List.all_eq_true]

theorem merged_global_depth (d : ExtendibleHTableDirectoryPage) (bi si : Nat) :
    (d.merged bi si).global_depth_ = d.global_depth_ := rfl

theorem merged_max_depth (d : ExtendibleHTableDirectoryPage) (bi si : Nat) :
    (d.merged bi si).max_depth_ = d.max_depth_ := rfl

theorem merged_bucket_page_ids (d : ExtendibleHTableDirectoryPage) (bi si j : Nat) :
    (d.merged bi si).bucket_page_ids_ j =
      if j = si then d.bucket_page_ids_ bi else d.bucket_page_ids_ j := rfl

theorem merged_local_depths (d : ExtendibleHTableDirectoryPage) {bi si : Nat} (hne : si ≠ bi)
    (j : Nat) :
    (d.merged bi si).local_depths_ j =
      if j = si then (d.local_depths_ si + 255) % 256
      else if j = bi then (d.local_depths_ bi + 255) % 256 else d.local_depths_ j := by
  simp only [merged, DecrLocalDepth, SetBucketPageId]
  by_cases h1 : j = si
  · simp [h1, hne]
  · simp [h1]

theorem DecrGlobalDepth_eq {d : ExtendibleHTableDirectoryPage} {g : Nat}
    (hg : d.global_depth_ = g + 1) :
    ∃ d', d.DecrGlobalDepth = .ok d' ∧ d'.global_depth_ = g ∧ d'.max_depth_ = d.max_depth_ ∧
      (∀ j < 2 ^ g, d'.local_depths_ j = d.local_depths_ j) ∧
      (∀ j < 2 ^ g, d'.bucket_page_ids_ j = d.bucket_page_ids_ j) := by
  unfold DecrGlobalDepth
  rw [if_neg (by omega)]
  refine ⟨_, rfl, by simp [hg], rfl, ?_, ?_⟩
  · intro j hj
    simp only [Size_eq, hg, Nat.add_sub_cancel]
    rw [if_neg (by omega)]
  · intro j hj
    simp only [Size_eq, hg, Nat.add_sub_cancel]
    rw [if_neg (by omega)]

/-- A merge that is followed by a shrink acts on a pair of slots whose local
depth is the global depth, and the directory keeps its shape. -/
theorem WellFormed_merged_shrunk {d d' : ExtendibleHTableDirectoryPage} (hd : d.WellFormed)
    {bi g : Nat} (hg : d.global_depth_ = g + 1) (hbi : bi < 2 ^ (g + 1))
    (hld : d.local_depths_ bi = d.local_depths_ (bi ^^^ 2 ^ g))
    (hshrink : (d.merged bi (bi ^^^ 2 ^ g)).CanShrink = true)
    (hg' : d'.global_depth_ = g) (hmax : d'.max_depth_ = d.max_depth_)
    (hl : ∀ j < 2 ^ g, d'.local_depths_ j = (d.merged bi (bi ^^^ 2 ^ g)).local_depths_ j) :
    d'.WellFormed := by
  have hne : bi ^^^ 2 ^ g ≠ bi := xor_two_pow_ne bi g
  have hsi : bi ^^^ 2 ^ g < 2 ^ (g + 1) := xor_two_pow_lt hbi
  have hm := merged_local_depths d hne
  have h2 : 2 ^ (g + 1) = 2 * 2 ^ g := by rw [Nat.pow_succ]; omega
  rw [CanShrink_iff, merged_global_depth, hg] at hshrink
  have hmaxle := hd.max_le
  have hgdle := hd.gd_le
  -- the pair has local depth `g + 1`
  have hL : d.local_depths_ bi = g + 1 := by
    obtain ⟨w, hw, a1, _⟩ := hd.spine (g + 1) (by omega) (by omega)
    have hw1 := a1 w (by rw [hg]; exact hw) (Nat.mod_eq_of_lt hw)
    have hw2 := hd.ld_le w (by rw [hg]; exact hw)
    have hw3 := hshrink w hw
    rw [hm] at hw3
    by_cases h1 : w = bi ^^^ 2 ^ g
    · rw [hld, ← h1]; omega
    · rw [if_neg h1] at hw3
      by_cases h3 : w = bi
      · rw [← h3]; omega
      · rw [if_neg h3] at hw3; omega
  have hmerged : ∀ j < 2 ^ (g + 1), (d.merged bi (bi ^^^ 2 ^ g)).local_depths_ j ≤ g ∧
      (0 < g → 1 ≤ (d.merged bi (bi ^^^ 2 ^ g)).local_depths_ j) ∧
      ∀ l ≤ g, l ≤ d.local_depths_ j → l ≤ (d.merged bi (bi ^^^ 2 ^ g)).local_depths_ j := by
    intro j hj
    have hj1 := hd.ld_le j (by rw [hg]; exact hj)
    have hj2 := hshrink j hj
    have hj3 := hd.ld_pos (by omega) j (by rw [hg]; exact hj)
    rw [hm] at hj2 ⊢
    by_cases h1 : j = bi ^^^ 2 ^ g
    · rw [if_pos h1, ← hld, hL]
      have : (g + 1 + 255) % 256 = g := by omega
      rw [this]
      exact ⟨le_refl _, fun h => h, fun l hl _ => hl⟩
    · rw [if_neg h1] at hj2 ⊢
      by_cases h3 : j = bi
      · rw [if_pos h3, hL]
        have : (g + 1 + 255) % 256 = g := by omega
        rw [this]
        exact ⟨le_refl _, fun h => h, fun l hl _ => hl⟩
      · rw [if_neg h3] at hj2 ⊢
        exact ⟨by omega, fun _ => hj3, fun l _ h => h⟩
  refine ⟨by omega, by omega, ?_, ?_, ?_⟩
  · intro i hi
    rw [hg'] at hi ⊢
    rw [hl i hi]
    exact (hmerged i (by omega)).1
  · intro h0 i hi
    rw [hg'] at hi h0
    rw [hl i hi]
    exact (hmerged i (by omega)).2.1 h0
  · intro l h1 hlg
    rw [hg'] at hlg
    obtain ⟨w, hw, a1, a2⟩ := hd.spine l h1 (by omega)
    refine ⟨w, hw, ?_, ?_⟩
    · intro j hj hjw
      rw [hg'] at hj
      rw [hl j hj]
      exact (hmerged j (by omega)).2.2 l hlg (a1 j (by rw [hg]; omega) hjw)
    · intro j hj hjw
      rw [hg'] at hj
      rw [hl j hj]
      exact (hmerged j (by omega)).2.2 (l - 1) (by omega) (a2 j (by rw [hg]; omega) hjw)

end ExtendibleHTableDirectoryPage

namespace DiskExtendibleHashTable

open ExtendibleHTableDirectoryPage

theorem MergeLoop_stop (dpid : page_id_t) (hk fuel : Nat) (t : DiskExtendibleHashTable)
    (bpid : page_id_t) (bi : Nat)
    (h : ((t.bucket_pages bpid).IsEmpty &&
      decide ((t.directory_pages dpid).GetGlobalDepth > 0)) = false) :
    MergeLoop dpid hk (fuel + 1) t bpid bi = .returns t := by
  rw [MergeLoop]
  simp only [h, Bool.false_eq_true, if_false]

theorem MergeLoop_blocks (dpid : page_id_t) (hk fuel : Nat) (t : DiskExtendibleHashTable)
    (bpid : page_id_t) (bi : Nat) {g : Nat}
    (hempty : (t.bucket_pages bpid).IsEmpty = true)
    (hg : (t.directory_pages dpid).global_depth_ = g + 1) (hbi : bi < 2 ^ (g + 1))
    (hsame : (t.directory_pages dpid).bucket_page_ids_ (bi ^^^ 2 ^ g) = bpid) :
    MergeLoop dpid hk (fuel + 1) t bpid bi = .blocks := by
  rw [MergeLoop]
  have hgd : decide ((t.directory_pages dpid).GetGlobalDepth > 0) = true := by
    simp [GetGlobalDepth, hg]
  simp only [hempty, hgd, Bool.and_self, if_true, GetSplitImageIndex_eq hg hbi, GetBucketPageId,
    hsame]

theorem MergeLoop_break (dpid : page_id_t) (hk fuel : Nat) (t : DiskExtendibleHashTable)
    (bpid : page_id_t) (bi : Nat) {g : Nat}
    (hempty : (t.bucket_pages bpid).IsEmpty = true)
    (hg : (t.directory_pages dpid).global_depth_ = g + 1) (hbi : bi < 2 ^ (g + 1))
    (hdiff : (t.directory_pages dpid).bucket_page_ids_ (bi ^^^ 2 ^ g) ≠ bpid)
    (hbreak : (!(t.bucket_pages ((t.directory_pages dpid).bucket_page_ids_
        (bi ^^^ 2 ^ g))).IsEmpty ||
      (t.directory_pages dpid).GetLocalDepth bi !=
        (t.directory_pages dpid).GetLocalDepth (bi ^^^ 2 ^ g)) = true) :
    MergeLoop dpid hk (fuel + 1) t bpid bi = .returns t := by
  rw [MergeLoop]
  have hgd : decide ((t.directory_pages dpid).GetGlobalDepth > 0) = true := by
    simp [GetGlobalDepth, hg]
  simp only [hempty, hgd, Bool.and_self, if_true, GetSplitImageIndex_eq hg hbi, GetBucketPageId,
    hdiff, if_false, hbreak]

theorem MergeLoop_merge (dpid : page_id_t) (hk fuel : Nat) (t : DiskExtendibleHashTable)
    (bpid : page_id_t) (bi : Nat) {g : Nat} {dir4 : ExtendibleHTableDirectoryPage}
    (hempty : (t.bucket_pages bpid).IsEmpty = true)
    (hg : (t.directory_pages dpid).global_depth_ = g + 1) (hbi : bi < 2 ^ (g + 1))
    (hdiff : (t.directory_pages dpid).bucket_page_ids_ (bi ^^^ 2 ^ g) ≠ bpid)
    (hbreak : (!(t.bucket_pages ((t.directory_pages dpid).bucket_page_ids_
        (bi ^^^ 2 ^ g))).IsEmpty ||
      (t.directory_pages dpid).GetLocalDepth bi !=
        (t.directory_pages dpid).GetLocalDepth (bi ^^^ 2 ^ g)) = false)
    (hdir : (if ((t.directory_pages dpid).merged bi (bi ^^^ 2 ^ g)).CanShrink
      then ((t.directory_pages dpid).merged bi (bi ^^^ 2 ^ g)).DecrGlobalDepth
      else .ok ((t.directory_pages dpid).merged bi (bi ^^^ 2 ^ g))) = .ok dir4) :
    MergeLoop dpid hk (fuel + 1) t bpid bi =
      MergeLoop dpid hk fuel (t.setDirectory dpid dir4)
        (dir4.GetBucketPageId (dir4.HashToBucketIndex hk)) (dir4.HashToBucketIndex hk) := by
  rw [MergeLoop]
  have hgd : decide ((t.directory_pages dpid).GetGlobalDepth > 0) = true := by
    simp [GetGlobalDepth, hg]
  simp only [hempty, hgd, Bool.and_self, if_true, GetSplitImageIndex_eq hg hbi, GetBucketPageId,
    hdiff, if_false, hbreak, Bool.false_eq_true]
  have hdir' := hdir
  simp only [merged, GetBucketPageId] at hdir'
  simp only [hdir']

theorem setDirectory_directory_pages (t : DiskExtendibleHashTable) (dpid : page_id_t)
    (d : ExtendibleHTableDirectoryPage) (p : page_id_t) :
    (t.setDirectory dpid d).directory_pages p = if p = dpid then d else t.directory_pages p := rfl

theorem setDirectory_inv {t : DiskExtendibleHashTable} (ht : t.Inv) (dpid : page_id_t)
    {d : ExtendibleHTableDirectoryPage} (hd : d.WellFormed) : (t.setDirectory dpid d).Inv := by
  refine ⟨ht.next_pos, ht.dmd_le, ?_⟩
  intro p
  rw [setDirectory_directory_pages]
  by_cases hp : p = dpid
  · rw [if_pos hp]; exact hd
  · rw [if_neg hp]; exact ht.dirs p

/-- A loop iteration that meets the page it already holds does not return. -/
theorem MergeLoop_stuck (dpid : page_id_t) (hk fuel : Nat) (t t' : DiskExtendibleHashTable)
    (bpid : page_id_t) (bi : Nat) {g : Nat}
    (hempty : (t.bucket_pages bpid).IsEmpty = true)
    (hg : (t.directory_pages dpid).global_depth_ = g + 1) (hbi : bi < 2 ^ (g + 1))
    (hsame : (t.directory_pages dpid).bucket_page_ids_ (bi ^^^ 2 ^ g) = bpid) :
    MergeLoop dpid hk fuel t bpid bi ≠ .returns t' := by
  cases fuel with
  | zero => simp [MergeLoop]
  | succ fuel =>
    rw [MergeLoop_blocks dpid hk fuel t bpid bi hempty hg hbi hsame]
    simp

/-- The merge loop of `Remove` keeps the table well formed when it returns. -/
theorem MergeLoop_returns (dpid : page_id_t) (hk : Nat) :
    ∀ (fuel : Nat) (t : DiskExtendibleHashTable) (bpid : page_id_t) (bi : Nat)
      (t' : DiskExtendibleHashTable),
      t.Inv → bi = (t.directory_pages dpid).HashToBucketIndex hk →
      (t.directory_pages dpid).bucket_page_ids_ bi = bpid →
      MergeLoop dpid hk fuel t bpid bi = .returns t' → t'.Inv := by
  intro fuel
  induction fuel with
  | zero =>
    intro t bpid bi t' _ _ _ h
    simp [MergeLoop] at h
  | succ fuel ih =>
    intro t bpid bi t' hinv hbi hids hret
    by_cases hcond : ((t.bucket_pages bpid).IsEmpty &&
        decide ((t.directory_pages dpid).GetGlobalDepth > 0)) = true
    · simp only [Bool.and_eq_true, decide_eq_true_eq, GetGlobalDepth] at hcond
      obtain ⟨hempty, hpos⟩ := hcond
      obtain ⟨g, hg⟩ : ∃ g, (t.directory_pages dpid).global_depth_ = g + 1 :=
        ⟨(t.directory_pages dpid).global_depth_ - 1, by omega⟩
      have hbilt : bi < 2 ^ (g + 1) := by
        rw [hbi, ← hg]; exact HashToBucketIndex_lt _ _
      have hne : bi ^^^ 2 ^ g ≠ bi := xor_two_pow_ne bi g
      by_cases hsame : (t.directory_pages dpid).bucket_page_ids_ (bi ^^^ 2 ^ g) = bpid
      · rw [MergeLoop_blocks dpid hk fuel t bpid bi hempty hg hbilt hsame] at hret
        cases hret
      · by_cases hbreak : (!(t.bucket_pages ((t.directory_pages dpid).bucket_page_ids_
            (bi ^^^ 2 ^ g))).IsEmpty ||
            (t.directory_pages dpid).GetLocalDepth bi !=
              (t.directory_pages dpid).GetLocalDepth (bi ^^^ 2 ^ g)) = true
        · rw [MergeLoop_break dpid hk fuel t bpid bi hempty hg hbilt hsame hbreak] at hret
          cases hret
          exact hinv
        · have hbreak' := hbreak
          simp only [Bool.not_eq_true] at hbreak'
          have hldeq : (t.directory_pages dpid).local_depths_ bi =
              (t.directory_pages dpid).local_depths_ (bi ^^^ 2 ^ g) := by
            simp only [Bool.or_eq_false_iff, bne_eq_false_iff_eq, GetLocalDepth] at hbreak'
            exact hbreak'.2
          by_cases hshrink : ((t.directory_pages dpid).merged bi (bi ^^^ 2 ^ g)).CanShrink = true
          · obtain ⟨d', hd1, hd2, hd3, hd4, hd5⟩ := @DecrGlobalDepth_eq
              ((t.directory_pages dpid).merged bi (bi ^^^ 2 ^ g)) g hg
            have hdir : (if ((t.directory_pages dpid).merged bi (bi ^^^ 2 ^ g)).CanShrink
                then ((t.directory_pages dpid).merged bi (bi ^^^ 2 ^ g)).DecrGlobalDepth
                else .ok ((t.directory_pages dpid).merged bi (bi ^^^ 2 ^ g))) = .ok d' := by
              rw [if_pos hshrink, hd1]
            rw [MergeLoop_merge dpid hk fuel t bpid bi hempty hg hbilt hsame hbreak' hdir] at hret
            have hwf : d'.WellFormed :=
              WellFormed_merged_shrunk (hinv.dirs dpid) hg hbilt hldeq hshrink hd2 hd3 hd4
            exact ih _ _ _ t' (setDirectory_inv hinv dpid hwf)
              (by rw [setDirectory_directory_pages, if_pos rfl])
              (by rw [setDirectory_directory_pages, if_pos rfl]; rfl) hret
          · have hdir : (if ((t.directory_pages dpid).merged bi (bi ^^^ 2 ^ g)).CanShrink
                then ((t.directory_pages dpid).merged bi (bi ^^^ 2 ^ g)).DecrGlobalDepth
                else .ok ((t.directory_pages dpid).merged bi (bi ^^^ 2 ^ g))) =
                .ok ((t.directory_pages dpid).merged bi (bi ^^^ 2 ^ g)) := by
              rw [if_neg hshrink]
            rw [MergeLoop_merge dpid hk fuel t bpid bi hempty hg hbilt hsame hbreak' hdir] at hret
            exfalso
            have hidx : ((t.directory_pages dpid).merged bi (bi ^^^ 2 ^ g)).HashToBucketIndex hk =
                bi := by
              rw [hbi, HashToBucketIndex_eq, HashToBucketIndex_eq, merged_global_depth]
            rw [hidx] at hret
            have hpid : ((t.directory_pages dpid).merged bi (bi ^^^ 2 ^ g)).GetBucketPageId bi =
                bpid := by
              show ((t.directory_pages dpid).merged bi (bi ^^^ 2 ^ g)).bucket_page_ids_ bi = bpid
              rw [merged_bucket_page_ids, if_neg (Ne.symm hne)]
              exact hids
            rw [hpid] at hret
            refine @MergeLoop_stuck dpid hk fuel
              (t.setDirectory dpid ((t.directory_pages dpid).merged bi (bi ^^^ 2 ^ g))) t' bpid bi g
              hempty ?_ hbilt ?_ hret
            · rw [setDirectory_directory_pages, if_pos rfl, merged_global_depth]; exact hg
            · rw [setDirectory_directory_pages, if_pos rfl, merged_bucket_page_ids, if_pos rfl]
              exact hids
    · have hcond' : ((t.bucket_pages bpid).IsEmpty &&
          decide ((t.directory_pages dpid).GetGlobalDepth > 0)) = false := by
        simpa using hcond
      rw [MergeLoop_stop dpid hk fuel t bpid bi hcond'] at hret
      cases hret
      exact hinv

/-- `Remove` keeps the table well formed. -/
theorem Remove_inv {t t' : DiskExtendibleHashTable} (ht : t.Inv) {key : KeyType} {r : Bool}
    (h : t.Remove key = .returns (r, t')) : t'.Inv := by
  unfold Remove at h
  by_cases h1 : t.header_page.IsInit (t.header_page.HashToDirectoryIndex (t.Hash key)) = true
  · simp only [h1, Bool.not_true, Bool.false_eq_true, if_false] at h
    by_cases h2 : (t.directory_pages (t.header_page.GetDirectoryPageId
        (t.header_page.HashToDirectoryIndex (t.Hash key)))).GetBucketPageId
        ((t.directory_pages (t.header_page.GetDirectoryPageId
          (t.header_page.HashToDirectoryIndex (t.Hash key)))).HashToBucketIndex (t.Hash key)) =
        INVALID_PAGE_ID
    · simp only [h2, if_true] at h
      cases h
      exact ht
    · simp only [h2, if_false] at h
      generalize hpid : t.header_page.GetDirectoryPageId
        (t.header_page.HashToDirectoryIndex (t.Hash key)) = dpid at *
      cases hs : MergeLoop dpid (t.Hash key) ((t.directory_pages dpid).GetGlobalDepth + 2)
          (t.setBucket ((t.directory_pages dpid).GetBucketPageId
            ((t.directory_pages dpid).HashToBucketIndex (t.Hash key)))
            ((t.bucket_pages ((t.directory_pages dpid).GetBucketPageId
              ((t.directory_pages dpid).HashToBucketIndex (t.Hash key)))).Remove key).2)
          ((t.directory_pages dpid).GetBucketPageId
            ((t.directory_pages dpid).HashToBucketIndex (t.Hash key)))
          ((t.directory_pages dpid).HashToBucketIndex (t.Hash key)) with
      | throws e => rw [hs] at h; cases h
      | blocks => rw [hs] at h; cases h
      | spins => rw [hs] at h; cases h
      | returns t1 =>
        rw [hs] at h
        simp only [Outcome.returns.injEq, Prod.mk.injEq] at h
        rw [← h.2]
        exact MergeLoop_returns dpid (t.Hash key) _ _ _ _ t1 (setBucket_inv ht _ _) rfl rfl hs
  · have h1' : t.header_page.IsInit (t.header_page.HashToDirectoryIndex (t.Hash key)) = false := by
      simpa using h1
    simp only [h1', Bool.not_false, if_true] at h
    cases h
    exact ht

theorem create_inv (hash_fn : KeyType → Nat) (hmd dmd bms : Nat) (h : dmd ≤ 9) :
    (create hash_fn hmd dmd bms).Inv :=
  ⟨le_refl _, h, fun _ => WellFormed_zeroed⟩

/-- Every reachable table is well formed. -/
theorem inv_of_reachable {hash_fn : KeyType → Nat} {hmd dmd bms : Nat} (hdmd : dmd ≤ 9)
    {t : DiskExtendibleHashTable} (h : Reachable hash_fn hmd dmd bms t) : t.Inv := by
  induction h with
  | fresh => exact create_inv _ _ _ _ hdmd
  | insert _ hi ih => exact (Insert_spec ih hi).1
  | remove _ hr ih => exact Remove_inv ih hr

end DiskExtendibleHashTable

namespace DiskExtendibleHashTable

/-- C1: for every table reachable from a fresh table (with
`directory_max_depth <= 9`, the size of the directory arrays), every hash
function, key and value: if `Insert(key, value)` returns true, then `GetValue(key)`
on the resulting table returns true and appends exactly `value` to an empty
result. -/
theorem C1_insert_then_get_value (hash_fn : KeyType → Nat)
    (header_max_depth directory_max_depth bucket_max_size : Nat)
    (hdmd : directory_max_depth ≤ 9) (t t' : DiskExtendibleHashTable) (key : KeyType)
    (value : ValueType)
    (hr : Reachable hash_fn header_max_depth directory_max_depth bucket_max_size t)
    (hi : t.Insert key value = .returns (true, t')) :
    t'.GetValue key [] = (true, [value]) :=
  (Insert_spec (inv_of_reachable hdmd hr) hi).2 rfl

theorem C1_insert_then_get_value_witness :
    (next ((after identityHash 0 3 1 [.insert 0 100, .insert 1 101, .insert 4 104]).Insert 3 103)
      (create identityHash 0 3 1)).GetValue 3 [] = (true, [103]) :=
  C1_insert_then_get_value identityHash 0 3 1 (by decide)
    (after identityHash 0 3 1 [.insert 0 100, .insert 1 101, .insert 4 104]) _ 3 103
    (reachable_after _ (by decide)) (eq_returns_of_flag _ (by decide))

end DiskExtendibleHashTable

/-! ## Index integrity in the absence of fan-out splits -/

namespace ExtendibleHTableDirectoryPage

theorem Aligned_split {d : ExtendibleHTableDirectoryPage} (ha : d.Aligned) {bi g : Nat}
    (pid : page_id_t) (hg : d.global_depth_ = g + 1) (hg9 : g + 1 ≤ 9) (hbi : bi < 2 ^ (g + 1))
    (hm : d.local_depths_ bi = g) : (d.split bi (bi ^^^ 2 ^ g) pid).Aligned := by
  have hld := @split_local_depths d bi (bi ^^^ 2 ^ g) pid (by omega)
  have hpair := ha bi (by rw [hg]; exact hbi) g (by omega) (by omega)
  intro i hi j hj1 hj2
  rw [split_global_depth, hg] at hi hj2
  rw [hld] at hj1
  by_cases h : i = bi ^^^ 2 ^ g ∨ i = bi
  · rw [if_pos h, hm] at hj1; omega
  · rw [if_neg h] at hj1
    have hpre := ha i (by rw [hg]; exact hi) j hj1 (by omega)
    have hp : ¬(i ^^^ 2 ^ j = bi ^^^ 2 ^ g ∨ i ^^^ 2 ^ j = bi) := by
      intro hp
      have hldp : d.local_depths_ (i ^^^ 2 ^ j) = g := by
        rcases hp with hp | hp
        · rw [hp, hpair.2, hm]
        · rw [hp, hm]
      have hj : j = g := by rw [hpre.2] at hldp; omega
      subst hj
      apply h
      rcases hp with hp | hp
      · right
        have := congrArg (fun x => x ^^^ 2 ^ j) hp
        simpa only [xor_two_pow_xor] using this
      · left
        have := congrArg (fun x => x ^^^ 2 ^ j) hp
        simpa only [xor_two_pow_xor] using this
    rw [split_bucket_page_ids, split_bucket_page_ids, hld, hld, if_neg h, if_neg hp,
      if_neg (fun h' => hp (Or.inl h')), if_neg (fun h' => h (Or.inl h'))]
    exact hpre

theorem Aligned_grown {d : ExtendibleHTableDirectoryPage} (ha : d.Aligned) : d.grown.Aligned := by
  intro i hi j hj1 hj2
  have hi' : i < 2 ^ (d.global_depth_ + 1) := hi
  have hj2' : j < d.global_depth_ + 1 := hj2
  have hp : i ^^^ 2 ^ j < 2 ^ (d.global_depth_ + 1) := xor_two_pow_lt_of_lt hi' hj2'
  rw [grown_local_depths d hi'] at hj1
  rw [grown_bucket_page_ids d hp, grown_bucket_page_ids d hi', grown_local_depths d hp,
    grown_local_depths d hi']
  by_cases hj : j = d.global_depth_
  · subst hj
    rw [xor_two_pow_mod (le_refl _)]
    exact ⟨rfl, rfl⟩
  · rw [xor_two_pow_mod_of_lt (by omega)]
    exact ha _ (mod_two_pow_lt i _) j hj1 (by omega)

theorem NoInvalid_split {d : ExtendibleHTableDirectoryPage} (hv : d.NoInvalid) (bi new : Nat)
    {pid : page_id_t} (hpid : pid ≠ INVALID_PAGE_ID) : (d.split bi new pid).NoInvalid := by
  intro h0 i hi
  rw [split_bucket_page_ids]
  by_cases h : i = new
  · rw [if_pos h]; exact hpid
  · rw [if_neg h]; exact hv h0 i hi

theorem NoInvalid_grown {d : ExtendibleHTableDirectoryPage} (hv : d.NoInvalid)
    (h0 : d.global_depth_ = 0 → d.bucket_page_ids_ 0 ≠ INVALID_PAGE_ID) : d.grown.NoInvalid := by
  intro _ i hi
  have hi' : i < 2 ^ (d.global_depth_ + 1) := hi
  rw [grown_bucket_page_ids d hi']
  by_cases hg : d.global_depth_ = 0
  · have : i % 2 ^ d.global_depth_ = 0 := by rw [hg]; simp [Nat.mod_one]
    rw [this]; exact h0 hg
  · exact hv (by omega) _ (mod_two_pow_lt i _)

/-- After a merge of two slots of full local depth and the shrink that
follows, the directory is still aligned. -/
theorem Aligned_merged_shrunk {d d' : ExtendibleHTableDirectoryPage} (ha : d.Aligned)
    {bi g : Nat} (hg : d.global_depth_ = g + 1) (hg9 : g + 1 ≤ 9)
    (hL : d.local_depths_ bi = g + 1) (hL' : d.local_depths_ (bi ^^^ 2 ^ g) = g + 1)
    (hg' : d'.global_depth_ = g)
    (hl : ∀ j < 2 ^ g, d'.local_depths_ j = (d.merged bi (bi ^^^ 2 ^ g)).local_depths_ j)
    (hi : ∀ j < 2 ^ g, d'.bucket_page_ids_ j = (d.merged bi (bi ^^^ 2 ^ g)).bucket_page_ids_ j) :
    d'.Aligned := by
  have hne : bi ^^^ 2 ^ g ≠ bi := xor_two_pow_ne bi g
  have hm := merged_local_depths d hne
  have h2 : 2 ^ (g + 1) = 2 * 2 ^ g := by rw [Nat.pow_succ]; omega
  have hdec : (g + 1 + 255) % 256 = g := by omega
  intro i hi0 j hj1 hj2
  rw [hg'] at hi0 hj2
  have hp : i ^^^ 2 ^ j < 2 ^ g := xor_two_pow_lt_of_lt hi0 hj2
  rw [hl i hi0, hm] at hj1
  rw [hi _ hp, hi i hi0, hl _ hp, hl i hi0, hm, hm, merged_bucket_page_ids,
    merged_bucket_page_ids]
  by_cases h1 : i = bi ^^^ 2 ^ g
  · rw [if_pos h1, hL', hdec] at hj1; omega
  · rw [if_neg h1] at hj1
    by_cases h3 : i = bi
    · rw [if_pos h3, hL, hdec] at hj1; omega
    · rw [if_neg h3] at hj1
      have hpre := ha i (by rw [hg]; omega) j hj1 (by omega)
      have hp1 : i ^^^ 2 ^ j ≠ bi ^^^ 2 ^ g := by
        intro hp1; rw [hp1, hL'] at hpre; omega
      have hp3 : i ^^^ 2 ^ j ≠ bi := by
        intro hp3; rw [hp3, hL] at hpre; omega
      rw [if_neg hp1, if_neg hp1, if_neg hp3, if_neg h1, if_neg h1, if_neg h3]
      exact hpre

theorem NoInvalid_merged_shrunk {d d' : ExtendibleHTableDirectoryPage} (hv : d.NoInvalid)
    {bi g : Nat} (hg : d.global_depth_ = g + 1) (hbi : bi < 2 ^ (g + 1))
    (hg' : d'.global_depth_ = g)
    (hi : ∀ j < 2 ^ g, d'.bucket_page_ids_ j = (d.merged bi (bi ^^^ 2 ^ g)).bucket_page_ids_ j) :
    d'.NoInvalid := by
  have h2 : 2 ^ (g + 1) = 2 * 2 ^ g := by rw [Nat.pow_succ]; omega
  intro _ i hi0
  rw [hg'] at hi0
  rw [hi i hi0, merged_bucket_page_ids]
  by_cases h : i = bi ^^^ 2 ^ g
  · rw [if_pos h]; exact hv (by omega) bi (by rw [hg]; exact hbi)
  · rw [if_neg h]; exact hv (by omega) i (by rw [hg]; omega)

theorem Aligned_zeroed : zeroed.Aligned := by
  intro i _ j _ hj
  exact absurd hj (Nat.not_lt_zero _)

theorem Aligned_of_global_depth_zero {d : ExtendibleHTableDirectoryPage}
    (h : d.global_depth_ = 0) : d.Aligned := by
  intro i _ j _ hj
  rw [h] at hj
  exact absurd hj (Nat.not_lt_zero _)

theorem NoInvalid_of_global_depth_zero {d : ExtendibleHTableDirectoryPage}
    (h : d.global_depth_ = 0) : d.NoInvalid := by
  intro h0
  omega

end ExtendibleHTableDirectoryPage

namespace ExtendibleHTableDirectoryPage

/-- A merge after which the directory can shrink acted on slots whose local
depth is the global depth. -/
theorem merged_full_depth {d : ExtendibleHTableDirectoryPage} (hd : d.WellFormed)
    {bi g : Nat} (hg : d.global_depth_ = g + 1)
    (hld : d.local_depths_ bi = d.local_depths_ (bi ^^^ 2 ^ g))
    (hshrink : (d.merged bi (bi ^^^ 2 ^ g)).CanShrink = true) :
    d.local_depths_ bi = g + 1 := by
  have hne : bi ^^^ 2 ^ g ≠ bi := xor_two_pow_ne bi g
  have hm := merged_local_depths d hne
  rw [CanShrink_iff, merged_global_depth, hg] at hshrink
  obtain ⟨w, hw, a1, _⟩ := hd.spine (g + 1) (by omega) (by omega)
  have hw1 := a1 w (by rw [hg]; exact hw) (Nat.mod_eq_of_lt hw)
  have hw2 := hd.ld_le w (by rw [hg]; exact hw)
  have hw3 := hshrink w hw
  rw [hm] at hw3
  by_cases h1 : w = bi ^^^ 2 ^ g
  · rw [hld, ← h1]; omega
  · rw [if_neg h1] at hw3
    by_cases h3 : w = bi
    · rw [← h3]; omega
    · rw [if_neg h3] at hw3; omega

end ExtendibleHTableDirectoryPage

namespace DiskExtendibleHashTable

open ExtendibleHTableDirectoryPage

theorem splitStep_alignedInv {t : DiskExtendibleHashTable} (ht : t.AlignedInv)
    (dpid bpid : page_id_t) {dir1 : ExtendibleHTableDirectoryPage} {bi new : Nat}
    (h : (dir1.split bi new t.next_page_id_).WellFormed)
    (ha : (dir1.split bi new t.next_page_id_).Aligned)
    (hv : (dir1.split bi new t.next_page_id_).NoInvalid) :
    (t.splitStep dpid bpid dir1 bi new).AlignedInv := by
  refine ⟨splitStep_inv ht.inv dpid bpid h, ?_, ?_⟩
  · intro p
    rw [splitStep_directory_pages]
    by_cases hp : p = dpid
    · rw [if_pos hp]; exact ha
    · rw [if_neg hp]; exact ht.aligned p
  · intro p
    rw [splitStep_directory_pages]
    by_cases hp : p = dpid
    · rw [if_pos hp]; exact hv
    · rw [if_neg hp]; exact ht.valid p

/-- The split loop keeps the index integrity when its first split does not fan
out. -/
theorem SplitLoop_aligned (dpid bpid : page_id_t) (hk : Nat) (hbpid : bpid ≠ INVALID_PAGE_ID) :
    ∀ (fuel : Nat) (t : DiskExtendibleHashTable) (bi : Nat) (t' : DiskExtendibleHashTable),
      t.AlignedInv → bi = (t.directory_pages dpid).HashToBucketIndex hk →
      (t.directory_pages dpid).bucket_page_ids_ bi = bpid →
      ((t.bucket_pages bpid).IsFull = true →
        (t.directory_pages dpid).global_depth_ ≤ (t.directory_pages dpid).local_depths_ bi + 1) →
      SplitLoop dpid bpid hk fuel t bi = .returns t' → t'.AlignedInv := by
  intro fuel
  induction fuel with
  | zero =>
    intro t bi t' _ _ _ _ h
    simp [SplitLoop] at h
  | succ fuel ih =>
    intro t bi t' hinv hbi hids hnf hret
    by_cases hfull : (t.bucket_pages bpid).IsFull = true
    · have hwf := hinv.inv.dirs dpid
      have hbilt : bi < 2 ^ (t.directory_pages dpid).global_depth_ := by
        rw [hbi]; exact HashToBucketIndex_lt _ _
      have hnext := next_ne_invalid hinv.inv
      have hbi' : bi = hk % 2 ^ (t.directory_pages dpid).global_depth_ := by
        rw [hbi, HashToBucketIndex_eq]
      by_cases hld : (t.directory_pages dpid).GetLocalDepth bi =
          (t.directory_pages dpid).GetGlobalDepth
      · by_cases hmax : (t.directory_pages dpid).global_depth_ = (t.directory_pages dpid).max_depth_
        · rw [SplitLoop] at hret
          simp only [hfull, hld, if_true, IncrGlobalDepth_throws hmax] at hret
          cases hret
        · have hdir : (if (t.directory_pages dpid).GetLocalDepth bi =
              (t.directory_pages dpid).GetGlobalDepth
              then (t.directory_pages dpid).IncrGlobalDepth else .ok (t.directory_pages dpid)) =
              .ok (t.directory_pages dpid).grown := by
            rw [if_pos hld, IncrGlobalDepth_eq hmax]
          have hidx : (t.directory_pages dpid).grown.HashToBucketIndex hk =
              hk % 2 ^ ((t.directory_pages dpid).global_depth_ + 1) := HashToBucketIndex_eq _ _
          have hlt : hk % 2 ^ ((t.directory_pages dpid).global_depth_ + 1) <
              2 ^ ((t.directory_pages dpid).global_depth_ + 1) := mod_two_pow_lt _ _
          have hnew := @GetSplitImageIndex_eq (t.directory_pages dpid).grown
            ((t.directory_pages dpid).grown.HashToBucketIndex hk)
            (t.directory_pages dpid).global_depth_ rfl (by rw [hidx]; exact hlt)
          rw [SplitLoop_full dpid bpid hk fuel t bi hfull hdir hnew] at hret
          have hgl : (t.directory_pages dpid).grown.local_depths_
              (hk % 2 ^ ((t.directory_pages dpid).global_depth_ + 1)) =
              (t.directory_pages dpid).global_depth_ := by
            rw [grown_local_depths _ hlt, mod_two_pow_succ_mod, ← hbi']
            exact hld
          have hwf' := WellFormed_grown_split hwf t.next_page_id_ hmax hk (by
            rw [← hbi']; exact hld)
          have h9 : (t.directory_pages dpid).global_depth_ + 1 ≤ 9 := by
            have := hwf.max_le; have := hwf.gd_le; omega
          have ha' := @Aligned_split (t.directory_pages dpid).grown (Aligned_grown (hinv.aligned dpid))
            (hk % 2 ^ ((t.directory_pages dpid).global_depth_ + 1))
            (t.directory_pages dpid).global_depth_ t.next_page_id_ rfl h9 hlt hgl
          have hv' := NoInvalid_split (NoInvalid_grown (hinv.valid dpid) (by
              intro h0
              have : bi = 0 := by rw [hbi', h0]; simp [Nat.mod_one]
              rw [← this, hids]; exact hbpid))
            (hk % 2 ^ ((t.directory_pages dpid).global_depth_ + 1))
            ((hk % 2 ^ ((t.directory_pages dpid).global_depth_ + 1)) ^^^
              2 ^ (t.directory_pages dpid).global_depth_) hnext
          rw [← hidx] at hwf' ha' hv'
          have hinv' := splitStep_alignedInv hinv dpid bpid hwf' ha' hv'
          refine ih _ _ t' hinv' ?_ ?_ ?_ hret
          · rw [splitStep_directory_pages, if_pos rfl]
            simp only [HashToBucketIndex_eq, split_global_depth]
          · rw [splitStep_directory_pages, if_pos rfl, split_bucket_page_ids,
              if_neg (Ne.symm (xor_two_pow_ne _ _))]
            rw [hidx, grown_bucket_page_ids _ hlt, mod_two_pow_succ_mod, ← hbi']
            exact hids
          · intro _
            rw [splitStep_directory_pages, if_pos rfl, split_global_depth,
              @split_local_depths (t.directory_pages dpid).grown _ _ t.next_page_id_ (by
                rw [hidx, hgl]; omega), if_pos (Or.inr rfl), hidx, hgl]
            show (t.directory_pages dpid).global_depth_ + 1 ≤
              (t.directory_pages dpid).global_depth_ + 1 + 1
            omega
      · have hdir : (if (t.directory_pages dpid).GetLocalDepth bi =
            (t.directory_pages dpid).GetGlobalDepth
            then (t.directory_pages dpid).IncrGlobalDepth else .ok (t.directory_pages dpid)) =
            .ok (t.directory_pages dpid) := by
          rw [if_neg hld]
        obtain ⟨g, hg, hwf'⟩ := WellFormed_split_nogrow hwf t.next_page_id_ hbilt hld
        have hm : (t.directory_pages dpid).local_depths_ bi = g := by
          have h1 := hnf hfull
          have h2 := hwf.ld_le bi hbilt
          have h3 : (t.directory_pages dpid).local_depths_ bi ≠
              (t.directory_pages dpid).global_depth_ := hld
          omega
        have h9 : g + 1 ≤ 9 := by
          have := hwf.max_le; have := hwf.gd_le; omega
        have hnew := @GetSplitImageIndex_eq (t.directory_pages dpid)
          ((t.directory_pages dpid).HashToBucketIndex hk) g hg (by
            rw [← hg]; exact HashToBucketIndex_lt _ _)
        rw [SplitLoop_full dpid bpid hk fuel t bi hfull hdir hnew] at hret
        rw [← hbi] at hret
        have ha' := Aligned_split (hinv.aligned dpid) t.next_page_id_ hg h9
          (by rw [← hg]; exact hbilt) hm
        have hv' := NoInvalid_split (hinv.valid dpid) bi (bi ^^^ 2 ^ g) hnext
        have hinv' := splitStep_alignedInv hinv dpid bpid hwf' ha' hv'
        refine ih _ _ t' hinv' ?_ ?_ ?_ hret
        · rw [splitStep_directory_pages, if_pos rfl]
          simp only [HashToBucketIndex_eq, split_global_depth]
          rw [hbi, HashToBucketIndex_eq]
        · rw [splitStep_directory_pages, if_pos rfl, split_bucket_page_ids,
            if_neg (Ne.symm (xor_two_pow_ne _ _))]
          exact hids
        · intro _
          rw [splitStep_directory_pages, if_pos rfl, split_global_depth,
            @split_local_depths (t.directory_pages dpid) _ _ t.next_page_id_ (by omega),
            if_pos (Or.inr rfl), hm, hg]
          omega
    · have hfull' : (t.bucket_pages bpid).IsFull = false := by simpa using hfull
      rw [SplitLoop_notFull _ _ _ _ _ _ hfull'] at hret
      cases hret
      exact hinv

theorem setDirectory_alignedInv {t : DiskExtendibleHashTable} (ht : t.AlignedInv)
    (dpid : page_id_t) {d : ExtendibleHTableDirectoryPage} (hd : d.WellFormed)
    (ha : d.Aligned) (hv : d.NoInvalid) : (t.setDirectory dpid d).AlignedInv := by
  refine ⟨setDirectory_inv ht.inv dpid hd, ?_, ?_⟩
  · intro p
    rw [setDirectory_directory_pages]
    by_cases hp : p = dpid
    · rw [if_pos hp]; exact ha
    · rw [if_neg hp]; exact ht.aligned p
  · intro p
    rw [setDirectory_directory_pages]
    by_cases hp : p = dpid
    · rw [if_pos hp]; exact hv
    · rw [if_neg hp]; exact ht.valid p

/-- The merge loop of `Remove` keeps the index integrity when it returns. -/
theorem MergeLoop_aligned (dpid : page_id_t) (hk : Nat) :
    ∀ (fuel : Nat) (t : DiskExtendibleHashTable) (bpid : page_id_t) (bi : Nat)
      (t' : DiskExtendibleHashTable),
      t.AlignedInv → bi = (t.directory_pages dpid).HashToBucketIndex hk →
      (t.directory_pages dpid).bucket_page_ids_ bi = bpid →
      MergeLoop dpid hk fuel t bpid bi = .returns t' → t'.AlignedInv := by
  intro fuel
  induction fuel with
  | zero =>
    intro t bpid bi t' _ _ _ h
    simp [MergeLoop] at h
  | succ fuel ih =>
    intro t bpid bi t' hinv hbi hids hret
    by_cases hcond : ((t.bucket_pages bpid).IsEmpty &&
        decide ((t.directory_pages dpid).GetGlobalDepth > 0)) = true
    · simp only [Bool.and_eq_true, decide_eq_true_eq, GetGlobalDepth] at hcond
      obtain ⟨hempty, hpos⟩ := hcond
      obtain ⟨g, hg⟩ : ∃ g, (t.directory_pages dpid).global_depth_ = g + 1 :=
        ⟨(t.directory_pages dpid).global_depth_ - 1, by omega⟩
      have hbilt : bi < 2 ^ (g + 1) := by
        rw [hbi, ← hg]; exact HashToBucketIndex_lt _ _
      have hne : bi ^^^ 2 ^ g ≠ bi := xor_two_pow_ne bi g
      by_cases hsame : (t.directory_pages dpid).bucket_page_ids_ (bi ^^^ 2 ^ g) = bpid
      · rw [MergeLoop_blocks dpid hk fuel t bpid bi hempty hg hbilt hsame] at hret
        cases hret
      · by_cases hbreak : (!(t.bucket_pages ((t.directory_pages dpid).bucket_page_ids_
            (bi ^^^ 2 ^ g))).IsEmpty ||
            (t.directory_pages dpid).GetLocalDepth bi !=
              (t.directory_pages dpid).GetLocalDepth (bi ^^^ 2 ^ g)) = true
        · rw [MergeLoop_break dpid hk fuel t bpid bi hempty hg hbilt hsame hbreak] at hret
          cases hret
          exact hinv
        · have hbreak' := hbreak
          simp only [Bool.not_eq_true] at hbreak'
          have hldeq : (t.directory_pages dpid).local_depths_ bi =
              (t.directory_pages dpid).local_depths_ (bi ^^^ 2 ^ g) := by
            simp only [Bool.or_eq_false_iff, bne_eq_false_iff_eq, GetLocalDepth] at hbreak'
            exact hbreak'.2
          by_cases hshrink : ((t.directory_pages dpid).merged bi (bi ^^^ 2 ^ g)).CanShrink = true
          · obtain ⟨d', hd1, hd2, hd3, hd4, hd5⟩ := @DecrGlobalDepth_eq
              ((t.directory_pages dpid).merged bi (bi ^^^ 2 ^ g)) g hg
            have hdir : (if ((t.directory_pages dpid).merged bi (bi ^^^ 2 ^ g)).CanShrink
                then ((t.directory_pages dpid).merged bi (bi ^^^ 2 ^ g)).DecrGlobalDepth
                else .ok ((t.directory_pages dpid).merged bi (bi ^^^ 2 ^ g))) = .ok d' := by
              rw [if_pos hshrink, hd1]
            rw [MergeLoop_merge dpid hk fuel t bpid bi hempty hg hbilt hsame hbreak' hdir] at hret
            have hwf0 := hinv.inv.dirs dpid
            have hwf : d'.WellFormed :=
              WellFormed_merged_shrunk hwf0 hg hbilt hldeq hshrink hd2 hd3 hd4
            have hL := merged_full_depth hwf0 hg hldeq hshrink
            have h9 : g + 1 ≤ 9 := by
              have := hwf0.max_le; have := hwf0.gd_le; omega
            have ha : d'.Aligned :=
              Aligned_merged_shrunk (hinv.aligned dpid) hg h9 hL (by rw [← hldeq]; exact hL)
                hd2 hd4 hd5
            have hv : d'.NoInvalid :=
              NoInvalid_merged_shrunk (hinv.valid dpid) hg hbilt hd2 hd5
            exact ih _ _ _ t' (setDirectory_alignedInv hinv dpid hwf ha hv)
              (by rw [setDirectory_directory_pages, if_pos rfl])
              (by rw [setDirectory_directory_pages, if_pos rfl]; rfl) hret
          · have hdir : (if ((t.directory_pages dpid).merged bi (bi ^^^ 2 ^ g)).CanShrink
                then ((t.directory_pages dpid).merged bi (bi ^^^ 2 ^ g)).DecrGlobalDepth
                else .ok ((t.directory_pages dpid).merged bi (bi ^^^ 2 ^ g))) =
                .ok ((t.directory_pages dpid).merged bi (bi ^^^ 2 ^ g)) := by
              rw [if_neg hshrink]
            rw [MergeLoop_merge dpid hk fuel t bpid bi hempty hg hbilt hsame hbreak' hdir] at hret
            exfalso
            have hidx : ((t.directory_pages dpid).merged bi (bi ^^^ 2 ^ g)).HashToBucketIndex hk =
                bi := by
              rw [hbi, HashToBucketIndex_eq, HashToBucketIndex_eq, merged_global_depth]
            rw [hidx] at hret
            have hpid : ((t.directory_pages dpid).merged bi (bi ^^^ 2 ^ g)).GetBucketPageId bi =
                bpid := by
              show ((t.directory_pages dpid).merged bi (bi ^^^ 2 ^ g)).bucket_page_ids_ bi = bpid
              rw [merged_bucket_page_ids, if_neg (Ne.symm hne)]
              exact hids
            rw [hpid] at hret
            refine @MergeLoop_stuck dpid hk fuel
              (t.setDirectory dpid ((t.directory_pages dpid).merged bi (bi ^^^ 2 ^ g))) t' bpid bi g
              hempty ?_ hbilt ?_ hret
            · rw [setDirectory_directory_pages, if_pos rfl, merged_global_depth]; exact hg
            · rw [setDirectory_directory_pages, if_pos rfl, merged_bucket_page_ids, if_pos rfl]
              exact hids
    · have hcond' : ((t.bucket_pages bpid).IsEmpty &&
          decide ((t.directory_pages dpid).GetGlobalDepth > 0)) = false := by
        simpa using hcond
      rw [MergeLoop_stop dpid hk fuel t bpid bi hcond'] at hret
      cases hret
      exact hinv

end DiskExtendibleHashTable

namespace DiskExtendibleHashTable

open ExtendibleHTableDirectoryPage

theorem setBucket_alignedInv {t : DiskExtendibleHashTable} (ht : t.AlignedInv) (pid : page_id_t)
    (b : ExtendibleHTableBucketPage) : (t.setBucket pid b).AlignedInv :=
  ⟨setBucket_inv ht.inv pid b, ht.aligned, ht.valid⟩

theorem InsertDirectory_alignedInv {t : DiskExtendibleHashTable} (ht : t.AlignedInv) (i : Nat) :
    (t.InsertDirectory i).1.AlignedInv := by
  refine ⟨(InsertDirectory_spec ht.inv i).1, ?_, ?_⟩
  · intro p
    unfold InsertDirectory
    by_cases h1 : t.header_page.IsInit i = true
    · rw [if_neg (by simp [h1])]; exact ht.aligned p
    · rw [if_pos (by simpa using h1)]
      show (if p = t.next_page_id_ then
        (t.directory_pages t.next_page_id_).Init t.directory_max_depth_
        else t.directory_pages p).Aligned
      by_cases hp : p = t.next_page_id_
      · rw [if_pos hp]; exact Aligned_of_global_depth_zero rfl
      · rw [if_neg hp]; exact ht.aligned p
  · intro p
    unfold InsertDirectory
    by_cases h1 : t.header_page.IsInit i = true
    · rw [if_neg (by simp [h1])]; exact ht.valid p
    · rw [if_pos (by simpa using h1)]
      show (if p = t.next_page_id_ then
        (t.directory_pages t.next_page_id_).Init t.directory_max_depth_
        else t.directory_pages p).NoInvalid
      by_cases hp : p = t.next_page_id_
      · rw [if_pos hp]; exact NoInvalid_of_global_depth_zero rfl
      · rw [if_neg hp]; exact ht.valid p

/-- A slot is invalid only before the directory has grown, so the page that
`Insert` creates for it is installed in a directory of global depth 0. -/
theorem InsertBucket_alignedInv {t : DiskExtendibleHashTable} (ht : t.AlignedInv)
    (dpid : page_id_t) {bi : Nat} (hbi : bi < 2 ^ (t.directory_pages dpid).global_depth_) :
    (t.InsertBucket dpid bi).1.AlignedInv := by
  refine ⟨(InsertBucket_spec ht.inv dpid bi).1, ?_, ?_⟩
  · intro p
    unfold InsertBucket
    by_cases h1 : (t.directory_pages dpid).GetBucketPageId bi = INVALID_PAGE_ID
    · rw [if_pos h1]
      show (if p = dpid then (t.directory_pages dpid).SetBucketPageId bi t.next_page_id_
        else t.directory_pages p).Aligned
      by_cases hp : p = dpid
      · rw [if_pos hp]
        apply Aligned_of_global_depth_zero
        show (t.directory_pages dpid).global_depth_ = 0
        by_contra h0
        exact ht.valid dpid (by omega) bi hbi h1
      · rw [if_neg hp]; exact ht.aligned p
    · rw [if_neg h1]; exact ht.aligned p
  · intro p
    unfold InsertBucket
    by_cases h1 : (t.directory_pages dpid).GetBucketPageId bi = INVALID_PAGE_ID
    · rw [if_pos h1]
      show (if p = dpid then (t.directory_pages dpid).SetBucketPageId bi t.next_page_id_
        else t.directory_pages p).NoInvalid
      by_cases hp : p = dpid
      · rw [if_pos hp]
        apply NoInvalid_of_global_depth_zero
        show (t.directory_pages dpid).global_depth_ = 0
        by_contra h0
        exact ht.valid dpid (by omega) bi hbi h1
      · rw [if_neg hp]; exact ht.valid p
    · rw [if_neg h1]; exact ht.valid p

/-- `Insert` keeps the index integrity when it does not start with a fan-out
split. -/
theorem Insert_alignedInv {t t' : DiskExtendibleHashTable} (ht : t.AlignedInv) {key : KeyType}
    {value : ValueType} {r : Bool} (hnf : t.FansOut key = false)
    (h : t.Insert key value = .returns (r, t')) : t'.AlignedInv := by
  unfold Insert at h
  unfold FansOut at hnf
  have d0 := InsertDirectory_alignedInv ht (t.header_page.HashToDirectoryIndex (t.Hash key))
  have b0 := @InsertBucket_alignedInv _ d0
    (t.InsertDirectory (t.header_page.HashToDirectoryIndex (t.Hash key))).2
    (((t.InsertDirectory (t.header_page.HashToDirectoryIndex (t.Hash key))).1.directory_pages
      (t.InsertDirectory (t.header_page.HashToDirectoryIndex (t.Hash key))).2).HashToBucketIndex
      (t.Hash key)) (HashToBucketIndex_lt _ _)
  obtain ⟨b1, b2, b3, b4, b5, b6⟩ := InsertBucket_spec d0.inv
    (t.InsertDirectory (t.header_page.HashToDirectoryIndex (t.Hash key))).2
    (((t.InsertDirectory (t.header_page.HashToDirectoryIndex (t.Hash key))).1.directory_pages
      (t.InsertDirectory (t.header_page.HashToDirectoryIndex (t.Hash key))).2).HashToBucketIndex
      (t.Hash key))
  simp only at h hnf
  generalize hD : t.InsertDirectory (t.header_page.HashToDirectoryIndex (t.Hash key)) = D at *
  generalize hbi : (D.1.directory_pages D.2).HashToBucketIndex (t.Hash key) = bi at *
  generalize hB : D.1.InsertBucket D.2 bi = B at *
  cases hs : SplitLoop D.2 B.2 (t.Hash key) B.1.SplitFuel B.1 bi with
  | throws e => rw [hs] at h; cases h
  | blocks => rw [hs] at h; cases h
  | spins => rw [hs] at h; cases h
  | returns t1 =>
    rw [hs] at h
    simp only [Outcome.returns.injEq, Prod.mk.injEq] at h
    rw [← h.2]
    apply setBucket_alignedInv
    refine SplitLoop_aligned D.2 B.2 (t.Hash key) b5 _ B.1 bi t1 b0 ?_ b4 ?_ hs
    · rw [← hbi]
      simp only [HashToBucketIndex_eq, b6]
    · intro hfull
      rw [hfull, Bool.true_and, decide_eq_false_iff_not] at hnf
      simp only [GetLocalDepth, GetGlobalDepth] at hnf
      omega

/-- `Remove` keeps the index integrity when it returns. -/
theorem Remove_alignedInv {t t' : DiskExtendibleHashTable} (ht : t.AlignedInv) {key : KeyType}
    {r : Bool} (h : t.Remove key = .returns (r, t')) : t'.AlignedInv := by
  unfold Remove at h
  by_cases h1 : t.header_page.IsInit (t.header_page.HashToDirectoryIndex (t.Hash key)) = true
  · simp only [h1, Bool.not_true, Bool.false_eq_true, if_false] at h
    by_cases h2 : (t.directory_pages (t.header_page.GetDirectoryPageId
        (t.header_page.HashToDirectoryIndex (t.Hash key)))).GetBucketPageId
        ((t.directory_pages (t.header_page.GetDirectoryPageId
          (t.header_page.HashToDirectoryIndex (t.Hash key)))).HashToBucketIndex (t.Hash key)) =
        INVALID_PAGE_ID
    · simp only [h2, if_true] at h
      cases h
      exact ht
    · simp only [h2, if_false] at h
      generalize hpid : t.header_page.GetDirectoryPageId
        (t.header_page.HashToDirectoryIndex (t.Hash key)) = dpid at *
      cases hs : MergeLoop dpid (t.Hash key) ((t.directory_pages dpid).GetGlobalDepth + 2)
          (t.setBucket ((t.directory_pages dpid).GetBucketPageId
            ((t.directory_pages dpid).HashToBucketIndex (t.Hash key)))
            ((t.bucket_pages ((t.directory_pages dpid).GetBucketPageId
              ((t.directory_pages dpid).HashToBucketIndex (t.Hash key)))).Remove key).2)
          ((t.directory_pages dpid).GetBucketPageId
            ((t.directory_pages dpid).HashToBucketIndex (t.Hash key)))
          ((t.directory_pages dpid).HashToBucketIndex (t.Hash key)) with
      | throws e => rw [hs] at h; cases h
      | blocks => rw [hs] at h; cases h
      | spins => rw [hs] at h; cases h
      | returns t1 =>
        rw [hs] at h
        simp only [Outcome.returns.injEq, Prod.mk.injEq] at h
        rw [← h.2]
        exact MergeLoop_aligned dpid (t.Hash key) _ _ _ _ t1 (setBucket_alignedInv ht _ _)
          rfl rfl hs
  · have h1' : t.header_page.IsInit (t.header_page.HashToDirectoryIndex (t.Hash key)) = false := by
      simpa using h1
    simp only [h1', Bool.not_false, if_true] at h
    cases h
    exact ht

theorem create_alignedInv (hash_fn : KeyType → Nat) (hmd dmd bms : Nat) (h : dmd ≤ 9) :
    (create hash_fn hmd dmd bms).AlignedInv :=
  ⟨create_inv hash_fn hmd dmd bms h, fun _ => Aligned_zeroed,
    fun _ => NoInvalid_of_global_depth_zero rfl⟩

/-- Every table reached without a fan-out split has the index integrity. -/
theorem alignedInv_of_reachable {hash_fn : KeyType → Nat} {hmd dmd bms : Nat} (hdmd : dmd ≤ 9)
    {t : DiskExtendibleHashTable} (h : ReachableWithoutFanOut hash_fn hmd dmd bms t) :
    t.AlignedInv := by
  induction h with
  | fresh => exact create_alignedInv _ _ _ _ hdmd
  | insert _ hnf hi ih => exact Insert_alignedInv ih hnf hi
  | remove _ hr ih => exact Remove_alignedInv ih hr

theorem reachableWithoutFanOut_run {hash_fn : KeyType → Nat} {hmd dmd bms : Nat} (ops : List Op) :
    ∀ {t t' : DiskExtendibleHashTable}, ReachableWithoutFanOut hash_fn hmd dmd bms t →
      run t ops = some t' → fansOutIn t ops = false →
      ReachableWithoutFanOut hash_fn hmd dmd bms t' := by
  induction ops with
  | nil =>
    intro t t' ht h _
    simp [run] at h
    exact h ▸ ht
  | cons op ops ih =>
    intro t t' ht h hf
    cases op with
    | insert key value =>
      simp only [run] at h
      simp only [fansOutIn, Bool.or_eq_false_iff] at hf
      cases hi : t.Insert key value with
      | returns r =>
        rw [hi] at h hf
        exact ih (@ReachableWithoutFanOut.insert _ _ _ _ t r.2 key value r.1 ht hf.1
          (by rw [hi])) h hf.2
      | throws e => rw [hi] at h; simp at h
      | blocks => rw [hi] at h; simp at h
      | spins => rw [hi] at h; simp at h
    | remove key =>
      simp only [run] at h
      simp only [fansOutIn] at hf
      cases hi : t.Remove key with
      | returns r =>
        rw [hi] at h hf
        exact ih (@ReachableWithoutFanOut.remove _ _ _ _ t r.2 key r.1 ht (by rw [hi])) h hf
      | throws e => rw [hi] at h; simp at h
      | blocks => rw [hi] at h; simp at h
      | spins => rw [hi] at h; simp at h

theorem reachableWithoutFanOut_after {hash_fn : KeyType → Nat} {hmd dmd bms : Nat}
    (ops : List Op) (h : (run (create hash_fn hmd dmd bms) ops).isSome = true)
    (hf : fansOutIn (create hash_fn hmd dmd bms) ops = false) :
    ReachableWithoutFanOut hash_fn hmd dmd bms (after hash_fn hmd dmd bms ops) := by
  refine reachableWithoutFanOut_run ops ReachableWithoutFanOut.fresh ?_ hf
  unfold after
  cases hr : run (create hash_fn hmd dmd bms) ops with
  | none => rw [hr] at h; simp at h
  | some t => simp

set_option maxRecDepth 100000

/-- The fan-out split is what the restriction of the amended C8 excludes: with
`bucket_max_size = 1` and `directory_max_depth = 3`, after the inserts of 0, 1, 4
and 3 the slots 3 and 7, which differ in bit 2, at the local depth 2 of slot 3,
hold different bucket pages. -/
theorem high_bit_integrity_fails_after_fan_out :
    ∃ t : DiskExtendibleHashTable,
      Reachable identityHash 0 3 1 t ∧
      ∃ i j : Nat, i < 2 ^ (t.directoryOf 0).GetGlobalDepth ∧
        (t.directoryOf 0).GetLocalDepth i ≤ j ∧ j < (t.directoryOf 0).GetGlobalDepth ∧
        (t.directoryOf 0).GetBucketPageId (i ^^^ (1 <<< j)) ≠
          (t.directoryOf 0).GetBucketPageId i := by
  exact ⟨after identityHash 0 3 1 [.insert 0 100, .insert 1 101, .insert 4 104, .insert 3 103],
    reachable_after _ (by decide), 3, 2, by decide, by decide, by decide, by decide⟩

/-- C8, amended: the directory takes the low bits of the hash, so the slots that
share a bucket page differ in the bits at or above the local depth.  In every
table reached from a fresh one (`directory_max_depth ≤ 9`) through returning
`Insert` and `Remove` calls, none of the inserts starting with the split of a
bucket whose local depth is more than one below the global depth, for every
directory page, every live entry `i` and every `j` with
`local_depths[i] ≤ j < global_depth`,
`bucket_page_ids[i XOR (1 << j)] = bucket_page_ids[i]`. -/
theorem C8_high_bit_integrity_without_fan_out (hash_fn : KeyType → Nat)
    (header_max_depth directory_max_depth bucket_max_size : Nat)
    (hdmd : directory_max_depth ≤ 9) (t : DiskExtendibleHashTable)
    (hr : ReachableWithoutFanOut hash_fn header_max_depth directory_max_depth bucket_max_size t)
    (directory_page_id : page_id_t) (i j : Nat)
    (hi : i < 2 ^ (t.directory_pages directory_page_id).GetGlobalDepth)
    (hj : (t.directory_pages directory_page_id).GetLocalDepth i ≤ j)
    (hjg : j < (t.directory_pages directory_page_id).GetGlobalDepth) :
    (t.directory_pages directory_page_id).GetBucketPageId (i ^^^ (1 <<< j)) =
      (t.directory_pages directory_page_id).GetBucketPageId i := by
  rw [Nat.one_shiftLeft]
  exact ((alignedInv_of_reachable hdmd hr).aligned directory_page_id i hi j hj hjg).1

theorem C8_high_bit_integrity_without_fan_out_witness :
    (1 : Nat) < 2 ^ ((after identityHash 0 2 1 [.insert 0 100, .insert 2 102]).directory_pages
      1).GetGlobalDepth ∧
    ((after identityHash 0 2 1 [.insert 0 100, .insert 2 102]).directory_pages 1).GetLocalDepth 1
      ≤ 1 ∧
    ((after identityHash 0 2 1 [.insert 0 100, .insert 2 102]).directory_pages 1).GetBucketPageId
      (1 ^^^ (1 <<< 1)) =
    ((after identityHash 0 2 1 [.insert 0 100, .insert 2 102]).directory_pages 1).GetBucketPageId
      1 :=
  ⟨by decide, by decide,
    C8_high_bit_integrity_without_fan_out identityHash 0 2 1 (by decide)
      (after identityHash 0 2 1 [.insert 0 100, .insert 2 102])
      (reachableWithoutFanOut_after _ (by decide) (by decide)) 1 1 1 (by decide) (by decide)
      (by decide)⟩

end DiskExtendibleHashTable

/-! ## The replacer: victim choice -/

namespace LRUKReplacer

theorem count_eq_zero_iff (s : LRUKReplacer) (f : frame_id_t) :
    s.count f = 0 ↔ f ∉ s.node_store_.map LRUKNode.fid_ := by
  unfold count
  rw [List.length_eq_zero, List.filter_eq_nil_iff]
  simp [List.mem_map]

theorem map_fid_update (l : List LRUKNode) (f : frame_id_t) (g : LRUKNode → LRUKNode)
    (hg : ∀ n, (g n).fid_ = n.fid_) :
    (l.map (fun n => if n.fid_ == f then g n else n)).map LRUKNode.fid_ = l.map LRUKNode.fid_ := by
  induction l with
  | nil => rfl
  | cons a l ih =>
    simp only [List.map_cons, ih]
    by_cases h : (a.fid_ == f) = true
    · simp [h, hg]
    · simp [h]

theorem inv_RecordAccess {k : Nat} {s : LRUKReplacer} (h : Inv k s) (f : frame_id_t) :
    Inv k (s.RecordAccess f) := by
  have hrec : ∀ n : LRUKNode, n.k_ = k → n.history_.length ≤ k →
      (∀ x ∈ n.history_, x < s.current_timestamp_) →
      (n.recordAccess s.current_timestamp_).k_ = k ∧
      (n.recordAccess s.current_timestamp_).history_.length ≤ k ∧
      ∀ x ∈ (n.recordAccess s.current_timestamp_).history_, x < s.current_timestamp_ + 1 := by
    intro n hk hl hx
    refine ⟨hk, ?_, ?_⟩
    · simp only [LRUKNode.recordAccess, List.length_drop, List.length_append, List.length_singleton]
      omega
    · intro x hxm
      simp only [LRUKNode.recordAccess] at hxm
      have := List.mem_of_mem_drop hxm
      rcases List.mem_append.1 this with h1 | h1
      · have := hx x h1; omega
      · simp at h1; omega
  have hstore : ∀ store : List LRUKNode, (store.map LRUKNode.fid_).Nodup →
      (∀ n ∈ store, n.k_ = k ∧ n.history_.length ≤ k ∧ ∀ x ∈ n.history_, x < s.current_timestamp_) →
      Inv k { s with
        node_store_ := store.map (fun n =>
          if n.fid_ == f then n.recordAccess s.current_timestamp_ else n),
        current_timestamp_ := s.current_timestamp_ + 1 } := by
    intro store hnd hall
    refine ⟨h.k_eq, ?_, ?_, ?_, ?_⟩
    · simp only
      rw [map_fid_update store f (fun n => n.recordAccess s.current_timestamp_) (fun n => rfl)]
      exact hnd
    · intro n hn
      simp only [List.mem_map] at hn
      obtain ⟨m, hm, rfl⟩ := hn
      by_cases hf : (m.fid_ == f) = true
      · simp only [hf, if_true]; exact (hrec m (hall m hm).1 (hall m hm).2.1 (hall m hm).2.2).1
      · simp only [hf]; exact (hall m hm).1
    · intro n hn
      simp only [List.mem_map] at hn
      obtain ⟨m, hm, rfl⟩ := hn
      by_cases hf : (m.fid_ == f) = true
      · simp only [hf, if_true]; exact (hrec m (hall m hm).1 (hall m hm).2.1 (hall m hm).2.2).2.1
      · simp only [hf]; exact (hall m hm).2.1
    · intro n hn
      simp only [List.mem_map] at hn
      obtain ⟨m, hm, rfl⟩ := hn
      by_cases hf : (m.fid_ == f) = true
      · simp only [hf, if_true]; exact (hrec m (hall m hm).1 (hall m hm).2.1 (hall m hm).2.2).2.2
      · simp only [hf]
        intro x hx
        have := (hall m hm).2.2 x hx
        show x < s.current_timestamp_ + 1
        omega
  unfold RecordAccess
  by_cases hc : s.count f = 0
  · simp only [hc, if_true]
    apply hstore
    · rw [List.map_append, List.nodup_append]
      refine ⟨h.nodup, by simp, ?_⟩
      intro a ha hb
      simp at hb
      subst hb
      exact (count_eq_zero_iff s _).1 hc ha
    · intro n hn
      rcases List.mem_append.1 hn with h1 | h1
      · exact ⟨h.node_k n h1, h.len_le n h1, h.hist_lt n h1⟩
      · simp at h1
        subst h1
        exact ⟨h.k_eq, by simp, by simp⟩
  · simp only [hc, if_false]
    exact hstore _ h.nodup (fun n hn => ⟨h.node_k n hn, h.len_le n hn, h.hist_lt n hn⟩)

theorem inv_create (num_frames k : Nat) : Inv k (create num_frames k) :=
  ⟨rfl, by simp [create], by simp [create], by simp [create], by simp [create]⟩

theorem inv_SetEvictable {k : Nat} {s : LRUKReplacer} (h : Inv k s) (f : frame_id_t) (b : Bool) :
    Inv k (s.SetEvictable f b) := by
  unfold SetEvictable
  cases s.find f with
  | none => exact h
  | some target =>
    refine ⟨h.k_eq, ?_, ?_, ?_, ?_⟩
    · simp only
      rw [map_fid_update s.node_store_ f (fun n => n.setEvictable b) (fun n => rfl)]
      exact h.nodup
    all_goals
      intro n hn
      simp only [List.mem_map] at hn
      obtain ⟨m, hm, rfl⟩ := hn
      by_cases hf : (m.fid_ == f) = true
      · simp only [hf, if_true, LRUKNode.setEvictable]
        first | exact h.node_k m hm | exact h.len_le m hm | exact h.hist_lt m hm
      · simp only [hf]
        first | exact h.node_k m hm | exact h.len_le m hm | exact h.hist_lt m hm

theorem inv_erase {k : Nat} {s : LRUKReplacer} (h : Inv k s) (f : frame_id_t) (c : Nat) :
    Inv k { s with node_store_ := s.erase f, curr_size_ := c } := by
  have hsub : (s.erase f).Sublist s.node_store_ := List.filter_sublist _
  exact ⟨h.k_eq, (hsub.map LRUKNode.fid_).nodup h.nodup,
    fun n hn => h.node_k n (hsub.subset hn), fun n hn => h.len_le n (hsub.subset hn),
    fun n hn => h.hist_lt n (hsub.subset hn)⟩

theorem inv_Evict {k : Nat} {s : LRUKReplacer} (h : Inv k s) : Inv k s.Evict.2 := by
  unfold Evict
  by_cases he : s.node_store_.isEmpty = true
  · simp only [he, if_true]; exact h
  · simp only [he]
    cases evictScan s.current_timestamp_ none s.node_store_ with
    | none => exact h
    | some target => exact inv_erase h _ _

theorem inv_Remove {k : Nat} {s s' : LRUKReplacer} (h : Inv k s) (f : frame_id_t)
    (hr : s.Remove f = some s') : Inv k s' := by
  unfold Remove at hr
  cases hfind : s.find f with
  | none =>
    rw [hfind] at hr
    simp at hr
    exact hr ▸ h
  | some target =>
    rw [hfind] at hr
    by_cases he : target.isEvictable = true
    · simp [he] at hr
      exact hr ▸ inv_erase h _ _
    · simp [he] at hr

theorem inv_reorder {k : Nat} {s : LRUKReplacer} (h : Inv k s) (store : List LRUKNode)
    (hp : s.node_store_.Perm store) : Inv k { s with node_store_ := store } :=
  ⟨h.k_eq, ((hp.map LRUKNode.fid_).nodup_iff).1 h.nodup,
    fun n hn => h.node_k n (hp.mem_iff.2 hn), fun n hn => h.len_le n (hp.mem_iff.2 hn),
    fun n hn => h.hist_lt n (hp.mem_iff.2 hn)⟩

theorem replacer_inv_of_reachable {num_frames k : Nat} {s : LRUKReplacer}
    (h : Reachable num_frames k s) : Inv k s := by
  induction h with
  | create => exact inv_create _ _
  | recordAccess f _ ih => exact inv_RecordAccess ih f
  | setEvictable f b _ ih => exact inv_SetEvictable ih f b
  | evict _ ih => exact inv_Evict ih
  | remove f _ hr ih => exact inv_Remove ih f hr
  | reorder store _ hp ih => exact inv_reorder ih store hp

theorem dist_le_of_hasLarger {n t : LRUKNode} {c : Nat}
    (h : n.hasLargerBackwardKDistance t c = true) :
    t.getBackwardKDistance c ≤ n.getBackwardKDistance c := by
  unfold LRUKNode.hasLargerBackwardKDistance at h
  by_cases hd : n.getBackwardKDistance c = t.getBackwardKDistance c
  · omega
  · simp only [ne_eq, hd, not_false_eq_true, if_true, decide_eq_true_eq] at h
    omega

theorem dist_le_of_not_hasLarger {n t : LRUKNode} {c : Nat}
    (h : n.hasLargerBackwardKDistance t c = false) :
    n.getBackwardKDistance c ≤ t.getBackwardKDistance c := by
  unfold LRUKNode.hasLargerBackwardKDistance at h
  by_cases hd : n.getBackwardKDistance c = t.getBackwardKDistance c
  · omega
  · simp only [ne_eq, hd, not_false_eq_true, if_true, decide_eq_false_iff_not] at h
    omega

theorem evictScan_some (c : Nat) : ∀ (l : List LRUKNode) (t : LRUKNode),
    ∃ r, evictScan c (some t) l = some r ∧ (r = t ∨ (r ∈ l ∧ r.isEvictable = true)) ∧
      t.getBackwardKDistance c ≤ r.getBackwardKDistance c ∧
      ∀ n ∈ l, n.isEvictable = true → n.getBackwardKDistance c ≤ r.getBackwardKDistance c := by
  intro l
  induction l with
  | nil => intro t; exact ⟨t, rfl, Or.inl rfl, le_refl _, by simp⟩
  | cons a l ih =>
    intro t
    by_cases ha : a.isEvictable = true
    · by_cases hl : a.hasLargerBackwardKDistance t c = true
      · obtain ⟨r, hr, hmem, hle, hall⟩ := ih a
        refine ⟨r, by simp [evictScan, ha, hl, hr], ?_, ?_, ?_⟩
        · rcases hmem with h1 | h1
          · right; exact ⟨by simp [h1], h1 ▸ ha⟩
          · right; exact ⟨List.mem_cons_of_mem _ h1.1, h1.2⟩
        · exact le_trans (dist_le_of_hasLarger hl) hle
        · intro n hn hne
          rcases List.mem_cons.1 hn with h1 | h1
          · exact h1 ▸ hle
          · exact hall n h1 hne
      · have hl' : a.hasLargerBackwardKDistance t c = false := by simpa using hl
        obtain ⟨r, hr, hmem, hle, hall⟩ := ih t
        refine ⟨r, by simp [evictScan, ha, hl', hr], ?_, hle, ?_⟩
        · rcases hmem with h1 | h1
          · left; exact h1
          · right; exact ⟨List.mem_cons_of_mem _ h1.1, h1.2⟩
        · intro n hn hne
          rcases List.mem_cons.1 hn with h1 | h1
          · exact h1 ▸ le_trans (dist_le_of_not_hasLarger hl') hle
          · exact hall n h1 hne
    · obtain ⟨r, hr, hmem, hle, hall⟩ := ih t
      refine ⟨r, by simp [evictScan, ha, hr], ?_, hle, ?_⟩
      · rcases hmem with h1 | h1
        · left; exact h1
        · right; exact ⟨List.mem_cons_of_mem _ h1.1, h1.2⟩
      · intro n hn hne
        rcases List.mem_cons.1 hn with h1 | h1
        · exact absurd (h1 ▸ hne) ha
        · exact hall n h1 hne

theorem evictScan_none (c : Nat) : ∀ (l : List LRUKNode),
    (∃ n ∈ l, n.isEvictable = true) →
    ∃ r, evictScan c none l = some r ∧ r ∈ l ∧ r.isEvictable = true ∧
      ∀ n ∈ l, n.isEvictable = true → n.getBackwardKDistance c ≤ r.getBackwardKDistance c := by
  intro l
  induction l with
  | nil => intro h; simp at h
  | cons a l ih =>
    intro hex
    by_cases ha : a.isEvictable = true
    · obtain ⟨r, hr, hmem, hle, hall⟩ := evictScan_some c l a
      refine ⟨r, by simp [evictScan, ha, hr], ?_, ?_, ?_⟩
      · rcases hmem with h1 | h1
        · simp [h1]
        · exact List.mem_cons_of_mem _ h1.1
      · rcases hmem with h1 | h1
        · exact h1 ▸ ha
        · exact h1.2
      · intro n hn hne
        rcases List.mem_cons.1 hn with h1 | h1
        · exact h1 ▸ hle
        · exact hall n h1 hne
    · have hex' : ∃ n ∈ l, n.isEvictable = true := by
        obtain ⟨n, hn, hne⟩ := hex
        rcases List.mem_cons.1 hn with h1 | h1
        · exact absurd (h1 ▸ hne) ha
        · exact ⟨n, h1, hne⟩
      obtain ⟨r, hr, hmem, hev, hall⟩ := ih hex'
      refine ⟨r, by simp [evictScan, ha, hr], List.mem_cons_of_mem _ hmem, hev, ?_⟩
      intro n hn hne
      rcases List.mem_cons.1 hn with h1 | h1
      · exact absurd (h1 ▸ hne) ha
      · exact hall n h1 hne

theorem front_lt_of_inv {k : Nat} {s : LRUKReplacer} (h : Inv k s) {n : LRUKNode}
    (hn : n ∈ s.node_store_) (hlen : 1 ≤ n.history_.length) : n.front < s.current_timestamp_ := by
  unfold LRUKNode.front
  cases hh : n.history_ with
  | nil => rw [hh] at hlen; simp at hlen
  | cons a l =>
    simp only [List.headD_cons]
    exact h.hist_lt n hn a (by rw [hh]; simp)

/-- C9: for `K >= 1`, in every reachable replacer state in which every evictable
node holds `K` timestamps (the frame was accessed at least `K` times) and some
node is evictable, `Evict` returns true with the frame of an evictable node
`target`; no other node has that frame id; the backward K-distance of `target`
is `current_timestamp_` minus its oldest held timestamp, it is at least that of
every evictable node, and that oldest timestamp is the smallest among the
evictable nodes. -/
theorem C9_evict_returns_maximum_backward_k_distance (num_frames k : Nat) (s : LRUKReplacer)
    (hk : 1 ≤ k) (hs : Reachable num_frames k s)
    (hall : ∀ n ∈ s.node_store_, n.isEvictable = true → k ≤ n.history_.length)
    (hex : ∃ n ∈ s.node_store_, n.isEvictable = true) :
    ∃ target ∈ s.node_store_,
      s.Evict.1 = some target.fid_ ∧ target.isEvictable = true ∧
      (∀ n ∈ s.node_store_, n.fid_ = target.fid_ → n = target) ∧
      target.getBackwardKDistance s.current_timestamp_ = s.current_timestamp_ - target.front ∧
      ∀ n ∈ s.node_store_, n.isEvictable = true →
        n.getBackwardKDistance s.current_timestamp_ ≤
          target.getBackwardKDistance s.current_timestamp_ ∧
        target.front ≤ n.front := by
  have hinv := replacer_inv_of_reachable hs
  obtain ⟨r, hr, hmem, hev, hmax⟩ := evictScan_none s.current_timestamp_ s.node_store_ hex
  have hfull : ∀ n ∈ s.node_store_, n.isEvictable = true →
      n.getBackwardKDistance s.current_timestamp_ = s.current_timestamp_ - n.front := by
    intro n hn hne
    have h1 := hall n hn hne
    have h2 := hinv.len_le n hn
    have h3 := hinv.node_k n hn
    simp only [LRUKNode.getBackwardKDistance]
    rw [if_pos (by omega)]
  refine ⟨r, hmem, ?_, hev, ?_, hfull r hmem hev, ?_⟩
  · obtain ⟨n0, hn0, _⟩ := hex
    have hne : s.node_store_.isEmpty = false := by
      cases hl : s.node_store_ with
      | nil => rw [hl] at hn0; simp at hn0
      | cons a l => rfl
    simp [Evict, hne, hr, LRUKNode.getFrameID]
  · intro n hn hfid
    exact List.inj_on_of_nodup_map hinv.nodup hn hmem hfid
  · intro n hn hne
    refine ⟨hmax n hn hne, ?_⟩
    have h1 := hmax n hn hne
    rw [hfull n hn hne, hfull r hmem hev] at h1
    have h2 := front_lt_of_inv hinv hmem (by have := hall r hmem hev; omega)
    have h3 := front_lt_of_inv hinv hn (by have := hall n hn hne; omega)
    omega

theorem C9_evict_returns_maximum_backward_k_distance_witness :
    ∃ target ∈ scenarioC9.node_store_,
      scenarioC9.Evict.1 = some target.fid_ ∧ target.isEvictable = true ∧
      (∀ n ∈ scenarioC9.node_store_, n.fid_ = target.fid_ → n = target) ∧
      target.getBackwardKDistance scenarioC9.current_timestamp_ =
        scenarioC9.current_timestamp_ - target.front ∧
      ∀ n ∈ scenarioC9.node_store_, n.isEvictable = true →
        n.getBackwardKDistance scenarioC9.current_timestamp_ ≤
          target.getBackwardKDistance scenarioC9.current_timestamp_ ∧
        target.front ≤ n.front :=
  C9_evict_returns_maximum_backward_k_distance 3 2 scenarioC9 (by decide)
    (Reachable.setEvictable 2 true (Reachable.setEvictable 1 true (Reachable.recordAccess 2
      (Reachable.recordAccess 1 (Reachable.recordAccess 2 (Reachable.recordAccess 1
        Reachable.create))))))
    (by decide) (by decide)

theorem reachable_recordMany {num_frames k : Nat} {s : LRUKReplacer} (f : frame_id_t)
    (h : Reachable num_frames k s) : ∀ n, Reachable num_frames k (recordMany s f n)
  | 0 => h
  | n + 1 => Reachable.recordAccess f (reachable_recordMany f h n)

theorem recordMany_scenarioC10 (n : Nat) :
    ∃ h2 : List Nat, recordMany scenarioC10 2 (n + 1) =
      { node_store_ := [{ history_ := [0, 1], k_ := 2, fid_ := 1, is_evictable_ := true },
                        { history_ := h2, k_ := 2, fid_ := 2, is_evictable_ := false }],
        current_timestamp_ := n + 3, curr_size_ := 1, replacer_size_ := 3, k_ := 2 } := by
  induction n with
  | zero => exact ⟨[2], by decide⟩
  | succ n ih =>
    obtain ⟨h2, hh⟩ := ih
    rw [recordMany, hh]
    exact ⟨(h2 ++ [n + 1 + 2]).drop ((h2 ++ [n + 1 + 2]).length - 2),
      by simp [RecordAccess, count, LRUKNode.recordAccess]⟩

theorem evict_after_recordMany (n : Nat) (hn : 2147483644 ≤ n) :
    (∃ m ∈ (((recordMany scenarioC10 2 (n + 1)).RecordAccess 3).SetEvictable 3 true).node_store_,
      m.isEvictable = true ∧ m.fid_ = 3 ∧ m.history_.length < 2) ∧
    (∃ m ∈ (((recordMany scenarioC10 2 (n + 1)).RecordAccess 3).SetEvictable 3 true).node_store_,
      m.fid_ = 1 ∧ m.history_.length = 2 ∧
      2147483647 < m.getBackwardKDistance
        (((recordMany scenarioC10 2 (n + 1)).RecordAccess 3).SetEvictable 3
          true).current_timestamp_) ∧
    (((recordMany scenarioC10 2 (n + 1)).RecordAccess 3).SetEvictable 3 true).Evict.1 = some 1 := by
  obtain ⟨h2, hh⟩ := recordMany_scenarioC10 n
  rw [hh]
  refine ⟨⟨{ history_ := [n + 3], k_ := 2, fid_ := 3, is_evictable_ := true }, ?_, rfl, rfl,
    by simp⟩, ⟨{ history_ := [0, 1], k_ := 2, fid_ := 1, is_evictable_ := true }, ?_, rfl, rfl,
    ?_⟩, ?_⟩
  · simp [RecordAccess, SetEvictable, count, find, LRUKNode.recordAccess, LRUKNode.setEvictable]
  · simp [RecordAccess, SetEvictable, count, find, LRUKNode.recordAccess, LRUKNode.setEvictable]
  · simp [RecordAccess, SetEvictable, count, find, LRUKNode.recordAccess, LRUKNode.setEvictable,
      LRUKNode.getBackwardKDistance, LRUKNode.front]
    omega
  · simp [RecordAccess, SetEvictable, count, find, LRUKNode.recordAccess, LRUKNode.setEvictable,
      Evict, evictScan, erase, LRUKNode.isEvictable, LRUKNode.hasLargerBackwardKDistance,
      LRUKNode.getBackwardKDistance, LRUKNode.front, LRUKNode.getFrameID]
    rw [if_neg (by omega)]

/-- C10: with `K = 2`, after `RecordAccess(1)` twice, `SetEvictable(1, true)`,
2^31 calls of `RecordAccess(2)`, `RecordAccess(3)` and `SetEvictable(3, true)`, the
evictable frame 3 has a single recorded access, yet `Evict` returns frame 1,
which has two: its finite distance exceeds the value that stands for +inf. -/
theorem C10_finite_distance_beats_infinite :
    ∃ s : LRUKReplacer, Reachable 3 2 s ∧
      (∃ n ∈ s.node_store_, n.isEvictable = true ∧ n.fid_ = 3 ∧ n.history_.length < 2) ∧
      (∃ n ∈ s.node_store_, n.fid_ = 1 ∧ n.history_.length = 2 ∧
        2147483647 < n.getBackwardKDistance s.current_timestamp_) ∧
      s.Evict.1 = some 1 :=
  ⟨((recordMany scenarioC10 2 (2147483647 + 1)).RecordAccess 3).SetEvictable 3 true,
    Reachable.setEvictable 3 true (Reachable.recordAccess 3 (reachable_recordMany 2
      (Reachable.setEvictable 1 true (Reachable.recordAccess 1 (Reachable.recordAccess 1
        Reachable.create))) _)),
    evict_after_recordMany 2147483647 (by decide)⟩

end LRUKReplacer
/-! ## The replacer: accounting and histories -/

namespace LRUKReplacer

theorem map_update_of_not_mem (l : List LRUKNode) (f : frame_id_t) (g : LRUKNode → LRUKNode)
    (h : f ∉ l.map LRUKNode.fid_) : l.map (fun n => if n.fid_ == f then g n else n) = l := by
  induction l with
  | nil => rfl
  | cons a l ih =>
    simp only [List.map_cons, List.mem_cons, not_or] at h
    have ha : (a.fid_ == f) = false := by
      simp only [beq_eq_false_iff_ne, ne_eq]
      exact fun e => h.1 e.symm
    simp only [List.map_cons, ha, ih h.2]
    simp

theorem filter_ne_of_not_mem (l : List LRUKNode) (f : frame_id_t)
    (h : f ∉ l.map LRUKNode.fid_) : l.filter (fun n => !(n.fid_ == f)) = l := by
  rw [List.filter_eq_self]
  intro a ha
  simp only [Bool.not_eq_true', beq_eq_false_iff_ne, ne_eq]
  intro e
  exact h (List.mem_map.2 ⟨a, ha, e⟩)

theorem find_mem {s : LRUKReplacer} {f : frame_id_t} {target : LRUKNode}
    (h : s.find f = some target) : target ∈ s.node_store_ ∧ target.fid_ = f := by
  unfold find at h
  exact ⟨List.mem_of_find?_eq_some h, by simpa using List.find?_some h⟩

theorem find_eq_none_iff (s : LRUKReplacer) (f : frame_id_t) :
    s.find f = none ↔ s.count f = 0 := by
  rw [count_eq_zero_iff]
  unfold find
  rw [List.find?_eq_none]
  simp [List.mem_map]

theorem find_of_mem {k : Nat} {s : LRUKReplacer} (h : Inv k s) {n : LRUKNode}
    (hn : n ∈ s.node_store_) : s.find n.fid_ = some n := by
  cases hf : s.find n.fid_ with
  | none =>
    rw [find_eq_none_iff, count_eq_zero_iff] at hf
    exact absurd (List.mem_map.2 ⟨n, hn, rfl⟩) hf
  | some t =>
    obtain ⟨h1, h2⟩ := find_mem hf
    rw [List.inj_on_of_nodup_map h.nodup h1 hn h2]

/-- In a store without two nodes of one frame, changing the flag of the node of
`f` changes the number of evictable nodes by the difference of the flags. -/
theorem countP_setEvictable (f : frame_id_t) (b : Bool) : ∀ (l : List LRUKNode) (target : LRUKNode),
    (l.map LRUKNode.fid_).Nodup → l.find? (fun n => n.fid_ == f) = some target →
    (l.map (fun n => if n.fid_ == f then n.setEvictable b else n)).countP (fun n => n.isEvictable) +
        (if target.isEvictable then 1 else 0) =
      l.countP (fun n => n.isEvictable) + (if b then 1 else 0) := by
  intro l
  induction l with
  | nil => intro t _ h; simp at h
  | cons a l ih =>
    intro target hnd hfind
    simp only [List.map_cons, List.nodup_cons] at hnd
    by_cases ha : (a.fid_ == f) = true
    · have hta : target = a := by
        simp only [List.find?_cons, ha] at hfind
        exact (Option.some.inj hfind).symm
      have hf : f ∉ l.map LRUKNode.fid_ := by
        have : a.fid_ = f := by simpa using ha
        rw [← this]; exact hnd.1
      rw [hta]
      simp only [List.map_cons, ha, if_true, List.countP_cons, map_update_of_not_mem l f _ hf,
        LRUKNode.setEvictable, LRUKNode.isEvictable]
      omega
    · have ha' : (a.fid_ == f) = false := by simpa using ha
      simp only [List.find?_cons, ha'] at hfind
      have := ih target hnd.2 hfind
      simp only [List.map_cons, ha', List.countP_cons]
      simp only [Bool.false_eq_true, if_false]
      omega

/-- In a store without two nodes of one frame, deleting the node of `f` lowers
the number of evictable nodes by one when that node is evictable. -/
theorem countP_erase (f : frame_id_t) : ∀ (l : List LRUKNode) (target : LRUKNode),
    (l.map LRUKNode.fid_).Nodup → l.find? (fun n => n.fid_ == f) = some target →
    (l.filter (fun n => !(n.fid_ == f))).countP (fun n => n.isEvictable) +
        (if target.isEvictable then 1 else 0) =
      l.countP (fun n => n.isEvictable) := by
  intro l
  induction l with
  | nil => intro t _ h; simp at h
  | cons a l ih =>
    intro target hnd hfind
    simp only [List.map_cons, List.nodup_cons] at hnd
    by_cases ha : (a.fid_ == f) = true
    · have hta : target = a := by
        simp only [List.find?_cons, ha] at hfind
        exact (Option.some.inj hfind).symm
      have hf : f ∉ l.map LRUKNode.fid_ := by
        have : a.fid_ = f := by simpa using ha
        rw [← this]; exact hnd.1
      rw [hta]
      simp only [List.filter_cons, ha, Bool.not_true, Bool.false_eq_true, if_false,
        List.countP_cons, filter_ne_of_not_mem l f hf]
    · have ha' : (a.fid_ == f) = false := by simpa using ha
      simp only [List.find?_cons, ha'] at hfind
      have := ih target hnd.2 hfind
      simp only [List.filter_cons, ha', Bool.not_false, if_true, List.countP_cons]
      omega

theorem countP_recordAccess (f : frame_id_t) (c : Nat) (l : List LRUKNode) :
    (l.map (fun n => if n.fid_ == f then n.recordAccess c else n)).countP
        (fun n => n.isEvictable) = l.countP (fun n => n.isEvictable) := by
  induction l with
  | nil => rfl
  | cons a l ih =>
    simp only [List.map_cons, List.countP_cons, ih]
    by_cases ha : (a.fid_ == f) = true
    · simp [ha, LRUKNode.recordAccess, LRUKNode.isEvictable]
    · simp [ha]

end LRUKReplacer

namespace LRUKNode

theorem losesTo_refl (n : LRUKNode) (c : Nat) : n.losesTo n c := Or.inr ⟨rfl, le_refl _⟩

theorem losesTo_trans {n r q : LRUKNode} {c : Nat} (h1 : n.losesTo r c) (h2 : r.losesTo q c) :
    n.losesTo q c := by
  unfold losesTo at *
  omega

theorem losesTo_of_hasLarger {n t : LRUKNode} {c : Nat}
    (h : n.hasLargerBackwardKDistance t c = true) : t.losesTo n c := by
  unfold hasLargerBackwardKDistance at h
  unfold losesTo
  by_cases hd : n.getBackwardKDistance c = t.getBackwardKDistance c
  · simp only [ne_eq, hd, not_true_eq_false, if_false, decide_eq_true_eq] at h
    omega
  · simp only [ne_eq, hd, not_false_eq_true, if_true, decide_eq_true_eq] at h
    omega

theorem losesTo_of_not_hasLarger {n t : LRUKNode} {c : Nat}
    (h : n.hasLargerBackwardKDistance t c = false) : n.losesTo t c := by
  unfold hasLargerBackwardKDistance at h
  unfold losesTo
  by_cases hd : n.getBackwardKDistance c = t.getBackwardKDistance c
  · simp only [ne_eq, hd, not_true_eq_false, if_false, decide_eq_false_iff_not] at h
    omega
  · simp only [ne_eq, hd, not_false_eq_true, if_true, decide_eq_false_iff_not] at h
    omega

end LRUKNode

namespace LRUKReplacer

/-- The scan that starts with a candidate ends with a node that no evictable
node of the list and not the candidate wins against. -/
theorem evictScan_some_ranked (c : Nat) : ∀ (l : List LRUKNode) (t : LRUKNode),
    ∃ r, evictScan c (some t) l = some r ∧ (r = t ∨ (r ∈ l ∧ r.isEvictable = true)) ∧
      t.losesTo r c ∧ ∀ n ∈ l, n.isEvictable = true → n.losesTo r c := by
  intro l
  induction l with
  | nil => intro t; exact ⟨t, rfl, Or.inl rfl, t.losesTo_refl c, by simp⟩
  | cons a l ih =>
    intro t
    by_cases ha : a.isEvictable = true
    · by_cases hl : a.hasLargerBackwardKDistance t c = true
      · obtain ⟨r, hr, hmem, hle, hall⟩ := ih a
        refine ⟨r, by simp [evictScan, ha, hl, hr], ?_, ?_, ?_⟩
        · rcases hmem with h1 | h1
          · right; exact ⟨by simp [h1], h1 ▸ ha⟩
          · right; exact ⟨List.mem_cons_of_mem _ h1.1, h1.2⟩
        · exact LRUKNode.losesTo_trans (LRUKNode.losesTo_of_hasLarger hl) hle
        · intro n hn hne
          rcases List.mem_cons.1 hn with h1 | h1
          · exact h1 ▸ hle
          · exact hall n h1 hne
      · have hl' : a.hasLargerBackwardKDistance t c = false := by simpa using hl
        obtain ⟨r, hr, hmem, hle, hall⟩ := ih t
        refine ⟨r, by simp [evictScan, ha, hl', hr], ?_, hle, ?_⟩
        · rcases hmem with h1 | h1
          · left; exact h1
          · right; exact ⟨List.mem_cons_of_mem _ h1.1, h1.2⟩
        · intro n hn hne
          rcases List.mem_cons.1 hn with h1 | h1
          · exact h1 ▸ LRUKNode.losesTo_trans (LRUKNode.losesTo_of_not_hasLarger hl') hle
          · exact hall n h1 hne
    · obtain ⟨r, hr, hmem, hle, hall⟩ := ih t
      refine ⟨r, by simp [evictScan, ha, hr], ?_, hle, ?_⟩
      · rcases hmem with h1 | h1
        · left; exact h1
        · right; exact ⟨List.mem_cons_of_mem _ h1.1, h1.2⟩
      · intro n hn hne
        rcases List.mem_cons.1 hn with h1 | h1
        · exact absurd (h1 ▸ hne) ha
        · exact hall n h1 hne

/-- The scan of a list without evictable node finds no target. -/
theorem evictScan_none_of_all (c : Nat) : ∀ (l : List LRUKNode),
    (∀ n ∈ l, n.isEvictable = false) → evictScan c none l = none := by
  intro l
  induction l with
  | nil => intro _; rfl
  | cons a l ih =>
    intro h
    have ha := h a (by simp)
    simp only [evictScan, ha, Bool.not_false, if_true]
    exact ih (fun n hn => h n (List.mem_cons_of_mem _ hn))

/-- The scan of a list with an evictable node ends with an evictable node of the
list that no evictable node of the list wins against. -/
theorem evictScan_ranked (c : Nat) : ∀ (l : List LRUKNode),
    (∃ n ∈ l, n.isEvictable = true) →
    ∃ r, evictScan c none l = some r ∧ r ∈ l ∧ r.isEvictable = true ∧
      ∀ n ∈ l, n.isEvictable = true → n.losesTo r c := by
  intro l
  induction l with
  | nil => intro h; simp at h
  | cons a l ih =>
    intro hex
    by_cases ha : a.isEvictable = true
    · obtain ⟨r, hr, hmem, hle, hall⟩ := evictScan_some_ranked c l a
      refine ⟨r, by simp [evictScan, ha, hr], ?_, ?_, ?_⟩
      · rcases hmem with h1 | h1
        · simp [h1]
        · exact List.mem_cons_of_mem _ h1.1
      · rcases hmem with h1 | h1
        · exact h1 ▸ ha
        · exact h1.2
      · intro n hn hne
        rcases List.mem_cons.1 hn with h1 | h1
        · exact h1 ▸ hle
        · exact hall n h1 hne
    · have hex' : ∃ n ∈ l, n.isEvictable = true := by
        obtain ⟨n, hn, hne⟩ := hex
        rcases List.mem_cons.1 hn with h1 | h1
        · exact absurd (h1 ▸ hne) ha
        · exact ⟨n, h1, hne⟩
      obtain ⟨r, hr, hmem, hev, hall⟩ := ih hex'
      refine ⟨r, by simp [evictScan, ha, hr], List.mem_cons_of_mem _ hmem, hev, ?_⟩
      intro n hn hne
      rcases List.mem_cons.1 hn with h1 | h1
      · exact absurd (h1 ▸ hne) ha
      · exact hall n h1 hne

/-- `Evict` without evictable node: false, nothing written. -/
theorem Evict_of_all (s : LRUKReplacer) (h : ∀ n ∈ s.node_store_, n.isEvictable = false) :
    s.Evict = (none, s) := by
  unfold Evict
  by_cases he : s.node_store_.isEmpty = true
  · simp only [he, if_true]
  · simp only [he, Bool.false_eq_true, if_false, evictScan_none_of_all _ _ h]

/-- `Evict` with an evictable node: true with the frame of a node that no
evictable node wins against; that frame's node is erased and the size
decremented. -/
theorem Evict_of_exists (s : LRUKReplacer) (h : ∃ n ∈ s.node_store_, n.isEvictable = true) :
    ∃ target ∈ s.node_store_, target.isEvictable = true ∧
      (∀ n ∈ s.node_store_, n.isEvictable = true → n.losesTo target s.current_timestamp_) ∧
      s.Evict = (some target.fid_,
        { s with node_store_ := s.erase target.fid_, curr_size_ := s.curr_size_ - 1 }) := by
  obtain ⟨r, hr, hmem, hev, hall⟩ := evictScan_ranked s.current_timestamp_ s.node_store_ h
  refine ⟨r, hmem, hev, hall, ?_⟩
  have hne : s.node_store_.isEmpty = false := by
    cases hl : s.node_store_ with
    | nil => rw [hl] at hmem; simp at hmem
    | cons a l => rfl
  simp [Evict, hne, hr, LRUKNode.getFrameID]

theorem all_or_exists (s : LRUKReplacer) :
    (∀ n ∈ s.node_store_, n.isEvictable = false) ∨ ∃ n ∈ s.node_store_, n.isEvictable = true := by
  by_cases h : ∃ n ∈ s.node_store_, n.isEvictable = true
  · exact Or.inr h
  · left
    intro n hn
    cases hb : n.isEvictable with
    | false => rfl
    | true => exact absurd ⟨n, hn, hb⟩ h

/-- C13: `Evict` returns false exactly when no tracked node is evictable (in
particular when no node is tracked), and then it leaves the replacer, `Size()`
included, as it was. -/
theorem C13_evict_false_iff_no_evictable (s : LRUKReplacer) :
    (s.Evict.1 = none ↔ ∀ n ∈ s.node_store_, n.isEvictable = false) ∧
    (s.node_store_ = [] → s.Evict.1 = none) ∧
    (s.Evict.1 = none → s.Evict.2 = s ∧ s.Evict.2.Size = s.Size) := by
  have hiff : s.Evict.1 = none ↔ ∀ n ∈ s.node_store_, n.isEvictable = false := by
    constructor
    · intro h
      rcases all_or_exists s with h1 | h1
      · exact h1
      · obtain ⟨t, _, _, _, he⟩ := Evict_of_exists s h1
        rw [he] at h
        cases h
    · intro h
      rw [Evict_of_all s h]
  refine ⟨hiff, ?_, ?_⟩
  · intro h
    apply hiff.2
    intro n hn
    rw [h] at hn
    cases hn
  · intro h
    rw [Evict_of_all s (hiff.1 h)]
    exact ⟨rfl, rfl⟩

end LRUKReplacer

namespace LRUKReplacer

theorem sound_create (num_frames k : Nat) : Sound k (create num_frames k) :=
  ⟨rfl, by simp [create], by simp [create], by simp [create]⟩

theorem mem_recordAccess_history {n : LRUKNode} {c x : Nat}
    (h : x ∈ (n.recordAccess c).history_) : x ∈ n.history_ ∨ x = c := by
  simp only [LRUKNode.recordAccess] at h
  rcases List.mem_append.1 (List.mem_of_mem_drop h) with h1 | h1
  · exact Or.inl h1
  · right; simpa using h1

theorem sorted_recordAccess {n : LRUKNode} {c : Nat}
    (hs : n.history_.Pairwise (fun x y => x < y)) (hlt : ∀ x ∈ n.history_, x < c) :
    (n.recordAccess c).history_.Pairwise (fun x y => x < y) := by
  simp only [LRUKNode.recordAccess]
  apply List.Pairwise.sublist (List.drop_sublist _ _)
  rw [List.pairwise_append]
  refine ⟨hs, by simp, ?_⟩
  intro x hx y hy
  have : y = c := by simpa using hy
  rw [this]
  exact hlt x hx

theorem recordAccess_history_ne_nil (n : LRUKNode) (c : Nat) (hk : 1 ≤ n.k_) :
    (n.recordAccess c).history_ ≠ [] := by
  intro h
  have h1 : (n.recordAccess c).history_.length = 0 := by rw [h]; rfl
  simp only [LRUKNode.recordAccess, List.length_drop, List.length_append,
    List.length_singleton] at h1
  omega

theorem sound_RecordAccess {k : Nat} {s : LRUKReplacer} (hi : Inv k s) (h : Sound k s)
    (f : frame_id_t) : Sound k (s.RecordAccess f) := by
  have hstore : ∀ store : List LRUKNode,
      store.countP (fun n => n.isEvictable) = s.evictableCount →
      (∀ n ∈ store, n.k_ = k ∧ (∀ x ∈ n.history_, x < s.current_timestamp_) ∧
        n.history_.Pairwise (fun x y => x < y) ∧ (n.fid_ ≠ f → 1 ≤ k → n.history_ ≠ [])) →
      (∀ n ∈ store, ∀ m ∈ store, ∀ x ∈ n.history_, x ∈ m.history_ → n.fid_ = m.fid_) →
      Sound k { s with
        node_store_ := store.map (fun n =>
          if n.fid_ == f then n.recordAccess s.current_timestamp_ else n),
        current_timestamp_ := s.current_timestamp_ + 1 } := by
    intro store hcount hall hdis
    refine ⟨?_, ?_, ?_, ?_⟩
    · show s.curr_size_ = List.countP _ (store.map _)
      rw [countP_recordAccess, hcount]
      exact h.size_eq
    · intro hk n hn
      simp only [List.mem_map] at hn
      obtain ⟨m, hm, rfl⟩ := hn
      by_cases hf : (m.fid_ == f) = true
      · simp only [hf, if_true]
        exact recordAccess_history_ne_nil m _ (by rw [(hall m hm).1]; exact hk)
      · simp only [hf]
        exact (hall m hm).2.2.2 (by simpa using hf) hk
    · intro n hn
      simp only [List.mem_map] at hn
      obtain ⟨m, hm, rfl⟩ := hn
      by_cases hf : (m.fid_ == f) = true
      · simp only [hf, if_true]
        exact sorted_recordAccess (hall m hm).2.2.1 (hall m hm).2.1
      · simp only [hf]
        exact (hall m hm).2.2.1
    · intro n hn m hm x hxn hxm
      simp only [List.mem_map] at hn hm
      obtain ⟨n0, hn0, rfl⟩ := hn
      obtain ⟨m0, hm0, rfl⟩ := hm
      by_cases hfn : (n0.fid_ == f) = true
      · by_cases hfm : (m0.fid_ == f) = true
        · simp only [hfn, hfm, if_true, LRUKNode.recordAccess]
          have e1 : n0.fid_ = f := by simpa using hfn
          have e2 : m0.fid_ = f := by simpa using hfm
          rw [e1, e2]
        · simp only [hfn, hfm, if_true] at hxn hxm ⊢
          simp only [Bool.false_eq_true, if_false] at hxm ⊢
          rcases mem_recordAccess_history hxn with h1 | h1
          · exact hdis n0 hn0 m0 hm0 x h1 hxm
          · have := (hall m0 hm0).2.1 x hxm
            omega
      · by_cases hfm : (m0.fid_ == f) = true
        · simp only [hfn, hfm, if_true] at hxn hxm ⊢
          simp only [Bool.false_eq_true, if_false] at hxn ⊢
          rcases mem_recordAccess_history hxm with h1 | h1
          · exact hdis n0 hn0 m0 hm0 x hxn h1
          · have := (hall n0 hn0).2.1 x hxn
            omega
        · simp only [hfn, hfm] at hxn hxm ⊢
          simp only [Bool.false_eq_true, if_false] at hxn hxm ⊢
          exact hdis n0 hn0 m0 hm0 x hxn hxm
  have hold : ∀ n ∈ s.node_store_, n.k_ = k ∧ (∀ x ∈ n.history_, x < s.current_timestamp_) ∧
      n.history_.Pairwise (fun x y => x < y) ∧ (n.fid_ ≠ f → 1 ≤ k → n.history_ ≠ []) :=
    fun n hn => ⟨hi.node_k n hn, hi.hist_lt n hn, h.sorted n hn, fun _ hk => h.hist_ne hk n hn⟩
  unfold RecordAccess
  by_cases hc : s.count f = 0
  · simp only [hc, if_true]
    apply hstore
    · rw [List.countP_append]
      simp [LRUKNode.isEvictable, evictableCount]
    · intro n hn
      rcases List.mem_append.1 hn with h1 | h1
      · exact hold n h1
      · have hn' : n = { history_ := [], k_ := s.k_, fid_ := f, is_evictable_ := false } := by
          simpa using h1
        rw [hn']
        exact ⟨hi.k_eq, by simp, by simp, fun hne => absurd rfl hne⟩
    · intro n hn m hm x hxn hxm
      rcases List.mem_append.1 hn with h1 | h1
      · rcases List.mem_append.1 hm with h2 | h2
        · exact h.disjoint n h1 m h2 x hxn hxm
        · have hm' : m = { history_ := [], k_ := s.k_, fid_ := f, is_evictable_ := false } := by
            simpa using h2
          rw [hm'] at hxm
          simp at hxm
      · have hn' : n = { history_ := [], k_ := s.k_, fid_ := f, is_evictable_ := false } := by
          simpa using h1
        rw [hn'] at hxn
        simp at hxn
  · simp only [hc, if_false]
    exact hstore s.node_store_ rfl hold h.disjoint

theorem sound_SetEvictable {k : Nat} {s : LRUKReplacer} (hi : Inv k s) (h : Sound k s)
    (f : frame_id_t) (b : Bool) : Sound k (s.SetEvictable f b) := by
  unfold SetEvictable
  cases hfind : s.find f with
  | none => exact h
  | some target =>
    have hcount := countP_setEvictable f b s.node_store_ target hi.nodup hfind
    have hmem := (find_mem hfind).1
    have hpos : target.isEvictable = true → 1 ≤ s.node_store_.countP (fun n => n.isEvictable) := by
      intro ht
      exact List.countP_pos_iff.2 ⟨target, hmem, ht⟩
    have hsz := h.size_eq
    unfold evictableCount at hsz
    refine ⟨?_, ?_, ?_, ?_⟩
    · show _ = List.countP _ (s.node_store_.map _)
      simp only
      cases ht : target.isEvictable <;> cases b <;>
        simp only [ht, Bool.not_true, Bool.not_false, Bool.and_true, Bool.and_false,
          Bool.false_eq_true, if_true, if_false] at hcount hpos ⊢ <;>
        omega
    all_goals
      intro hk
      first
      | (intro n hn
         simp only [List.mem_map] at hn
         obtain ⟨m, hm, rfl⟩ := hn
         by_cases hf : (m.fid_ == f) = true
         · simp only [hf, if_true, LRUKNode.setEvictable]
           exact h.hist_ne hk m hm
         · simp only [hf]
           exact h.hist_ne hk m hm)
      | (intro hn
         simp only [List.mem_map] at hn
         obtain ⟨m, hm, rfl⟩ := hn
         by_cases hf : (m.fid_ == f) = true
         · simp only [hf, if_true, LRUKNode.setEvictable]
           exact h.sorted m hm
         · simp only [hf]
           exact h.sorted m hm)
      | (intro hn m hm x hxn hxm
         simp only [List.mem_map] at hn hm
         obtain ⟨n0, hn0, rfl⟩ := hn
         obtain ⟨m0, hm0, rfl⟩ := hm
         have e : ∀ q : LRUKNode, (if (q.fid_ == f) = true then q.setEvictable b else q).history_ =
             q.history_ ∧ (if (q.fid_ == f) = true then q.setEvictable b else q).fid_ = q.fid_ := by
           intro q
           by_cases hq : (q.fid_ == f) = true
           · simp [hq, LRUKNode.setEvictable]
           · simp [hq]
         rw [(e n0).1] at hxn
         rw [(e m0).1] at hxm
         rw [(e n0).2, (e m0).2]
         exact h.disjoint n0 hn0 m0 hm0 x hxn hxm)

theorem sound_erase {k : Nat} {s : LRUKReplacer} (hi : Inv k s) (h : Sound k s)
    {target : LRUKNode} (hfind : s.find target.fid_ = some target)
    (hev : target.isEvictable = true) :
    Sound k { s with node_store_ := s.erase target.fid_, curr_size_ := s.curr_size_ - 1 } := by
  have hsub : (s.erase target.fid_).Sublist s.node_store_ := List.filter_sublist _
  refine ⟨?_, fun hk n hn => h.hist_ne hk n (hsub.subset hn),
    fun n hn => h.sorted n (hsub.subset hn),
    fun n hn m hm => h.disjoint n (hsub.subset hn) m (hsub.subset hm)⟩
  have hcount := countP_erase target.fid_ s.node_store_ target hi.nodup hfind
  have hsz := h.size_eq
  unfold evictableCount at hsz
  show s.curr_size_ - 1 = List.countP _ (s.erase target.fid_)
  unfold erase
  rw [hev] at hcount
  simp only [if_true] at hcount
  omega

theorem sound_Evict {k : Nat} {s : LRUKReplacer} (hi : Inv k s) (h : Sound k s) :
    Sound k s.Evict.2 := by
  rcases all_or_exists s with h1 | h1
  · rw [Evict_of_all s h1]; exact h
  · obtain ⟨t, hmem, hev, _, he⟩ := Evict_of_exists s h1
    rw [he]
    exact sound_erase hi h (find_of_mem hi hmem) hev

theorem sound_Remove {k : Nat} {s s' : LRUKReplacer} (hi : Inv k s) (h : Sound k s)
    (f : frame_id_t) (hr : s.Remove f = some s') : Sound k s' := by
  unfold Remove at hr
  cases hfind : s.find f with
  | none =>
    rw [hfind] at hr
    simp at hr
    exact hr ▸ h
  | some target =>
    rw [hfind] at hr
    by_cases he : target.isEvictable = true
    · simp [he] at hr
      have hfid := (find_mem hfind).2
      rw [← hfid] at hfind
      exact hr ▸ sound_erase hi h hfind he
    · simp [he] at hr

theorem sound_reorder {k : Nat} {s : LRUKReplacer} (h : Sound k s) (store : List LRUKNode)
    (hp : s.node_store_.Perm store) : Sound k { s with node_store_ := store } := by
  refine ⟨?_, fun hk n hn => h.hist_ne hk n (hp.mem_iff.2 hn),
    fun n hn => h.sorted n (hp.mem_iff.2 hn),
    fun n hn m hm => h.disjoint n (hp.mem_iff.2 hn) m (hp.mem_iff.2 hm)⟩
  show s.curr_size_ = List.countP _ store
  rw [← hp.countP_eq]
  exact h.size_eq

/-- Every reachable replacer state has the accounting and timestamp facts. -/
theorem sound_of_reachable {num_frames k : Nat} {s : LRUKReplacer}
    (h : Reachable num_frames k s) : Sound k s := by
  induction h with
  | create => exact sound_create _ _
  | recordAccess f hs ih => exact sound_RecordAccess (replacer_inv_of_reachable hs) ih f
  | setEvictable f b hs ih => exact sound_SetEvictable (replacer_inv_of_reachable hs) ih f b
  | evict hs ih => exact sound_Evict (replacer_inv_of_reachable hs) ih
  | remove f hs hr ih => exact sound_Remove (replacer_inv_of_reachable hs) ih f hr
  | reorder store _ hp ih => exact sound_reorder ih store hp

end LRUKReplacer

namespace LRUKReplacer

/-- `Remove` throws exactly when `RemoveTrace` says so, and returns the replacer
that `RemoveTrace` gives otherwise. -/
theorem Remove_eq_RemoveTrace (s : LRUKReplacer) (f : frame_id_t) :
    s.Remove f = if (s.RemoveTrace f).1 then none else some (s.RemoveTrace f).2 := by
  unfold Remove RemoveTrace
  cases s.find f with
  | none => rfl
  | some target =>
    by_cases he : target.isEvictable = true
    · simp [he]
    · simp [he]

theorem RemoveTrace_of_throws (s : LRUKReplacer) (f : frame_id_t)
    (h : (s.RemoveTrace f).1 = true) : (s.RemoveTrace f).2 = s := by
  unfold RemoveTrace at h ⊢
  cases hfind : s.find f with
  | none => rfl
  | some target =>
    rw [hfind] at h
    by_cases he : target.isEvictable = true
    · simp [he] at h
    · simp [he]

theorem reachable_call {num_frames k : Nat} {s : LRUKReplacer}
    (h : Reachable num_frames k s) (c : Call) : Reachable num_frames k (s.call c) := by
  cases c with
  | recordAccess f => exact Reachable.recordAccess f h
  | setEvictable f b => exact Reachable.setEvictable f b h
  | evict => exact Reachable.evict h
  | remove f =>
    show Reachable num_frames k (s.RemoveTrace f).2
    by_cases ht : (s.RemoveTrace f).1 = true
    · rw [RemoveTrace_of_throws s f ht]; exact h
    · refine Reachable.remove f h ?_
      rw [Remove_eq_RemoveTrace, if_neg ht]

theorem reachable_calls {num_frames k : Nat} (cs : List Call) : ∀ {s : LRUKReplacer},
    Reachable num_frames k s → Reachable num_frames k (s.calls cs) := by
  induction cs with
  | nil => intro s h; exact h
  | cons c cs ih => intro s h; exact ih (reachable_call h c)

/-- C12: in every state the replacer reaches, and after every further sequence
of `RecordAccess`, `SetEvictable`, `Evict` and `Remove` calls from there, a
`Remove` that throws included, `Size()` is the number of tracked nodes whose
evictable flag is true. -/
theorem C12_size_counts_evictable_nodes (num_frames k : Nat) (s : LRUKReplacer)
    (hs : Reachable num_frames k s) (cs : List Call) :
    (s.calls cs).Size = (s.calls cs).node_store_.countP (fun n => n.isEvictable) :=
  (sound_of_reachable (reachable_calls cs hs)).size_eq

theorem C12_size_counts_evictable_nodes_witness :
    ((create 3 2).calls [.recordAccess 1, .recordAccess 2, .recordAccess 3, .setEvictable 1 true,
      .setEvictable 2 true, .remove 3, .evict, .setEvictable 3 true, .remove 3]).Size =
    ((create 3 2).calls [.recordAccess 1, .recordAccess 2, .recordAccess 3, .setEvictable 1 true,
      .setEvictable 2 true, .remove 3, .evict, .setEvictable 3 true, .remove 3]).node_store_.countP
        (fun n => n.isEvictable) :=
  C12_size_counts_evictable_nodes 3 2 (create 3 2) Reachable.create _

theorem erase_of_mem {k : Nat} {s : LRUKReplacer} (hi : Inv k s) {target : LRUKNode}
    (ht : target ∈ s.node_store_) (m : LRUKNode) :
    m ∈ s.erase target.fid_ ↔ m ∈ s.node_store_ ∧ m ≠ target := by
  unfold erase
  rw [List.mem_filter]
  constructor
  · rintro ⟨h1, h2⟩
    refine ⟨h1, ?_⟩
    intro e
    rw [e] at h2
    simp at h2
  · rintro ⟨h1, h2⟩
    refine ⟨h1, ?_⟩
    simp only [Bool.not_eq_true', beq_eq_false_iff_ne, ne_eq]
    intro e
    exact h2 (List.inj_on_of_nodup_map hi.nodup h1 ht e)

theorem count_erase (s : LRUKReplacer) (f : frame_id_t) (c : Nat) :
    count { s with node_store_ := s.erase f, curr_size_ := c } f = 0 := by
  rw [count_eq_zero_iff]
  simp only [erase, List.mem_map, List.mem_filter, not_exists, not_and]
  intro n hn e
  rw [e] at hn
  simp at hn

/-- After `RecordAccess(f)` on a replacer without node for `f`, the store ends
with a non-evictable node for `f` that holds the timestamp of the call (for
`K >= 1`). -/
theorem RecordAccess_of_untracked {k : Nat} {s : LRUKReplacer} (hi : Inv k s) (f : frame_id_t)
    (hc : s.count f = 0) :
    s.RecordAccess f =
      { s with
        node_store_ := s.node_store_ ++
          [{ history_ := [s.current_timestamp_].drop (1 - k), k_ := k, fid_ := f,
             is_evictable_ := false }],
        current_timestamp_ := s.current_timestamp_ + 1 } := by
  unfold RecordAccess
  simp only [hc, if_true, List.map_append, List.map_cons, List.map_nil, beq_self_eq_true]
  rw [map_update_of_not_mem _ _ _ ((count_eq_zero_iff s f).1 hc)]
  simp [LRUKNode.recordAccess, hi.k_eq]

/-- C14: in every reachable replacer state, an `Evict` that returns frame `f`
deletes the node of `f` (which was tracked and evictable), `Size()` goes down by
exactly one, the nodes of the other frames stay as they were (history and
evictable flag), and the timestamp is kept.  For `K >= 1` a `RecordAccess(f)`
right after it tracks `f` again with a non-evictable node whose history is the
one timestamp of that call, and for `K > 1` the backward K-distance of that node
is the value `std::numeric_limits<int>::max()` that stands for +infinity. -/
theorem C14_evict_deletes_node (num_frames k : Nat) (s : LRUKReplacer) (f : frame_id_t)
    (hs : Reachable num_frames k s) (he : s.Evict.1 = some f) :
    (∃ target ∈ s.node_store_, target.fid_ = f ∧ target.isEvictable = true) ∧
    s.Evict.2.count f = 0 ∧
    s.Evict.2.Size + 1 = s.Size ∧
    (∀ m : LRUKNode, m.fid_ ≠ f → (m ∈ s.Evict.2.node_store_ ↔ m ∈ s.node_store_)) ∧
    (∀ m ∈ s.Evict.2.node_store_, m ∈ s.node_store_) ∧
    s.Evict.2.current_timestamp_ = s.current_timestamp_ ∧
    (1 ≤ k → ∃ node ∈ (s.Evict.2.RecordAccess f).node_store_,
      node.fid_ = f ∧ node.history_ = [s.current_timestamp_] ∧ node.history_.length = 1 ∧
      node.isEvictable = false ∧ (s.Evict.2.RecordAccess f).count f = 1 ∧
      (1 < k → node.getBackwardKDistance (s.Evict.2.RecordAccess f).current_timestamp_ =
        2147483647)) := by
  have hi := replacer_inv_of_reachable hs
  have hsd := sound_of_reachable hs
  rcases all_or_exists s with h1 | h1
  · rw [Evict_of_all s h1] at he; cases he
  · obtain ⟨t, hmem, hev, _, hE⟩ := Evict_of_exists s h1
    rw [hE] at he ⊢
    have hf : t.fid_ = f := Option.some.inj he
    have hi' : Inv k { s with node_store_ := s.erase t.fid_, curr_size_ := s.curr_size_ - 1 } :=
      inv_erase hi _ _
    have hc0 := count_erase s t.fid_ (s.curr_size_ - 1)
    refine ⟨⟨t, hmem, hf, hev⟩, ?_, ?_, ?_, ?_, rfl, ?_⟩
    · rw [← hf]; exact hc0
    · have h2 := hsd.size_eq
      have h3 : 1 ≤ s.node_store_.countP (fun n => n.isEvictable) :=
        List.countP_pos_iff.2 ⟨t, hmem, hev⟩
      unfold evictableCount at h2
      show s.curr_size_ - 1 + 1 = s.curr_size_
      omega
    · intro m hm
      show m ∈ s.erase t.fid_ ↔ _
      rw [erase_of_mem hi hmem]
      constructor
      · exact fun h => h.1
      · exact fun h => ⟨h, fun e => hm (by rw [e, hf])⟩
    · intro m hm
      exact ((erase_of_mem hi hmem m).1 hm).1
    · intro hk
      rw [← hf, RecordAccess_of_untracked hi' t.fid_ hc0]
      have hd : [s.current_timestamp_].drop (1 - k) = [s.current_timestamp_] := by
        rw [show 1 - k = 0 by omega]; rfl
      refine ⟨LRUKNode.mk ([s.current_timestamp_].drop (1 - k)) k t.fid_ false, by simp, rfl, hd,
        (by rw [hd]; rfl), rfl, ?_, ?_⟩
      · unfold count
        simp only [List.filter_append]
        have h0 : (s.erase t.fid_).filter (fun n => n.fid_ == t.fid_) = [] := by
          have := hc0
          unfold count at this
          exact List.length_eq_zero.1 this
        simp [h0]
      · intro hk1
        simp only [LRUKNode.getBackwardKDistance, hd, List.length_singleton]
        rw [if_neg (by omega)]

theorem C14_evict_deletes_node_witness :
    (∃ target ∈ scenarioC11.node_store_, target.fid_ = 1 ∧ target.isEvictable = true) ∧
    scenarioC11.Evict.2.count 1 = 0 ∧
    scenarioC11.Evict.2.Size + 1 = scenarioC11.Size ∧
    (∀ m : LRUKNode, m.fid_ ≠ 1 →
      (m ∈ scenarioC11.Evict.2.node_store_ ↔ m ∈ scenarioC11.node_store_)) ∧
    (∀ m ∈ scenarioC11.Evict.2.node_store_, m ∈ scenarioC11.node_store_) ∧
    scenarioC11.Evict.2.current_timestamp_ = scenarioC11.current_timestamp_ ∧
    (1 ≤ 2 → ∃ node ∈ (scenarioC11.Evict.2.RecordAccess 1).node_store_,
      node.fid_ = 1 ∧ node.history_ = [scenarioC11.current_timestamp_] ∧
      node.history_.length = 1 ∧
      node.isEvictable = false ∧ (scenarioC11.Evict.2.RecordAccess 1).count 1 = 1 ∧
      (1 < 2 → node.getBackwardKDistance (scenarioC11.Evict.2.RecordAccess 1).current_timestamp_ =
        2147483647)) :=
  C14_evict_deletes_node 3 2 scenarioC11 1
    (Reachable.setEvictable 3 true (Reachable.setEvictable 2 true (Reachable.setEvictable 1 true
      (Reachable.recordAccess 3 (Reachable.recordAccess 2 (Reachable.recordAccess 1
        Reachable.create))))))
    (by decide)

end LRUKReplacer

namespace LRUKReplacer

/-- C15: in every reachable replacer state in which frame `f` has a node whose
evictable flag is false, `Remove(f)` throws, and it leaves the replacer (nodes,
histories, `Size()`) as it was. -/
theorem C15_remove_of_non_evictable_throws (num_frames k : Nat) (s : LRUKReplacer)
    (f : frame_id_t) (n : LRUKNode) (hs : Reachable num_frames k s) (hn : n ∈ s.node_store_)
    (hf : n.fid_ = f) (hne : n.isEvictable = false) :
    s.Remove f = none ∧ s.RemoveTrace f = (true, s) ∧ (s.RemoveTrace f).2.Size = s.Size := by
  have hfind := find_of_mem (replacer_inv_of_reachable hs) hn
  rw [hf] at hfind
  have ht : s.RemoveTrace f = (true, s) := by
    unfold RemoveTrace
    rw [hfind]
    simp [hne]
  refine ⟨?_, ht, by rw [ht]⟩
  rw [Remove_eq_RemoveTrace, ht]
  rfl

theorem C15_remove_of_non_evictable_throws_witness :
    ((create 3 2).RecordAccess 1).Remove 1 = none ∧
    ((create 3 2).RecordAccess 1).RemoveTrace 1 = (true, (create 3 2).RecordAccess 1) ∧
    (((create 3 2).RecordAccess 1).RemoveTrace 1).2.Size = ((create 3 2).RecordAccess 1).Size :=
  C15_remove_of_non_evictable_throws 3 2 ((create 3 2).RecordAccess 1) 1
    (LRUKNode.mk [0] 2 1 false) (Reachable.recordAccess 1 Reachable.create) (by decide) rfl rfl

/-- C16, as stated, fails: `Remove` of a frame that was never accessed, of a frame
that was evicted, and of a frame that was removed before, returns without an
exception. -/
theorem C16_remove_of_untracked_frame_returns :
    (create 3 2).count 1 = 0 ∧ ((create 3 2).RemoveTrace 1).1 = false ∧
    ((create 3 2).calls [.recordAccess 1, .setEvictable 1 true, .evict]).count 1 = 0 ∧
    (((create 3 2).calls [.recordAccess 1, .setEvictable 1 true, .evict]).RemoveTrace 1).1 =
      false ∧
    ((create 3 2).calls [.recordAccess 1, .setEvictable 1 true, .remove 1]).count 1 = 0 ∧
    (((create 3 2).calls [.recordAccess 1, .setEvictable 1 true, .remove 1]).RemoveTrace 1).1 =
      false := by
  decide

/-- C16, amended: `Remove(f)` of a frame without node returns normally and leaves
the replacer as it was; `Remove(f)` throws exactly when the node that
`node_store_[f]` yields is not evictable. -/
theorem C16_remove_of_untracked_frame_is_a_no_op (s : LRUKReplacer) (f : frame_id_t)
    (hc : s.count f = 0) :
    s.Remove f = some s ∧ s.RemoveTrace f = (false, s) ∧
    ∀ (s' : LRUKReplacer) (g : frame_id_t),
      (s'.RemoveTrace g).1 = true ↔ ∃ target, s'.find g = some target ∧ target.isEvictable = false := by
  have hfind := (find_eq_none_iff s f).2 hc
  refine ⟨by simp [Remove, hfind], by simp [RemoveTrace, hfind], ?_⟩
  intro s' g
  unfold RemoveTrace
  cases s'.find g with
  | none => simp
  | some target =>
    by_cases he : target.isEvictable = true
    · simp [he]
    · simp [he]

theorem C16_remove_of_untracked_frame_is_a_no_op_witness :
    (create 3 2).Remove 1 = some (create 3 2) ∧ (create 3 2).RemoveTrace 1 = (false, create 3 2) ∧
    ∀ (s' : LRUKReplacer) (g : frame_id_t),
      (s'.RemoveTrace g).1 = true ↔ ∃ target, s'.find g = some target ∧ target.isEvictable = false :=
  C16_remove_of_untracked_frame_is_a_no_op (create 3 2) 1 (by decide)

theorem SetEvictable_of_mem {k : Nat} {s : LRUKReplacer} (hi : Inv k s) {n : LRUKNode}
    (hn : n ∈ s.node_store_) (b : Bool) :
    s.SetEvictable n.fid_ b =
      { s with
        curr_size_ :=
          if !n.isEvictable && b then s.curr_size_ + 1
          else if n.isEvictable && !b then s.curr_size_ - 1
          else s.curr_size_,
        node_store_ := s.node_store_.map (fun m =>
          if m.fid_ == n.fid_ then m.setEvictable b else m) } := by
  unfold SetEvictable
  rw [find_of_mem hi hn]

theorem SetEvictable_of_untracked (s : LRUKReplacer) (f : frame_id_t) (b : Bool)
    (hc : s.count f = 0) : s.SetEvictable f b = s := by
  unfold SetEvictable
  rw [(find_eq_none_iff s f).2 hc]

theorem SetEvictable_of_same {k : Nat} {s : LRUKReplacer} (hi : Inv k s) {n : LRUKNode}
    (hn : n ∈ s.node_store_) : s.SetEvictable n.fid_ n.isEvictable = s := by
  rw [SetEvictable_of_mem hi hn]
  have hmap : s.node_store_.map (fun m =>
      if m.fid_ == n.fid_ then m.setEvictable n.isEvictable else m) = s.node_store_ := by
    conv_rhs => rw [← List.map_id s.node_store_]
    apply List.map_congr_left
    intro m hm
    by_cases hf : (m.fid_ == n.fid_) = true
    · have e : m = n := List.inj_on_of_nodup_map hi.nodup hm hn (by simpa using hf)
      simp [e, LRUKNode.setEvictable, LRUKNode.isEvictable]
    · simp [hf]
  rw [hmap]
  cases n.isEvictable <;> rfl

/-- C17: in every reachable replacer state, `SetEvictable(f, b)` raises `Size()`
by one when `f` has a non-evictable node and `b` is true, lowers it by one when
`f` has an evictable node and `b` is false, and leaves the whole replacer as it
was when the node of `f` already has the flag `b` or when `f` has no node; a
second `SetEvictable(f, b)` changes nothing. -/
theorem C17_set_evictable_maintains_size (num_frames k : Nat) (s : LRUKReplacer)
    (hs : Reachable num_frames k s) (f : frame_id_t) (b : Bool) :
    (∀ n ∈ s.node_store_, n.fid_ = f → n.isEvictable = false → b = true →
      (s.SetEvictable f b).Size = s.Size + 1) ∧
    (∀ n ∈ s.node_store_, n.fid_ = f → n.isEvictable = true → b = false →
      (s.SetEvictable f b).Size + 1 = s.Size) ∧
    (∀ n ∈ s.node_store_, n.fid_ = f → n.isEvictable = b → s.SetEvictable f b = s) ∧
    (s.count f = 0 → s.SetEvictable f b = s) ∧
    (s.SetEvictable f b).SetEvictable f b = s.SetEvictable f b := by
  have hi := replacer_inv_of_reachable hs
  have hsd := sound_of_reachable hs
  refine ⟨?_, ?_, ?_, SetEvictable_of_untracked s f b, ?_⟩
  · intro n hn hf hne hb
    rw [← hf, SetEvictable_of_mem hi hn, hne, hb]
    rfl
  · intro n hn hf hne hb
    rw [← hf, SetEvictable_of_mem hi hn, hne, hb]
    have h2 := hsd.size_eq
    have h3 : 1 ≤ s.node_store_.countP (fun n => n.isEvictable) :=
      List.countP_pos_iff.2 ⟨n, hn, hne⟩
    unfold evictableCount at h2
    show s.curr_size_ - 1 + 1 = s.curr_size_
    omega
  · intro n hn hf hne
    rw [← hf, ← hne]
    exact SetEvictable_of_same hi hn
  · by_cases hc : s.count f = 0
    · rw [SetEvictable_of_untracked s f b hc, SetEvictable_of_untracked s f b hc]
    · have hmem : f ∈ s.node_store_.map LRUKNode.fid_ := by
        by_contra h
        exact hc ((count_eq_zero_iff s f).2 h)
      obtain ⟨n, hn, hf⟩ := List.mem_map.1 hmem
      have hi' := inv_SetEvictable hi f b
      have hn' : n.setEvictable b ∈ (s.SetEvictable f b).node_store_ := by
        rw [← hf, SetEvictable_of_mem hi hn]
        exact List.mem_map.2 ⟨n, hn, by simp⟩
      have h2 : (s.SetEvictable f b).SetEvictable n.fid_ b = s.SetEvictable f b :=
        @SetEvictable_of_same k (s.SetEvictable f b) hi' (n.setEvictable b) hn'
      rw [hf] at h2
      exact h2

theorem C17_set_evictable_maintains_size_witness :
    (∀ n ∈ ((create 3 2).RecordAccess 1).node_store_, n.fid_ = 1 → n.isEvictable = false →
      true = true →
      (((create 3 2).RecordAccess 1).SetEvictable 1 true).Size =
        ((create 3 2).RecordAccess 1).Size + 1) ∧
    (∀ n ∈ ((create 3 2).RecordAccess 1).node_store_, n.fid_ = 1 → n.isEvictable = true →
      true = false →
      (((create 3 2).RecordAccess 1).SetEvictable 1 true).Size + 1 =
        ((create 3 2).RecordAccess 1).Size) ∧
    (∀ n ∈ ((create 3 2).RecordAccess 1).node_store_, n.fid_ = 1 → n.isEvictable = true →
      ((create 3 2).RecordAccess 1).SetEvictable 1 true = (create 3 2).RecordAccess 1) ∧
    (((create 3 2).RecordAccess 1).count 1 = 0 →
      ((create 3 2).RecordAccess 1).SetEvictable 1 true = (create 3 2).RecordAccess 1) ∧
    (((create 3 2).RecordAccess 1).SetEvictable 1 true).SetEvictable 1 true =
      ((create 3 2).RecordAccess 1).SetEvictable 1 true :=
  C17_set_evictable_maintains_size 3 2 ((create 3 2).RecordAccess 1)
    (Reachable.recordAccess 1 Reachable.create) 1 true

/-- C19: `RecordAccess` has no check of the frame id: called with a frame id
larger than `replacer_size_` that has no node, it returns with a node created
for that frame and the timestamp advanced. -/
theorem C19_record_access_tracks_invalid_frame (num_frames k : Nat) (s : LRUKReplacer)
    (hs : Reachable num_frames k s) (f : frame_id_t) (_hf : (s.replacer_size_ : Int) < f)
    (hc : s.count f = 0) :
    (s.RecordAccess f).count f = 1 ∧
    (s.RecordAccess f).node_store_.length = s.node_store_.length + 1 ∧
    (s.RecordAccess f).current_timestamp_ = s.current_timestamp_ + 1 := by
  rw [RecordAccess_of_untracked (replacer_inv_of_reachable hs) f hc]
  refine ⟨?_, by simp, rfl⟩
  unfold count
  simp only [List.filter_append]
  have h0 : s.node_store_.filter (fun n => n.fid_ == f) = [] := by
    unfold count at hc
    exact List.length_eq_zero.1 hc
  simp [h0]

theorem C19_record_access_tracks_invalid_frame_witness :
    ((create 3 2).RecordAccess 7).count 7 = 1 ∧
    ((create 3 2).RecordAccess 7).node_store_.length = (create 3 2).node_store_.length + 1 ∧
    ((create 3 2).RecordAccess 7).current_timestamp_ = (create 3 2).current_timestamp_ + 1 :=
  C19_record_access_tracks_invalid_frame 3 2 (create 3 2) Reachable.create 7 (by decide)
    (by decide)

end LRUKReplacer

/-! ## The header page -/

namespace ExtendibleHTableHeaderPage

theorem halve_eq (n : Nat) : ∀ hash : Nat, halve n hash = hash / 2 ^ n := by
  induction n with
  | zero => intro hash; simp [halve]
  | succ n ih =>
    intro hash
    rw [halve, ih, Nat.div_div_eq_div_mul, pow_succ, Nat.mul_comm]

/-- C20: for every 32-bit hash and every header page with `max_depth_` in 0..9,
`HashToDirectoryIndex` returns the top `max_depth_` bits of the hash, that is
`hash / 2^(32 - max_depth_)`; the result is below `2^max_depth_`, which is
`MaxSize()`, and it is 0 when `max_depth_` is 0. -/
theorem C20_hash_to_directory_index_is_top_bits (h : ExtendibleHTableHeaderPage) (hash : Nat)
    (hhash : hash < 4294967296) (hmax : h.max_depth_ ≤ 9) :
    h.HashToDirectoryIndex hash = hash / 2 ^ (32 - h.max_depth_) ∧
    h.HashToDirectoryIndex hash < 2 ^ h.max_depth_ ∧
    h.MaxSize = 2 ^ h.max_depth_ ∧
    h.HashToDirectoryIndex hash < h.MaxSize ∧
    (h.max_depth_ = 0 → h.HashToDirectoryIndex hash = 0) := by
  have hshift : (4294967296 + 32 - h.max_depth_) % 4294967296 = 32 - h.max_depth_ := by omega
  have heq : h.HashToDirectoryIndex hash = hash / 2 ^ (32 - h.max_depth_) := by
    unfold HashToDirectoryIndex
    rw [hshift, halve_eq]
  have hlt : h.HashToDirectoryIndex hash < 2 ^ h.max_depth_ := by
    rw [heq, Nat.div_lt_iff_lt_mul (by positivity), ← pow_add,
      show h.max_depth_ + (32 - h.max_depth_) = 32 by omega]
    exact hhash
  have hsize : h.MaxSize = 2 ^ h.max_depth_ := by
    unfold MaxSize
    rw [Nat.one_shiftLeft]
  refine ⟨heq, hlt, hsize, by rw [hsize]; exact hlt, ?_⟩
  intro h0
  rw [h0] at hlt
  omega

theorem C20_hash_to_directory_index_is_top_bits_witness :
    (zeroed.Init 2).HashToDirectoryIndex 3221225473 = 3221225473 / 2 ^ (32 - (zeroed.Init 2).max_depth_) ∧
    (zeroed.Init 2).HashToDirectoryIndex 3221225473 < 2 ^ (zeroed.Init 2).max_depth_ ∧
    (zeroed.Init 2).MaxSize = 2 ^ (zeroed.Init 2).max_depth_ ∧
    (zeroed.Init 2).HashToDirectoryIndex 3221225473 < (zeroed.Init 2).MaxSize ∧
    ((zeroed.Init 2).max_depth_ = 0 → (zeroed.Init 2).HashToDirectoryIndex 3221225473 = 0) :=
  C20_hash_to_directory_index_is_top_bits (zeroed.Init 2) 3221225473 (by decide) (by decide)

end ExtendibleHTableHeaderPage

namespace LRUKReplacer

theorem evicted_of_all (m : Nat) (s : LRUKReplacer)
    (h : ∀ n ∈ s.node_store_, n.isEvictable = false) : evicted m s = [] := by
  cases m with
  | zero => rfl
  | succ m => simp [evicted, Evict_of_all s h]

theorem front_mem {n : LRUKNode} (h : n.history_ ≠ []) : n.front ∈ n.history_ := by
  unfold LRUKNode.front
  cases hh : n.history_ with
  | nil => exact absurd hh h
  | cons a l => simp

/-- The nodes that repeated `Evict` calls delete are evictable nodes of the
store, and among those with fewer than `K` timestamps a node deleted earlier has
the smaller oldest timestamp. -/
theorem evicted_ranked {k : Nat} : ∀ (m : Nat) (s : LRUKReplacer), Inv k s → Sound k s →
    (∀ a ∈ evicted m s, a ∈ s.node_store_ ∧ a.isEvictable = true) ∧
    (evicted m s).Pairwise (fun a b =>
      a.history_.length < k → b.history_.length < k → a.front < b.front) := by
  intro m
  induction m with
  | zero => intro s _ _; simp [evicted]
  | succ m ih =>
    intro s hi hsd
    rcases all_or_exists s with h1 | h1
    · rw [evicted_of_all _ s h1]; simp
    · obtain ⟨t, hmem, hev, hrank, hE⟩ := Evict_of_exists s h1
      have hi' : Inv k { s with node_store_ := s.erase t.fid_, curr_size_ := s.curr_size_ - 1 } :=
        inv_erase hi _ _
      have hsd' := sound_erase hi hsd (find_of_mem hi hmem) hev
      obtain ⟨ih1, ih2⟩ := ih _ hi' hsd'
      have hlist : evicted (m + 1) s = t :: evicted m
          { s with node_store_ := s.erase t.fid_, curr_size_ := s.curr_size_ - 1 } := by
        simp [evicted, hE, find_of_mem hi hmem]
      rw [hlist]
      have hold : ∀ b ∈ evicted m
          { s with node_store_ := s.erase t.fid_, curr_size_ := s.curr_size_ - 1 },
          b ∈ s.node_store_ ∧ b ≠ t ∧ b.isEvictable = true := by
        intro b hb
        obtain ⟨hb1, hb2⟩ := ih1 b hb
        have := (erase_of_mem hi hmem b).1 hb1
        exact ⟨this.1, this.2, hb2⟩
      constructor
      · intro a ha
        rcases List.mem_cons.1 ha with h2 | h2
        · rw [h2]; exact ⟨hmem, hev⟩
        · exact ⟨(hold a h2).1, (hold a h2).2.2⟩
      · rw [List.pairwise_cons]
        refine ⟨?_, ih2⟩
        intro b hb hlt hlb
        obtain ⟨hb1, hb2, hb3⟩ := hold b hb
        have hk : 1 ≤ k := by omega
        have hr := hrank b hb1 hb3
        have hdt : t.getBackwardKDistance s.current_timestamp_ = 2147483647 := by
          unfold LRUKNode.getBackwardKDistance
          rw [if_neg (by rw [hi.node_k t hmem]; omega)]
        have hdb : b.getBackwardKDistance s.current_timestamp_ = 2147483647 := by
          unfold LRUKNode.getBackwardKDistance
          rw [if_neg (by rw [hi.node_k b hb1]; omega)]
        unfold LRUKNode.losesTo at hr
        rw [hdt, hdb] at hr
        have hle : t.front ≤ b.front := by
          rcases hr with h3 | h3
          · omega
          · exact h3.2
        have hne : t.front ≠ b.front := by
          intro e
          have h4 := front_mem (hsd.hist_ne hk t hmem)
          have h5 := front_mem (hsd.hist_ne hk b hb1)
          rw [e] at h4
          have h6 := hsd.disjoint t hmem b hb1 b.front h4 h5
          exact hb2 (List.inj_on_of_nodup_map hi.nodup hb1 hmem h6.symm)
        omega

/-- As many `Evict` calls as there are evictable nodes delete every one of them. -/
theorem evicted_all {k : Nat} : ∀ (m : Nat) (s : LRUKReplacer), Inv k s →
    s.evictableCount ≤ m → ∀ a ∈ s.node_store_, a.isEvictable = true → a ∈ evicted m s := by
  intro m
  induction m with
  | zero =>
    intro s _ hc a ha hev
    have : 1 ≤ s.node_store_.countP (fun n => n.isEvictable) :=
      List.countP_pos_iff.2 ⟨a, ha, hev⟩
    unfold evictableCount at hc
    omega
  | succ m ih =>
    intro s hi hc a ha hev
    obtain ⟨t, hmem, htev, _, hE⟩ := Evict_of_exists s ⟨a, ha, hev⟩
    have hi' : Inv k { s with node_store_ := s.erase t.fid_, curr_size_ := s.curr_size_ - 1 } :=
      inv_erase hi _ _
    have hlist : evicted (m + 1) s = t :: evicted m
        { s with node_store_ := s.erase t.fid_, curr_size_ := s.curr_size_ - 1 } := by
      simp [evicted, hE, find_of_mem hi hmem]
    rw [hlist]
    by_cases hat : a = t
    · rw [hat]; simp
    · apply List.mem_cons_of_mem
      apply ih _ hi' ?_ a ((erase_of_mem hi hmem a).2 ⟨ha, hat⟩) hev
      have hcount := countP_erase t.fid_ s.node_store_ t hi.nodup (find_of_mem hi hmem)
      rw [htev] at hcount
      simp only [if_true] at hcount
      unfold evictableCount at hc ⊢
      show List.countP _ (s.erase t.fid_) ≤ m
      unfold erase
      omega

/-- C11: from every reachable replacer state, the nodes that repeated `Evict`
calls delete are tracked evictable nodes, those of them that hold fewer than `K`
timestamps (frames with fewer than `K` recorded accesses) leave in strictly
increasing order of their oldest timestamp, and as many calls as there are
evictable nodes delete every evictable node. -/
theorem C11_tie_break_by_oldest_access (num_frames k : Nat) (s : LRUKReplacer)
    (hs : Reachable num_frames k s) (m : Nat) :
    (∀ a ∈ evicted m s, a ∈ s.node_store_ ∧ a.isEvictable = true) ∧
    (evicted m s).Pairwise (fun a b =>
      a.history_.length < k → b.history_.length < k → a.front < b.front) ∧
    (s.Size ≤ m → ∀ a ∈ s.node_store_, a.isEvictable = true → a ∈ evicted m s) := by
  have hi := replacer_inv_of_reachable hs
  have hsd := sound_of_reachable hs
  refine ⟨(evicted_ranked m s hi hsd).1, (evicted_ranked m s hi hsd).2, ?_⟩
  intro hm
  apply evicted_all m s hi
  rw [← hsd.size_eq]
  exact hm

theorem C11_tie_break_by_oldest_access_witness :
    (evicted 3 scenarioC11).map LRUKNode.fid_ = [1, 2, 3] ∧
    (evicted 4 scenarioC11).map LRUKNode.fid_ = [1, 2, 3] ∧
    (∀ a ∈ evicted 3 scenarioC11, a.history_.length < 2) ∧
    (∀ a ∈ evicted 3 scenarioC11, a ∈ scenarioC11.node_store_ ∧ a.isEvictable = true) ∧
    (evicted 3 scenarioC11).Pairwise (fun a b =>
      a.history_.length < 2 → b.history_.length < 2 → a.front < b.front) ∧
    (scenarioC11.Size ≤ 3 →
      ∀ a ∈ scenarioC11.node_store_, a.isEvictable = true → a ∈ evicted 3 scenarioC11) :=
  ⟨by decide, by decide, by decide,
    C11_tie_break_by_oldest_access 3 2 scenarioC11
      (Reachable.setEvictable 3 true (Reachable.setEvictable 2 true (Reachable.setEvictable 1 true
        (Reachable.recordAccess 3 (Reachable.recordAccess 2 (Reachable.recordAccess 1
          Reachable.create)))))) 3⟩

end LRUKReplacer

namespace LRUKReplacer

theorem reachable_of_logged {num_frames k : Nat} {s : LRUKReplacer} {log : frame_id_t → List Nat}
    (h : Logged num_frames k s log) : Reachable num_frames k s := by
  induction h with
  | create => exact Reachable.create
  | recordAccess f _ ih => exact Reachable.recordAccess f ih
  | setEvictable f b _ ih => exact Reachable.setEvictable f b ih
  | evict _ ih => exact Reachable.evict ih
  | remove f _ hr ih => exact Reachable.remove f ih hr
  | reorder store _ hp ih => exact Reachable.reorder store ih hp

/-- Every reachable state comes with an access log. -/
theorem logged_of_reachable {num_frames k : Nat} {s : LRUKReplacer}
    (h : Reachable num_frames k s) : ∃ log, Logged num_frames k s log := by
  induction h with
  | create => exact ⟨_, Logged.create⟩
  | recordAccess f _ ih => obtain ⟨log, hl⟩ := ih; exact ⟨_, Logged.recordAccess f hl⟩
  | setEvictable f b _ ih => obtain ⟨log, hl⟩ := ih; exact ⟨_, Logged.setEvictable f b hl⟩
  | evict _ ih => obtain ⟨log, hl⟩ := ih; exact ⟨_, Logged.evict hl⟩
  | remove f _ hr ih => obtain ⟨log, hl⟩ := ih; exact ⟨_, Logged.remove f hl hr⟩
  | reorder store _ hp ih => obtain ⟨log, hl⟩ := ih; exact ⟨_, Logged.reorder store hl hp⟩

/-- Keeping the `k` most recent of the `k` most recent timestamps and a new one
keeps the `k` most recent of all. -/
theorem drop_append_drop (l : List Nat) (x k : Nat) :
    (l.drop (l.length - k) ++ [x]).drop ((l.drop (l.length - k) ++ [x]).length - k) =
      (l ++ [x]).drop ((l ++ [x]).length - k) := by
  have h1 : l.drop (l.length - k) ++ [x] = (l ++ [x]).drop (l.length - k) := by
    rw [List.drop_append_of_le_length (by omega)]
  rw [h1, List.drop_drop]
  congr 1
  simp only [List.length_drop, List.length_append, List.length_singleton]
  omega

theorem logInv_create (num_frames k : Nat) : LogInv k (create num_frames k) (fun _ => []) :=
  ⟨fun _ _ => rfl, by simp [create], by simp [create], by simp, by simp⟩

theorem count_RecordAccess_eq_zero {s : LRUKReplacer} {f g : frame_id_t}
    (h : (s.RecordAccess f).count g = 0) : g ≠ f ∧ s.count g = 0 := by
  rw [count_eq_zero_iff] at h ⊢
  unfold RecordAccess at h
  simp only at h
  rw [map_fid_update _ f (fun n => n.recordAccess s.current_timestamp_) (fun n => rfl)] at h
  by_cases hc : s.count f = 0
  · simp only [hc, if_true, List.map_append, List.mem_append, not_or, List.map_cons,
      List.map_nil, List.mem_singleton] at h
    exact ⟨h.2, h.1⟩
  · simp only [hc, if_false] at h
    refine ⟨?_, h⟩
    intro e
    rw [e, ← count_eq_zero_iff] at h
    exact hc h

/-- The nodes after `RecordAccess(f)`: the nodes of the other frames as they
were, and for `f` the node it had, or a new non-evictable one, with the
timestamp recorded. -/
theorem mem_RecordAccess {k : Nat} {s : LRUKReplacer} (hi : Inv k s) {f : frame_id_t}
    {n' : LRUKNode} (h : n' ∈ (s.RecordAccess f).node_store_) :
    (n'.fid_ ≠ f ∧ n' ∈ s.node_store_) ∨
    (n'.fid_ = f ∧ ∃ n, n.fid_ = f ∧ n.k_ = k ∧ n' = n.recordAccess s.current_timestamp_ ∧
      (n ∈ s.node_store_ ∨ (s.count f = 0 ∧ n.history_ = [] ∧ n.is_evictable_ = false))) := by
  unfold RecordAccess at h
  simp only [List.mem_map] at h
  obtain ⟨n, hn, rfl⟩ := h
  have hn' : n ∈ s.node_store_ ∨ (s.count f = 0 ∧
      n = { history_ := [], k_ := s.k_, fid_ := f, is_evictable_ := false }) := by
    by_cases hc : s.count f = 0
    · simp only [hc, if_true, List.mem_append, List.mem_singleton] at hn
      rcases hn with h1 | h1
      · exact Or.inl h1
      · exact Or.inr ⟨hc, h1⟩
    · simp only [hc, if_false] at hn
      exact Or.inl hn
  by_cases hf : (n.fid_ == f) = true
  · right
    have e : n.fid_ = f := by simpa using hf
    simp only [hf, if_true]
    refine ⟨e, n, e, ?_, rfl, ?_⟩
    · rcases hn' with h1 | h1
      · exact hi.node_k n h1
      · rw [h1.2]; exact hi.k_eq
    · rcases hn' with h1 | h1
      · exact Or.inl h1
      · right; refine ⟨h1.1, ?_, ?_⟩ <;> rw [h1.2]
  · left
    have e : n.fid_ ≠ f := by simpa using hf
    simp only [hf]
    refine ⟨e, ?_⟩
    rcases hn' with h1 | h1
    · exact h1
    · exfalso; apply e; rw [h1.2]

theorem logInv_RecordAccess {k : Nat} {s : LRUKReplacer} {log : frame_id_t → List Nat}
    (hi : Inv k s) (h : LogInv k s log) (f : frame_id_t) :
    LogInv k (s.RecordAccess f) (logAccess log f s.current_timestamp_) := by
  refine ⟨?_, ?_, ?_, ?_, ?_⟩
  · intro g hg
    obtain ⟨h1, h2⟩ := count_RecordAccess_eq_zero hg
    simp only [logAccess, h1, if_false]
    exact h.untracked g h2
  · intro n' hn'
    rcases mem_RecordAccess hi hn' with ⟨h1, h2⟩ | ⟨h1, _⟩
    · simp only [logAccess, h1, if_false]
      exact h.accessed n' h2
    · simp [logAccess, h1]
  · intro n' hn'
    rcases mem_RecordAccess hi hn' with ⟨h1, h2⟩ | ⟨h1, n, hnf, hnk, rfl, hn⟩
    · simp only [logAccess, h1, if_false]
      exact h.recent n' h2
    · have hrec : n.history_ = (log f).drop ((log f).length - k) := by
        rcases hn with h2 | h2
        · rw [← hnf]; exact h.recent n h2
        · rw [h2.2.1, h.untracked f h2.1]; simp
      simp only [logAccess, h1, if_true]
      simp only [LRUKNode.recordAccess, hnk, hrec]
      exact drop_append_drop (log f) s.current_timestamp_ k
  · intro g
    by_cases hg : g = f
    · simp only [logAccess, hg, if_true]
      rw [List.pairwise_append]
      refine ⟨h.increasing f, by simp, ?_⟩
      intro x hx y hy
      have : y = s.current_timestamp_ := by simpa using hy
      rw [this]
      exact h.past f x hx
    · simp only [logAccess, hg, if_false]
      exact h.increasing g
  · intro g x hx
    show x < s.current_timestamp_ + 1
    by_cases hg : g = f
    · simp only [logAccess, hg, if_true] at hx
      rcases List.mem_append.1 hx with h1 | h1
      · have := h.past f x h1; omega
      · have : x = s.current_timestamp_ := by simpa using h1
        omega
    · simp only [logAccess, hg, if_false] at hx
      have := h.past g x hx; omega

theorem logInv_SetEvictable {k : Nat} {s : LRUKReplacer} {log : frame_id_t → List Nat}
    (h : LogInv k s log) (f : frame_id_t) (b : Bool) : LogInv k (s.SetEvictable f b) log := by
  unfold SetEvictable
  cases s.find f with
  | none => exact h
  | some target =>
    have hmem : ∀ n' ∈ s.node_store_.map (fun n => if n.fid_ == f then n.setEvictable b else n),
        ∃ n ∈ s.node_store_, n'.fid_ = n.fid_ ∧ n'.history_ = n.history_ := by
      intro n' hn'
      obtain ⟨n, hn, rfl⟩ := List.mem_map.1 hn'
      refine ⟨n, hn, ?_⟩
      by_cases hf : (n.fid_ == f) = true
      · simp [hf, LRUKNode.setEvictable]
      · simp [hf]
    refine ⟨?_, ?_, ?_, h.increasing, h.past⟩
    · intro g hg
      apply h.untracked g
      rw [count_eq_zero_iff] at hg ⊢
      simp only at hg
      rw [map_fid_update _ f (fun n => n.setEvictable b) (fun n => rfl)] at hg
      exact hg
    · intro n' hn'
      obtain ⟨n, hn, e1, _⟩ := hmem n' hn'
      rw [e1]; exact h.accessed n hn
    · intro n' hn'
      obtain ⟨n, hn, e1, e2⟩ := hmem n' hn'
      rw [e1, e2]; exact h.recent n hn

theorem logInv_erase {k : Nat} {s : LRUKReplacer} {log : frame_id_t → List Nat}
    (h : LogInv k s log) (f : frame_id_t) (c : Nat) :
    LogInv k { s with node_store_ := s.erase f, curr_size_ := c } (logDelete log f) := by
  have hmem : ∀ n ∈ s.erase f, n ∈ s.node_store_ ∧ n.fid_ ≠ f := by
    intro n hn
    unfold erase at hn
    rw [List.mem_filter] at hn
    exact ⟨hn.1, by simpa using hn.2⟩
  refine ⟨?_, ?_, ?_, ?_, ?_⟩
  · intro g hg
    by_cases e : g = f
    · simp [logDelete, e]
    · simp only [logDelete, e, if_false]
      apply h.untracked g
      rw [count_eq_zero_iff] at hg ⊢
      intro hmem'
      obtain ⟨n, hn, hng⟩ := List.mem_map.1 hmem'
      apply hg
      refine List.mem_map.2 ⟨n, ?_, hng⟩
      show n ∈ s.erase f
      unfold erase
      rw [List.mem_filter]
      refine ⟨hn, ?_⟩
      simp only [Bool.not_eq_true', beq_eq_false_iff_ne, ne_eq]
      rw [hng]; exact e
  · intro n hn
    obtain ⟨h1, h2⟩ := hmem n hn
    simp only [logDelete, h2, if_false]
    exact h.accessed n h1
  · intro n hn
    obtain ⟨h1, h2⟩ := hmem n hn
    simp only [logDelete, h2, if_false]
    exact h.recent n h1
  · intro g
    by_cases e : g = f
    · simp [logDelete, e]
    · simp only [logDelete, e, if_false]; exact h.increasing g
  · intro g x hx
    by_cases e : g = f
    · simp [logDelete, e] at hx
    · simp only [logDelete, e, if_false] at hx; exact h.past g x hx

theorem logInv_Evict {k : Nat} {s : LRUKReplacer} {log : frame_id_t → List Nat}
    (h : LogInv k s log) :
    LogInv k s.Evict.2
      (match s.Evict.1 with
       | none => log
       | some frame_id => logDelete log frame_id) := by
  rcases all_or_exists s with h1 | h1
  · rw [Evict_of_all s h1]; exact h
  · obtain ⟨t, _, _, _, hE⟩ := Evict_of_exists s h1
    rw [hE]
    exact logInv_erase h _ _

theorem logInv_Remove {k : Nat} {s s' : LRUKReplacer} {log : frame_id_t → List Nat}
    (h : LogInv k s log) (f : frame_id_t) (hr : s.Remove f = some s') :
    LogInv k s' (logDelete log f) := by
  unfold Remove at hr
  cases hfind : s.find f with
  | none =>
    rw [hfind] at hr
    simp only [Option.some.injEq] at hr
    have hlog : logDelete log f = log := by
      funext g
      by_cases e : g = f
      · simp only [logDelete, e, if_true]
        exact (h.untracked f ((find_eq_none_iff s f).1 hfind)).symm
      · simp only [logDelete, e, if_false]
    rw [hlog, ← hr]
    exact h
  | some target =>
    rw [hfind] at hr
    by_cases he : target.isEvictable = true
    · simp [he] at hr
      have hfid := (find_mem hfind).2
      rw [← hr, LRUKNode.getFrameID, hfid]
      exact logInv_erase h _ _
    · simp [he] at hr

theorem logInv_reorder {k : Nat} {s : LRUKReplacer} {log : frame_id_t → List Nat}
    (h : LogInv k s log) (store : List LRUKNode) (hp : s.node_store_.Perm store) :
    LogInv k { s with node_store_ := store } log := by
  refine ⟨?_, fun n hn => h.accessed n (hp.mem_iff.2 hn), fun n hn => h.recent n (hp.mem_iff.2 hn),
    h.increasing, h.past⟩
  intro g hg
  apply h.untracked g
  rw [count_eq_zero_iff] at hg ⊢
  intro hm
  exact hg ((hp.map LRUKNode.fid_).mem_iff.1 hm)

/-- The nodes of every reachable state hold the most recent timestamps of the
access log. -/
theorem logInv_of_logged {num_frames k : Nat} {s : LRUKReplacer} {log : frame_id_t → List Nat}
    (h : Logged num_frames k s log) : LogInv k s log := by
  induction h with
  | create => exact logInv_create _ _
  | recordAccess f hs ih =>
    exact logInv_RecordAccess (replacer_inv_of_reachable (reachable_of_logged hs)) ih f
  | setEvictable f b _ ih => exact logInv_SetEvictable ih f b
  | evict _ ih => exact logInv_Evict ih
  | remove f _ hr ih => exact logInv_Remove ih f hr
  | reorder store _ hp ih => exact logInv_reorder ih store hp

end LRUKReplacer

namespace LRUKReplacer

theorem exists_mem_RecordAccess (s : LRUKReplacer) (f : frame_id_t) :
    ∃ n' ∈ (s.RecordAccess f).node_store_, n'.fid_ = f := by
  have h : (s.RecordAccess f).count f ≠ 0 := fun h => (count_RecordAccess_eq_zero h).1 rfl
  rw [Ne, count_eq_zero_iff, not_not] at h
  obtain ⟨n, hn, e⟩ := List.mem_map.1 h
  exact ⟨n, hn, e⟩

theorem mem_RecordAccess_of_ne {s : LRUKReplacer} {f : frame_id_t} {n : LRUKNode}
    (hn : n ∈ s.node_store_) (hf : n.fid_ ≠ f) : n ∈ (s.RecordAccess f).node_store_ := by
  unfold RecordAccess
  simp only [List.mem_map]
  refine ⟨n, ?_, ?_⟩
  · by_cases hc : s.count f = 0
    · simp only [hc, if_true]; exact List.mem_append_left _ hn
    · simp only [hc, if_false]; exact hn
  · have : (n.fid_ == f) = false := by simpa using hf
    simp [this]

/-- C18: `RecordAccess(f)` leaves a node for `f` in the store, non-evictable when
it had to be created and with the flag it had otherwise, with the current
timestamp appended to the history (truncated to the `K` most recent); it
advances the timestamp by one and keeps the nodes of the other frames.  In every
reachable state, with `log g` the timestamps of the accesses of frame `g` since
its node was created (empty for a frame without node), the history of each node
is the list of the `min(n, K)` most recent timestamps of the log of its frame, in
strictly increasing order, so its length never exceeds `K`. -/
theorem C18_history_holds_recent_accesses (num_frames k : Nat) (s : LRUKReplacer)
    (log : frame_id_t → List Nat) (h : Logged num_frames k s log) (f : frame_id_t) :
    (s.RecordAccess f).current_timestamp_ = s.current_timestamp_ + 1 ∧
    (∃ n' ∈ (s.RecordAccess f).node_store_, n'.fid_ = f) ∧
    (∀ n' ∈ (s.RecordAccess f).node_store_, n'.fid_ = f →
      n'.history_ = (log f ++ [s.current_timestamp_]).drop
        ((log f ++ [s.current_timestamp_]).length - k) ∧
      (s.count f = 0 → n'.isEvictable = false) ∧
      (∀ n ∈ s.node_store_, n.fid_ = f → n'.isEvictable = n.isEvictable)) ∧
    (∀ n', n'.fid_ ≠ f → (n' ∈ (s.RecordAccess f).node_store_ ↔ n' ∈ s.node_store_)) ∧
    (∀ n ∈ s.node_store_,
      log n.fid_ ≠ [] ∧
      n.history_ = (log n.fid_).drop ((log n.fid_).length - k) ∧
      n.history_.length = min (log n.fid_).length k ∧
      n.history_.length ≤ k ∧
      n.history_.Pairwise (fun x y => x < y)) ∧
    (∀ g, s.count g = 0 → log g = []) ∧
    (∀ g, (log g).Pairwise (fun x y => x < y)) := by
  have hs := reachable_of_logged h
  have hi := replacer_inv_of_reachable hs
  have hsd := sound_of_reachable hs
  have hl := logInv_of_logged h
  have hl' := logInv_of_logged (Logged.recordAccess f h)
  refine ⟨rfl, exists_mem_RecordAccess s f, ?_, ?_, ?_, hl.untracked, hl.increasing⟩
  · intro n' hn' hf
    refine ⟨?_, ?_, ?_⟩
    · have := hl'.recent n' hn'
      rw [hf] at this
      simpa [logAccess] using this
    · intro hc
      rcases mem_RecordAccess hi hn' with ⟨h1, _⟩ | ⟨_, n, hnf, _, rfl, hn⟩
      · exact absurd hf h1
      · rcases hn with h2 | h2
        · exact absurd (List.mem_map.2 ⟨n, h2, hnf⟩) ((count_eq_zero_iff s f).1 hc)
        · exact h2.2.2
    · intro n hn hnf
      rcases mem_RecordAccess hi hn' with ⟨h1, _⟩ | ⟨_, m, hmf, _, rfl, hm⟩
      · exact absurd hf h1
      · rcases hm with h2 | h2
        · rw [List.inj_on_of_nodup_map hi.nodup h2 hn (by rw [hmf, hnf])]
          rfl
        · exact absurd (List.mem_map.2 ⟨n, hn, hnf⟩) ((count_eq_zero_iff s f).1 h2.1)
  · intro n' hf
    constructor
    · intro hn'
      rcases mem_RecordAccess hi hn' with ⟨_, h2⟩ | ⟨h1, _⟩
      · exact h2
      · exact absurd h1 hf
    · intro hn
      exact mem_RecordAccess_of_ne hn hf
  · intro n hn
    have hrec := hl.recent n hn
    refine ⟨hl.accessed n hn, hrec, ?_, hi.len_le n hn, hsd.sorted n hn⟩
    rw [hrec, List.length_drop]
    omega

theorem C18_history_holds_recent_accesses_witness :
    (scenarioC18.RecordAccess 2).current_timestamp_ = scenarioC18.current_timestamp_ + 1 ∧
    (∃ n' ∈ (scenarioC18.RecordAccess 2).node_store_, n'.fid_ = 2) ∧
    (∀ n' ∈ (scenarioC18.RecordAccess 2).node_store_, n'.fid_ = 2 →
      n'.history_ = (logC18 2 ++ [scenarioC18.current_timestamp_]).drop
        ((logC18 2 ++ [scenarioC18.current_timestamp_]).length - 2) ∧
      (scenarioC18.count 2 = 0 → n'.isEvictable = false) ∧
      (∀ n ∈ scenarioC18.node_store_, n.fid_ = 2 → n'.isEvictable = n.isEvictable)) ∧
    (∀ n', n'.fid_ ≠ 2 →
      (n' ∈ (scenarioC18.RecordAccess 2).node_store_ ↔ n' ∈ scenarioC18.node_store_)) ∧
    (∀ n ∈ scenarioC18.node_store_,
      logC18 n.fid_ ≠ [] ∧
      n.history_ = (logC18 n.fid_).drop ((logC18 n.fid_).length - 2) ∧
      n.history_.length = min (logC18 n.fid_).length 2 ∧
      n.history_.length ≤ 2 ∧
      n.history_.Pairwise (fun x y => x < y)) ∧
    (∀ g, scenarioC18.count g = 0 → logC18 g = []) ∧
    (∀ g, (logC18 g).Pairwise (fun x y => x < y)) :=
  C18_history_holds_recent_accesses 3 2 scenarioC18 logC18
    (Logged.recordAccess 1 (Logged.recordAccess 2 (Logged.recordAccess 1
      (Logged.recordAccess 1 Logged.create)))) 2

end LRUKReplacer

/-! ## The directory page: growth and the range of the global depth -/

namespace ExtendibleHTableDirectoryPage

theorem IncrGlobalDepthTrace_eq {d : ExtendibleHTableDirectoryPage}
    (h : d.global_depth_ ≠ d.max_depth_) : d.IncrGlobalDepthTrace = (none, d.grown) := by
  unfold IncrGlobalDepthTrace
  rw [if_neg h]
  simp only [Size_eq]
  rw [IncrGlobalDepthLoop_eq _ d.global_depth_ rfl _ (le_refl _)]
  simp only [grown]
  congr 2
  · funext j
    by_cases hj : j < 2 ^ (d.global_depth_ + 1)
    · simp [hj, mod_two_pow_lt]
    · simp [hj]
  · funext j
    by_cases hj : j < 2 ^ (d.global_depth_ + 1)
    · simp [hj, mod_two_pow_lt]
    · simp [hj]

theorem IncrGlobalDepthTrace_throws {d : ExtendibleHTableDirectoryPage}
    (h : d.global_depth_ = d.max_depth_) :
    d.IncrGlobalDepthTrace = (some .global_depth_equals_to_max_depth, d) := by
  unfold IncrGlobalDepthTrace
  rw [if_pos h]

theorem DecrGlobalDepthTrace_throws {d : ExtendibleHTableDirectoryPage}
    (h : d.global_depth_ = 0) :
    d.DecrGlobalDepthTrace = (some .global_depth_equals_to_zero, d) := by
  unfold DecrGlobalDepthTrace
  rw [if_pos h]

/-- C21: when `global_depth_ < max_depth_`, `IncrGlobalDepth` returns with the
global depth raised by one; for every `i` below the old size the entries `i` and
`i + 2^(old global depth)` both carry the old bucket page id and the old local
depth of entry `i`, and for every hash the bucket page id and the local depth at
`HashToBucketIndex(hash)` are the same before and after. -/
theorem C21_grow_preserves_mapping (d : ExtendibleHTableDirectoryPage)
    (h : d.global_depth_ < d.max_depth_) :
    ∃ d', d.IncrGlobalDepth = .ok d' ∧ d.IncrGlobalDepthTrace = (none, d') ∧
      d'.GetGlobalDepth = d.GetGlobalDepth + 1 ∧ d'.max_depth_ = d.max_depth_ ∧
      (∀ i < 2 ^ d.GetGlobalDepth,
        d'.GetBucketPageId i = d.GetBucketPageId i ∧
        d'.GetBucketPageId (i + 2 ^ d.GetGlobalDepth) = d.GetBucketPageId i ∧
        d'.GetLocalDepth i = d.GetLocalDepth i ∧
        d'.GetLocalDepth (i + 2 ^ d.GetGlobalDepth) = d.GetLocalDepth i) ∧
      ∀ hash,
        d'.GetBucketPageId (d'.HashToBucketIndex hash) =
          d.GetBucketPageId (d.HashToBucketIndex hash) ∧
        d'.GetLocalDepth (d'.HashToBucketIndex hash) =
          d.GetLocalDepth (d.HashToBucketIndex hash) := by
  have hne : d.global_depth_ ≠ d.max_depth_ := by omega
  have h2 : 2 ^ (d.global_depth_ + 1) = 2 * 2 ^ d.global_depth_ := by rw [Nat.pow_succ]; omega
  refine ⟨d.grown, IncrGlobalDepth_eq hne, IncrGlobalDepthTrace_eq hne, rfl, rfl, ?_, ?_⟩
  · intro i hi
    have hi' : i < 2 ^ d.global_depth_ := hi
    have hm1 : i % 2 ^ d.global_depth_ = i := Nat.mod_eq_of_lt hi'
    have hm2 : (i + 2 ^ d.global_depth_) % 2 ^ d.global_depth_ = i := by
      rw [Nat.add_mod_right]; exact hm1
    simp only [GetBucketPageId, GetLocalDepth, GetGlobalDepth]
    rw [grown_bucket_page_ids d (by omega), grown_bucket_page_ids d (by omega),
      grown_local_depths d (by omega), grown_local_depths d (by omega), hm1, hm2]
    exact ⟨rfl, rfl, rfl, rfl⟩
  · intro hash
    have hidx : d.grown.HashToBucketIndex hash = hash % 2 ^ (d.global_depth_ + 1) :=
      HashToBucketIndex_eq _ _
    simp only [GetBucketPageId, GetLocalDepth]
    rw [hidx, grown_bucket_page_ids d (mod_two_pow_lt _ _),
      grown_local_depths d (mod_two_pow_lt _ _), mod_two_pow_succ_mod, HashToBucketIndex_eq]
    exact ⟨rfl, rfl⟩

theorem C21_grow_preserves_mapping_witness :
    ∃ d', (((zeroed.Init 2).SetBucketPageId 0 5).SetLocalDepth 0 0).IncrGlobalDepth = .ok d' ∧
      (((zeroed.Init 2).SetBucketPageId 0 5).SetLocalDepth 0 0).IncrGlobalDepthTrace = (none, d') ∧
      d'.GetGlobalDepth = (((zeroed.Init 2).SetBucketPageId 0 5).SetLocalDepth 0 0).GetGlobalDepth + 1 ∧
      d'.max_depth_ = (((zeroed.Init 2).SetBucketPageId 0 5).SetLocalDepth 0 0).max_depth_ ∧
      (∀ i < 2 ^ (((zeroed.Init 2).SetBucketPageId 0 5).SetLocalDepth 0 0).GetGlobalDepth,
        d'.GetBucketPageId i =
          (((zeroed.Init 2).SetBucketPageId 0 5).SetLocalDepth 0 0).GetBucketPageId i ∧
        d'.GetBucketPageId
            (i + 2 ^ (((zeroed.Init 2).SetBucketPageId 0 5).SetLocalDepth 0 0).GetGlobalDepth) =
          (((zeroed.Init 2).SetBucketPageId 0 5).SetLocalDepth 0 0).GetBucketPageId i ∧
        d'.GetLocalDepth i =
          (((zeroed.Init 2).SetBucketPageId 0 5).SetLocalDepth 0 0).GetLocalDepth i ∧
        d'.GetLocalDepth
            (i + 2 ^ (((zeroed.Init 2).SetBucketPageId 0 5).SetLocalDepth 0 0).GetGlobalDepth) =
          (((zeroed.Init 2).SetBucketPageId 0 5).SetLocalDepth 0 0).GetLocalDepth i) ∧
      ∀ hash,
        d'.GetBucketPageId (d'.HashToBucketIndex hash) =
          (((zeroed.Init 2).SetBucketPageId 0 5).SetLocalDepth 0 0).GetBucketPageId
            ((((zeroed.Init 2).SetBucketPageId 0 5).SetLocalDepth 0 0).HashToBucketIndex hash) ∧
        d'.GetLocalDepth (d'.HashToBucketIndex hash) =
          (((zeroed.Init 2).SetBucketPageId 0 5).SetLocalDepth 0 0).GetLocalDepth
            ((((zeroed.Init 2).SetBucketPageId 0 5).SetLocalDepth 0 0).HashToBucketIndex hash) :=
  C21_grow_preserves_mapping (((zeroed.Init 2).SetBucketPageId 0 5).SetLocalDepth 0 0)
    (by decide)

theorem call_depths (d : ExtendibleHTableDirectoryPage) (c : Call)
    (h : d.global_depth_ ≤ d.max_depth_) :
    (d.call c).global_depth_ ≤ (d.call c).max_depth_ ∧ (d.call c).max_depth_ = d.max_depth_ := by
  cases c with
  | setBucketPageId i p => exact ⟨h, rfl⟩
  | setLocalDepth i l => exact ⟨h, rfl⟩
  | incrLocalDepth i => exact ⟨h, rfl⟩
  | decrLocalDepth i => exact ⟨h, rfl⟩
  | incrGlobalDepth =>
    show d.IncrGlobalDepthTrace.2.global_depth_ ≤ d.IncrGlobalDepthTrace.2.max_depth_ ∧
      d.IncrGlobalDepthTrace.2.max_depth_ = d.max_depth_
    by_cases hm : d.global_depth_ = d.max_depth_
    · rw [IncrGlobalDepthTrace_throws hm]; exact ⟨h, rfl⟩
    · rw [IncrGlobalDepthTrace_eq hm]
      refine ⟨?_, rfl⟩
      show d.global_depth_ + 1 ≤ d.max_depth_
      omega
  | decrGlobalDepth =>
    show d.DecrGlobalDepthTrace.2.global_depth_ ≤ d.DecrGlobalDepthTrace.2.max_depth_ ∧
      d.DecrGlobalDepthTrace.2.max_depth_ = d.max_depth_
    unfold DecrGlobalDepthTrace
    by_cases h0 : d.global_depth_ = 0
    · rw [if_pos h0]; exact ⟨h, rfl⟩
    · rw [if_neg h0]
      refine ⟨?_, rfl⟩
      show d.global_depth_ - 1 ≤ d.max_depth_
      omega

theorem calls_depths (cs : List Call) : ∀ (d : ExtendibleHTableDirectoryPage),
    d.global_depth_ ≤ d.max_depth_ →
    (d.calls cs).global_depth_ ≤ (d.calls cs).max_depth_ ∧ (d.calls cs).max_depth_ = d.max_depth_ := by
  induction cs with
  | nil => intro d h; exact ⟨h, rfl⟩
  | cons c cs ih =>
    intro d h
    have h1 := call_depths d c h
    have h2 := ih (d.call c) h1.1
    exact ⟨h2.1, h2.2.trans h1.2⟩

/-- C22: starting from `Init(max_depth)`, after every sequence of calls of the
writing member functions of the directory page (calls that throw included),
`0 <= global_depth_ <= max_depth`; `IncrGlobalDepth` at
`global_depth_ == max_depth_` and `DecrGlobalDepth` at `global_depth_ == 0`
throw and leave the page as it was. -/
theorem C22_global_depth_in_range (d0 : ExtendibleHTableDirectoryPage) (max_depth : Nat)
    (cs : List Call) :
    0 ≤ ((d0.Init max_depth).calls cs).GetGlobalDepth ∧
    ((d0.Init max_depth).calls cs).GetGlobalDepth ≤ max_depth ∧
    ((d0.Init max_depth).calls cs).max_depth_ = max_depth ∧
    (∀ d : ExtendibleHTableDirectoryPage, d.global_depth_ = d.max_depth_ →
      d.IncrGlobalDepth = .error .global_depth_equals_to_max_depth ∧
      d.IncrGlobalDepthTrace = (some .global_depth_equals_to_max_depth, d)) ∧
    (∀ d : ExtendibleHTableDirectoryPage, d.global_depth_ = 0 →
      d.DecrGlobalDepth = .error .global_depth_equals_to_zero ∧
      d.DecrGlobalDepthTrace = (some .global_depth_equals_to_zero, d)) := by
  have h := calls_depths cs (d0.Init max_depth) (Nat.zero_le _)
  have hmax : ((d0.Init max_depth).calls cs).max_depth_ = max_depth := h.2
  refine ⟨Nat.zero_le _, ?_, hmax, ?_, ?_⟩
  · have h1 : ((d0.Init max_depth).calls cs).global_depth_ ≤
        ((d0.Init max_depth).calls cs).max_depth_ := h.1
    show ((d0.Init max_depth).calls cs).global_depth_ ≤ max_depth
    omega
  · intro d hd
    exact ⟨IncrGlobalDepth_throws hd, IncrGlobalDepthTrace_throws hd⟩
  · intro d hd
    refine ⟨?_, DecrGlobalDepthTrace_throws hd⟩
    unfold DecrGlobalDepth
    rw [if_pos hd]

end ExtendibleHTableDirectoryPage

/-! ## The bucket page -/

namespace ExtendibleHTableBucketPage

theorem LookupFrom_eq_none_iff (b : ExtendibleHTableBucketPage) (key : KeyType) :
    ∀ (n i : Nat), LookupFrom b key i n = none ↔
      ∀ j, i ≤ j → j < i + n → (b.array_ j).1 ≠ key := by
  intro n
  induction n with
  | zero =>
    intro i
    simp only [LookupFrom, true_iff]
    intro j h1 h2
    omega
  | succ n ih =>
    intro i
    rw [LookupFrom]
    by_cases hk : (b.array_ i).1 = key
    · rw [if_pos hk]
      constructor
      · intro h; cases h
      · intro h; exact absurd hk (h i (le_refl _) (by omega))
    · rw [if_neg hk, ih]
      constructor
      · intro h j h1 h2
        by_cases e : j = i
        · rw [e]; exact hk
        · exact h j (by omega) (by omega)
      · intro h j h1 h2
        exact h j (by omega) (by omega)

theorem LookupFrom_eq_some_iff (b : ExtendibleHTableBucketPage) (key : KeyType) (v : ValueType) :
    ∀ (n i : Nat), LookupFrom b key i n = some v ↔
      ∃ j, i ≤ j ∧ j < i + n ∧ b.array_ j = (key, v) ∧
        ∀ l, i ≤ l → l < j → (b.array_ l).1 ≠ key := by
  intro n
  induction n with
  | zero =>
    intro i
    rw [LookupFrom]
    constructor
    · intro h; cases h
    · rintro ⟨j, h1, h2, _⟩
      omega
  | succ n ih =>
    intro i
    rw [LookupFrom]
    by_cases hk : (b.array_ i).1 = key
    · rw [if_pos hk]
      constructor
      · intro h
        refine ⟨i, le_refl _, by omega, ?_, fun l h1 h2 => by omega⟩
        rw [← hk, ← Option.some.inj h]
      · rintro ⟨j, h1, _, h3, h4⟩
        have e : j = i := by
          by_contra hne
          exact h4 i (le_refl _) (by omega) hk
        rw [e] at h3
        rw [h3]
    · rw [if_neg hk, ih]
      constructor
      · rintro ⟨j, h1, h2, h3, h4⟩
        refine ⟨j, by omega, by omega, h3, ?_⟩
        intro l hl1 hl2
        by_cases e : l = i
        · rw [e]; exact hk
        · exact h4 l (by omega) hl2
      · rintro ⟨j, h1, h2, h3, h4⟩
        have hne : j ≠ i := by
          intro e
          rw [e] at h3
          rw [h3] at hk
          exact hk rfl
        exact ⟨j, by omega, by omega, h3, fun l hl1 hl2 => h4 l (by omega) hl2⟩

theorem Lookup_eq_none_iff (b : ExtendibleHTableBucketPage) (key : KeyType) :
    b.Lookup key = none ↔ ∀ j, j < b.size_ → (b.array_ j).1 ≠ key := by
  unfold Lookup
  rw [LookupFrom_eq_none_iff]
  constructor
  · intro h j hj; exact h j (Nat.zero_le _) (by omega)
  · intro h j _ hj; exact h j (by omega)

/-- In a bucket with distinct keys `Lookup` yields the value of the one entry
with the key. -/
theorem Lookup_eq_some_iff {b : ExtendibleHTableBucketPage} (hu : b.UniqueKeys) (key : KeyType)
    (v : ValueType) : b.Lookup key = some v ↔ ∃ j, j < b.size_ ∧ b.array_ j = (key, v) := by
  unfold Lookup
  rw [LookupFrom_eq_some_iff]
  constructor
  · rintro ⟨j, _, h2, h3, _⟩
    exact ⟨j, by omega, h3⟩
  · rintro ⟨j, h1, h2⟩
    refine ⟨j, Nat.zero_le _, by omega, h2, ?_⟩
    intro l _ hl hkey
    have := hu l j (by omega) h1 (by rw [hkey, h2])
    omega

theorem FindFrom_eq_some {b : ExtendibleHTableBucketPage} {key : KeyType} :
    ∀ (n i j : Nat), FindFrom b key i n = some j →
      i ≤ j ∧ j < i + n ∧ (b.array_ j).1 = key := by
  intro n
  induction n with
  | zero => intro i j h; simp [FindFrom] at h
  | succ n ih =>
    intro i j h
    rw [FindFrom] at h
    by_cases hk : (b.array_ i).1 = key
    · rw [if_pos hk] at h
      have e : i = j := Option.some.inj h
      rw [← e]
      exact ⟨le_refl _, by omega, hk⟩
    · rw [if_neg hk] at h
      have := ih (i + 1) j h
      exact ⟨by omega, by omega, this.2.2⟩

theorem FindFrom_eq_none {b : ExtendibleHTableBucketPage} {key : KeyType} :
    ∀ (n i : Nat), FindFrom b key i n = none → LookupFrom b key i n = none := by
  intro n
  induction n with
  | zero => intro i _; rfl
  | succ n ih =>
    intro i h
    rw [FindFrom] at h
    rw [LookupFrom]
    by_cases hk : (b.array_ i).1 = key
    · rw [if_pos hk] at h; cases h
    · rw [if_neg hk] at h ⊢
      exact ih (i + 1) h

/-- `Remove` in closed form: nothing happens when no entry has the key, and the
first entry with the key is removed with `RemoveAt` otherwise. -/
theorem Remove_eq (b : ExtendibleHTableBucketPage) (key : KeyType) :
    (b.Lookup key = none ∧ b.Remove key = (false, b)) ∨
    ∃ i, i < b.size_ ∧ (b.array_ i).1 = key ∧ b.Remove key = (true, b.RemoveAt i) := by
  unfold Remove
  cases hl : b.Lookup key with
  | none => exact Or.inl ⟨rfl, rfl⟩
  | some v =>
    right
    cases hf : b.FindFrom key 0 b.size_ with
    | none =>
      have := FindFrom_eq_none b.size_ 0 hf
      unfold Lookup at hl
      rw [this] at hl
      cases hl
    | some i =>
      obtain ⟨_, h2, h3⟩ := FindFrom_eq_some b.size_ 0 i hf
      exact ⟨i, by omega, h3, rfl⟩

theorem UniqueKeys_RemoveAt {b : ExtendibleHTableBucketPage} (hu : b.UniqueKeys) {i : Nat}
    (hi : i < b.size_) : (b.RemoveAt i).UniqueKeys := by
  intro j1 j2 h1 h2 hk
  have h1' : j1 < b.size_ - 1 := h1
  have h2' : j2 < b.size_ - 1 := h2
  simp only [RemoveAt] at hk
  by_cases e1 : j1 = i
  · by_cases e2 : j2 = i
    · rw [e1, e2]
    · rw [if_pos e1, if_neg e2] at hk
      have := hu (b.size_ - 1) j2 (by omega) (by omega) hk
      omega
  · by_cases e2 : j2 = i
    · rw [if_neg e1, if_pos e2] at hk
      have := hu j1 (b.size_ - 1) (by omega) (by omega) hk
      omega
    · rw [if_neg e1, if_neg e2] at hk
      exact hu j1 j2 (by omega) (by omega) hk

theorem UniqueKeys_Insert {b : ExtendibleHTableBucketPage} (hu : b.UniqueKeys) (key : KeyType)
    (value : ValueType) : (b.Insert key value).2.UniqueKeys := by
  unfold Insert
  by_cases hf : b.IsFull = true
  · rw [if_pos hf]; exact hu
  · rw [if_neg hf]
    cases hl : b.Lookup key with
    | some v => exact hu
    | none =>
      have hnone := (Lookup_eq_none_iff b key).1 hl
      intro j1 j2 h1 h2 hk
      have h1' : j1 < b.size_ + 1 := h1
      have h2' : j2 < b.size_ + 1 := h2
      simp only at hk
      by_cases e1 : j1 = b.size_
      · by_cases e2 : j2 = b.size_
        · rw [e1, e2]
        · rw [if_pos e1, if_neg e2] at hk
          exact absurd hk.symm (hnone j2 (by omega))
      · by_cases e2 : j2 = b.size_
        · rw [if_neg e1, if_pos e2] at hk
          exact absurd hk (hnone j1 (by omega))
        · rw [if_neg e1, if_neg e2] at hk
          exact hu j1 j2 (by omega) (by omega) hk

theorem LookupFrom_congr {b b' : ExtendibleHTableBucketPage} (key : KeyType) :
    ∀ (n i : Nat), (∀ j, i ≤ j → j < i + n → b'.array_ j = b.array_ j) →
      LookupFrom b' key i n = LookupFrom b key i n := by
  intro n
  induction n with
  | zero => intro i _; rfl
  | succ n ih =>
    intro i h
    rw [LookupFrom, LookupFrom, h i (le_refl _) (by omega),
      ih (i + 1) (fun j h1 h2 => h j (by omega) (by omega))]

theorem LookupFrom_succ (b : ExtendibleHTableBucketPage) (key : KeyType) :
    ∀ (n i : Nat), (b.array_ (i + n)).1 ≠ key →
      LookupFrom b key i (n + 1) = LookupFrom b key i n := by
  intro n
  induction n with
  | zero =>
    intro i h
    simp only [Nat.add_zero] at h
    simp [LookupFrom, h]
  | succ n ih =>
    intro i h
    rw [LookupFrom]
    conv_rhs => rw [LookupFrom]
    by_cases hk : (b.array_ i).1 = key
    · rw [if_pos hk, if_pos hk]
    · rw [if_neg hk, if_neg hk]
      exact ih (i + 1) (by rw [show i + 1 + n = i + (n + 1) by omega]; exact h)

end ExtendibleHTableBucketPage

namespace ExtendibleHTableBucketPage

/-- C23: for every bucket page, `Insert(key, value)` returns false and leaves the
page as it was when the page is full or one of its entries has the key;
otherwise it returns true, stores `(key, value)` at index `size_`, touches no
other cell, raises `size_` by one, `Lookup(key)` then yields `value`, and
`Lookup` of every other key yields what it yielded before. -/
theorem C23_bucket_insert (b : ExtendibleHTableBucketPage) (key : KeyType) (value : ValueType) :
    (b.IsFull = true → b.Insert key value = (false, b)) ∧
    ((∃ i, i < b.Size ∧ b.KeyAt i = key) → b.Insert key value = (false, b)) ∧
    (b.IsFull = false → (∀ i, i < b.Size → b.KeyAt i ≠ key) →
      (b.Insert key value).1 = true ∧
      (b.Insert key value).2.array_ b.Size = (key, value) ∧
      (∀ j, j ≠ b.Size → (b.Insert key value).2.array_ j = b.array_ j) ∧
      (b.Insert key value).2.Size = b.Size + 1 ∧
      (b.Insert key value).2.max_size_ = b.max_size_ ∧
      (b.Insert key value).2.Lookup key = some value ∧
      ∀ k, k ≠ key → (b.Insert key value).2.Lookup k = b.Lookup k) := by
  refine ⟨?_, ?_, ?_⟩
  · intro hf
    unfold Insert
    rw [if_pos hf]
  · rintro ⟨i, hi, hk⟩
    unfold Insert
    by_cases hf : b.IsFull = true
    · rw [if_pos hf]
    · rw [if_neg hf]
      cases hl : b.Lookup key with
      | some v => rfl
      | none => exact absurd hk ((Lookup_eq_none_iff b key).1 hl i hi)
  · intro hf hnone
    have hl : b.Lookup key = none := (Lookup_eq_none_iff b key).2 hnone
    have hins : b.Insert key value = (true, { b with
        array_ := fun j => if j = b.size_ then (key, value) else b.array_ j,
        size_ := b.size_ + 1 }) := by
      unfold Insert
      rw [if_neg (by simp [hf]), hl]
    have hlook := Insert_true_Lookup b key value (by rw [hins])
    rw [hins] at hlook ⊢
    refine ⟨rfl, by simp [Size], ?_, rfl, rfl, hlook, ?_⟩
    · intro j hj
      have hj' : j ≠ b.size_ := hj
      simp [hj']
    · intro k hk
      unfold Lookup
      show LookupFrom _ k 0 (b.size_ + 1) = LookupFrom b k 0 b.size_
      rw [LookupFrom_succ _ k b.size_ 0 (by simpa using fun e => hk e.symm)]
      apply LookupFrom_congr
      intro j _ hj
      show (if j = b.size_ then (key, value) else b.array_ j) = b.array_ j
      rw [if_neg (by omega)]

theorem UniqueKeys_of_size_zero (b : ExtendibleHTableBucketPage) (h : b.size_ = 0) :
    b.UniqueKeys := by
  intro i j hi
  rw [h] at hi
  exact absurd hi (Nat.not_lt_zero _)

/-- C24: for every bucket page whose first `size_` entries have distinct keys,
`Remove(key)` returns true exactly when an entry has the key; on true `size_`
goes down by one, the cell of that entry takes the former last entry, no other
cell is touched, `Lookup(key)` then misses and `Lookup` of every other key
yields what it yielded before; on false the page is as it was. -/
theorem C24_bucket_remove (b : ExtendibleHTableBucketPage) (hu : b.UniqueKeys) (key : KeyType) :
    ((b.Remove key).1 = true ↔ ∃ i, i < b.Size ∧ b.KeyAt i = key) ∧
    ((b.Remove key).1 = false → (b.Remove key).2 = b) ∧
    ((b.Remove key).1 = true →
      ∃ i, i < b.Size ∧ b.KeyAt i = key ∧
        (b.Remove key).2.Size + 1 = b.Size ∧
        (b.Remove key).2.array_ i = b.array_ (b.Size - 1) ∧
        (∀ j, j ≠ i → (b.Remove key).2.array_ j = b.array_ j) ∧
        (b.Remove key).2.max_size_ = b.max_size_ ∧
        (b.Remove key).2.Lookup key = none ∧
        ∀ k, k ≠ key → (b.Remove key).2.Lookup k = b.Lookup k) := by
  rcases Remove_eq b key with ⟨hl, hr⟩ | ⟨i, hi, hk, hr⟩
  · have hnone := (Lookup_eq_none_iff b key).1 hl
    rw [hr]
    refine ⟨?_, fun _ => rfl, fun h => by cases h⟩
    constructor
    · intro h; cases h
    · rintro ⟨i, hi, hk⟩
      exact absurd hk (hnone i hi)
  · rw [hr]
    have hu' := UniqueKeys_RemoveAt hu hi
    refine ⟨⟨fun _ => ⟨i, hi, hk⟩, fun _ => rfl⟩, (fun h => by cases h), ?_⟩
    intro _
    refine ⟨i, hi, hk, ?_, ?_, ?_, rfl, ?_, ?_⟩
    · show b.size_ - 1 + 1 = b.size_
      omega
    · simp [RemoveAt, Size]
    · intro j hj
      simp [RemoveAt, hj]
    · rw [Lookup_eq_none_iff]
      intro j hj hkj
      have hj' : j < b.size_ - 1 := hj
      simp only [RemoveAt] at hkj
      by_cases e : j = i
      · rw [if_pos e] at hkj
        have := hu (b.size_ - 1) i (by omega) hi (by rw [hkj, hk])
        omega
      · rw [if_neg e] at hkj
        have := hu j i (by omega) hi (by rw [hkj, hk])
        exact e this
    · intro k hkne
      cases hlk : b.Lookup k with
      | none =>
        have hnone := (Lookup_eq_none_iff b k).1 hlk
        rw [Lookup_eq_none_iff]
        intro j hj
        have hj' : j < b.size_ - 1 := hj
        simp only [RemoveAt]
        by_cases e : j = i
        · rw [if_pos e]; exact hnone _ (by omega)
        · rw [if_neg e]; exact hnone _ (by omega)
      | some v =>
        obtain ⟨j, hj, hjv⟩ := (Lookup_eq_some_iff hu k v).1 hlk
        have hji : j ≠ i := by
          intro e
          rw [e] at hjv
          rw [hjv] at hk
          exact hkne hk
        rw [Lookup_eq_some_iff hu']
        by_cases e : j = b.size_ - 1
        · refine ⟨i, ?_, ?_⟩
          · show i < b.size_ - 1
            omega
          · simp only [RemoveAt, if_true]
            rw [← e]; exact hjv
        · refine ⟨j, ?_, ?_⟩
          · show j < b.size_ - 1
            omega
          · simp only [RemoveAt, hji, if_false]
            exact hjv

theorem C24_bucket_remove_witness :
    ((bucketC24.Remove 2).1 = true ↔ ∃ i, i < bucketC24.Size ∧ bucketC24.KeyAt i = 2) ∧
    ((bucketC24.Remove 2).1 = false → (bucketC24.Remove 2).2 = bucketC24) ∧
    ((bucketC24.Remove 2).1 = true →
      ∃ i, i < bucketC24.Size ∧ bucketC24.KeyAt i = 2 ∧
        (bucketC24.Remove 2).2.Size + 1 = bucketC24.Size ∧
        (bucketC24.Remove 2).2.array_ i = bucketC24.array_ (bucketC24.Size - 1) ∧
        (∀ j, j ≠ i → (bucketC24.Remove 2).2.array_ j = bucketC24.array_ j) ∧
        (bucketC24.Remove 2).2.max_size_ = bucketC24.max_size_ ∧
        (bucketC24.Remove 2).2.Lookup 2 = none ∧
        ∀ k, k ≠ 2 → (bucketC24.Remove 2).2.Lookup k = bucketC24.Lookup k) :=
  C24_bucket_remove bucketC24
    (UniqueKeys_Insert (UniqueKeys_Insert (UniqueKeys_Insert
      (UniqueKeys_of_size_zero (zeroed.Init 4) rfl) 1 10) 2 20) 3 30) 2

theorem UniqueKeys_Remove {b : ExtendibleHTableBucketPage} (hu : b.UniqueKeys) (key : KeyType) :
    (b.Remove key).2.UniqueKeys := by
  rcases Remove_eq b key with ⟨_, hr⟩ | ⟨i, hi, _, hr⟩
  · rw [hr]; exact hu
  · rw [hr]; exact UniqueKeys_RemoveAt hu hi

theorem size_le_Insert {b : ExtendibleHTableBucketPage} (h : b.size_ ≤ b.max_size_)
    (key : KeyType) (value : ValueType) :
    (b.Insert key value).2.size_ ≤ (b.Insert key value).2.max_size_ ∧
    (b.Insert key value).2.max_size_ = b.max_size_ := by
  unfold Insert
  by_cases hf : b.IsFull = true
  · rw [if_pos hf]; exact ⟨h, rfl⟩
  · rw [if_neg hf]
    cases b.Lookup key with
    | some v => exact ⟨h, rfl⟩
    | none =>
      refine ⟨?_, rfl⟩
      show b.size_ + 1 ≤ b.max_size_
      have : b.size_ ≠ b.max_size_ := by simpa [IsFull] using hf
      omega

theorem size_le_Remove {b : ExtendibleHTableBucketPage} (h : b.size_ ≤ b.max_size_)
    (key : KeyType) :
    (b.Remove key).2.size_ ≤ (b.Remove key).2.max_size_ ∧
    (b.Remove key).2.max_size_ = b.max_size_ := by
  rcases Remove_eq b key with ⟨_, hr⟩ | ⟨i, _, _, hr⟩
  · rw [hr]; exact ⟨h, rfl⟩
  · rw [hr]
    refine ⟨?_, rfl⟩
    show b.size_ - 1 ≤ b.max_size_
    omega

/-- C25: starting from an empty bucket page with `max_size_ = m`, after every
sequence of `Insert`, `Remove` and `RemoveAt` with an index below `size_`, the
first `size_` entries have pairwise distinct keys and `size_ <= m`. -/
theorem C25_bucket_keys_distinct (m : Nat) (b : ExtendibleHTableBucketPage)
    (h : Reachable m b) :
    (∀ i j, i < b.Size → j < b.Size → b.KeyAt i = b.KeyAt j → i = j) ∧ b.Size ≤ m ∧
    b.max_size_ = m := by
  have key : b.UniqueKeys ∧ b.size_ ≤ b.max_size_ ∧ b.max_size_ = m := by
    induction h with
    | empty array =>
      refine ⟨?_, Nat.zero_le _, rfl⟩
      intro i j hi
      exact absurd hi (Nat.not_lt_zero _)
    | insert key value _ ih =>
      have := size_le_Insert ih.2.1 key value
      exact ⟨UniqueKeys_Insert ih.1 key value, this.1, this.2.trans ih.2.2⟩
    | remove key _ ih =>
      have := size_le_Remove ih.2.1 key
      exact ⟨UniqueKeys_Remove ih.1 key, this.1, this.2.trans ih.2.2⟩
    | @removeAt b0 i _ hi ih =>
      refine ⟨UniqueKeys_RemoveAt ih.1 hi, ?_, ih.2.2⟩
      show b0.size_ - 1 ≤ b0.max_size_
      have := ih.2.1
      omega
  refine ⟨key.1, ?_, key.2.2⟩
  show b.size_ ≤ m
  have := key.2.1
  omega

theorem C25_bucket_keys_distinct_witness :
    (∀ i j, i < bucketC24.Size → j < bucketC24.Size → bucketC24.KeyAt i = bucketC24.KeyAt j →
      i = j) ∧ bucketC24.Size ≤ 4 ∧ bucketC24.max_size_ = 4 :=
  C25_bucket_keys_distinct 4 bucketC24
    (Reachable.insert 3 30 (Reachable.insert 2 20 (Reachable.insert 1 10
      (Reachable.empty (fun _ => (0, 0))))))

end ExtendibleHTableBucketPage

/-! ## Buffer pool manager: unpinning and flushing -/

namespace BufferPoolManager

set_option maxRecDepth 100000

theorem setPage_pages_self (bpm : BufferPoolManager) (page : Nat) (p : Page) :
    (bpm.setPage page p).pages_ page = p := by
  simp [setPage]

theorem setPage_setPage (bpm : BufferPoolManager) (page : Nat) (p q : Page) :
    (bpm.setPage page p).setPage page q = bpm.setPage page q := by
  unfold setPage
  simp only
  congr 1
  funext i
  by_cases hi : i = page
  · simp [hi]
  · simp [hi]

/-- `UnpinPage` on the path of a resident page whose pin count stays positive. -/
theorem UnpinPage_of_pinned_twice (h : Helpers) (bpm : BufferPoolManager)
    (page_id : page_id_t) (is_dirty : Bool) (page : Nat)
    (hres : h.GetPageByPageID bpm page_id = some page)
    (hpin : 2 ≤ (bpm.pages_ page).pin_count_) :
    (bpm.UnpinPage h page_id is_dirty).1 = false ∧
    ((bpm.UnpinPage h page_id is_dirty).2.pages_ page).pin_count_ =
      (bpm.pages_ page).pin_count_ - 1 ∧
    ((bpm.UnpinPage h page_id is_dirty).2.pages_ page).is_dirty_ =
      ((bpm.pages_ page).is_dirty_ || is_dirty) ∧
    ((bpm.UnpinPage h page_id is_dirty).2.pages_ page).page_id_ = (bpm.pages_ page).page_id_ := by
  unfold UnpinPage
  rw [hres]
  simp only
  rw [if_neg (by omega), setPage_pages_self]
  simp only
  rw [if_neg (by omega)]
  simp only [setPage_pages_self, and_self]

/-- C26: `UnpinPage` of a resident page whose pin count is 2 or more decrements
the pin count and ORs `is_dirty` into the dirty bit, and returns false. -/
theorem C26_unpin_of_page_pinned_twice_returns_false (h : Helpers) (bpm : BufferPoolManager)
    (page_id : page_id_t) (is_dirty : Bool) (page : Nat)
    (hres : h.GetPageByPageID bpm page_id = some page)
    (hpin : 2 ≤ (bpm.pages_ page).pin_count_) :
    (bpm.UnpinPage h page_id is_dirty).1 = false ∧
    ((bpm.UnpinPage h page_id is_dirty).2.pages_ page).pin_count_ =
      (bpm.pages_ page).pin_count_ - 1 ∧
    ((bpm.UnpinPage h page_id is_dirty).2.pages_ page).is_dirty_ =
      ((bpm.pages_ page).is_dirty_ || is_dirty) ∧
    ((bpm.UnpinPage h page_id is_dirty).2.pages_ page).page_id_ = (bpm.pages_ page).page_id_ :=
  UnpinPage_of_pinned_twice h bpm page_id is_dirty page hres hpin

theorem C26_unpin_of_page_pinned_twice_returns_false_witness :
    (pinnedTwice.pages_ 0).pin_count_ = 2 ∧
    (pinnedTwice.UnpinPage specHelpers 0 true).1 = false ∧
    ((pinnedTwice.UnpinPage specHelpers 0 true).2.pages_ 0).pin_count_ =
      (pinnedTwice.pages_ 0).pin_count_ - 1 ∧
    ((pinnedTwice.UnpinPage specHelpers 0 true).2.pages_ 0).is_dirty_ =
      ((pinnedTwice.pages_ 0).is_dirty_ || true) ∧
    ((pinnedTwice.UnpinPage specHelpers 0 true).2.pages_ 0).page_id_ =
      (pinnedTwice.pages_ 0).page_id_ :=
  ⟨by decide,
    C26_unpin_of_page_pinned_twice_returns_false specHelpers pinnedTwice 0 true 0 (by decide)
      (by decide)⟩

theorem FlushPage_setPinCount (h : Helpers) (bpm : BufferPoolManager) (page_id : page_id_t)
    (page : Nat) (c : Int)
    (hres : h.GetPageByPageID (bpm.setPinCount page c) page_id = some page) :
    (bpm.setPinCount page c).FlushPage h page_id =
      (true, h.MustEvictPage (bpm.setPinCount page 0) page) := by
  unfold FlushPage
  rw [hres]
  simp only [setPinCount, setPage_pages_self, setPage_setPage]

/-- C27: `FlushPage` of a resident page and `FlushAllPages` write 0 to the pin
count before they hand the page to `MustEvictPage`, so what they leave behind
does not depend on how often the page was pinned: from two pools that differ in
the pin count of one resident page only they lead to the same pool. -/
theorem C27_flush_forgets_pin_count (h : Helpers) (bpm : BufferPoolManager)
    (page_id : page_id_t) (page : Nat) (c1 c2 : Int)
    (h1 : h.GetPageByPageID (bpm.setPinCount page c1) page_id = some page)
    (h2 : h.GetPageByPageID (bpm.setPinCount page c2) page_id = some page) :
    (bpm.setPinCount page c1).FlushPage h page_id =
      (true, h.MustEvictPage (bpm.setPinCount page 0) page) ∧
    (bpm.setPinCount page c1).FlushPage h page_id = (bpm.setPinCount page c2).FlushPage h page_id ∧
    (0 < bpm.pool_size_ → (bpm.pages_ 0).page_id_ ≠ INVALID_PAGE_ID →
      (bpm.setPinCount 0 c1).FlushAllPages h = (bpm.setPinCount 0 c2).FlushAllPages h) := by
  refine ⟨FlushPage_setPinCount h bpm page_id page c1 h1, ?_, ?_⟩
  · rw [FlushPage_setPinCount h bpm page_id page c1 h1,
      FlushPage_setPinCount h bpm page_id page c2 h2]
  · intro hpool hid
    obtain ⟨n, hn⟩ : ∃ n, bpm.pool_size_ = n + 1 := ⟨bpm.pool_size_ - 1, by omega⟩
    have hstep : ∀ c : Int, (bpm.setPinCount 0 c).FlushAllPages h =
        FlushAllPagesLoop h n 1 (h.MustEvictPage (bpm.setPinCount 0 0) 0) := by
      intro c
      unfold FlushAllPages
      have hp : (bpm.setPinCount 0 c).pool_size_ = n + 1 := hn
      rw [hp, FlushAllPagesLoop]
      have hid' : ((bpm.setPinCount 0 c).pages_ 0).page_id_ ≠ INVALID_PAGE_ID := by
        simp only [setPinCount, setPage_pages_self]
        exact hid
      rw [if_neg hid']
      simp only [setPinCount, setPage_pages_self, setPage_setPage]
    rw [hstep c1, hstep c2]

theorem C27_flush_forgets_pin_count_witness :
    (pinnedOnce.pages_ 0).pin_count_ = 1 ∧
    ((pinnedOnce.FlushPage specHelpers 0).2.pages_ 0).pin_count_ = 0 ∧
    (pinnedTwice.pages_ 0).pin_count_ = 2 ∧
    ((pinnedTwice.FlushAllPages specHelpers).pages_ 0).pin_count_ = 0 ∧
    (pinnedOnce.setPinCount 0 1).FlushPage specHelpers 0 =
      (true, specHelpers.MustEvictPage (pinnedOnce.setPinCount 0 0) 0) ∧
    (pinnedOnce.setPinCount 0 1).FlushPage specHelpers 0 =
      (pinnedOnce.setPinCount 0 2).FlushPage specHelpers 0 ∧
    (0 < pinnedOnce.pool_size_ → (pinnedOnce.pages_ 0).page_id_ ≠ INVALID_PAGE_ID →
      (pinnedOnce.setPinCount 0 1).FlushAllPages specHelpers =
        (pinnedOnce.setPinCount 0 2).FlushAllPages specHelpers) :=
  ⟨by decide, by decide, by decide, by decide,
    C27_flush_forgets_pin_count specHelpers pinnedOnce 0 0 1 2 (by decide) (by decide)⟩

end BufferPoolManager

/-! ## Page guards -/

namespace BasicPageGuard

set_option maxRecDepth 100000

theorem Drop_of_page (h : Helpers) (w : GuardWorld) (g : BasicPageGuard) (page : Nat)
    (hb : g.bpm_ = true) (hp : g.page_ = some page) :
    Drop h w g =
      some ({ bpm := (w.bpm.UnpinPage h (w.bpm.pages_ page).page_id_ g.is_dirty_).2,
              unpins := w.unpins ++ [((w.bpm.pages_ page).page_id_, g.is_dirty_)] },
            { g with bpm_ := false, page_ := none }) := by
  unfold Drop
  rw [hb, hp]
  rfl

theorem Drop_of_empty (h : Helpers) (w : GuardWorld) (g : BasicPageGuard) (hb : g.bpm_ = false) :
    Drop h w g = some (w, g) := by
  unfold Drop
  rw [hb]
  rfl

/-- C28: after move construction the source guard still holds the page.  When
the page is resident with pin count 2 or more, dropping the new guard and then
the source calls `UnpinPage` for the page twice; a guard that was dropped makes
no further call when it is dropped again. -/
theorem C28_move_constructed_guards_unpin_twice (h : Helpers) (w : GuardWorld)
    (a : BasicPageGuard) (page : Nat) (hb : a.bpm_ = true) (hp : a.page_ = some page)
    (hres : h.GetPageByPageID w.bpm (w.bpm.pages_ page).page_id_ = some page)
    (hpin : 2 ≤ (w.bpm.pages_ page).pin_count_) :
    (moveConstruct a).2 = a ∧ (moveConstruct a).1.page_ = some page ∧
    (moveConstruct a).1.bpm_ = true ∧
    ∃ w1 b1 w2 a2,
      Drop h w (moveConstruct a).1 = some (w1, b1) ∧
      Drop h w1 (moveConstruct a).2 = some (w2, a2) ∧
      w2.unpins = w.unpins ++
        [((w.bpm.pages_ page).page_id_, false), ((w.bpm.pages_ page).page_id_, a.is_dirty_)] ∧
      Drop h w2 b1 = some (w2, b1) ∧ Drop h w2 a2 = some (w2, a2) := by
  have hb1 : (moveConstruct a).1.bpm_ = true := hb
  have hp1 : (moveConstruct a).1.page_ = some page := hp
  refine ⟨rfl, hp1, hb1, _, _, _, _, Drop_of_page h w _ page hb1 hp1,
    Drop_of_page h _ _ page hb hp, ?_, Drop_of_empty h _ _ rfl, Drop_of_empty h _ _ rfl⟩
  have hid := (BufferPoolManager.UnpinPage_of_pinned_twice h w.bpm (w.bpm.pages_ page).page_id_
    (moveConstruct a).1.is_dirty_ page hres hpin).2.2.2
  simp only [hid, List.append_assoc, List.singleton_append]
  rfl

theorem C28_move_constructed_guards_unpin_twice_witness :
    (moveConstruct dirtyGuard).2 = dirtyGuard ∧ (moveConstruct dirtyGuard).1.page_ = some 0 ∧
    (moveConstruct dirtyGuard).1.bpm_ = true ∧
    ∃ w1 b1 w2 a2,
      Drop BufferPoolManager.specHelpers worldTwice (moveConstruct dirtyGuard).1 = some (w1, b1) ∧
      Drop BufferPoolManager.specHelpers w1 (moveConstruct dirtyGuard).2 = some (w2, a2) ∧
      w2.unpins = worldTwice.unpins ++
        [((worldTwice.bpm.pages_ 0).page_id_, false),
         ((worldTwice.bpm.pages_ 0).page_id_, dirtyGuard.is_dirty_)] ∧
      Drop BufferPoolManager.specHelpers w2 b1 = some (w2, b1) ∧
      Drop BufferPoolManager.specHelpers w2 a2 = some (w2, a2) :=
  C28_move_constructed_guards_unpin_twice BufferPoolManager.specHelpers worldTwice dirtyGuard 0
    rfl rfl (by decide) (by decide)

/-- C29: the move constructor does not take over the dirty flag: the new guard
of a dirty source is not dirty, and its `Drop` calls `UnpinPage` with
`is_dirty = false`.  The move assignment ORs the flag of the source in. -/
theorem C29_move_construction_loses_dirty_flag (that : BasicPageGuard)
    (hd : that.is_dirty_ = true) :
    (moveConstruct that).1.is_dirty_ = false ∧
    (∀ (h : Helpers) (w : GuardWorld) (page : Nat), that.bpm_ = true → that.page_ = some page →
      ∃ w1 b1, Drop h w (moveConstruct that).1 = some (w1, b1) ∧
        w1.unpins = w.unpins ++ [((w.bpm.pages_ page).page_id_, false)]) ∧
    (∀ (h : Helpers) (w w1 : GuardWorld) (this this1 that1 : BasicPageGuard),
      moveAssign h w this that = some (w1, this1, that1) → this1.is_dirty_ = true) := by
  refine ⟨rfl, ?_, ?_⟩
  · intro h w page hb hp
    exact ⟨_, _, Drop_of_page h w (moveConstruct that).1 page hb hp, rfl⟩
  · intro h w w1 this this1 that1 hm
    unfold moveAssign at hm
    cases hdrop : Drop h w this with
    | none => rw [hdrop] at hm; cases hm
    | some r =>
      rw [hdrop] at hm
      simp only [Option.some.injEq, Prod.mk.injEq] at hm
      rw [← hm.2.1, hd]
      simp

theorem C29_move_construction_loses_dirty_flag_witness :
    (moveConstruct dirtyGuard).1.is_dirty_ = false ∧
    (∀ (h : Helpers) (w : GuardWorld) (page : Nat), dirtyGuard.bpm_ = true →
      dirtyGuard.page_ = some page →
      ∃ w1 b1, Drop h w (moveConstruct dirtyGuard).1 = some (w1, b1) ∧
        w1.unpins = w.unpins ++ [((w.bpm.pages_ page).page_id_, false)]) ∧
    (∀ (h : Helpers) (w w1 : GuardWorld) (this this1 that1 : BasicPageGuard),
      moveAssign h w this dirtyGuard = some (w1, this1, that1) → this1.is_dirty_ = true) :=
  C29_move_construction_loses_dirty_flag dirtyGuard rfl

/-- C30: `UpgradeWrite` on a basic guard of a resident page fetches the page
once more: the basic guard is left as it was, still holding the page, and the
pin count of the page is one higher than before.  `UpgradeRead` hands the page
over: it empties the basic guard and calls nothing of the pool. -/
theorem C30_upgrade_write_pins_again (h : Helpers) (bpm : BufferPoolManager)
    (g : BasicPageGuard) (page : Nat) (hb : g.bpm_ = true) (hp : g.page_ = some page)
    (hres : h.GetPageByPageID bpm (bpm.pages_ page).page_id_ = some page) :
    (∃ wg bpm1, UpgradeWrite h bpm g = some (.ok (wg, bpm1, g)) ∧
      wg.guard_.page_ = some page ∧ wg.guard_.bpm_ = true ∧
      (bpm1.pages_ page).pin_count_ = (bpm.pages_ page).pin_count_ + 1 ∧
      (bpm1.pages_ page).page_id_ = (bpm.pages_ page).page_id_) ∧
    (UpgradeRead g).2.bpm_ = false ∧ (UpgradeRead g).2.page_ = none ∧
    (UpgradeRead g).1.guard_.page_ = some page ∧ (UpgradeRead g).1.guard_.bpm_ = true := by
  refine ⟨?_, rfl, rfl, hp, hb⟩
  unfold UpgradeWrite
  rw [hb, hp]
  simp only [Bool.not_true, Bool.false_eq_true, if_false]
  unfold BufferPoolManager.FetchPage
  rw [hres]
  refine ⟨_, _, rfl, rfl, rfl, ?_, ?_⟩
  · simp [BufferPoolManager.setPageTable, BufferPoolManager.setPage]
  · simp [BufferPoolManager.setPageTable, BufferPoolManager.setPage]

theorem C30_upgrade_write_pins_again_witness :
    (BufferPoolManager.pinnedOnce.pages_ 0).pin_count_ = 1 ∧
    (∃ wg bpm1, UpgradeWrite BufferPoolManager.specHelpers BufferPoolManager.pinnedOnce
        (create (some 0)) = some (.ok (wg, bpm1, create (some 0))) ∧
      wg.guard_.page_ = some 0 ∧ wg.guard_.bpm_ = true ∧
      (bpm1.pages_ 0).pin_count_ = (BufferPoolManager.pinnedOnce.pages_ 0).pin_count_ + 1 ∧
      (bpm1.pages_ 0).page_id_ = (BufferPoolManager.pinnedOnce.pages_ 0).page_id_) ∧
    (UpgradeRead (create (some 0))).2.bpm_ = false ∧
    (UpgradeRead (create (some 0))).2.page_ = none ∧
    (UpgradeRead (create (some 0))).1.guard_.page_ = some 0 ∧
    (UpgradeRead (create (some 0))).1.guard_.bpm_ = true :=
  ⟨by decide,
    C30_upgrade_write_pins_again BufferPoolManager.specHelpers BufferPoolManager.pinnedOnce
      (create (some 0)) 0 rfl rfl (by decide)⟩

end BasicPageGuard


/-! ## The index: duplicate insert, split image, shrink test, local depths, termination -/

namespace DiskExtendibleHashTable

open ExtendibleHTableDirectoryPage

set_option maxRecDepth 100000

/-- C33: with `bucket_max_size = 2` and `directory_max_depth = 3`, after the
inserts of 0 and 1 the key 0 is stored and its bucket is full; `Insert(0, 200)`
returns false, but only after the split loop has run: the global depth has gone
from 0 to 1, the local depth of slot 0 from 0 to 1, a new bucket page is
allocated, and key 1 has moved out of the bucket of key 0. -/
theorem C33_duplicate_insert_splits_first :
    ∃ t t' : DiskExtendibleHashTable,
      Reachable identityHash 0 3 2 t ∧
      t.GetValue 0 [] = (true, [100]) ∧
      (t.bucketOf 0).IsFull = true ∧
      t.Insert 0 200 = .returns (false, t') ∧
      (t.directoryOf 0).GetGlobalDepth = 0 ∧ (t'.directoryOf 0).GetGlobalDepth = 1 ∧
      (t.directoryOf 0).GetLocalDepth 0 = 0 ∧ (t'.directoryOf 0).GetLocalDepth 0 = 1 ∧
      t'.next_page_id_ = t.next_page_id_ + 1 ∧
      (t'.directoryOf 0).GetBucketPageId 1 = t.next_page_id_ ∧
      (t.bucketOf 0).Size = 2 ∧ (t'.bucketOf 0).Size = 1 := by
  refine ⟨after identityHash 0 3 2 [.insert 0 100, .insert 1 101],
    next ((after identityHash 0 3 2 [.insert 0 100, .insert 1 101]).Insert 0 200)
      (create identityHash 0 3 2), reachable_after _ (by decide), by decide, by decide, ?_,
    by decide, by decide, by decide, by decide, by decide, by decide, by decide, by decide⟩
  exact eq_returns_of_flag _ (by decide)

end DiskExtendibleHashTable

namespace ExtendibleHTableDirectoryPage

/-- C34: for every directory page and every live index `bi` whose local depth
is at least 1 and below the global depth, `GetSplitImageIndex(bi)` is
`bi XOR (1 << (global_depth - 1))`, which differs from
`bi XOR (1 << (local_depth(bi) - 1))`. -/
theorem C34_split_image_flips_global_depth_bit (d : ExtendibleHTableDirectoryPage) (bi : Nat)
    (hlive : bi < d.Size) (hpos : 1 ≤ d.GetLocalDepth bi)
    (hlt : d.GetLocalDepth bi < d.GetGlobalDepth) :
    d.GetSplitImageIndex bi = .ok (bi ^^^ (1 <<< (d.GetGlobalDepth - 1))) ∧
    d.GetSplitImageIndex bi ≠ .ok (bi ^^^ (1 <<< (d.GetLocalDepth bi - 1))) := by
  simp only [GetLocalDepth, GetGlobalDepth] at hpos hlt ⊢
  obtain ⟨g, hg⟩ : ∃ g, d.global_depth_ = g + 1 := ⟨d.global_depth_ - 1, by omega⟩
  rw [Size_eq, hg] at hlive
  rw [GetSplitImageIndex_eq hg hlive, hg, Nat.add_sub_cancel, Nat.one_shiftLeft,
    Nat.one_shiftLeft]
  refine ⟨rfl, ?_⟩
  intro h
  have h' : bi ^^^ 2 ^ g = bi ^^^ 2 ^ (d.local_depths_ bi - 1) := by
    simpa using h
  have h2 : 2 ^ g = 2 ^ (d.local_depths_ bi - 1) := Nat.xor_right_injective h'
  have h3 : g = d.local_depths_ bi - 1 := Nat.pow_right_injective (le_refl 2) h2
  omega

/-- The directory page after the inserts of 0, 1 and 2 with `bucket_max_size = 1`:
slot 1 has local depth 1 at global depth 2, its split image by the local depth
is slot 0, and `GetSplitImageIndex(1)` is slot 3. -/
theorem C34_split_image_flips_global_depth_bit_witness :
    (1 < ((DiskExtendibleHashTable.after DiskExtendibleHashTable.identityHash 0 2 1
        [.insert 0 100, .insert 1 101, .insert 2 102]).directoryOf 1).Size ∧
      ((DiskExtendibleHashTable.after DiskExtendibleHashTable.identityHash 0 2 1
        [.insert 0 100, .insert 1 101, .insert 2 102]).directoryOf 1).GetLocalDepth 1 = 1 ∧
      ((DiskExtendibleHashTable.after DiskExtendibleHashTable.identityHash 0 2 1
        [.insert 0 100, .insert 1 101, .insert 2 102]).directoryOf 1).GetGlobalDepth = 2) ∧
    (((DiskExtendibleHashTable.after DiskExtendibleHashTable.identityHash 0 2 1
        [.insert 0 100, .insert 1 101, .insert 2 102]).directoryOf 1).GetSplitImageIndex 1 =
        .ok (1 ^^^ (1 <<< (((DiskExtendibleHashTable.after DiskExtendibleHashTable.identityHash
          0 2 1 [.insert 0 100, .insert 1 101, .insert 2 102]).directoryOf 1).GetGlobalDepth
            - 1))) ∧
      ((DiskExtendibleHashTable.after DiskExtendibleHashTable.identityHash 0 2 1
        [.insert 0 100, .insert 1 101, .insert 2 102]).directoryOf 1).GetSplitImageIndex 1 ≠
        .ok (1 ^^^ (1 <<< (((DiskExtendibleHashTable.after DiskExtendibleHashTable.identityHash
          0 2 1 [.insert 0 100, .insert 1 101, .insert 2 102]).directoryOf 1).GetLocalDepth 1
            - 1)))) :=
  ⟨⟨by decide, by decide, by decide⟩,
    C34_split_image_flips_global_depth_bit _ 1 (by decide) (by decide) (by decide)⟩

end ExtendibleHTableDirectoryPage

namespace DiskExtendibleHashTable

open ExtendibleHTableDirectoryPage

/-- The merge loop of `Remove` throws on no table: inside the loop the global
depth is positive, so neither `GetSplitImageIndex` nor `DecrGlobalDepth` throws. -/
theorem MergeLoop_ne_throws (dpid : page_id_t) (hk : Nat) :
    ∀ (fuel : Nat) (t : DiskExtendibleHashTable) (bpid : page_id_t) (bi : Nat) (e : Exn),
      bi = (t.directory_pages dpid).HashToBucketIndex hk →
      MergeLoop dpid hk fuel t bpid bi ≠ .throws e := by
  intro fuel
  induction fuel with
  | zero =>
    intro t bpid bi e _
    simp [MergeLoop]
  | succ fuel ih =>
    intro t bpid bi e hbi
    by_cases hcond : ((t.bucket_pages bpid).IsEmpty &&
        decide ((t.directory_pages dpid).GetGlobalDepth > 0)) = true
    · simp only [Bool.and_eq_true, decide_eq_true_eq, GetGlobalDepth] at hcond
      obtain ⟨hempty, hpos⟩ := hcond
      obtain ⟨g, hg⟩ : ∃ g, (t.directory_pages dpid).global_depth_ = g + 1 :=
        ⟨(t.directory_pages dpid).global_depth_ - 1, by omega⟩
      have hbilt : bi < 2 ^ (g + 1) := by
        rw [hbi, ← hg]; exact HashToBucketIndex_lt _ _
      by_cases hsame : (t.directory_pages dpid).bucket_page_ids_ (bi ^^^ 2 ^ g) = bpid
      · rw [MergeLoop_blocks dpid hk fuel t bpid bi hempty hg hbilt hsame]
        simp
      · by_cases hbreak : (!(t.bucket_pages ((t.directory_pages dpid).bucket_page_ids_
            (bi ^^^ 2 ^ g))).IsEmpty ||
            (t.directory_pages dpid).GetLocalDepth bi !=
              (t.directory_pages dpid).GetLocalDepth (bi ^^^ 2 ^ g)) = true
        · rw [MergeLoop_break dpid hk fuel t bpid bi hempty hg hbilt hsame hbreak]
          simp
        · have hbreak' := hbreak
          simp only [Bool.not_eq_true] at hbreak'
          by_cases hshrink : ((t.directory_pages dpid).merged bi (bi ^^^ 2 ^ g)).CanShrink = true
          · obtain ⟨d', hd1, _⟩ := @DecrGlobalDepth_eq
              ((t.directory_pages dpid).merged bi (bi ^^^ 2 ^ g)) g hg
            have hdir : (if ((t.directory_pages dpid).merged bi (bi ^^^ 2 ^ g)).CanShrink
                then ((t.directory_pages dpid).merged bi (bi ^^^ 2 ^ g)).DecrGlobalDepth
                else .ok ((t.directory_pages dpid).merged bi (bi ^^^ 2 ^ g))) = .ok d' := by
              rw [if_pos hshrink, hd1]
            rw [MergeLoop_merge dpid hk fuel t bpid bi hempty hg hbilt hsame hbreak' hdir]
            exact ih _ _ _ e (by rw [setDirectory_directory_pages, if_pos rfl])
          · have hdir : (if ((t.directory_pages dpid).merged bi (bi ^^^ 2 ^ g)).CanShrink
                then ((t.directory_pages dpid).merged bi (bi ^^^ 2 ^ g)).DecrGlobalDepth
                else .ok ((t.directory_pages dpid).merged bi (bi ^^^ 2 ^ g))) =
                .ok ((t.directory_pages dpid).merged bi (bi ^^^ 2 ^ g)) := by
              rw [if_neg hshrink]
            rw [MergeLoop_merge dpid hk fuel t bpid bi hempty hg hbilt hsame hbreak' hdir]
            exact ih _ _ _ e (by rw [setDirectory_directory_pages, if_pos rfl])
    · have hcond' : ((t.bucket_pages bpid).IsEmpty &&
          decide ((t.directory_pages dpid).GetGlobalDepth > 0)) = false := by
        simpa using hcond
      rw [MergeLoop_stop dpid hk fuel t bpid bi hcond']
      simp

/-- `Remove` throws on no table. -/
theorem Remove_ne_throws (t : DiskExtendibleHashTable) (key : KeyType) (e : Exn) :
    t.Remove key ≠ .throws e := by
  unfold Remove
  by_cases h1 : t.header_page.IsInit (t.header_page.HashToDirectoryIndex (t.Hash key)) = true
  · simp only [h1, Bool.not_true, Bool.false_eq_true, if_false]
    by_cases h2 : (t.directory_pages (t.header_page.GetDirectoryPageId
        (t.header_page.HashToDirectoryIndex (t.Hash key)))).GetBucketPageId
        ((t.directory_pages (t.header_page.GetDirectoryPageId
          (t.header_page.HashToDirectoryIndex (t.Hash key)))).HashToBucketIndex (t.Hash key)) =
        INVALID_PAGE_ID
    · simp only [h2, if_true]
      simp
    · simp only [h2, if_false]
      generalize hpid : t.header_page.GetDirectoryPageId
        (t.header_page.HashToDirectoryIndex (t.Hash key)) = dpid at *
      cases hs : MergeLoop dpid (t.Hash key) ((t.directory_pages dpid).GetGlobalDepth + 2)
          (t.setBucket ((t.directory_pages dpid).GetBucketPageId
            ((t.directory_pages dpid).HashToBucketIndex (t.Hash key)))
            ((t.bucket_pages ((t.directory_pages dpid).GetBucketPageId
              ((t.directory_pages dpid).HashToBucketIndex (t.Hash key)))).Remove key).2)
          ((t.directory_pages dpid).GetBucketPageId
            ((t.directory_pages dpid).HashToBucketIndex (t.Hash key)))
          ((t.directory_pages dpid).HashToBucketIndex (t.Hash key)) with
      | throws e' =>
        exact absurd hs (MergeLoop_ne_throws dpid (t.Hash key) _ _ _ _ e' rfl)
      | blocks => simp
      | spins => simp
      | returns t1 => simp
  · have h1' : t.header_page.IsInit (t.header_page.HashToDirectoryIndex (t.Hash key)) = false := by
      simpa using h1
    simp only [h1', Bool.not_false, if_true]
    simp

/-- The merge loop of `Remove` does not run out of the iterations that `Remove`
grants it: an iteration that merges and shrinks lowers the global depth, and an
iteration that merges without shrinking is followed by one that meets its own
page. -/
theorem MergeLoop_ne_spins (dpid : page_id_t) (hk : Nat) :
    ∀ (fuel : Nat) (t : DiskExtendibleHashTable) (bpid : page_id_t) (bi : Nat),
      bi = (t.directory_pages dpid).HashToBucketIndex hk →
      (t.directory_pages dpid).bucket_page_ids_ bi = bpid →
      (t.directory_pages dpid).global_depth_ + 2 ≤ fuel →
      MergeLoop dpid hk fuel t bpid bi ≠ .spins := by
  intro fuel
  induction fuel with
  | zero =>
    intro t bpid bi _ _ hfuel
    omega
  | succ fuel ih =>
    intro t bpid bi hbi hids hfuel
    by_cases hcond : ((t.bucket_pages bpid).IsEmpty &&
        decide ((t.directory_pages dpid).GetGlobalDepth > 0)) = true
    · simp only [Bool.and_eq_true, decide_eq_true_eq, GetGlobalDepth] at hcond
      obtain ⟨hempty, hpos⟩ := hcond
      obtain ⟨g, hg⟩ : ∃ g, (t.directory_pages dpid).global_depth_ = g + 1 :=
        ⟨(t.directory_pages dpid).global_depth_ - 1, by omega⟩
      have hbilt : bi < 2 ^ (g + 1) := by
        rw [hbi, ← hg]; exact HashToBucketIndex_lt _ _
      have hne : bi ^^^ 2 ^ g ≠ bi := xor_two_pow_ne bi g
      by_cases hsame : (t.directory_pages dpid).bucket_page_ids_ (bi ^^^ 2 ^ g) = bpid
      · rw [MergeLoop_blocks dpid hk fuel t bpid bi hempty hg hbilt hsame]
        simp
      · by_cases hbreak : (!(t.bucket_pages ((t.directory_pages dpid).bucket_page_ids_
            (bi ^^^ 2 ^ g))).IsEmpty ||
            (t.directory_pages dpid).GetLocalDepth bi !=
              (t.directory_pages dpid).GetLocalDepth (bi ^^^ 2 ^ g)) = true
        · rw [MergeLoop_break dpid hk fuel t bpid bi hempty hg hbilt hsame hbreak]
          simp
        · have hbreak' := hbreak
          simp only [Bool.not_eq_true] at hbreak'
          by_cases hshrink : ((t.directory_pages dpid).merged bi (bi ^^^ 2 ^ g)).CanShrink = true
          · obtain ⟨d', hd1, hd2, _⟩ := @DecrGlobalDepth_eq
              ((t.directory_pages dpid).merged bi (bi ^^^ 2 ^ g)) g hg
            have hdir : (if ((t.directory_pages dpid).merged bi (bi ^^^ 2 ^ g)).CanShrink
                then ((t.directory_pages dpid).merged bi (bi ^^^ 2 ^ g)).DecrGlobalDepth
                else .ok ((t.directory_pages dpid).merged bi (bi ^^^ 2 ^ g))) = .ok d' := by
              rw [if_pos hshrink, hd1]
            rw [MergeLoop_merge dpid hk fuel t bpid bi hempty hg hbilt hsame hbreak' hdir]
            exact ih _ _ _ (by rw [setDirectory_directory_pages, if_pos rfl])
              (by rw [setDirectory_directory_pages, if_pos rfl]; rfl)
              (by rw [setDirectory_directory_pages, if_pos rfl, hd2]; omega)
          · have hdir : (if ((t.directory_pages dpid).merged bi (bi ^^^ 2 ^ g)).CanShrink
                then ((t.directory_pages dpid).merged bi (bi ^^^ 2 ^ g)).DecrGlobalDepth
                else .ok ((t.directory_pages dpid).merged bi (bi ^^^ 2 ^ g))) =
                .ok ((t.directory_pages dpid).merged bi (bi ^^^ 2 ^ g)) := by
              rw [if_neg hshrink]
            rw [MergeLoop_merge dpid hk fuel t bpid bi hempty hg hbilt hsame hbreak' hdir]
            have hidx : ((t.directory_pages dpid).merged bi (bi ^^^ 2 ^ g)).HashToBucketIndex hk =
                bi := by
              rw [hbi, HashToBucketIndex_eq, HashToBucketIndex_eq, merged_global_depth]
            rw [hidx]
            have hpid : ((t.directory_pages dpid).merged bi (bi ^^^ 2 ^ g)).GetBucketPageId bi =
                bpid := by
              show ((t.directory_pages dpid).merged bi (bi ^^^ 2 ^ g)).bucket_page_ids_ bi = bpid
              rw [merged_bucket_page_ids, if_neg (Ne.symm hne)]
              exact hids
            rw [hpid]
            obtain ⟨fuel', hfuel'⟩ : ∃ fuel', fuel = fuel' + 1 := ⟨fuel - 1, by omega⟩
            rw [hfuel']
            rw [@MergeLoop_blocks dpid hk fuel'
              (t.setDirectory dpid ((t.directory_pages dpid).merged bi (bi ^^^ 2 ^ g))) bpid bi g
              hempty
              (by rw [setDirectory_directory_pages, if_pos rfl, merged_global_depth]; exact hg)
              hbilt
              (by
                rw [setDirectory_directory_pages, if_pos rfl, merged_bucket_page_ids, if_pos rfl]
                exact hids)]
            simp
    · have hcond' : ((t.bucket_pages bpid).IsEmpty &&
          decide ((t.directory_pages dpid).GetGlobalDepth > 0)) = false := by
        simpa using hcond
      rw [MergeLoop_stop dpid hk fuel t bpid bi hcond']
      simp

/-- On every table `Remove` either returns or meets a writer latch it holds; the
bound on the iterations of its loop in the embedding is never what ends it. -/
theorem Remove_returns_or_blocks (t : DiskExtendibleHashTable) (key : KeyType) :
    (∃ r, t.Remove key = .returns r) ∨ t.Remove key = .blocks := by
  have hthrows := Remove_ne_throws t key
  unfold Remove at hthrows ⊢
  by_cases h1 : t.header_page.IsInit (t.header_page.HashToDirectoryIndex (t.Hash key)) = true
  · simp only [h1, Bool.not_true, Bool.false_eq_true, if_false] at hthrows ⊢
    by_cases h2 : (t.directory_pages (t.header_page.GetDirectoryPageId
        (t.header_page.HashToDirectoryIndex (t.Hash key)))).GetBucketPageId
        ((t.directory_pages (t.header_page.GetDirectoryPageId
          (t.header_page.HashToDirectoryIndex (t.Hash key)))).HashToBucketIndex (t.Hash key)) =
        INVALID_PAGE_ID
    · simp only [h2, if_true]
      exact Or.inl ⟨_, rfl⟩
    · simp only [h2, if_false] at hthrows ⊢
      generalize hpid : t.header_page.GetDirectoryPageId
        (t.header_page.HashToDirectoryIndex (t.Hash key)) = dpid at *
      cases hs : MergeLoop dpid (t.Hash key) ((t.directory_pages dpid).GetGlobalDepth + 2)
          (t.setBucket ((t.directory_pages dpid).GetBucketPageId
            ((t.directory_pages dpid).HashToBucketIndex (t.Hash key)))
            ((t.bucket_pages ((t.directory_pages dpid).GetBucketPageId
              ((t.directory_pages dpid).HashToBucketIndex (t.Hash key)))).Remove key).2)
          ((t.directory_pages dpid).GetBucketPageId
            ((t.directory_pages dpid).HashToBucketIndex (t.Hash key)))
          ((t.directory_pages dpid).HashToBucketIndex (t.Hash key)) with
      | throws e =>
        rw [hs] at hthrows
        exact absurd rfl (hthrows e)
      | blocks => exact Or.inr rfl
      | spins =>
        exact absurd hs (MergeLoop_ne_spins dpid (t.Hash key) _ _ _ _ rfl rfl (le_refl _))
      | returns t1 => exact Or.inl ⟨_, rfl⟩
  · have h1' : t.header_page.IsInit (t.header_page.HashToDirectoryIndex (t.Hash key)) = false := by
      simpa using h1
    simp only [h1', Bool.not_false, if_true]
    exact Or.inl ⟨_, rfl⟩

end DiskExtendibleHashTable

namespace ExtendibleHTableDirectoryPage

/-- C35: for every directory page whose live local depths are at most the
global depth, `CanShrink` returns true exactly when every live entry has a local
depth below the global depth, and it returns false at global depth 0; `Remove`
calls `DecrGlobalDepth` only after `CanShrink` returned true, and no call of
`Remove` ends in the exception of `DecrGlobalDepth` (or in any other). -/
theorem C35_can_shrink_iff_all_local_depths_below (d : ExtendibleHTableDirectoryPage)
    (hle : ∀ i < d.Size, d.GetLocalDepth i ≤ d.GetGlobalDepth) :
    (d.CanShrink = true ↔ ∀ i < d.Size, d.GetLocalDepth i < d.GetGlobalDepth) ∧
    (d.GetGlobalDepth = 0 → d.CanShrink = false) ∧
    (d.CanShrink = true → ∃ d', d.DecrGlobalDepth = .ok d' ∧
      d'.GetGlobalDepth + 1 = d.GetGlobalDepth) ∧
    ∀ (t : DiskExtendibleHashTable) (key : KeyType),
      t.Remove key ≠ .throws .global_depth_equals_to_zero := by
  simp only [GetLocalDepth, GetGlobalDepth, Size_eq] at hle ⊢
  have hiff : d.CanShrink = true ↔ ∀ i < 2 ^ d.global_depth_,
      d.local_depths_ i < d.global_depth_ := by
    rw [CanShrink_iff]
    constructor
    · intro h i hi
      exact lt_of_le_of_ne (hle i hi) (h i hi)
    · intro h i hi
      exact ne_of_lt (h i hi)
  have hzero : d.global_depth_ = 0 → d.CanShrink = false := by
    intro h0
    cases hc : d.CanShrink with
    | false => rfl
    | true =>
      have := hiff.1 hc 0 (by positivity)
      omega
  refine ⟨hiff, hzero, ?_, fun t key => DiskExtendibleHashTable.Remove_ne_throws t key _⟩
  intro hc
  obtain ⟨g, hg⟩ : ∃ g, d.global_depth_ = g + 1 := by
    refine ⟨d.global_depth_ - 1, ?_⟩
    have : d.global_depth_ ≠ 0 := by
      intro h0
      rw [hzero h0] at hc
      cases hc
    omega
  obtain ⟨d', hd1, hd2, _⟩ := @DecrGlobalDepth_eq d g hg
  exact ⟨d', hd1, by rw [hd2, hg]⟩

/-- The directory page after the inserts of 0, 1 and the removes of 0, 1 with
`bucket_max_size = 1`: global depth 0, and `CanShrink` is false. -/
theorem C35_can_shrink_iff_all_local_depths_below_witness :
    (∀ i < ((DiskExtendibleHashTable.after DiskExtendibleHashTable.identityHash 0 2 1
        [.insert 0 100, .insert 1 101, .remove 0, .remove 1]).directoryOf 0).Size,
      ((DiskExtendibleHashTable.after DiskExtendibleHashTable.identityHash 0 2 1
        [.insert 0 100, .insert 1 101, .remove 0, .remove 1]).directoryOf 0).GetLocalDepth i ≤
      ((DiskExtendibleHashTable.after DiskExtendibleHashTable.identityHash 0 2 1
        [.insert 0 100, .insert 1 101, .remove 0, .remove 1]).directoryOf 0).GetGlobalDepth) ∧
    ((DiskExtendibleHashTable.after DiskExtendibleHashTable.identityHash 0 2 1
        [.insert 0 100, .insert 1 101, .remove 0, .remove 1]).directoryOf 0).GetGlobalDepth = 0 ∧
    ((DiskExtendibleHashTable.after DiskExtendibleHashTable.identityHash 0 2 1
        [.insert 0 100, .insert 1 101, .remove 0, .remove 1]).directoryOf 0).CanShrink = false :=
  ⟨by decide, by decide,
    (C35_can_shrink_iff_all_local_depths_below
      ((DiskExtendibleHashTable.after DiskExtendibleHashTable.identityHash 0 2 1
        [.insert 0 100, .insert 1 101, .remove 0, .remove 1]).directoryOf 0)
      (by decide)).2.1 (by decide)⟩

end ExtendibleHTableDirectoryPage

/-! ## The index: local depths under `Remove`, termination of the merge loop, bucket `Init` -/

namespace DiskExtendibleHashTable

open ExtendibleHTableDirectoryPage

set_option maxRecDepth 100000

theorem MergeLoopDecrCalls_stop (dpid : page_id_t) (hk fuel : Nat) (t : DiskExtendibleHashTable)
    (bpid : page_id_t) (bi : Nat)
    (h : ((t.bucket_pages bpid).IsEmpty &&
      decide ((t.directory_pages dpid).GetGlobalDepth > 0)) = false) :
    MergeLoopDecrCalls dpid hk (fuel + 1) t bpid bi = [] := by
  rw [MergeLoopDecrCalls]
  simp only [h, Bool.false_eq_true, if_false]

theorem MergeLoopDecrCalls_blocks (dpid : page_id_t) (hk fuel : Nat)
    (t : DiskExtendibleHashTable) (bpid : page_id_t) (bi : Nat) {g : Nat}
    (hempty : (t.bucket_pages bpid).IsEmpty = true)
    (hg : (t.directory_pages dpid).global_depth_ = g + 1) (hbi : bi < 2 ^ (g + 1))
    (hsame : (t.directory_pages dpid).bucket_page_ids_ (bi ^^^ 2 ^ g) = bpid) :
    MergeLoopDecrCalls dpid hk (fuel + 1) t bpid bi = [] := by
  rw [MergeLoopDecrCalls]
  have hgd : decide ((t.directory_pages dpid).GetGlobalDepth > 0) = true := by
    simp [GetGlobalDepth, hg]
  simp only [hempty, hgd, Bool.and_self, if_true, GetSplitImageIndex_eq hg hbi, GetBucketPageId,
    hsame]

theorem MergeLoopDecrCalls_break (dpid : page_id_t) (hk fuel : Nat)
    (t : DiskExtendibleHashTable) (bpid : page_id_t) (bi : Nat) {g : Nat}
    (hempty : (t.bucket_pages bpid).IsEmpty = true)
    (hg : (t.directory_pages dpid).global_depth_ = g + 1) (hbi : bi < 2 ^ (g + 1))
    (hdiff : (t.directory_pages dpid).bucket_page_ids_ (bi ^^^ 2 ^ g) ≠ bpid)
    (hbreak : (!(t.bucket_pages ((t.directory_pages dpid).bucket_page_ids_
        (bi ^^^ 2 ^ g))).IsEmpty ||
      (t.directory_pages dpid).GetLocalDepth bi !=
        (t.directory_pages dpid).GetLocalDepth (bi ^^^ 2 ^ g)) = true) :
    MergeLoopDecrCalls dpid hk (fuel + 1) t bpid bi = [] := by
  rw [MergeLoopDecrCalls]
  have hgd : decide ((t.directory_pages dpid).GetGlobalDepth > 0) = true := by
    simp [GetGlobalDepth, hg]
  simp only [hempty, hgd, Bool.and_self, if_true, GetSplitImageIndex_eq hg hbi, GetBucketPageId,
    hdiff, if_false, hbreak]

theorem MergeLoopDecrCalls_merge (dpid : page_id_t) (hk fuel : Nat)
    (t : DiskExtendibleHashTable) (bpid : page_id_t) (bi : Nat) {g : Nat}
    {dir4 : ExtendibleHTableDirectoryPage}
    (hempty : (t.bucket_pages bpid).IsEmpty = true)
    (hg : (t.directory_pages dpid).global_depth_ = g + 1) (hbi : bi < 2 ^ (g + 1))
    (hdiff : (t.directory_pages dpid).bucket_page_ids_ (bi ^^^ 2 ^ g) ≠ bpid)
    (hbreak : (!(t.bucket_pages ((t.directory_pages dpid).bucket_page_ids_
        (bi ^^^ 2 ^ g))).IsEmpty ||
      (t.directory_pages dpid).GetLocalDepth bi !=
        (t.directory_pages dpid).GetLocalDepth (bi ^^^ 2 ^ g)) = false)
    (hdir : (if ((t.directory_pages dpid).merged bi (bi ^^^ 2 ^ g)).CanShrink
      then ((t.directory_pages dpid).merged bi (bi ^^^ 2 ^ g)).DecrGlobalDepth
      else .ok ((t.directory_pages dpid).merged bi (bi ^^^ 2 ^ g))) = .ok dir4) :
    MergeLoopDecrCalls dpid hk (fuel + 1) t bpid bi =
      ((t.directory_pages dpid).SetBucketPageId (bi ^^^ 2 ^ g)
          ((t.directory_pages dpid).GetBucketPageId bi), bi) ::
        ((((t.directory_pages dpid).SetBucketPageId (bi ^^^ 2 ^ g)
          ((t.directory_pages dpid).GetBucketPageId bi)).DecrLocalDepth bi), bi ^^^ 2 ^ g) ::
        MergeLoopDecrCalls dpid hk fuel (t.setDirectory dpid dir4)
          (dir4.GetBucketPageId (dir4.HashToBucketIndex hk)) (dir4.HashToBucketIndex hk) := by
  rw [MergeLoopDecrCalls]
  have hgd : decide ((t.directory_pages dpid).GetGlobalDepth > 0) = true := by
    simp [GetGlobalDepth, hg]
  simp only [hempty, hgd, Bool.and_self, if_true, GetSplitImageIndex_eq hg hbi, GetBucketPageId,
    hdiff, if_false, hbreak, Bool.false_eq_true]
  have hdir' := hdir
  simp only [merged, GetBucketPageId] at hdir'
  simp only [hdir']

/-- An iteration that meets the page it already holds makes no call of
`DecrLocalDepth`. -/
theorem MergeLoopDecrCalls_stuck (dpid : page_id_t) (hk fuel : Nat)
    (t : DiskExtendibleHashTable) (bpid : page_id_t) (bi : Nat) {g : Nat}
    (hempty : (t.bucket_pages bpid).IsEmpty = true)
    (hg : (t.directory_pages dpid).global_depth_ = g + 1) (hbi : bi < 2 ^ (g + 1))
    (hsame : (t.directory_pages dpid).bucket_page_ids_ (bi ^^^ 2 ^ g) = bpid) :
    MergeLoopDecrCalls dpid hk fuel t bpid bi = [] := by
  cases fuel with
  | zero => simp [MergeLoopDecrCalls]
  | succ fuel => exact MergeLoopDecrCalls_blocks dpid hk fuel t bpid bi hempty hg hbi hsame

/-- From a well-formed table every call of `DecrLocalDepth` in the merge loop
meets a local depth of at least 1. -/
theorem MergeLoopDecrCalls_pos (dpid : page_id_t) (hk : Nat) :
    ∀ (fuel : Nat) (t : DiskExtendibleHashTable) (bpid : page_id_t) (bi : Nat),
      t.Inv → bi = (t.directory_pages dpid).HashToBucketIndex hk →
      (t.directory_pages dpid).bucket_page_ids_ bi = bpid →
      ∀ c ∈ MergeLoopDecrCalls dpid hk fuel t bpid bi, 1 ≤ c.1.local_depths_ c.2 := by
  intro fuel
  induction fuel with
  | zero =>
    intro t bpid bi _ _ _ c hc
    simp [MergeLoopDecrCalls] at hc
  | succ fuel ih =>
    intro t bpid bi hinv hbi hids c hc
    by_cases hcond : ((t.bucket_pages bpid).IsEmpty &&
        decide ((t.directory_pages dpid).GetGlobalDepth > 0)) = true
    · simp only [Bool.and_eq_true, decide_eq_true_eq, GetGlobalDepth] at hcond
      obtain ⟨hempty, hpos⟩ := hcond
      obtain ⟨g, hg⟩ : ∃ g, (t.directory_pages dpid).global_depth_ = g + 1 :=
        ⟨(t.directory_pages dpid).global_depth_ - 1, by omega⟩
      have hbilt : bi < 2 ^ (g + 1) := by
        rw [hbi, ← hg]; exact HashToBucketIndex_lt _ _
      have hne : bi ^^^ 2 ^ g ≠ bi := xor_two_pow_ne bi g
      have hsilt : bi ^^^ 2 ^ g < 2 ^ (g + 1) := xor_two_pow_lt hbilt
      by_cases hsame : (t.directory_pages dpid).bucket_page_ids_ (bi ^^^ 2 ^ g) = bpid
      · rw [MergeLoopDecrCalls_blocks dpid hk fuel t bpid bi hempty hg hbilt hsame] at hc
        cases hc
      · by_cases hbreak : (!(t.bucket_pages ((t.directory_pages dpid).bucket_page_ids_
            (bi ^^^ 2 ^ g))).IsEmpty ||
            (t.directory_pages dpid).GetLocalDepth bi !=
              (t.directory_pages dpid).GetLocalDepth (bi ^^^ 2 ^ g)) = true
        · rw [MergeLoopDecrCalls_break dpid hk fuel t bpid bi hempty hg hbilt hsame hbreak] at hc
          cases hc
        · have hbreak' := hbreak
          simp only [Bool.not_eq_true] at hbreak'
          have hldeq : (t.directory_pages dpid).local_depths_ bi =
              (t.directory_pages dpid).local_depths_ (bi ^^^ 2 ^ g) := by
            simp only [Bool.or_eq_false_iff, bne_eq_false_iff_eq, GetLocalDepth] at hbreak'
            exact hbreak'.2
          have hwf0 := hinv.dirs dpid
          have hpbi : 1 ≤ (t.directory_pages dpid).local_depths_ bi :=
            hwf0.ld_pos (by omega) bi (by rw [hg]; exact hbilt)
          have hpsi : 1 ≤ (t.directory_pages dpid).local_depths_ (bi ^^^ 2 ^ g) :=
            hwf0.ld_pos (by omega) _ (by rw [hg]; exact hsilt)
          have hfirst : 1 ≤ ((t.directory_pages dpid).SetBucketPageId (bi ^^^ 2 ^ g)
              ((t.directory_pages dpid).GetBucketPageId bi)).local_depths_ bi := hpbi
          have hsecond : 1 ≤ (((t.directory_pages dpid).SetBucketPageId (bi ^^^ 2 ^ g)
              ((t.directory_pages dpid).GetBucketPageId bi)).DecrLocalDepth bi).local_depths_
                (bi ^^^ 2 ^ g) := by
            simp only [DecrLocalDepth, SetBucketPageId, if_neg hne]
            exact hpsi
          by_cases hshrink : ((t.directory_pages dpid).merged bi (bi ^^^ 2 ^ g)).CanShrink = true
          · obtain ⟨d', hd1, hd2, hd3, hd4, hd5⟩ := @DecrGlobalDepth_eq
              ((t.directory_pages dpid).merged bi (bi ^^^ 2 ^ g)) g hg
            have hdir : (if ((t.directory_pages dpid).merged bi (bi ^^^ 2 ^ g)).CanShrink
                then ((t.directory_pages dpid).merged bi (bi ^^^ 2 ^ g)).DecrGlobalDepth
                else .ok ((t.directory_pages dpid).merged bi (bi ^^^ 2 ^ g))) = .ok d' := by
              rw [if_pos hshrink, hd1]
            rw [MergeLoopDecrCalls_merge dpid hk fuel t bpid bi hempty hg hbilt hsame hbreak'
              hdir] at hc
            have hwf : d'.WellFormed :=
              WellFormed_merged_shrunk (hinv.dirs dpid) hg hbilt hldeq hshrink hd2 hd3 hd4
            simp only [List.mem_cons] at hc
            rcases hc with hc | hc | hc
            · rw [hc]; exact hfirst
            · rw [hc]; exact hsecond
            · exact ih _ _ _ (setDirectory_inv hinv dpid hwf)
                (by rw [setDirectory_directory_pages, if_pos rfl])
                (by rw [setDirectory_directory_pages, if_pos rfl]; rfl) c hc
          · have hdir : (if ((t.directory_pages dpid).merged bi (bi ^^^ 2 ^ g)).CanShrink
                then ((t.directory_pages dpid).merged bi (bi ^^^ 2 ^ g)).DecrGlobalDepth
                else .ok ((t.directory_pages dpid).merged bi (bi ^^^ 2 ^ g))) =
                .ok ((t.directory_pages dpid).merged bi (bi ^^^ 2 ^ g)) := by
              rw [if_neg hshrink]
            rw [MergeLoopDecrCalls_merge dpid hk fuel t bpid bi hempty hg hbilt hsame hbreak'
              hdir] at hc
            have hidx : ((t.directory_pages dpid).merged bi (bi ^^^ 2 ^ g)).HashToBucketIndex hk =
                bi := by
              rw [hbi, HashToBucketIndex_eq, HashToBucketIndex_eq, merged_global_depth]
            rw [hidx] at hc
            have hpid : ((t.directory_pages dpid).merged bi (bi ^^^ 2 ^ g)).GetBucketPageId bi =
                bpid := by
              show ((t.directory_pages dpid).merged bi (bi ^^^ 2 ^ g)).bucket_page_ids_ bi = bpid
              rw [merged_bucket_page_ids, if_neg (Ne.symm hne)]
              exact hids
            rw [hpid] at hc
            have hrest := @MergeLoopDecrCalls_stuck dpid hk fuel
              (t.setDirectory dpid ((t.directory_pages dpid).merged bi (bi ^^^ 2 ^ g))) bpid bi g
              hempty
              (by rw [setDirectory_directory_pages, if_pos rfl, merged_global_depth]; exact hg)
              hbilt
              (by
                rw [setDirectory_directory_pages, if_pos rfl, merged_bucket_page_ids, if_pos rfl]
                exact hids)
            rw [hrest] at hc
            simp only [List.mem_cons, List.mem_nil_iff, or_false] at hc
            rcases hc with hc | hc
            · rw [hc]; exact hfirst
            · rw [hc]; exact hsecond
    · have hcond' : ((t.bucket_pages bpid).IsEmpty &&
          decide ((t.directory_pages dpid).GetGlobalDepth > 0)) = false := by
        simpa using hcond
      rw [MergeLoopDecrCalls_stop dpid hk fuel t bpid bi hcond'] at hc
      cases hc

/-- From a well-formed table every call of `DecrLocalDepth` that `Remove` makes
meets a local depth of at least 1. -/
theorem RemoveDecrCalls_pos {t : DiskExtendibleHashTable} (ht : t.Inv) (key : KeyType) :
    ∀ c ∈ t.RemoveDecrCalls key, 1 ≤ c.1.local_depths_ c.2 := by
  intro c hc
  unfold RemoveDecrCalls at hc
  by_cases h1 : t.header_page.IsInit (t.header_page.HashToDirectoryIndex (t.Hash key)) = true
  · simp only [h1, Bool.not_true, Bool.false_eq_true, if_false] at hc
    by_cases h2 : (t.directory_pages (t.header_page.GetDirectoryPageId
        (t.header_page.HashToDirectoryIndex (t.Hash key)))).GetBucketPageId
        ((t.directory_pages (t.header_page.GetDirectoryPageId
          (t.header_page.HashToDirectoryIndex (t.Hash key)))).HashToBucketIndex (t.Hash key)) =
        INVALID_PAGE_ID
    · simp only [h2, if_true] at hc
      cases hc
    · simp only [h2, if_false] at hc
      exact MergeLoopDecrCalls_pos _ (t.Hash key) _ _ _ _ (setBucket_inv ht _ _) rfl rfl c hc
  · have h1' : t.header_page.IsInit (t.header_page.HashToDirectoryIndex (t.Hash key)) = false := by
      simpa using h1
    simp only [h1', Bool.not_false, if_true] at hc
    cases hc

/-- C36: in every state reachable from a fresh table by `Insert` and `Remove`
(directory depth at most 9, the capacity of the directory page), every live
directory entry has a local depth of at most the global depth, and every call of
`DecrLocalDepth` that a following `Remove` makes meets a local depth of at least
1, so the 8-bit counter does not wrap to 255. -/
theorem C36_local_depths_stay_well_formed {hash_fn : KeyType → Nat} {hmd dmd bms : Nat}
    (hdmd : dmd ≤ 9) {t : DiskExtendibleHashTable} (h : Reachable hash_fn hmd dmd bms t) :
    (∀ (pid : page_id_t) (i : Nat), i < (t.directory_pages pid).Size →
      (t.directory_pages pid).GetLocalDepth i ≤ (t.directory_pages pid).GetGlobalDepth) ∧
    ∀ (key : KeyType), ∀ c ∈ t.RemoveDecrCalls key, 1 ≤ c.1.GetLocalDepth c.2 := by
  have hinv := inv_of_reachable hdmd h
  refine ⟨?_, ?_⟩
  · intro pid i hi
    rw [Size_eq] at hi
    exact (hinv.dirs pid).ld_le i hi
  · intro key c hc
    exact RemoveDecrCalls_pos hinv key c hc

/-- The table after the inserts of 0, 1 and the remove of 0 with
`bucket_max_size = 1`: `Remove(1)` merges the two buckets, making two calls of
`DecrLocalDepth`, each on a local depth of 1. -/
theorem C36_local_depths_stay_well_formed_witness :
    ((2 : Nat) ≤ 9 ∧
      Reachable identityHash 0 2 1
        (after identityHash 0 2 1 [.insert 0 100, .insert 1 101, .remove 0])) ∧
    ((after identityHash 0 2 1 [.insert 0 100, .insert 1 101, .remove 0]).RemoveDecrCalls
      1).length = 2 ∧
    ((∀ (pid : page_id_t) (i : Nat),
      i < ((after identityHash 0 2 1
        [.insert 0 100, .insert 1 101, .remove 0]).directory_pages pid).Size →
      ((after identityHash 0 2 1
        [.insert 0 100, .insert 1 101, .remove 0]).directory_pages pid).GetLocalDepth i ≤
      ((after identityHash 0 2 1
        [.insert 0 100, .insert 1 101, .remove 0]).directory_pages pid).GetGlobalDepth) ∧
    ∀ (key : KeyType),
      ∀ c ∈ (after identityHash 0 2 1
        [.insert 0 100, .insert 1 101, .remove 0]).RemoveDecrCalls key,
      1 ≤ c.1.GetLocalDepth c.2) :=
  ⟨⟨by decide, reachable_after _ (by decide)⟩, by decide,
    C36_local_depths_stay_well_formed (by decide) (reachable_after _ (by decide))⟩

/-- C37: on every table, when `Remove(key)` reaches the merge loop with the
bucket of `key` empty after the removal, a positive global depth, and the slot
returned by `GetSplitImageIndex` holding the bucket page of `key` itself, the
call does not return: `FetchPageWrite` asks for the writer latch that
`bucket_page_guard` holds. -/
theorem C37_remove_blocks_on_own_split_image (t : DiskExtendibleHashTable) (key : KeyType)
    (si : Nat)
    (hinit : t.header_page.IsInit (t.header_page.HashToDirectoryIndex (t.Hash key)) = true)
    (hvalid : (t.directoryOf key).GetBucketPageId (t.bucketIndexOf key) ≠ INVALID_PAGE_ID)
    (hempty : ((t.bucketOf key).Remove key).2.IsEmpty = true)
    (hgd : 0 < (t.directoryOf key).GetGlobalDepth)
    (hsi : (t.directoryOf key).GetSplitImageIndex (t.bucketIndexOf key) = .ok si)
    (hsame : (t.directoryOf key).GetBucketPageId si =
      (t.directoryOf key).GetBucketPageId (t.bucketIndexOf key)) :
    t.Remove key = .blocks := by
  unfold Remove
  simp only [bucketOf, bucketIndexOf, directoryOf, GetGlobalDepth, GetBucketPageId] at *
  simp only [hinit, Bool.not_true, Bool.false_eq_true, if_false, hvalid]
  generalize hpid : t.header_page.GetDirectoryPageId
    (t.header_page.HashToDirectoryIndex (t.Hash key)) = dpid at *
  obtain ⟨g, hg⟩ : ∃ g, (t.directory_pages dpid).global_depth_ = g + 1 :=
    ⟨(t.directory_pages dpid).global_depth_ - 1, by omega⟩
  have hbilt : (t.directory_pages dpid).HashToBucketIndex (t.Hash key) < 2 ^ (g + 1) := by
    rw [← hg]; exact HashToBucketIndex_lt _ _
  rw [GetSplitImageIndex_eq hg hbilt] at hsi
  cases hsi
  have hfuel : (t.directory_pages dpid).global_depth_ + 2 = (g + 2) + 1 := by omega
  have hb := @MergeLoop_blocks dpid (t.Hash key) (g + 2)
    (t.setBucket
      ((t.directory_pages dpid).bucket_page_ids_
        ((t.directory_pages dpid).HashToBucketIndex (t.Hash key)))
      ((t.bucket_pages ((t.directory_pages dpid).bucket_page_ids_
        ((t.directory_pages dpid).HashToBucketIndex (t.Hash key)))).Remove key).2)
    ((t.directory_pages dpid).bucket_page_ids_
      ((t.directory_pages dpid).HashToBucketIndex (t.Hash key)))
    ((t.directory_pages dpid).HashToBucketIndex (t.Hash key)) g
    (by simp only [setBucket, if_pos]; exact hempty) hg hbilt hsame
  rw [hfuel, hb]

/-- The table after the inserts of 0, 1, 2, 4 with `bucket_max_size = 2`: key 1
sits in a bucket of local depth 1 at global depth 2, `GetSplitImageIndex(1)` is
slot 3, which holds the same bucket page, and `Remove(1)` does not return. -/
theorem C37_remove_blocks_on_own_split_image_witness :
    (Reachable identityHash 0 3 2
        (after identityHash 0 3 2 [.insert 0 100, .insert 1 101, .insert 2 102, .insert 4 104]) ∧
      (after identityHash 0 3 2
        [.insert 0 100, .insert 1 101, .insert 2 102, .insert 4 104]).GetValue 1 [] =
          (true, [101]) ∧
      ((after identityHash 0 3 2
        [.insert 0 100, .insert 1 101, .insert 2 102, .insert 4 104]).directoryOf 1).GetLocalDepth
          1 = 1 ∧
      ((after identityHash 0 3 2
        [.insert 0 100, .insert 1 101, .insert 2 102, .insert 4 104]).directoryOf 1).GetGlobalDepth
          = 2) ∧
    (after identityHash 0 3 2
      [.insert 0 100, .insert 1 101, .insert 2 102, .insert 4 104]).Remove 1 = .blocks :=
  ⟨⟨reachable_after _ (by decide), by decide, by decide, by decide⟩,
    C37_remove_blocks_on_own_split_image _ 1 3 (by decide) (by decide) (by decide) (by decide)
      rfl (by decide)⟩

end DiskExtendibleHashTable

namespace ExtendibleHTableBucketPage

/-- C38: `Init(m)` keeps the size and the entries of the page: on every bucket
page `Size`, `IsEmpty` and `Lookup` answer after `Init` as before it. On a page
that held the entry `(5, 50)`, after `Init(4)` `Size()` is 1, `IsEmpty()` is
false and `Lookup(5)` finds 50; after `Init(1)` `IsFull()` is true. -/
theorem C38_init_keeps_prior_contents :
    (∀ (b : ExtendibleHTableBucketPage) (m : Nat) (key : KeyType),
      (b.Init m).Size = b.Size ∧ (b.Init m).IsEmpty = b.IsEmpty ∧
      (b.Init m).Lookup key = b.Lookup key) ∧
    (usedBucketPage.Init 4).Size = 1 ∧
    (usedBucketPage.Init 4).IsEmpty = false ∧
    (usedBucketPage.Init 4).Lookup 5 = some 50 ∧
    (usedBucketPage.Init 1).IsFull = true := by
  refine ⟨fun b m key => ⟨rfl, rfl, ?_⟩, by decide, by decide, by decide, by decide⟩
  have hfrom : ∀ (n i : Nat), LookupFrom (b.Init m) key i n = LookupFrom b key i n := by
    intro n
    induction n with
    | zero => intro i; rfl
    | succ n ih =>
      intro i
      simp only [LookupFrom]
      rw [ih]
      rfl
  exact hfrom _ _

end ExtendibleHTableBucketPage

/-! ## OR-set: merge -/

namespace unordered_set

variable {α : Type} [DecidableEq α]

theorem mem_insert (P : InsertOrder α) (a x : α) (l : List α) :
    x ∈ insert P a l ↔ x = a ∨ x ∈ l := by
  unfold insert
  by_cases h : a ∈ l
  · rw [if_pos h]
    constructor
    · exact fun hx => Or.inr hx
    · rintro (hx | hx)
      · rw [hx]; exact h
      · exact hx
  · rw [if_neg h, (P.perm a l).mem_iff, List.mem_cons]

theorem nodup_insert (P : InsertOrder α) (a : α) {l : List α} (hl : l.Nodup) :
    (insert P a l).Nodup := by
  unfold insert
  by_cases h : a ∈ l
  · rw [if_pos h]; exact hl
  · rw [if_neg h, (P.perm a l).nodup_iff]
    exact List.nodup_cons.2 ⟨h, hl⟩

theorem insert_of_mem (P : InsertOrder α) {a : α} {l : List α} (h : a ∈ l) :
    insert P a l = l := by
  unfold insert
  rw [if_pos h]

theorem mem_erase (a x : α) (l : List α) : x ∈ erase a l ↔ x ∈ l ∧ x ≠ a := by
  simp [erase]

theorem nodup_erase (a : α) {l : List α} (hl : l.Nodup) : (erase a l).Nodup :=
  hl.filter _

theorem erase_of_not_mem {a : α} {l : List α} (h : a ∉ l) : erase a l = l := by
  unfold erase
  rw [List.filter_eq_self]
  intro x hx
  have : x ≠ a := fun hxa => h (hxa ▸ hx)
  simpa using this

theorem mem_foldl_insert (P : InsertOrder α) (x : α) :
    ∀ (l acc : List α),
      x ∈ l.foldl (fun acc p => insert P p acc) acc ↔ x ∈ acc ∨ x ∈ l := by
  intro l
  induction l with
  | nil => intro acc; simp
  | cons a l ih =>
    intro acc
    rw [List.foldl_cons, ih, mem_insert, List.mem_cons]
    tauto

theorem nodup_foldl_insert (P : InsertOrder α) :
    ∀ (l acc : List α), acc.Nodup → (l.foldl (fun acc p => insert P p acc) acc).Nodup := by
  intro l
  induction l with
  | nil => intro acc h; exact h
  | cons a l ih =>
    intro acc h
    rw [List.foldl_cons]
    exact ih _ (nodup_insert P a h)

theorem foldl_insert_of_subset (P : InsertOrder α) :
    ∀ (l acc : List α), (∀ p ∈ l, p ∈ acc) → l.foldl (fun acc p => insert P p acc) acc = acc := by
  intro l
  induction l with
  | nil => intro acc _; rfl
  | cons a l ih =>
    intro acc h
    rw [List.foldl_cons, insert_of_mem P (h a (List.mem_cons_self _ _))]
    exact ih acc (fun p hp => h p (List.mem_cons_of_mem _ hp))

theorem mem_foldl_erase (x : α) :
    ∀ (l acc : List α), x ∈ l.foldl (fun acc p => erase p acc) acc ↔ x ∈ acc ∧ x ∉ l := by
  intro l
  induction l with
  | nil => intro acc; simp
  | cons a l ih =>
    intro acc
    rw [List.foldl_cons, ih, mem_erase, List.mem_cons]
    tauto

theorem nodup_foldl_erase :
    ∀ (l acc : List α), acc.Nodup → (l.foldl (fun acc p => erase p acc) acc).Nodup := by
  intro l
  induction l with
  | nil => intro acc h; exact h
  | cons a l ih =>
    intro acc h
    rw [List.foldl_cons]
    exact ih _ (nodup_erase a h)

theorem foldl_erase_of_disjoint :
    ∀ (l acc : List α), (∀ p ∈ l, p ∉ acc) → l.foldl (fun acc p => erase p acc) acc = acc := by
  intro l
  induction l with
  | nil => intro acc _; rfl
  | cons a l ih =>
    intro acc h
    rw [List.foldl_cons, erase_of_not_mem (h a (List.mem_cons_self _ _))]
    exact ih acc (fun p hp => h p (List.mem_cons_of_mem _ hp))

end unordered_set

namespace ORSet

open unordered_set

variable {T : Type} [DecidableEq T]

theorem mem_Merge_elements (P : InsertOrder (T × uid_t)) (s other : ORSet T) (p : T × uid_t) :
    p ∈ (s.Merge P other).elements ↔
      (p ∈ s.elements ∧ p ∉ other.tombstone) ∨ (p ∈ other.elements ∧ p ∉ s.tombstone) := by
  simp only [Merge, mem_foldl_insert, mem_foldl_erase]

theorem mem_Merge_tombstone (P : InsertOrder (T × uid_t)) (s other : ORSet T) (p : T × uid_t) :
    p ∈ (s.Merge P other).tombstone ↔ p ∈ s.tombstone ∨ p ∈ other.tombstone := by
  simp only [Merge, mem_foldl_insert]

theorem Contains_iff (s : ORSet T) (elem : T) :
    s.Contains elem = true ↔ ∃ p ∈ s.elements, p.1 = elem := by
  simp [Contains]

theorem mem_Elements (Q : InsertOrder T) (s : ORSet T) (elem : T) :
    elem ∈ s.Elements Q ↔ ∃ p ∈ s.elements, p.1 = elem := by
  unfold Elements
  have h : ∀ (l : List (T × uid_t)) (acc : List T),
      elem ∈ l.foldl (fun acc p => insert Q p.1 acc) acc ↔
        elem ∈ acc ∨ ∃ p ∈ l, p.1 = elem := by
    intro l
    induction l with
    | nil => intro acc; simp
    | cons a l ih =>
      intro acc
      rw [List.foldl_cons, ih, mem_insert]
      simp only [List.mem_cons, exists_eq_or_imp]
      constructor
      · rintro ((h1 | h1) | h1)
        · exact Or.inr (Or.inl h1.symm)
        · exact Or.inl h1
        · exact Or.inr (Or.inr h1)
      · rintro (h1 | h1 | h1)
        · exact Or.inl (Or.inr h1)
        · exact Or.inl (Or.inl h1.symm)
        · exact Or.inr h1
  rw [h]
  simp

theorem nodup_Elements (Q : InsertOrder T) (s : ORSet T) : (s.Elements Q).Nodup := by
  unfold Elements
  have h : ∀ (l : List (T × uid_t)) (acc : List T), acc.Nodup →
      (l.foldl (fun acc p => insert Q p.1 acc) acc).Nodup := by
    intro l
    induction l with
    | nil => intro acc h; exact h
    | cons a l ih =>
      intro acc h
      rw [List.foldl_cons]
      exact ih _ (nodup_insert Q a.1 h)
  exact h _ _ List.nodup_nil

/-- The two merges hold the same live pairs. -/
theorem mem_Merge_elements_comm (P : InsertOrder (T × uid_t)) (a b : ORSet T) (p : T × uid_t) :
    p ∈ (a.Merge P b).elements ↔ p ∈ (b.Merge P a).elements := by
  rw [mem_Merge_elements, mem_Merge_elements]
  exact Or.comm

/-- In every built OR-set the two sets have no duplicates and no pair is both
live and removed. -/
theorem inv_of_built {P : InsertOrder (T × uid_t)} {s : ORSet T} (h : Built P s) : s.Inv := by
  induction h with
  | empty => exact ⟨List.nodup_nil, List.nodup_nil, fun p hp => by cases hp⟩
  | @add s elem uid _ hfresh ih =>
    refine ⟨nodup_insert P _ ih.elements_nodup, ih.tombstone_nodup, ?_⟩
    intro p hp
    simp only [Add, mem_insert] at hp
    rcases hp with hp | hp
    · rw [hp]; exact hfresh
    · exact ih.disjoint p hp
  | @remove s elem _ ih =>
    refine ⟨nodup_foldl_erase _ _ ih.elements_nodup, nodup_foldl_insert P _ _ ih.tombstone_nodup,
      ?_⟩
    intro p hp hq
    simp only [Remove, mem_foldl_erase, mem_foldl_insert] at hp hq
    rcases hq with hq | hq
    · exact ih.disjoint p hp.1 hq
    · exact hp.2 hq
  | @merge s other _ _ ih1 ih2 =>
    refine ⟨nodup_foldl_insert P _ _ (nodup_foldl_erase _ _ ih1.elements_nodup),
      nodup_foldl_insert P _ _ ih1.tombstone_nodup, ?_⟩
    intro p hp hq
    rw [mem_Merge_elements] at hp
    rw [mem_Merge_tombstone] at hq
    rcases hp with hp | hp <;> rcases hq with hq | hq
    · exact ih1.disjoint p hp.1 hq
    · exact hp.2 hq
    · exact hp.2 hq
    · exact ih2.disjoint p hp.1 hq

/-- Merging a set into itself inserts and erases nothing. -/
theorem Merge_self_of_inv (P : InsertOrder (T × uid_t)) (s : ORSet T) (h : s.Inv) :
    s.Merge P s = s := by
  cases s with
  | mk elements tombstone =>
    have hd : ∀ p ∈ tombstone, p ∉ elements := fun p hp hq => h.disjoint p hq hp
    simp only [Merge]
    rw [foldl_erase_of_disjoint tombstone elements hd,
      foldl_insert_of_subset P elements elements (fun p hp => hp),
      foldl_insert_of_subset P tombstone tombstone (fun p hp => hp)]

/-- An `Add` that reuses the uid of a removed pair breaks idempotence: after
`Add(1, 10)`, `Remove(1)`, `Add(1, 10)` the set contains 1, and merged with
itself it does not. -/
theorem Merge_self_of_reused_uid :
    (((empty.Add (InsertOrder.front _) (1 : Int) 10).Remove (InsertOrder.front _) 1).Add
      (InsertOrder.front _) 1 10).Contains 1 = true ∧
    ((((empty.Add (InsertOrder.front _) (1 : Int) 10).Remove (InsertOrder.front _) 1).Add
        (InsertOrder.front _) 1 10).Merge (InsertOrder.front _)
      (((empty.Add (InsertOrder.front _) (1 : Int) 10).Remove (InsertOrder.front _) 1).Add
        (InsertOrder.front _) 1 10)).Contains 1 = false := by
  decide

/-- C39, as stated, fails: with a library that iterates a new element first,
for `A` built by `Add(1, 10)` and `B` built by `Add(2, 11)`, `A.Merge(B)` and
`B.Merge(A)` contain 1 and 2 both, but `Elements()` returns `[1, 2]` on the
first and `[2, 1]` on the second. -/
theorem C39_elements_order_differs :
    Built (InsertOrder.front _) onlyOne ∧ Built (InsertOrder.front _) onlyTwo ∧
    (onlyOne.Merge (InsertOrder.front _) onlyTwo).elements = [(2, 11), (1, 10)] ∧
    (onlyTwo.Merge (InsertOrder.front _) onlyOne).elements = [(1, 10), (2, 11)] ∧
    (onlyOne.Merge (InsertOrder.front _) onlyTwo).Elements (InsertOrder.front _) = [1, 2] ∧
    (onlyTwo.Merge (InsertOrder.front _) onlyOne).Elements (InsertOrder.front _) = [2, 1] ∧
    (onlyOne.Merge (InsertOrder.front _) onlyTwo).Elements (InsertOrder.front _) ≠
      (onlyTwo.Merge (InsertOrder.front _) onlyOne).Elements (InsertOrder.front _) :=
  ⟨Built.add 1 10 Built.empty (by decide), Built.add 2 11 Built.empty (by decide),
    by decide, by decide, by decide, by decide, by decide⟩

/-- C39, amended: for every iteration order of the library and all OR-sets `A`
and `B` built by `Add` with unique uids, `Remove` and `Merge`, `A.Merge(B)` and
`B.Merge(A)` hold the same live pairs and the same tombstone pairs, answer
`Contains` alike for every element, and their `Elements()` vectors are free of
duplicates and list the same elements, in an order that may differ, so that they
are equal once sorted as `ToString` sorts them; `A.Merge(A)` is `A`. -/
theorem C39_merge_is_commutative_up_to_order_and_idempotent [LinearOrder T]
    (P : InsertOrder (T × uid_t)) (Q : InsertOrder T) (a b : ORSet T) (ha : Built P a)
    (_hb : Built P b) :
    (∀ p, p ∈ (a.Merge P b).elements ↔ p ∈ (b.Merge P a).elements) ∧
    (∀ p, p ∈ (a.Merge P b).tombstone ↔ p ∈ (b.Merge P a).tombstone) ∧
    (∀ elem : T, (a.Merge P b).Contains elem = (b.Merge P a).Contains elem) ∧
    (((a.Merge P b).Elements Q).Nodup ∧ ((b.Merge P a).Elements Q).Nodup ∧
      ((a.Merge P b).Elements Q).Perm ((b.Merge P a).Elements Q)) ∧
    (a.Merge P b).SortedElements Q = (b.Merge P a).SortedElements Q ∧
    a.Merge P a = a := by
  have hperm : ((a.Merge P b).Elements Q).Perm ((b.Merge P a).Elements Q) := by
    rw [List.perm_ext_iff_of_nodup (nodup_Elements Q _) (nodup_Elements Q _)]
    intro elem
    rw [mem_Elements, mem_Elements]
    constructor
    · rintro ⟨p, hp, he⟩
      exact ⟨p, (mem_Merge_elements_comm P a b p).1 hp, he⟩
    · rintro ⟨p, hp, he⟩
      exact ⟨p, (mem_Merge_elements_comm P a b p).2 hp, he⟩
  refine ⟨mem_Merge_elements_comm P a b, ?_, ?_, ⟨nodup_Elements Q _, nodup_Elements Q _, hperm⟩,
    ?_, Merge_self_of_inv P a (inv_of_built ha)⟩
  · intro p
    rw [mem_Merge_tombstone, mem_Merge_tombstone]
    exact Or.comm
  · intro elem
    rw [Bool.eq_iff_iff, Contains_iff, Contains_iff]
    constructor
    · rintro ⟨p, hp, he⟩
      exact ⟨p, (mem_Merge_elements_comm P a b p).1 hp, he⟩
    · rintro ⟨p, hp, he⟩
      exact ⟨p, (mem_Merge_elements_comm P a b p).2 hp, he⟩
  · unfold SortedElements
    exact List.eq_of_perm_of_sorted
      (((List.perm_insertionSort _ _).trans hperm).trans (List.perm_insertionSort _ _).symm)
      (List.sorted_insertionSort _ _) (List.sorted_insertionSort _ _)

/-- The replicas `A` (`Add(1, 10)`, `Remove(1)`, `Add(2, 11)`) and `B`
(`Add(1, 12)`, `Add(3, 13)`) with a library that iterates a new element first:
both merges contain 1, 2 and 3, `ToString` lists them as 1, 2, 3, and the pair
`(1, 10)` stays removed. -/
theorem C39_merge_is_commutative_up_to_order_and_idempotent_witness :
    (Built (InsertOrder.front _) exampleA ∧ Built (InsertOrder.front _) exampleB) ∧
    ((exampleA.Merge (InsertOrder.front _) exampleB).SortedElements (InsertOrder.front _) =
        [1, 2, 3] ∧
      (exampleA.Merge (InsertOrder.front _) exampleB).tombstone = [(1, 10)]) ∧
    ((∀ p, p ∈ (exampleA.Merge (InsertOrder.front _) exampleB).elements ↔
        p ∈ (exampleB.Merge (InsertOrder.front _) exampleA).elements) ∧
      (∀ p, p ∈ (exampleA.Merge (InsertOrder.front _) exampleB).tombstone ↔
        p ∈ (exampleB.Merge (InsertOrder.front _) exampleA).tombstone) ∧
      (∀ elem : Int, (exampleA.Merge (InsertOrder.front _) exampleB).Contains elem =
        (exampleB.Merge (InsertOrder.front _) exampleA).Contains elem) ∧
      (((exampleA.Merge (InsertOrder.front _) exampleB).Elements (InsertOrder.front _)).Nodup ∧
        ((exampleB.Merge (InsertOrder.front _) exampleA).Elements (InsertOrder.front _)).Nodup ∧
        ((exampleA.Merge (InsertOrder.front _) exampleB).Elements (InsertOrder.front _)).Perm
          ((exampleB.Merge (InsertOrder.front _) exampleA).Elements (InsertOrder.front _))) ∧
      (exampleA.Merge (InsertOrder.front _) exampleB).SortedElements (InsertOrder.front _) =
        (exampleB.Merge (InsertOrder.front _) exampleA).SortedElements (InsertOrder.front _) ∧
      exampleA.Merge (InsertOrder.front _) exampleA = exampleA) :=
  ⟨⟨Built.add 2 11 (Built.remove 1 (Built.add 1 10 Built.empty (by decide))) (by decide),
      Built.add 3 13 (Built.add 1 12 Built.empty (by decide)) (by decide)⟩,
    ⟨by decide, by decide⟩,
    C39_merge_is_commutative_up_to_order_and_idempotent (InsertOrder.front _)
      (InsertOrder.front _) exampleA exampleB
      (Built.add 2 11 (Built.remove 1 (Built.add 1 10 Built.empty (by decide))) (by decide))
      (Built.add 3 13 (Built.add 1 12 Built.empty (by decide)) (by decide))⟩

end ORSet

/-! ## Trie: `Remove` -/

namespace Trie

set_option maxRecDepth 100000

/-- On ordinary input the embedding of `Remove` prunes as the source does: from
`Trie().Put("ab", 1).Put("a", 2)`, after `Remove("ab")` the key `ab` misses and
`a` is found; after `Remove("a")` the key `a` misses and `ab` is found; after
both removes the trie has no root. -/
theorem Remove_of_two_keys :
    twoKeys.2.Get twoKeys.1 0 ['a', 'b'] = .value 1 ∧
    twoKeys.2.Get twoKeys.1 0 ['a'] = .value 2 ∧
    (twoKeys.2.Remove twoKeys.1 ['a', 'b']).2.Get (twoKeys.2.Remove twoKeys.1 ['a', 'b']).1 0
      ['a', 'b'] = .nullptr ∧
    (twoKeys.2.Remove twoKeys.1 ['a', 'b']).2.Get (twoKeys.2.Remove twoKeys.1 ['a', 'b']).1 0
      ['a'] = .value 2 ∧
    (twoKeys.2.Remove twoKeys.1 ['a']).2.Get (twoKeys.2.Remove twoKeys.1 ['a']).1 0
      ['a'] = .nullptr ∧
    (twoKeys.2.Remove twoKeys.1 ['a']).2.Get (twoKeys.2.Remove twoKeys.1 ['a']).1 0
      ['a', 'b'] = .value 1 ∧
    ((twoKeys.2.Remove twoKeys.1 ['a', 'b']).2.Remove
      (twoKeys.2.Remove twoKeys.1 ['a', 'b']).1 ['a']).2.root_ = none := by
  decide

/-- C32: `Remove` leaves nodes without value and children, and null entries.
`Trie().Put("", 1).Remove("")` has a root, and the root has neither a value nor
children; so has `Trie().Remove("")`. `Trie().Remove("a")` has a root whose map
holds a null pointer under `a`, and `Get("ab")`, which returns `nullptr` on
`Trie()`, dereferences that pointer. The same after `Remove("b")` on the trie
with the keys `ab` and `a`: `Get("bc")` returned `nullptr` before and
dereferences a null pointer after. -/
theorem C32_remove_leaves_empty_root_and_null_entry :
    (onlyEmptyKey.2.Get onlyEmptyKey.1 0 [] = .value 1 ∧
      (onlyEmptyKey.2.Remove onlyEmptyKey.1 []).2.rootNode
        (onlyEmptyKey.2.Remove onlyEmptyKey.1 []).1 = some TrieNode.empty) ∧
    (empty.Remove TrieHeap.empty []).2.rootNode (empty.Remove TrieHeap.empty []).1 =
      some TrieNode.empty ∧
    ((empty.Remove TrieHeap.empty ['a']).2.rootNode (empty.Remove TrieHeap.empty ['a']).1 =
        some { children_ := [('a', none)], value_ := none } ∧
      empty.Get TrieHeap.empty 0 ['a', 'b'] = .nullptr ∧
      (empty.Remove TrieHeap.empty ['a']).2.Get (empty.Remove TrieHeap.empty ['a']).1 0
        ['a', 'b'] = .null_dereference) ∧
    (twoKeys.2.Get twoKeys.1 0 ['b', 'c'] = .nullptr ∧
      (twoKeys.2.Remove twoKeys.1 ['b']).2.Get (twoKeys.2.Remove twoKeys.1 ['b']).1 0
        ['b', 'c'] = .null_dereference) := by
  decide

end Trie

/-! ## Trie: `Put` and `Get` -/

namespace TrieNode

theorem lookup_filter_ne (l : List (Char × Option Nat)) {c c2 : Char} (h : c2 ≠ c) :
    (l.filter (fun e => e.1 != c)).lookup c2 = l.lookup c2 := by
  induction l with
  | nil => rfl
  | cons e l ih =>
    obtain ⟨k, p⟩ := e
    by_cases hk : k = c
    · subst hk
      have h1 : (c2 == k) = false := by simpa using h
      simp [List.filter, List.lookup, h1, ih]
    · have h1 : (k != c) = true := by simpa using hk
      simp only [List.filter, h1, List.lookup]
      rw [ih]

theorem find_set_self (n : TrieNode) (c : Char) (p : Option Nat) : (n.set c p).find c = some p := by
  simp [find, set, List.lookup]

theorem find_set_ne (n : TrieNode) {c c2 : Char} (p : Option Nat) (h : c2 ≠ c) :
    (n.set c p).find c2 = n.find c2 := by
  have h1 : (c2 == c) = false := by simpa using h
  simp only [find, set, List.lookup, h1]
  exact lookup_filter_ne _ h

theorem PointsBelow_mono {node : TrieNode} {n m : Nat} (h : node.PointsBelow n) (hnm : n ≤ m) :
    node.PointsBelow m :=
  fun c b hb => lt_of_lt_of_le (h c b hb) hnm

theorem PointsBelow_of_children {node node' : TrieNode} {n : Nat} (h : node.PointsBelow n)
    (hc : node'.children_ = node.children_) : node'.PointsBelow n := by
  intro c b hb
  apply h c b
  simpa [find, hc] using hb

theorem PointsBelow_empty_children {node : TrieNode} (n : Nat) (hc : node.children_ = []) :
    node.PointsBelow n := by
  intro c b hb
  simp [find, hc] at hb

theorem PointsBelow_set {node : TrieNode} {n : Nat} (h : node.PointsBelow n) (c : Char)
    {p : Nat} (hp : p < n) : (node.set c (some p)).PointsBelow n := by
  intro c2 b hb
  by_cases hc : c2 = c
  · subst hc
    rw [find_set_self] at hb
    cases hb
    exact hp
  · rw [find_set_ne _ _ hc] at hb
    exact h c2 b hb

end TrieNode

namespace Trie

open TrieNode TrieHeap

/-- What `Get` reads below `n` does not change when the nodes below `n` do not
change and point below `n`. -/
theorem GetLoop_agree {h h' : TrieHeap} {n : Nat} (T : Nat)
    (hc : ∀ a < n, (h.nodes a).PointsBelow n) (ha : ∀ a < n, h'.nodes a = h.nodes a) :
    ∀ (key : List Char) (p : Option Nat), (∀ a, p = some a → a < n) →
      GetLoop h' T p key = GetLoop h T p key := by
  intro key
  induction key with
  | nil =>
    intro p hp
    cases p with
    | none => rfl
    | some a => simp only [GetLoop, ha a (hp a rfl)]
  | cons c key ih =>
    intro p hp
    cases p with
    | none => rfl
    | some a =>
      simp only [GetLoop, ha a (hp a rfl)]
      cases hf : (h.nodes a).find c with
      | none => rfl
      | some child =>
        simp only []
        apply ih
        intro b hb
        subst hb
        exact hc a (hp a rfl) c b hf

/-- On a key that is not empty `Get` depends on the children of the node only. -/
theorem GetLoop_cons_of_children {h h' : TrieHeap} {n : Nat} (T : Nat)
    (hc : ∀ a < n, (h.nodes a).PointsBelow n) (ha : ∀ a < n, h'.nodes a = h.nodes a)
    {a a' : Nat} (hch : (h'.nodes a').children_ = (h.nodes a).children_)
    (hpa : (h.nodes a).PointsBelow n) (c : Char) (key : List Char) :
    GetLoop h' T (some a') (c :: key) = GetLoop h T (some a) (c :: key) := by
  simp only [GetLoop, find, hch]
  cases hf : (h.nodes a).children_.lookup c with
  | none => rfl
  | some child =>
    simp only []
    apply GetLoop_agree T hc ha
    intro b hb
    subst hb
    exact hpa c b hf

/-- A node without value and children answers `nullptr` on every key. -/
theorem GetLoop_of_empty {h : TrieHeap} (T : Nat) {a : Nat} (he : h.nodes a = TrieNode.empty)
    (key : List Char) : GetLoop h T (some a) key = .nullptr := by
  cases key with
  | nil => simp [GetLoop, he, TrieNode.empty]
  | cons c key => simp [GetLoop, he, TrieNode.empty, find]

theorem PutLoop_cons (T : Nat) (value : Int) (h : TrieHeap) (node : Nat) (c : Char)
    (key : List Char) :
    PutLoop T value h node (c :: key) =
      PutLoop T value
        ((h.alloc (PutNode h ((h.nodes node).find c).join key.isEmpty T value)).1.setChild node c
          (some h.next)) h.next key := rfl

/-- The loop of `Put` writes into `node` and into nodes it allocates. -/
theorem PutLoop_frame (T : Nat) (value : Int) :
    ∀ (key : List Char) (h : TrieHeap) (node : Nat), node < h.next →
      h.next ≤ (PutLoop T value h node key).next ∧
      ∀ a < h.next, a ≠ node → (PutLoop T value h node key).nodes a = h.nodes a := by
  intro key
  induction key with
  | nil =>
    intro h node _
    exact ⟨le_refl _, fun _ _ _ => rfl⟩
  | cons c key ih =>
    intro h node hnode
    rw [PutLoop_cons]
    obtain ⟨h1, h2⟩ := ih
      ((h.alloc (PutNode h ((h.nodes node).find c).join key.isEmpty T value)).1.setChild node c
        (some h.next)) h.next (by simp [setChild, alloc])
    refine ⟨le_trans (by simp [setChild, alloc]) h1, ?_⟩
    intro a ha hne
    rw [h2 a (by simp only [setChild, alloc]; omega) (by omega)]
    simp only [setChild, alloc, if_neg hne]
    rw [if_neg (by omega)]

/-- After the loop of `Put` the node it started from has its entry for the first
character set to the node allocated first, and is otherwise as before. -/
theorem PutLoop_cons_node (T : Nat) (value : Int) (h : TrieHeap) (node : Nat) (c : Char)
    (key : List Char) (hnode : node < h.next) :
    (PutLoop T value h node (c :: key)).nodes node = (h.nodes node).set c (some h.next) := by
  rw [PutLoop_cons]
  rw [(PutLoop_frame T value key
      ((h.alloc (PutNode h ((h.nodes node).find c).join key.isEmpty T value)).1.setChild node c
        (some h.next)) h.next (by simp [setChild, alloc])).2 node
      (by simp only [setChild, alloc]; omega) (by omega)]
  simp only [setChild, alloc, if_pos]
  rw [if_neg (by omega)]

/-- The node allocated by the first iteration of the loop of `Put`. -/
theorem PutLoop_new_node (T : Nat) (value : Int) (h : TrieHeap) (node : Nat) (c : Char)
    (key : List Char) (hnode : node < h.next) :
    ((h.alloc (PutNode h ((h.nodes node).find c).join key.isEmpty T value)).1.setChild node c
        (some h.next)).nodes h.next =
      PutNode h ((h.nodes node).find c).join key.isEmpty T value := by
  simp only [setChild, alloc]
  rw [if_neg (by omega)]
  simp

/-- After the loop of `Put`, `Get` from the node it started from finds the value
under the key. -/
theorem PutLoop_get (T : Nat) (value : Int) :
    ∀ (key : List Char) (c : Char) (h : TrieHeap) (node : Nat), node < h.next →
      GetLoop (PutLoop T value h node (c :: key)) T (some node) (c :: key) = .value value := by
  intro key
  induction key with
  | nil =>
    intro c h node hnode
    have hn := PutLoop_cons_node T value h node c [] hnode
    simp only [GetLoop, hn, find_set_self]
    rw [PutLoop_cons]
    simp only [PutLoop, PutLoop_new_node T value h node c [] hnode]
    cases hj : ((h.nodes node).find c).join <;> simp [PutNode]
  | cons c2 key ih =>
    intro c h node hnode
    have hn := PutLoop_cons_node T value h node c (c2 :: key) hnode
    rw [GetLoop]
    simp only [hn, find_set_self]
    rw [PutLoop_cons]
    exact ih c2 _ h.next (by simp [setChild, alloc])

end Trie

namespace Trie

open TrieNode TrieHeap

theorem find_of_join {n : TrieNode} {c : Char} {ch : Nat} (h : (n.find c).join = some ch) :
    n.find c = some (some ch) := by
  cases hf : n.find c with
  | none => rw [hf] at h; cases h
  | some p =>
    rw [hf] at h
    cases p with
    | none => cases h
    | some b =>
      have : b = ch := by
        have h2 : (some (some b) : Option (Option Nat)).join = some b := rfl
        rw [h2] at h
        exact Option.some.inj h
      rw [this]

theorem PutNode_children (h : TrieHeap) (ch : Nat) (last : Bool) (T : Nat) (value : Int) :
    (PutNode h (some ch) last T value).children_ = (h.nodes ch).children_ := by
  cases last <;> rfl

theorem PutNode_children_none (h : TrieHeap) (last : Bool) (T : Nat) (value : Int) :
    (PutNode h none last T value).children_ = [] := by
  cases last <;> rfl

theorem PutNode_PointsBelow {h : TrieHeap} {n : Nat} (hc : ∀ a < n, (h.nodes a).PointsBelow n)
    {child : Option Nat} (hch : ∀ ch, child = some ch → ch < n) (last : Bool) (T : Nat)
    (value : Int) : (PutNode h child last T value).PointsBelow n := by
  cases child with
  | none => exact PointsBelow_empty_children n (PutNode_children_none h last T value)
  | some ch => exact PointsBelow_of_children (hc ch (hch ch rfl)) (PutNode_children h ch last T value)

/-- What `Get` finds from the node that the first iteration of `Put` allocates,
on a rest `r` of a key other than the rest of the key of `Put`, is what it found
before through the entry for the first character. -/
theorem GetLoop_new_node {h h2 : TrieHeap} {n0 node : Nat} (T T2 : Nat) (value : Int) (c : Char)
    (key r : List Char)
    (hclosed : ∀ a < n0, (h.nodes a).PointsBelow n0)
    (hagree : ∀ a < n0, h2.nodes a = h.nodes a)
    (hpoints : (h.nodes node).PointsBelow n0)
    {a2 : Nat} (hnew : h2.nodes a2 = PutNode h ((h.nodes node).find c).join key.isEmpty T value)
    (hr : r = [] → key ≠ [])
    (hdef : GetLoop h T2 (some node) (c :: r) ≠ .null_dereference) :
    GetLoop h2 T2 (some a2) r = GetLoop h T2 (some node) (c :: r) := by
  rw [GetLoop] at hdef ⊢
  cases hf : (h.nodes node).find c with
  | none =>
    have hj : ((h.nodes node).find c).join = none := by rw [hf]; rfl
    rw [hj] at hnew
    cases r with
    | nil =>
      have hk : key.isEmpty = false := by
        cases key with
        | nil => exact absurd rfl (hr rfl)
        | cons _ _ => rfl
      simp [GetLoop, hnew, PutNode, hk, TrieNode.empty]
    | cons c3 r =>
      have hch := PutNode_children_none h key.isEmpty T value
      simp [GetLoop, find, hnew, hch]
  | some p =>
    cases p with
    | none =>
      have hj : ((h.nodes node).find c).join = none := by rw [hf]; rfl
      rw [hj] at hnew
      rw [hf] at hdef
      cases r with
      | nil =>
        have hk : key.isEmpty = false := by
          cases key with
          | nil => exact absurd rfl (hr rfl)
          | cons _ _ => rfl
        simp [GetLoop, hnew, PutNode, hk, TrieNode.empty]
      | cons c3 r =>
        simp [GetLoop] at hdef
    | some ch =>
      have hj : ((h.nodes node).find c).join = some ch := by rw [hf]; rfl
      rw [hj] at hnew
      have hchlt : ch < n0 := hpoints c ch hf
      cases r with
      | nil =>
        have hk : key.isEmpty = false := by
          cases key with
          | nil => exact absurd rfl (hr rfl)
          | cons _ _ => rfl
        simp [GetLoop, hnew, PutNode, hk, Clone]
      | cons c3 r =>
        simp only []
        apply GetLoop_cons_of_children T2 hclosed hagree _ (hclosed ch hchlt)
        rw [hnew, PutNode_children]

/-- After the loop of `Put`, `Get` from the node it started from answers on
every other key as before, where it answered. `n0` bounds the nodes of the old
trie: the loop works on nodes at or above `n0` whose pointers lead below `n0`. -/
theorem PutLoop_other (T : Nat) (value : Int) :
    ∀ (key : List Char) (h : TrieHeap) (node n0 : Nat), n0 ≤ node → node < h.next →
      (∀ a < n0, (h.nodes a).PointsBelow n0) → (h.nodes node).PointsBelow n0 →
      ∀ (k2 : List Char) (T2 : Nat), k2 ≠ key →
        GetLoop h T2 (some node) k2 ≠ .null_dereference →
        GetLoop (PutLoop T value h node key) T2 (some node) k2 = GetLoop h T2 (some node) k2 := by
  intro key
  induction key with
  | nil =>
    intro h node n0 _ _ _ _ k2 T2 _ _
    rfl
  | cons c key ih =>
    intro h node n0 hn0 hnode hclosed hpoints k2 T2 hne hdef
    have hn := PutLoop_cons_node T value h node c key hnode
    have hfr := PutLoop_frame T value (c :: key) h node hnode
    have hagree : ∀ a < n0, (PutLoop T value h node (c :: key)).nodes a = h.nodes a :=
      fun a ha => hfr.2 a (by omega) (by omega)
    cases k2 with
    | nil =>
      simp only [GetLoop, hn]
      rfl
    | cons c2 r =>
      by_cases hc : c2 = c
      · subst hc
        have hr : r ≠ key := fun h' => hne (by rw [h'])
        rw [GetLoop]
        simp only [hn, find_set_self]
        have hagree2 : ∀ a < n0,
            ((h.alloc (PutNode h ((h.nodes node).find c2).join key.isEmpty T value)).1.setChild
              node c2 (some h.next)).nodes a = h.nodes a := by
          intro a ha
          simp only [setChild, alloc]
          rw [if_neg (by omega), if_neg (by omega)]
        have hnew := PutLoop_new_node T value h node c2 key hnode
        have hstep := @GetLoop_new_node h _ n0 node T T2 value c2 key r hclosed hagree2 hpoints
          h.next hnew (fun h0 hk => hr (by rw [h0, hk])) hdef
        rw [PutLoop_cons]
        rw [ih _ h.next n0 (by omega) (by simp [setChild, alloc])
          (fun a ha => by rw [hagree2 a ha]; exact hclosed a ha)
          (by
            rw [hnew]
            exact PutNode_PointsBelow hclosed
              (fun ch hch => hpoints c2 ch (find_of_join hch)) _ T value)
          r T2 hr (by rw [hstep]; exact hdef)]
        exact hstep
      · rw [GetLoop, GetLoop]
        simp only [hn, find_set_ne _ _ hc]
        cases hf : (h.nodes node).find c2 with
        | none => rfl
        | some p =>
          simp only []
          apply GetLoop_agree T2 hclosed hagree
          intro b hb
          subst hb
          exact hpoints c2 b hf

theorem Closed_alloc {h : TrieHeap} (hc : h.Closed) {n : TrieNode} (hn : n.PointsBelow h.next) :
    (h.alloc n).1.Closed := by
  intro a ha
  simp only [alloc] at ha ⊢
  by_cases hq : a = h.next
  · rw [if_pos hq]
    exact PointsBelow_mono hn (by omega)
  · rw [if_neg hq]
    exact PointsBelow_mono (hc a (by omega)) (by omega)

theorem Closed_setChild {h : TrieHeap} (hc : h.Closed) {node : Nat} (hnode : node < h.next)
    (c : Char) {p : Nat} (hp : p < h.next) : (h.setChild node c (some p)).Closed := by
  intro a ha
  simp only [setChild] at ha ⊢
  by_cases hq : a = node
  · rw [if_pos hq]
    exact PointsBelow_set (hc node hnode) c hp
  · rw [if_neg hq]
    exact hc a ha

theorem find_join_lt {h : TrieHeap} (hc : h.Closed) {node : Nat} (hnode : node < h.next)
    {c : Char} {ch : Nat} (hch : ((h.nodes node).find c).join = some ch) : ch < h.next := by
  exact hc node hnode c ch (find_of_join hch)

/-- The loop of `Put` keeps the heap closed. -/
theorem PutLoop_closed (T : Nat) (value : Int) :
    ∀ (key : List Char) (h : TrieHeap) (node : Nat), h.Closed → node < h.next →
      (PutLoop T value h node key).Closed := by
  intro key
  induction key with
  | nil =>
    intro h node hc _
    exact hc
  | cons c key ih =>
    intro h node hc hnode
    rw [PutLoop_cons]
    apply ih
    · have h1 : (h.alloc (PutNode h ((h.nodes node).find c).join key.isEmpty T value)).1.Closed :=
        Closed_alloc hc (PutNode_PointsBelow hc (fun ch hch => find_join_lt hc hnode hch) _ T value)
      exact Closed_setChild h1 (by simp only [alloc]; omega) c (by simp [alloc])
    · simp [setChild, alloc]

theorem NoNullEntries_alloc {h : TrieHeap} (hc : h.NoNullEntries) {n : TrieNode}
    (hn : ∀ c : Char, n.find c ≠ some none) : (h.alloc n).1.NoNullEntries := by
  intro a ha
  simp only [alloc] at ha ⊢
  by_cases hq : a = h.next
  · rw [if_pos hq]
    exact hn
  · rw [if_neg hq]
    exact hc a (by omega)

theorem NoNullEntries_setChild {h : TrieHeap} (hc : h.NoNullEntries) {node : Nat}
    (hnode : node < h.next) (c : Char) (p : Nat) : (h.setChild node c (some p)).NoNullEntries := by
  intro a ha
  simp only [setChild] at ha ⊢
  by_cases hq : a = node
  · rw [if_pos hq]
    intro c2
    by_cases hcc : c2 = c
    · subst hcc
      rw [find_set_self]
      simp
    · rw [find_set_ne _ _ hcc]
      exact hc node hnode c2
  · rw [if_neg hq]
    exact hc a ha

theorem PutNode_no_null {h : TrieHeap} (hc : h.NoNullEntries) {child : Option Nat}
    (hch : ∀ ch, child = some ch → ch < h.next) (last : Bool) (T : Nat) (value : Int) (c : Char) :
    (PutNode h child last T value).find c ≠ some none := by
  cases child with
  | none =>
    simp [find, PutNode_children_none]
  | some ch =>
    have := hc ch (hch ch rfl) c
    simpa [find, PutNode_children] using this

/-- The loop of `Put` makes no null entry. -/
theorem PutLoop_no_null (T : Nat) (value : Int) :
    ∀ (key : List Char) (h : TrieHeap) (node : Nat), h.Closed → h.NoNullEntries →
      node < h.next → (PutLoop T value h node key).NoNullEntries := by
  intro key
  induction key with
  | nil =>
    intro h node _ hn _
    exact hn
  | cons c key ih =>
    intro h node hc hn hnode
    rw [PutLoop_cons]
    apply ih
    · have h1 : (h.alloc (PutNode h ((h.nodes node).find c).join key.isEmpty T value)).1.Closed :=
        Closed_alloc hc (PutNode_PointsBelow hc (fun ch hch => find_join_lt hc hnode hch) _ T value)
      exact Closed_setChild h1 (by simp only [alloc]; omega) c (by simp [alloc])
    · have h1 : (h.alloc (PutNode h ((h.nodes node).find c).join key.isEmpty T value)).1.NoNullEntries :=
        NoNullEntries_alloc hn
          (PutNode_no_null hn (fun ch hch => find_join_lt hc hnode hch) _ T value)
      exact NoNullEntries_setChild h1 (by simp only [alloc]; omega) c _
    · simp [setChild, alloc]

/-- In a closed heap without null entries `Get` dereferences no null pointer. -/
theorem GetLoop_ne_null_dereference {h : TrieHeap} (hc : h.Closed) (hn : h.NoNullEntries)
    (T : Nat) :
    ∀ (key : List Char) (a : Nat), a < h.next → GetLoop h T (some a) key ≠ .null_dereference := by
  intro key
  induction key with
  | nil =>
    intro a _
    simp only [GetLoop]
    cases (h.nodes a).value_ with
    | none => simp
    | some v =>
      simp only []
      split <;> simp
  | cons c key ih =>
    intro a ha
    rw [GetLoop]
    cases hf : (h.nodes a).find c with
    | none => simp
    | some p =>
      cases p with
      | none => exact absurd hf (hn a ha c)
      | some b => exact ih b (hc a ha c b hf)

end Trie

namespace Trie

open TrieNode TrieHeap

set_option maxRecDepth 100000

/-- A node with the children and the value of a node below `n` answers `Get` as
that node does. -/
theorem GetLoop_of_copy {h h' : TrieHeap} {n : Nat} (T : Nat)
    (hc : ∀ a < n, (h.nodes a).PointsBelow n) (ha : ∀ a < n, h'.nodes a = h.nodes a)
    {a a' : Nat} (hcopy : h'.nodes a' = h.nodes a) (hlt : a < n) (key : List Char) :
    GetLoop h' T (some a') key = GetLoop h T (some a) key := by
  cases key with
  | nil => simp only [GetLoop, hcopy]
  | cons c key =>
    exact GetLoop_cons_of_children T hc ha (by rw [hcopy]) (hc a hlt) c key

/-- The first lines of `Put`: a node `node` in a heap `hN` that is a copy of the
root, or an empty node when the trie has no root; the rest of `Put` works from
it. -/
theorem Put_prelude (t : Trie) (h : TrieHeap) (hc : h.Closed) (ht : t.In h) :
    ∃ (hN : TrieHeap) (node : Nat),
      (∀ (key : List Char) (T : Nat) (value : Int),
        t.Put h key T value =
          if key.isEmpty then
            ((hN.alloc { children_ := (hN.nodes node).children_,
                         value_ := some ⟨T, value⟩ }).1, { root_ := some hN.next })
          else (PutLoop T value hN node key, { root_ := some node })) ∧
      h.next ≤ node ∧ node < hN.next ∧ (∀ a < h.next, hN.nodes a = h.nodes a) ∧
      hN.Closed ∧ (hN.nodes node).PointsBelow h.next ∧
      (∀ (T2 : Nat) (k2 : List Char), GetLoop hN T2 (some node) k2 = t.Get h T2 k2) ∧
      (h.NoNullEntries → hN.NoNullEntries) := by
  have hc0 : (h.alloc TrieNode.empty).1.Closed :=
    Closed_alloc hc (PointsBelow_empty_children _ rfl)
  have hn0 : h.NoNullEntries → (h.alloc TrieNode.empty).1.NoNullEntries :=
    fun hn => NoNullEntries_alloc hn (fun c => by simp [find, TrieNode.empty])
  cases hroot : t.root_ with
  | none =>
    refine ⟨(h.alloc TrieNode.empty).1, h.next, ?_, le_refl _, by simp [alloc], ?_, hc0, ?_, ?_,
      hn0⟩
    · intro key T value
      simp only [Put, hroot]
      rfl
    · intro a ha
      simp only [alloc]
      rw [if_neg (by omega)]
    · simp only [alloc, if_pos]
      exact PointsBelow_empty_children _ rfl
    · intro T2 k2
      simp only [Get, hroot]
      exact GetLoop_of_empty T2 (by simp [alloc]) k2
  | some root =>
    have hrlt : root < h.next := ht root hroot
    have hroot0 : (h.alloc TrieNode.empty).1.nodes root = h.nodes root := by
      simp only [alloc]
      rw [if_neg (by omega)]
    have hagree : ∀ a < h.next,
        ((h.alloc TrieNode.empty).1.alloc ((h.alloc TrieNode.empty).1.nodes root).Clone).1.nodes a =
          h.nodes a := by
      intro a ha
      simp only [alloc]
      rw [if_neg (by omega), if_neg (by omega)]
    have hcopy :
        ((h.alloc TrieNode.empty).1.alloc ((h.alloc TrieNode.empty).1.nodes root).Clone).1.nodes
          (h.next + 1) = h.nodes root := by
      rw [hroot0]
      simp [alloc, Clone]
    refine ⟨((h.alloc TrieNode.empty).1.alloc ((h.alloc TrieNode.empty).1.nodes root).Clone).1,
      h.next + 1, ?_, by omega, by simp [alloc], hagree, ?_, ?_, ?_, ?_⟩
    · intro key T value
      simp only [Put, hroot]
      rfl
    · apply Closed_alloc hc0
      rw [hroot0]
      exact PointsBelow_mono (hc root hrlt) (by simp [alloc])
    · rw [hcopy]
      exact hc root hrlt
    · intro T2 k2
      simp only [Get, hroot]
      exact GetLoop_of_copy T2 hc hagree hcopy hrlt k2
    · intro hn
      apply NoNullEntries_alloc (hn0 hn)
      rw [hroot0]
      exact hn root hrlt

/-- `Get` on the key of a `Put`, in the trie that `Put` returns, finds the
value. -/
theorem Put_get (t : Trie) (h : TrieHeap) (hc : h.Closed) (ht : t.In h) (key : List Char)
    (T : Nat) (value : Int) :
    (t.Put h key T value).2.Get (t.Put h key T value).1 T key = .value value := by
  obtain ⟨hN, node, hput, _, hnode, _, _, _, _, _⟩ := Put_prelude t h hc ht
  rw [hput]
  cases key with
  | nil => simp [Get, GetLoop, alloc]
  | cons c key =>
    simp only [List.isEmpty_cons, Bool.false_eq_true, if_false, Get]
    exact PutLoop_get T value key c hN node hnode

/-- `Get` on another key, in the trie that `Put` returns, answers as in the old
trie, where it answered there. -/
theorem Put_other (t : Trie) (h : TrieHeap) (hc : h.Closed) (ht : t.In h) (key : List Char)
    (T : Nat) (value : Int) (k2 : List Char) (T2 : Nat) (hne : k2 ≠ key)
    (hdef : t.Get h T2 k2 ≠ .null_dereference) :
    (t.Put h key T value).2.Get (t.Put h key T value).1 T2 k2 = t.Get h T2 k2 := by
  obtain ⟨hN, node, hput, hle, hnode, hagree, _, hpoints, hget, _⟩ := Put_prelude t h hc ht
  rw [← hget T2 k2] at hdef ⊢
  rw [hput]
  have hcN : ∀ a < h.next, (hN.nodes a).PointsBelow h.next := by
    intro a ha
    rw [hagree a ha]
    exact hc a ha
  cases key with
  | nil =>
    simp only [List.isEmpty_nil, if_true, Get]
    cases k2 with
    | nil => exact absurd rfl hne
    | cons c2 r =>
      apply GetLoop_cons_of_children T2 hcN _ _ hpoints
      · intro a ha
        simp only [alloc]
        rw [if_neg (by omega)]
      · simp [alloc]
  | cons c key =>
    simp only [List.isEmpty_cons, Bool.false_eq_true, if_false, Get]
    exact PutLoop_other T value (c :: key) hN node h.next hle hnode hcN hpoints k2 T2 hne hdef

/-- `Put` leaves the nodes of the heap it started from as they were. -/
theorem Put_agree (t : Trie) (h : TrieHeap) (hc : h.Closed) (ht : t.In h) (key : List Char)
    (T : Nat) (value : Int) : ∀ a < h.next, (t.Put h key T value).1.nodes a = h.nodes a := by
  obtain ⟨hN, node, hput, hle, hnode, hagree, _, _, _, _⟩ := Put_prelude t h hc ht
  intro a ha
  rw [hput]
  cases key with
  | nil =>
    simp only [List.isEmpty_nil, if_true, alloc]
    rw [if_neg (by omega)]
    exact hagree a ha
  | cons c key =>
    simp only [List.isEmpty_cons, Bool.false_eq_true, if_false]
    rw [(PutLoop_frame T value (c :: key) hN node hnode).2 a (by omega) (by omega)]
    exact hagree a ha

/-- Every `Get` on the old trie answers after the `Put` as before it. -/
theorem Put_frame (t : Trie) (h : TrieHeap) (hc : h.Closed) (ht : t.In h) (key : List Char)
    (T : Nat) (value : Int) (k2 : List Char) (T2 : Nat) :
    t.Get (t.Put h key T value).1 T2 k2 = t.Get h T2 k2 := by
  simp only [Get]
  cases hroot : t.root_ with
  | none => rfl
  | some root =>
    simp only []
    exact GetLoop_agree T2 hc (Put_agree t h hc ht key T value) k2 (some root)
      (fun a ha => by rw [← Option.some.inj ha]; exact ht root hroot)

/-- `Put` keeps the heap closed, and the trie it returns lies in the heap. -/
theorem Put_closed (t : Trie) (h : TrieHeap) (hc : h.Closed) (ht : t.In h) (key : List Char)
    (T : Nat) (value : Int) :
    (t.Put h key T value).1.Closed ∧ (t.Put h key T value).2.In (t.Put h key T value).1 := by
  obtain ⟨hN, node, hput, hle, hnode, hagree, hcN, hpoints, _, _⟩ := Put_prelude t h hc ht
  rw [hput]
  cases key with
  | nil =>
    simp only [List.isEmpty_nil, if_true]
    refine ⟨Closed_alloc hcN (PointsBelow_of_children (hcN node hnode) rfl), ?_⟩
    intro r hr
    simp only [Option.some.injEq] at hr
    rw [← hr]
    simp [alloc]
  | cons c key =>
    simp only [List.isEmpty_cons, Bool.false_eq_true, if_false]
    refine ⟨PutLoop_closed T value (c :: key) hN node hcN hnode, ?_⟩
    intro r hr
    simp only [Option.some.injEq] at hr
    rw [← hr]
    exact lt_of_lt_of_le hnode (PutLoop_frame T value (c :: key) hN node hnode).1

/-- `Put` makes no null entry. -/
theorem Put_no_null (t : Trie) (h : TrieHeap) (hc : h.Closed) (ht : t.In h)
    (hn : h.NoNullEntries) (key : List Char) (T : Nat) (value : Int) :
    (t.Put h key T value).1.NoNullEntries := by
  obtain ⟨hN, node, hput, hle, hnode, hagree, hcN, hpoints, _, hnN⟩ := Put_prelude t h hc ht
  rw [hput]
  cases key with
  | nil =>
    simp only [List.isEmpty_nil, if_true]
    apply NoNullEntries_alloc (hnN hn)
    intro c
    exact hnN hn node hnode c
  | cons c key =>
    simp only [List.isEmpty_cons, Bool.false_eq_true, if_false]
    exact PutLoop_no_null T value (c :: key) hN node hcN (hnN hn) hnode

/-- In a closed heap without null entries `Get` dereferences no null pointer. -/
theorem Get_ne_null_dereference (t : Trie) (h : TrieHeap) (hc : h.Closed) (ht : t.In h)
    (hn : h.NoNullEntries) (T : Nat) (key : List Char) : t.Get h T key ≠ .null_dereference := by
  simp only [Get]
  cases hroot : t.root_ with
  | none => simp
  | some root => exact GetLoop_ne_null_dereference hc hn T key root (ht root hroot)

theorem Closed_empty : TrieHeap.empty.Closed := fun a ha => absurd ha (Nat.not_lt_zero a)

theorem NoNullEntries_empty : TrieHeap.empty.NoNullEntries :=
  fun a ha => absurd ha (Nat.not_lt_zero a)

theorem In_empty (h : TrieHeap) : Trie.empty.In h := fun r hr => by cases hr

/-- `Put` and `Get` on tries whose maps hold no null pointer. In a closed heap,
for every trie `t` of the heap, key `k` (the empty key too), type `T` and value
`v`: `Get<T>(k)` on `Put(k, v)` returns `v`; for every key `k2` other than `k`
and every type, `Get(k2)` on `Put(k, v)` returns what `Get(k2)` returned on `t`,
where that call did not dereference a null pointer; every `Get` on `t` returns
after the `Put` what it returned before; the heap stays closed and holds the new
trie; and where no map holds a null entry, none does after `Put`, and no `Get`
dereferences a null pointer. -/
theorem Put_then_get (t : Trie) (h : TrieHeap) (hc : h.Closed) (ht : t.In h)
    (k : List Char) (T : Nat) (v : Int) :
    (t.Put h k T v).2.Get (t.Put h k T v).1 T k = .value v ∧
    (∀ (k2 : List Char) (T2 : Nat), k2 ≠ k → t.Get h T2 k2 ≠ .null_dereference →
      (t.Put h k T v).2.Get (t.Put h k T v).1 T2 k2 = t.Get h T2 k2) ∧
    (∀ (k2 : List Char) (T2 : Nat), t.Get (t.Put h k T v).1 T2 k2 = t.Get h T2 k2) ∧
    ((t.Put h k T v).1.Closed ∧ (t.Put h k T v).2.In (t.Put h k T v).1) ∧
    (h.NoNullEntries → (t.Put h k T v).1.NoNullEntries ∧
      ∀ (k2 : List Char) (T2 : Nat), t.Get h T2 k2 ≠ .null_dereference) :=
  ⟨Put_get t h hc ht k T v, fun k2 T2 hne hdef => Put_other t h hc ht k T v k2 T2 hne hdef,
    fun k2 T2 => Put_frame t h hc ht k T v k2 T2, Put_closed t h hc ht k T v,
    fun hn => ⟨Put_no_null t h hc ht hn k T v,
      fun k2 T2 => Get_ne_null_dereference t h hc ht hn T2 k2⟩⟩

/-- The trie `Trie().Put("ab", 1)` and `Put("a", 2)` on it: the new trie finds 2
under `a` and still 1 under `ab`, the old trie still misses `a`. -/
theorem Put_then_get_of_two_keys :
    ((empty.Put TrieHeap.empty ['a', 'b'] 0 1).1.Closed ∧
      (empty.Put TrieHeap.empty ['a', 'b'] 0 1).2.In (empty.Put TrieHeap.empty ['a', 'b'] 0 1).1) ∧
    (twoKeys.2.Get twoKeys.1 0 ['a', 'b'] = .value 1 ∧
      (empty.Put TrieHeap.empty ['a', 'b'] 0 1).2.Get twoKeys.1 0 ['a'] = .nullptr) ∧
    ((((empty.Put TrieHeap.empty ['a', 'b'] 0 1).2.Put
          (empty.Put TrieHeap.empty ['a', 'b'] 0 1).1 ['a'] 0 2).2.Get
        ((empty.Put TrieHeap.empty ['a', 'b'] 0 1).2.Put
          (empty.Put TrieHeap.empty ['a', 'b'] 0 1).1 ['a'] 0 2).1 0 ['a'] = .value 2) ∧
      (∀ (k2 : List Char) (T2 : Nat), k2 ≠ ['a'] →
        (empty.Put TrieHeap.empty ['a', 'b'] 0 1).2.Get
          (empty.Put TrieHeap.empty ['a', 'b'] 0 1).1 T2 k2 ≠ .null_dereference →
        ((empty.Put TrieHeap.empty ['a', 'b'] 0 1).2.Put
            (empty.Put TrieHeap.empty ['a', 'b'] 0 1).1 ['a'] 0 2).2.Get
          ((empty.Put TrieHeap.empty ['a', 'b'] 0 1).2.Put
            (empty.Put TrieHeap.empty ['a', 'b'] 0 1).1 ['a'] 0 2).1 T2 k2 =
        (empty.Put TrieHeap.empty ['a', 'b'] 0 1).2.Get
          (empty.Put TrieHeap.empty ['a', 'b'] 0 1).1 T2 k2) ∧
      (∀ (k2 : List Char) (T2 : Nat),
        (empty.Put TrieHeap.empty ['a', 'b'] 0 1).2.Get
          ((empty.Put TrieHeap.empty ['a', 'b'] 0 1).2.Put
            (empty.Put TrieHeap.empty ['a', 'b'] 0 1).1 ['a'] 0 2).1 T2 k2 =
        (empty.Put TrieHeap.empty ['a', 'b'] 0 1).2.Get
          (empty.Put TrieHeap.empty ['a', 'b'] 0 1).1 T2 k2) ∧
      (((empty.Put TrieHeap.empty ['a', 'b'] 0 1).2.Put
            (empty.Put TrieHeap.empty ['a', 'b'] 0 1).1 ['a'] 0 2).1.Closed ∧
        ((empty.Put TrieHeap.empty ['a', 'b'] 0 1).2.Put
            (empty.Put TrieHeap.empty ['a', 'b'] 0 1).1 ['a'] 0 2).2.In
          ((empty.Put TrieHeap.empty ['a', 'b'] 0 1).2.Put
            (empty.Put TrieHeap.empty ['a', 'b'] 0 1).1 ['a'] 0 2).1) ∧
      ((empty.Put TrieHeap.empty ['a', 'b'] 0 1).1.NoNullEntries →
        ((empty.Put TrieHeap.empty ['a', 'b'] 0 1).2.Put
            (empty.Put TrieHeap.empty ['a', 'b'] 0 1).1 ['a'] 0 2).1.NoNullEntries ∧
        ∀ (k2 : List Char) (T2 : Nat),
          (empty.Put TrieHeap.empty ['a', 'b'] 0 1).2.Get
            (empty.Put TrieHeap.empty ['a', 'b'] 0 1).1 T2 k2 ≠ .null_dereference)) :=
  ⟨Put_closed empty TrieHeap.empty Closed_empty (In_empty _) ['a', 'b'] 0 1,
    ⟨by decide, by decide⟩,
    Put_then_get (empty.Put TrieHeap.empty ['a', 'b'] 0 1).2
      (empty.Put TrieHeap.empty ['a', 'b'] 0 1).1
      (Put_closed empty TrieHeap.empty Closed_empty (In_empty _) ['a', 'b'] 0 1).1
      (Put_closed empty TrieHeap.empty Closed_empty (In_empty _) ['a', 'b'] 0 1).2 ['a'] 0 2⟩

/-- C31: `Get` after `Put` does not answer as before on a trie with a null map
entry. `t = Trie().Remove("a")` has a root whose map holds a null pointer under
`a`; `Get("ab")` on `t` dereferences it. After `Put("ac", 7)` on `t`, `Get("ac")`
returns 7 and `Get("ab")`, for the key `ab` other than `ac`, returns `nullptr`:
`Put` took the null entry for a missing child and made a node there. `t` itself
is as before (`Get("ab")` on it still dereferences the null pointer). -/
theorem C31_get_after_put_differs_on_null_entry :
    nullEntry.2.rootNode nullEntry.1 = some { children_ := [('a', none)], value_ := none } ∧
    nullEntry.2.Get nullEntry.1 0 ['a', 'b'] = .null_dereference ∧
    (nullEntry.2.Put nullEntry.1 ['a', 'c'] 0 7).2.Get
      (nullEntry.2.Put nullEntry.1 ['a', 'c'] 0 7).1 0 ['a', 'c'] = .value 7 ∧
    (nullEntry.2.Put nullEntry.1 ['a', 'c'] 0 7).2.Get
      (nullEntry.2.Put nullEntry.1 ['a', 'c'] 0 7).1 0 ['a', 'b'] = .nullptr ∧
    nullEntry.2.Get (nullEntry.2.Put nullEntry.1 ['a', 'c'] 0 7).1 0 ['a', 'b'] =
      .null_dereference := by
  decide

end Trie
end bustub
